import Mathlib

/-! # spotify-json: writer, escaping, codecs and decoding

A shallow embedding of the streaming writer (`writer.hpp`), the string escaper
(`detail/escape.hpp`), keys and pairs (`json_key.hpp`, `json_pair.hpp`), the
codecs for booleans, arrays, objects and defaults (`codec/boolean.hpp`,
`codec/array.hpp`, `codec/object.hpp`, `codec/empty_as.hpp`) and the operators
for optionals (`ext/json_boost.hpp`), followed by theorems about them. The
decoding helpers, the codecs `one_of` and `raw` and the functions of
decode.hpp are not among the sources; they are modelled from the
specification, and every such definition says so.

Bytes are natural numbers below 256; a stream, a string and an input buffer are
lists of bytes. A pointer into a buffer is an offset into the list; what a read
through a pointer to released memory finds is a parameter.
-/

namespace spotify.json

/-! ## detail/escape.hpp -/

namespace detail

/-- The table `HEX` of `write_escaped_c`: the bytes of "0123456789ABCDEF". -/
def HEX : List Nat :=
  [48, 49, 50, 51, 52, 53, 54, 55, 56, 57, 65, 66, 67, 68, 69, 70]

/-- The table `POPULAR_CONTROL_CHARACTERS` of `write_escaped_c`:
117 is 'u', 98 'b', 116 't', 110 'n', 102 'f', 114 'r'. -/
def POPULAR_CONTROL_CHARACTERS : List Nat :=
  [117, 117, 117, 117, 117, 117, 117, 117,
   98, 116, 110, 117, 102, 114, 117, 117,
   117, 117, 117, 117, 117, 117, 117, 117,
   117, 117, 117, 117, 117, 117, 117, 117]

/-- The function `write_escaped_c(out, c)`. The output pointer `out` is the list
of bytes written so far, and `*(out++) = x` appends `x`.
92 is the backslash, 34 the double quote, 47 the forward slash, 48 is '0'. -/
def write_escaped_c (out : List Nat) (c : Nat) : List Nat :=
  if c = 92 ∨ c = 34 ∨ c = 47 then
    out ++ [92] ++ [c]
  else if c ≥ 0x20 then
    out ++ [c]
  else
    let control_character := POPULAR_CONTROL_CHARACTERS.getD c 0
    let out := out ++ [92] ++ [control_character]
    if control_character = 117 then
      out ++ [48] ++ [48] ++ [HEX.getD (c >>> 4) 0] ++ [HEX.getD (c &&& 0x0F) 0]
    else
      out

/-- The alignment tests `json_unaligned_2`, `json_unaligned_4` and
`json_unaligned_8` used by `write_escaped` are not defined in the sources at
hand (`detail/macros.hpp` lacks them), so they are parameters: arbitrary tests
on the address held by a pointer. -/
structure alignment_macros where
  json_unaligned_2 : Nat → Bool
  json_unaligned_4 : Nat → Bool
  json_unaligned_8 : Nat → Bool

/-- The memory `write_escaped` reads: the bytes of `[begin, end)` and the
address of the first of them. The pointer `begin` is an offset into `bytes`,
the pointer `end` is `bytes.length`. -/
structure source_bytes where
  address : Nat
  bytes : List Nat

/-- The state the chunk writers update through their reference parameters: the
output written so far and the offset of `begin`. -/
structure escape_state where
  out : List Nat
  begin : Nat

/-- The function `write_escaped_1`: reads one byte at `begin`, escapes it and
advances `begin`. Reading at or past `end` yields `none`. -/
def write_escaped_1 (src : source_bytes) (st : escape_state) : Option escape_state :=
  match src.bytes[st.begin]? with
  | some a => some ⟨write_escaped_c st.out a, st.begin + 1⟩
  | none => none

/-- The function `write_escaped_2`: reads the two bytes at `begin`. -/
def write_escaped_2 (src : source_bytes) (st : escape_state) : Option escape_state :=
  match src.bytes[st.begin]?, src.bytes[st.begin + 1]? with
  | some a, some b =>
    let out := write_escaped_c st.out a
    let out := write_escaped_c out b
    some ⟨out, st.begin + 2⟩
  | _, _ => none

/-- The function `write_escaped_4`: reads the four bytes at `begin`. -/
def write_escaped_4 (src : source_bytes) (st : escape_state) : Option escape_state :=
  match src.bytes[st.begin]?, src.bytes[st.begin + 1]?, src.bytes[st.begin + 2]?,
      src.bytes[st.begin + 3]? with
  | some a, some b, some c, some d =>
    let out := write_escaped_c st.out a
    let out := write_escaped_c out b
    let out := write_escaped_c out c
    let out := write_escaped_c out d
    some ⟨out, st.begin + 4⟩
  | _, _, _, _ => none

/-- The function `write_escaped_8`: reads the eight bytes at `begin`. -/
def write_escaped_8 (src : source_bytes) (st : escape_state) : Option escape_state :=
  match src.bytes[st.begin]?, src.bytes[st.begin + 1]?, src.bytes[st.begin + 2]?,
      src.bytes[st.begin + 3]?, src.bytes[st.begin + 4]?, src.bytes[st.begin + 5]?,
      src.bytes[st.begin + 6]?, src.bytes[st.begin + 7]? with
  | some a, some b, some c, some d, some e, some f, some g, some h =>
    let out := write_escaped_c st.out a
    let out := write_escaped_c out b
    let out := write_escaped_c out c
    let out := write_escaped_c out d
    let out := write_escaped_c out e
    let out := write_escaped_c out f
    let out := write_escaped_c out g
    let out := write_escaped_c out h
    some ⟨out, st.begin + 8⟩
  | _, _, _, _, _, _, _, _ => none

/-- The pointer difference `end - begin`, a signed number. -/
def end_minus_begin (src : source_bytes) (st : escape_state) : Int :=
  (src.bytes.length : Int) - (st.begin : Int)

/-- The loop `while ((end - begin) >= 8) { write_escaped_8(out, begin); }`.
Every turn moves `begin` eight bytes towards `end`, so the loop is total. -/
def write_escaped_loop (src : source_bytes) (st : escape_state) : Option escape_state :=
  if h : end_minus_begin src st ≥ 8 then
    match h8 : write_escaped_8 src st with
    | some st' => write_escaped_loop src st'
    | none => none
  else
    some st
termination_by src.bytes.length - st.begin
decreasing_by
  have hb : st'.begin = st.begin + 8 := by
    unfold write_escaped_8 at h8
    split at h8
    · cases h8; rfl
    · cases h8
  simp only [end_minus_begin] at h
  omega

/-- The function `write_escaped(out, begin, end)` of escape.hpp: an alignment
prologue of 1, 2 and 4 bytes, the main loop over 8 bytes, and a tail of 4, 2
and 1 bytes. The result is the output pointer, that is all bytes written. -/
def write_escaped (m : alignment_macros) (out : List Nat) (src : source_bytes) :
    Option (List Nat) := do
  let st : escape_state := ⟨out, 0⟩
  let st ← (if m.json_unaligned_2 (src.address + st.begin) ∧ end_minus_begin src st ≥ 1
    then write_escaped_1 src st else pure st)
  let st ← (if m.json_unaligned_4 (src.address + st.begin) ∧ end_minus_begin src st ≥ 2
    then write_escaped_2 src st else pure st)
  let st ← (if m.json_unaligned_8 (src.address + st.begin) ∧ end_minus_begin src st ≥ 4
    then write_escaped_4 src st else pure st)
  let st ← write_escaped_loop src st
  let st ← (if end_minus_begin src st ≥ 4 then write_escaped_4 src st else pure st)
  let st ← (if end_minus_begin src st ≥ 2 then write_escaped_2 src st else pure st)
  let st ← (if end_minus_begin src st ≥ 1 then write_escaped_1 src st else pure st)
  pure st.out

/-- The invariant of `write_escaped`: `begin` has not passed `end`, and the
output holds the escapes of the bytes before `begin`. -/
def escaped_so_far (out : List Nat) (src : source_bytes) (st : escape_state) : Prop :=
  st.begin ≤ src.bytes.length ∧
    st.out = out ++ (src.bytes.take st.begin).flatMap (write_escaped_c [])

/-- The usual definition of the alignment tests: the low bits of the address
are not all zero. Used for concrete evaluations. -/
def low_bits_macros : alignment_macros where
  json_unaligned_2 := fun p => p &&& 0x1 != 0
  json_unaligned_4 := fun p => p &&& 0x3 != 0
  json_unaligned_8 := fun p => p &&& 0x7 != 0

/-- Modelled from the spec: the overload `write_escaped(stream, begin, end)`
that the writer and `key` call is not among the sources; escape.hpp has the
pointer overload only. Following the spec ("encode escapes and quotes", with
the escapes of section 4.1) it appends to the stream the escape of every byte
of `[begin, end)` in input order, each one produced by `write_escaped_c`. -/
def write_escaped_stream (stream : List Nat) (value : List Nat) : List Nat :=
  value.foldl write_escaped_c stream

/-- The range `[value, null_terminated_end_iterator())` of a C string: the
bytes before the first NUL. -/
def null_terminated (value : List Nat) : List Nat :=
  value.takeWhile (fun c => c != 0)

end detail

/-! ## json_key.hpp -/

/-- The class `key`: `data` and `size` describe the stored bytes. -/
structure key where
  data : List Nat
  size : Nat

/-- The constructor `key(const Iterable &iterable)`: the storage starts as a
double quote, receives the escaped name, then a closing double quote. -/
def key.of_iterable (iterable : List Nat) : key :=
  let _storage : List Nat := [34]
  let _ref := detail.write_escaped_stream _storage iterable
  let _ref := _ref ++ [34]
  ⟨_ref, _ref.length⟩

/-- The constructor `key(const char *raw)`, for a null-terminated name. -/
def key.of_raw (raw : List Nat) : key :=
  key.of_iterable (detail.null_terminated raw)

/-- A `key` as the implicitly defined copy constructor makes it from another
`key` (json_key.hpp declares none of its own): `_storage` and `size` are
copied, while `_ref` and `data` are copied as they are, so they refer to the
storage of the source and not to `_storage`. There is no field for the bytes
at `data`: they are those of the source as long as the source lives, and
nothing that the sources determine once it is destroyed. -/
structure key.copy where
  _storage : List Nat
  size : Nat

/-- The implicitly defined copy constructor of `key`, applied to a key in the
state its constructor left it in, where `data` points to its own storage. -/
def key.copied (source : key) : key.copy :=
  ⟨source.data, source.size⟩

/-- The copied key as a reader of `data` and `size` finds it after the source
has been destroyed. Such a read has no defined behaviour, so what it finds is
a parameter: `released k` stands for the bytes that the memory holds at `data`
at the time of the read. -/
def key.copy.read (released : key.copy → List Nat) (k : key.copy) : key :=
  ⟨released k, k.size⟩

/-- The bytes that a writer takes from a copied key whose source is gone: the
first `size` bytes of what it finds at `data`. -/
def key.copy.text (released : key.copy → List Nat) (k : key.copy) : List Nat :=
  (released k).take k.size

/-- A memory in which released storage reads as zero bytes. Used for concrete
evaluations. -/
def zeroed_memory : key.copy → List Nat :=
  fun k => List.replicate k.size 0

/-! ## writer.hpp -/

/-- The class `basic_writer`: the stream written so far (the buffer type is
not among the sources; it is an append-only byte sequence) and the separator
flag. -/
structure basic_writer where
  _stream : List Nat
  _separator_needed : Bool
  deriving DecidableEq, Repr

namespace basic_writer

/-- The constructor `basic_writer(stream)`: the flag starts cleared. -/
def init (stream : List Nat) : basic_writer :=
  ⟨stream, false⟩

/-- The member `separator_and_clear()`; 44 is the comma. -/
def separator_and_clear (w : basic_writer) : basic_writer :=
  let w := if w._separator_needed then { w with _stream := w._stream ++ [44] } else w
  { w with _separator_needed := false }

/-- The member `separator_and_set()`. -/
def separator_and_set (w : basic_writer) : basic_writer :=
  let w := if w._separator_needed then { w with _stream := w._stream ++ [44] } else w
  { w with _separator_needed := true }

/-- The member `clear_separator()`. -/
def clear_separator (w : basic_writer) : basic_writer :=
  { w with _separator_needed := false }

/-- The member `set_separator()`. -/
def set_separator (w : basic_writer) : basic_writer :=
  { w with _separator_needed := true }

/-- The member `write(const T &value)`, that is `_stream << value`. How the
stream renders a value is not among the sources: `rendered` is that text. -/
def write_value (w : basic_writer) (rendered : List Nat) : basic_writer :=
  { w with _stream := w._stream ++ rendered }

/-- The member `write(const char *s, size_t n)`: the first `n` bytes of `s`. -/
def write (w : basic_writer) (s : List Nat) (n : Nat) : basic_writer :=
  { w with _stream := w._stream ++ s.take n }

/-- The member `put(char c)`. -/
def put (w : basic_writer) (c : Nat) : basic_writer :=
  { w with _stream := w._stream ++ [c] }

/-- The bytes that `separator_and_clear` and `separator_and_set` emit: a comma
when the flag is set, nothing otherwise. -/
def separator (w : basic_writer) : List Nat :=
  if w._separator_needed then [44] else []

/-- The operator `<<` for `null_type`; the bytes spell "null". -/
def shl_null (w : basic_writer) : basic_writer :=
  w.separator_and_set.write [110, 117, 108, 108] 4

/-- The operator `<<` for `bool`; the bytes spell "true" and "false". -/
def shl_bool (w : basic_writer) (value : Bool) : basic_writer :=
  if value then
    w.separator_and_set.write [116, 114, 117, 101] 4
  else
    w.separator_and_set.write [102, 97, 108, 115, 101] 5

/-- The operator `<<` for `int8_t`: the value is cast to `signed` and handed to
the stream, whose rendering of integers is the parameter `render`. -/
def shl_int8 (render : Int → List Nat) (w : basic_writer) (value : Int) : basic_writer :=
  w.separator_and_set.write_value (render value)

/-- The operator `<<` for `uint8_t`: the value is cast to `unsigned`. -/
def shl_uint8 (render : Int → List Nat) (w : basic_writer) (value : Nat) : basic_writer :=
  w.separator_and_set.write_value (render (value : Int))

/-- The operator `<<` for `key`: the stored bytes are written as they are. -/
def shl_key (w : basic_writer) (k : key) : basic_writer :=
  w.separator_and_set.write k.data k.size

/-- The operator `<<` for `const char *`; 34 is the double quote. -/
def shl_c_str (w : basic_writer) (value : List Nat) : basic_writer :=
  let w := w.separator_and_set.put 34
  let w := { w with _stream := detail.write_escaped_stream w._stream (detail.null_terminated value) }
  w.put 34

/-- The operator `<<` for `std::string`. -/
def shl_string (w : basic_writer) (value : List Nat) : basic_writer :=
  let w := w.separator_and_set.put 34
  let w := { w with _stream := detail.write_escaped_stream w._stream value }
  w.put 34

/-- The out-of-line operator `<<` for any other type `T`:
`writer.separator_and_set().write(value)`. -/
def shl (render : α → List Nat) (w : basic_writer) (value : α) : basic_writer :=
  w.separator_and_set.write_value (render value)

/-- The member `add_pair(key, value)`:
`(*this << key).clear_separator().put(':') << value`. The two uses of `<<` are
the parameters; 58 is the colon. -/
def add_pair (shl_k : basic_writer → κ → basic_writer) (shl_v : basic_writer → ν → basic_writer)
    (w : basic_writer) (k : κ) (value : ν) : basic_writer :=
  shl_v ((shl_k w k).clear_separator.put 58) value

/-- The constructor `scoped_array(writer)`; 91 is '['. -/
def scoped_array (w : basic_writer) : basic_writer :=
  w.separator_and_clear.put 91

/-- The constructor `scoped_array(writer, key)`. -/
def scoped_array_keyed (shl_k : basic_writer → κ → basic_writer) (w : basic_writer) (k : κ) :
    basic_writer :=
  ((shl_k w.separator_and_clear k).clear_separator.put 58).put 91

/-- The destructor of `scoped_array`; 93 is ']'. -/
def scoped_array_destroy (w : basic_writer) : basic_writer :=
  (w.put 93).set_separator

/-- The constructor `scoped_object(writer)`; 123 is the opening brace. -/
def scoped_object (w : basic_writer) : basic_writer :=
  w.separator_and_clear.put 123

/-- The constructor `scoped_object(writer, key)`. -/
def scoped_object_keyed (shl_k : basic_writer → κ → basic_writer) (w : basic_writer) (k : κ) :
    basic_writer :=
  ((shl_k w.separator_and_clear k).clear_separator.put 58).put 123

/-- The destructor of `scoped_object`; 125 is the closing brace. -/
def scoped_object_destroy (w : basic_writer) : basic_writer :=
  (w.put 125).set_separator

/-- A functor run on the writer leaves the writer as it wrote it, and either
returns (`false`) or throws (`true`). -/
abbrev functor := basic_writer → basic_writer × Bool

/-- The member `add_array(func)`: the scope object is constructed, the functor
runs, and the scope object is destroyed on the way out, whether the functor
returned or threw. -/
def add_array (w : basic_writer) (func : functor) : basic_writer × Bool :=
  let w := scoped_array w
  let r := func w
  (scoped_array_destroy r.1, r.2)

/-- The member `add_array(key, func)`. -/
def add_array_keyed (shl_k : basic_writer → κ → basic_writer) (w : basic_writer) (k : κ)
    (func : functor) : basic_writer × Bool :=
  let w := scoped_array_keyed shl_k w k
  let r := func w
  (scoped_array_destroy r.1, r.2)

/-- The member `add_object(func)`. -/
def add_object (w : basic_writer) (func : functor) : basic_writer × Bool :=
  let w := scoped_object w
  let r := func w
  (scoped_object_destroy r.1, r.2)

/-- The member `add_object(key, func)`. -/
def add_object_keyed (shl_k : basic_writer → κ → basic_writer) (w : basic_writer) (k : κ)
    (func : functor) : basic_writer × Bool :=
  let w := scoped_object_keyed shl_k w k
  let r := func w
  (scoped_object_destroy r.1, r.2)

end basic_writer

/-- The typedef `writer`. -/
abbrev writer := basic_writer

/-! ## json_pair.hpp -/

/-- The class `pair`. -/
structure pair (κ ν : Type) where
  key : κ
  value : ν

/-- The operator `<<` for `pair`: `writer.add_pair(pair.key, pair.value)`. -/
def shl_pair (shl_k : basic_writer → κ → basic_writer) (shl_v : basic_writer → ν → basic_writer)
    (w : basic_writer) (p : pair κ ν) : basic_writer :=
  w.add_pair shl_k shl_v p.key p.value

/-! ## decoding_context.hpp -/

/-- The exception `decode_exception` (error.hpp is not among the sources): a
message and the offset at which decoding failed. -/
structure decode_exception where
  what : String
  offset : Nat
  deriving DecidableEq, Repr

/-- The struct `decoding_context`: `input` holds the bytes of `[begin, end)`,
which are constant, and `position` is the offset of the cursor from `begin`. -/
structure decoding_context where
  position : Nat
  input : List Nat
  deriving DecidableEq, Repr

namespace decoding_context

/-- The constructor `decoding_context(begin, end)`: the cursor starts at
`begin`. -/
def init (input : List Nat) : decoding_context :=
  ⟨0, input⟩

/-- The member `offset()`. -/
def offset (context : decoding_context) : Nat :=
  context.position

/-- The member `remaining()`. -/
def remaining (context : decoding_context) : Nat :=
  context.input.length - context.position

end decoding_context

/-- What a call of `decode` leaves behind: the value it returned or the
exception it threw, and the position of the context afterwards. The bounds of
the context are constant, so they are not part of it. -/
structure decoded (α : Type) where
  result : Except decode_exception α
  position : Nat

/-- A decoder either terminates with a `decoded` or does not terminate within
the fuel given to its loops (`none`). -/
abbrev decoder (α : Type) := decoding_context → Option (decoded α)

/-- A codec for the object type `α`, after `codec_interface`: `encode` writes
an object to a writer, `decode` parses one from the context. A codec may also
define `should_encode`; `detail::should_encode` answers `true` for a codec
that does not, which is the default here. -/
structure codec (α : Type) where
  encode : α → writer → writer
  decode : decoder α
  should_encode : α → Bool := fun _ => true

namespace detail

/-- Modelled from the spec: `is_space`, the character class of the bytes that
`skip_whitespace` passes: "space/tab/newline/carriage-return". -/
def is_space (c : Nat) : Bool :=
  c == 32 || c == 9 || c == 10 || c == 13

/-- Modelled from the spec: `peek` of detail/decoding_helpers.hpp, which is not
among the sources: "returns the byte at the cursor without consuming (fails
with `UnexpectedEnd` if the cursor is at the input end and a byte was
required)". -/
def peek (context : decoding_context) : Except decode_exception Nat :=
  match context.input[context.position]? with
  | some c => .ok c
  | none => .error ⟨"UnexpectedEnd", context.offset⟩

/-- Modelled from the spec: `skip_whitespace`, which "advances past
space/tab/newline/carriage-return". -/
def skip_whitespace (context : decoding_context) : decoding_context :=
  { context with
    position := context.position +
      ((context.input.drop context.position).takeWhile is_space).length }

/-- Modelled from the spec: `expect_literal(text)`, which "consumes an exact
byte sequence or fails with `UnexpectedToken`". A failure leaves the cursor
where it was. -/
def expect_literal (context : decoding_context) (text : List Nat) : decoded Unit :=
  if text.isPrefixOf (context.input.drop context.position) then
    ⟨.ok (), context.position + text.length⟩
  else
    ⟨.error ⟨"UnexpectedToken", context.offset⟩, context.position⟩

/-- Modelled from the spec: `advance_past_true` of detail/decoding_helpers.hpp:
"consume `true`". -/
def advance_past_true (context : decoding_context) : decoded Unit :=
  expect_literal context [116, 114, 117, 101]

/-- Modelled from the spec: `advance_past_false` of
detail/decoding_helpers.hpp: "consume `false`". -/
def advance_past_false (context : decoding_context) : decoded Unit :=
  expect_literal context [102, 97, 108, 115, 101]

/-- Modelled from the spec: `fail(context, message)` of
detail/decoding_helpers.hpp: the failure carries the message and the offending
position. -/
def fail (context : decoding_context) (message : String) : decode_exception :=
  ⟨message, context.offset⟩

/-- Modelled from the spec: the element loop of `advance_past_comma_separated`:
"repeatedly skips whitespace, decodes one element with the inner codec, skips
whitespace, and expects either `,` (continue) or `]` (stop); fails on any other
byte". The callback `parse` threads the state it captures (the output
container). Each turn takes one unit of fuel; 44 is the comma. -/
def comma_separated_loop (outro : Nat) (parse : σ → decoder σ) :
    Nat → σ → decoding_context → Option (decoded σ)
  | 0, _, _ => none
  | fuel + 1, state, context =>
    let context := skip_whitespace context
    match parse state context with
    | none => none
    | some ⟨.error e, p⟩ => some ⟨.error e, p⟩
    | some ⟨.ok state, p⟩ =>
      let context := skip_whitespace { context with position := p }
      match peek context with
      | .error e => some ⟨.error e, context.position⟩
      | .ok c =>
        if c = 44 then
          comma_separated_loop outro parse fuel state
            { context with position := context.position + 1 }
        else if c = outro then
          some ⟨.ok state, context.position + 1⟩
        else
          some ⟨.error ⟨"UnexpectedToken", context.offset⟩, context.position⟩

/-- Modelled from the spec: `advance_past_comma_separated(context, intro, outro,
parse)` of detail/decoding_helpers.hpp, which is not among the sources:
"expects `[`", then runs the element loop; "Empty array `[]` is valid and
yields an empty container", so when the outro follows the intro (and any
whitespace) no element is parsed. -/
def advance_past_comma_separated (fuel : Nat) (context : decoding_context) (intro outro : Nat)
    (state : σ) (parse : σ → decoder σ) : Option (decoded σ) :=
  match peek context with
  | .error e => some ⟨.error e, context.position⟩
  | .ok c =>
    if c = intro then
      let context := skip_whitespace { context with position := context.position + 1 }
      if context.input[context.position]? = some outro then
        some ⟨.ok state, context.position + 1⟩
      else
        comma_separated_loop outro parse fuel state context
    else
      some ⟨.error ⟨"UnexpectedToken", context.offset⟩, context.position⟩

end detail

/-! ## codec/boolean.hpp -/

namespace codec

/-- The method `boolean_t::decode`; 102 is 'f' and 116 is 't'. -/
def boolean_t.decode (context : decoding_context) : Option (decoded Bool) :=
  match detail.peek context with
  | .error e => some ⟨.error e, context.position⟩
  | .ok first =>
    if first = 102 then
      match detail.advance_past_false context with
      | ⟨.ok _, p⟩ => some ⟨.ok false, p⟩
      | ⟨.error e, p⟩ => some ⟨.error e, p⟩
    else if first = 116 then
      match detail.advance_past_true context with
      | ⟨.ok _, p⟩ => some ⟨.ok true, p⟩
      | ⟨.error e, p⟩ => some ⟨.error e, p⟩
    else
      some ⟨.error (detail.fail context "Unexpected input, expected boolean"), context.position⟩

/-- The encoder of `boolean_t` is inherited from `primitive_encoder<bool>`,
which is not among the sources. Modelled from the spec: "encode writes the
literal", through the writer. -/
def boolean_t.encode (value : Bool) (w : writer) : writer :=
  w.shl_bool value

/-- The codec `boolean()`. -/
def boolean : codec Bool where
  encode := boolean_t.encode
  decode := boolean_t.decode

/-! ## codec/array.hpp -/

/-- The method `array_t::encode`: inside `add_array`, every element is encoded
with the inner codec, in order. -/
def array_t.encode (_inner_codec : codec α) (array : List α) (w : writer) : writer :=
  (w.add_array fun w =>
    (array.foldl (fun w element => _inner_codec.encode element w) w, false)).1

/-- The callback that `array_t::decode` hands to `advance_past_comma_separated`:
`output.push_back(_inner_codec.decode(context))`. When the inner codec throws,
nothing is appended and the exception propagates. -/
def array_t.push_back_decoded (_inner_codec : codec α) (output : List α) : decoder (List α) :=
  fun context =>
    match _inner_codec.decode context with
    | none => none
    | some ⟨.error e, p⟩ => some ⟨.error e, p⟩
    | some ⟨.ok element, p⟩ => some ⟨.ok (output ++ [element]), p⟩

/-- The method `array_t::decode`: the callback appends the element decoded by
the inner codec to the output. The fuel bounds the turns of the element loop. -/
def array_t.decode (fuel : Nat) (_inner_codec : codec α) (context : decoding_context) :
    Option (decoded (List α)) :=
  let output : List α := []
  detail.advance_past_comma_separated fuel context 91 93 output
    (array_t.push_back_decoded _inner_codec)

/-- The codec `array(inner_codec)`. -/
def array (fuel : Nat) (inner_codec : codec α) : codec (List α) where
  encode := array_t.encode inner_codec
  decode := array_t.decode fuel inner_codec

end codec

/-! ## encode.hpp -/

/-- The function `encode(codec, object)`: the codec writes into a fresh
context and the bytes written are returned. -/
def encode (c : codec α) (object : α) : List Nat :=
  (c.encode object (basic_writer.init []))._stream

/-! ## Properties of codecs used in the statements -/

/-- An inner codec "writes exactly one value per element": encoding an element
is the operator `<<` of the writer for a value that the stream renders as
`text element`. That text is the codec's encoding of the element. -/
def writes_one_value (c : codec α) (text : α → List Nat) : Prop :=
  ∀ (element : α) (w : writer), c.encode element w = w.shl text element

/-- The codec decodes the element `x` from its own encoding: started at the
first byte of `text x`, wherever that lies in the input and whatever bytes
follow, `decode` returns `x` and leaves the cursor just past the encoding. -/
def decodes_own_text (c : codec α) (text : α → List Nat) (x : α) : Prop :=
  ∀ pre post : List Nat,
    c.decode ⟨pre.length, pre ++ text x ++ post⟩ = some ⟨.ok x, pre.length + (text x).length⟩

/-- The text is not empty and its first byte is neither whitespace nor the
closing bracket (93), as is the case for every JSON value. -/
def starts_a_value (text : List Nat) : Bool :=
  match text with
  | [] => false
  | b :: _ => !detail.is_space b && b != 93

/-- A codec for the one-element type whose encoding is the constant `text`: it
writes `text` as one value and decodes by consuming exactly `text`. -/
def constant_codec (text : List Nat) : codec Unit where
  encode := fun element w => w.shl (fun _ => text) element
  decode := fun context =>
    match detail.expect_literal context text with
    | ⟨.ok _, p⟩ => some ⟨.ok (), p⟩
    | ⟨.error e, p⟩ => some ⟨.error e, p⟩

/-- The literal of a boolean: "true" or "false". -/
def boolean_text (value : Bool) : List Nat :=
  if value then [116, 114, 117, 101] else [102, 97, 108, 115, 101]

/-- The text of a string value: the double-quoted escape of its bytes. -/
def string_text (value : List Nat) : List Nat :=
  [34] ++ value.flatMap (detail.write_escaped_c []) ++ [34]

/-! ## Helpers of the object codec -/

namespace basic_writer

/-- Modelled from the spec: `add_key(key)` of detail/writer.hpp, which is not
among the sources: "writes a pre-escaped quoted key followed by `:` and
suppresses the next separator". The key is written as by the operator `<<` for
keys, as `add_pair` writes it; 58 is the colon. -/
def add_key (w : basic_writer) (k : key) : basic_writer :=
  (w.shl_key k).clear_separator.put 58

end basic_writer

namespace detail

/-- Modelled from the spec: `fail_if(context, condition, message)` of
detail/decoding_helpers.hpp: when the condition holds, decoding fails with the
message at the position of the cursor. -/
def fail_if (context : decoding_context) (condition : Bool) (message : String) :
    Option decode_exception :=
  if condition then some (fail context message) else none

/-- Modelled from the spec: what `advance_past_object` does with one key/value
pair: it "decodes a string key, expects `:`" and hands the key to the callback,
which deals with the value. Whitespace may stand on both sides of the colon. -/
def advance_past_pair (decode_key : decoder κ) (callback : κ → σ → decoder σ) (state : σ) :
    decoder σ :=
  fun context =>
    match decode_key context with
    | none => none
    | some ⟨.error e, p⟩ => some ⟨.error e, p⟩
    | some ⟨.ok k, p⟩ =>
      let context := skip_whitespace { context with position := p }
      match peek context with
      | .error e => some ⟨.error e, context.position⟩
      | .ok c =>
        if c = 58 then
          let context := skip_whitespace { context with position := context.position + 1 }
          callback k state context
        else
          some ⟨.error ⟨"UnexpectedToken", context.offset⟩, context.position⟩

/-- Modelled from the spec: `advance_past_object(context, decode_key, callback)`
of detail/decoding_helpers.hpp, which is not among the sources: "expects `{`,
then repeatedly decodes a string key, expects `:`" and lets the callback decode
or skip the value; it "repeats while a `,` separates subsequent pairs, stops at
`}`", in the loop shape that arrays and objects share. The state is what the
callback captures by reference. -/
def advance_past_object (fuel : Nat) (context : decoding_context) (decode_key : decoder κ)
    (state : σ) (callback : κ → σ → decoder σ) : Option (decoded σ) :=
  advance_past_comma_separated fuel context 123 125 state
    (advance_past_pair decode_key callback)

/-- Modelled from the spec: `should_encode(codec, value)`, the "should this
field be emitted" check: the codec's own `should_encode` when it has one,
`true` otherwise. -/
def should_encode (c : codec α) (value : α) : Bool :=
  c.should_encode value

end detail

/-- The parts that the object codec uses and that the sources do not give: the
codec `string()` of codec/string.hpp, which decodes the keys,
`detail::advance_past_value`, which skips the value of an unknown key, and
what `object::encode` finds when it reads the keys of the field list, whose
`data` points to released memory (see `key.copy.read`). They are parameters. -/
structure decoding_helpers where
  string : codec (List Nat)
  advance_past_value : decoder Unit
  released : key.copy → List Nat

/-! ## codec/object.hpp -/

namespace codec

/-- A pointer to a data member, `Member T::*`: reading `object.*member_pointer`
and assigning to it. -/
structure member_pointer (T μ : Type) where
  get : T → μ
  set : T → μ → T

/-- The struct `object::field`: the three constants and the two virtual
methods. `decode` receives the object by reference and returns it as it leaves
it. -/
structure object.field (T : Type) where
  should_encode : Bool
  required : Bool
  field_id : Nat
  encode : T → writer → writer
  decode : T → decoder T

/-- The struct `object::dummy_field`: it is not encoded, and decoding runs the
codec and drops the value. -/
def object.dummy_field (required : Bool) (field_id : Nat) (codec : codec μ) : object.field T where
  should_encode := false
  required := required
  field_id := field_id
  encode := fun _ writer => writer
  decode := fun object context =>
    match codec.decode context with
    | none => none
    | some ⟨.error e, p⟩ => some ⟨.error e, p⟩
    | some ⟨.ok _, p⟩ => some ⟨.ok object, p⟩

/-- The struct `object::member_field`: encoding writes the member with the
codec, decoding assigns the decoded value to the member. -/
def object.member_field (required : Bool) (field_id : Nat) (codec : codec μ)
    (member_pointer : member_pointer T μ) : object.field T where
  should_encode := true
  required := required
  field_id := field_id
  encode := fun object writer => codec.encode (member_pointer.get object) writer
  decode := fun object context =>
    match codec.decode context with
    | none => none
    | some ⟨.error e, p⟩ => some ⟨.error e, p⟩
    | some ⟨.ok value, p⟩ => some ⟨.ok (member_pointer.set object value), p⟩

/-- How a record comes into being. `_construct` may be unset, but only if `T`
is default constructible, which the constructors of `object` enforce at
compile time: either `T` has a default-constructed value and the factory is
optional, or the factory is there. -/
inductive object.construction (T : Type) where
  | default_constructible (object_type : T) (_construct : Option (Unit → T))
  | factory (_construct : Unit → T)

/-- The class `object<T>`: the factory, the field list in registration order,
the lookup map from names to fields (an association list with one entry per
name) and the number of required fields. The keys of the field list are copies
of temporaries. -/
structure object (T : Type) where
  _construct : object.construction T
  _field_list : List (key.copy × object.field T) := []
  _fields : List (List Nat × object.field T) := []
  _num_required_fields : Nat := 0

namespace object

/-- The two overloads of `construct`. -/
def construct (o : object T) : T :=
  match o._construct with
  | .default_constructible object_type _construct =>
    match _construct with
    | some f => f ()
    | none => object_type
  | .factory _construct => _construct ()

/-- The lookup `_fields.find(key)`. -/
def find (o : object T) (name : List Nat) : Option (object.field T) :=
  o._fields.lookup name

/-- The method `save_field`: `_fields.insert` stores the field unless the name
has an entry, and says whether it did; only then is the field listed and
counted. The listed key is made by `std::make_pair(key(name), f)` from the
temporary `key(name)`, which is destroyed at the end of the statement. -/
def save_field (o : object T) (name : List Nat) (required : Bool) (f : object.field T) :
    object T :=
  let was_saved := (o.find name).isNone
  if was_saved then
    let o := { o with _fields := o._fields ++ [(name, f)] }
    let o := { o with _field_list := o._field_list ++ [((key.of_iterable name).copied, f)] }
    if required then
      { o with _num_required_fields := o._num_required_fields + 1 }
    else
      o
  else
    o

/-- The overload `add_field(name, required, member, codec)`. The overload
without a codec passes `default_codec<Member>()` for it. -/
def add_field (o : object T) (name : List Nat) (required : Bool) (member : member_pointer T μ)
    (codec : codec μ) : object T :=
  o.save_field name required (member_field required o._fields.length codec member)

/-- The overload `add_field(name, required, codec)`, for a field without a
member. -/
def add_field_codec (o : object T) (name : List Nat) (required : Bool) (codec : codec μ) :
    object T :=
  o.save_field name required (dummy_field required o._fields.length codec)

/-- The method `optional(name, member, codec)`. -/
def optional (o : object T) (name : List Nat) (member : member_pointer T μ) (codec : codec μ) :
    object T :=
  o.add_field name false member codec

/-- The method `required(name, member, codec)`. -/
def required (o : object T) (name : List Nat) (member : member_pointer T μ) (codec : codec μ) :
    object T :=
  o.add_field name true member codec

/-- The method `optional(name, codec)`. -/
def optional_codec (o : object T) (name : List Nat) (codec : codec μ) : object T :=
  o.add_field_codec name false codec

/-- The method `required(name, codec)`. -/
def required_codec (o : object T) (name : List Nat) (codec : codec μ) : object T :=
  o.add_field_codec name true codec

/-- The method `object::encode`: inside `add_object`, every listed field that
should be encoded gets its key and then its encoding. The key is a copy whose
source is gone, and `add_key` reads `data` and `size` of it; `released` is
what it finds there. -/
def encode (o : object T) (released : key.copy → List Nat) (value : T) (w : writer) : writer :=
  (w.add_object fun w =>
    (o._field_list.foldl (fun w field =>
      if field.2.should_encode then
        field.2.encode value (w.add_key (field.1.read released))
      else
        w) w, false)).1

/-- The callback of `object::decode` for a key: an unknown key has its value
skipped; a known key has its value decoded into the output, and a required
field is marked as encountered. The state is the output and the vector
`encountered_required_fields`. -/
def decode_key_value (helpers : decoding_helpers) (o : object T) (name : List Nat)
    (state : T × List Bool) : decoder (T × List Bool) :=
  fun context =>
    match o.find name with
    | none =>
      match helpers.advance_past_value context with
      | none => none
      | some ⟨.error e, p⟩ => some ⟨.error e, p⟩
      | some ⟨.ok _, p⟩ => some ⟨.ok state, p⟩
    | some field =>
      match field.decode state.1 context with
      | none => none
      | some ⟨.error e, p⟩ => some ⟨.error e, p⟩
      | some ⟨.ok output, p⟩ =>
        if field.required then
          some ⟨.ok (output, state.2.set field.field_id true), p⟩
        else
          some ⟨.ok (output, state.2), p⟩

/-- The method `object::decode`. The fuel bounds the turns of the loop over the
key/value pairs. -/
def decode (fuel : Nat) (helpers : decoding_helpers) (o : object T) : decoder T :=
  fun context =>
    let encountered_required_fields : List Bool := List.replicate o._fields.length false
    let output : T := o.construct
    let string_c := helpers.string
    match detail.advance_past_object fuel context string_c.decode
        (output, encountered_required_fields) (decode_key_value helpers o) with
    | none => none
    | some ⟨.error e, p⟩ => some ⟨.error e, p⟩
    | some ⟨.ok (output, encountered_required_fields), p⟩ =>
      let context := { context with position := p }
      let num_encountered_required_fields := encountered_required_fields.count true
      let is_missing_required_fields :=
        num_encountered_required_fields != o._num_required_fields
      match detail.fail_if context is_missing_required_fields "Missing required field(s)" with
      | some e => some ⟨.error e, p⟩
      | none => some ⟨.ok output, p⟩

/-- The object codec as a codec. -/
def to_codec (fuel : Nat) (helpers : decoding_helpers) (o : object T) : json.codec T where
  encode := o.encode helpers.released
  decode := o.decode fuel helpers

/-- The codecs that a sequence of calls of `required` and `optional` makes of
an object codec without fields. -/
inductive built : object T → Prop where
  | empty (c : object.construction T) : built { _construct := c }
  | add_field {o : object T} {μ : Type} (name : List Nat) (required : Bool)
      (member : member_pointer T μ) (codec : json.codec μ) :
      built o → built (o.add_field name required member codec)
  | add_field_codec {o : object T} {μ : Type} (name : List Nat) (required : Bool)
      (codec : json.codec μ) :
      built o → built (o.add_field_codec name required codec)

end object

/-! ## codec/empty_as.hpp -/

/-- The method `empty_as_t::decode`: the inner codec is tried first; when it
throws, the position is reset and the default codec is tried; when that throws
too, the exception of the inner codec is thrown again. -/
def empty_as_t.decode (_default_codec _inner_codec : codec α) : decoder α :=
  fun context =>
    let original_position := context.position
    match _inner_codec.decode context with
    | none => none
    | some ⟨.ok value, p⟩ => some ⟨.ok value, p⟩
    | some ⟨.error exception, _⟩ =>
      let context := { context with position := original_position }
      match _default_codec.decode context with
      | none => none
      | some ⟨.ok value, p⟩ => some ⟨.ok value, p⟩
      | some ⟨.error _, p⟩ => some ⟨.error exception, p⟩

/-- The method `empty_as_t::encode`; `_default` is the default-constructed
value of the object type. -/
def empty_as_t.encode [DecidableEq α] (_default : α) (_default_codec _inner_codec : codec α)
    (value : α) (context : writer) : writer :=
  if value = _default then
    _default_codec.encode value context
  else
    _inner_codec.encode value context

/-- The method `empty_as_t::should_encode`. -/
def empty_as_t.should_encode [DecidableEq α] (_default : α)
    (_default_codec _inner_codec : codec α) (value : α) : Bool :=
  if value = _default then
    detail.should_encode _default_codec value
  else
    detail.should_encode _inner_codec value

/-- The codec `empty_as(default_codec, inner_codec)`. -/
def empty_as [DecidableEq α] (_default : α) (default_codec inner_codec : codec α) : codec α where
  encode := empty_as_t.encode _default default_codec inner_codec
  decode := empty_as_t.decode default_codec inner_codec
  should_encode := empty_as_t.should_encode _default default_codec inner_codec

/-! ## codec/one_of.hpp -/

/-- Modelled from the spec: the later attempts of `one_of_t::decode`. Each
alternative is tried from the start position ("on failure resets the cursor to
the attempt's start and tries the next"); when every one fails the error of the
first alternative is returned. -/
def one_of_t.decode_next (start : Nat) (first_error : decode_exception) :
    List (codec α) → Nat → decoder α
  | [], p => fun _ => some ⟨.error first_error, p⟩
  | c :: rest, _ => fun context =>
    match c.decode { context with position := start } with
    | none => none
    | some ⟨.ok value, p⟩ => some ⟨.ok value, p⟩
    | some ⟨.error _, p⟩ => one_of_t.decode_next start first_error rest p context

/-- Modelled from the spec: `one_of_t::decode` of codec/one_of.hpp, which is
not among the sources: "decode attempts the first, and on failure resets the
cursor to the attempt's start and tries the next, returning the first
alternative's error if every alternative fails". -/
def one_of_t.decode (first : codec α) (rest : List (codec α)) : decoder α :=
  fun context =>
    match first.decode context with
    | none => none
    | some ⟨.ok value, p⟩ => some ⟨.ok value, p⟩
    | some ⟨.error e, p⟩ => one_of_t.decode_next context.position e rest p context

/-- Modelled from the spec: `one_of_t::encode` of codec/one_of.hpp: "encode
always uses the first alternative". -/
def one_of_t.encode (first : codec α) (_rest : List (codec α)) (value : α) (w : writer) : writer :=
  first.encode value w

/-- Modelled from the spec: the codec `one_of(first, rest...)`, an ordered,
non-empty list of alternative codecs for the same object type. -/
def one_of (first : codec α) (rest : List (codec α)) : codec α where
  encode := one_of_t.encode first rest
  decode := one_of_t.decode first rest

end codec

/-! ## JSON object texts and what decoding them does -/

/-- The steps of a loop over the items of a list, each step either yielding
the next state or failing with a message; the first failure ends the run. -/
def fold_steps (step : σ → ι → Except String σ) : σ → List ι → Except String σ
  | state, [] => .ok state
  | state, x :: rest =>
    match step state x with
    | .ok state => fold_steps step state rest
    | .error message => .error message

/-- One key/value pair of a JSON object text, with the whitespace around its
parts: `key` is the name that `key_text` spells, and `effect` is what decoding
`value_text` with the field registered under that name does: it updates the
record, or it fails with a message. -/
structure json_member (T : Type) where
  before : List Nat
  key : List Nat
  key_text : List Nat
  after_key : List Nat
  after_colon : List Nat
  value_text : List Nat
  after_value : List Nat
  effect : Except String (T → T)

/-- The text of a key/value pair; 58 is the colon. -/
def json_member.text (m : json_member T) : List Nat :=
  m.before ++ (m.key_text ++ (m.after_key ++ 58 :: (m.after_colon ++ (m.value_text ++ m.after_value))))

/-- The text of a JSON object: the pairs between braces, separated by commas. -/
def object_text (members : List (json_member T)) : List Nat :=
  [123] ++ List.intercalate [44] (members.map json_member.text) ++ [125]

/-- What may follow a value inside an object: whitespace, a comma or the
closing brace. -/
def delimited (post : List Nat) : Prop :=
  ∃ d rest, post = d :: rest ∧ (detail.is_space d = true ∨ d = 44 ∨ d = 125)

/-- The pair is well formed for the codec: its whitespace is whitespace, the
key text starts with a double quote and is decoded to the key by the string
codec wherever it stands, the value text starts with a byte that is not
whitespace, and the value is a JSON value that the decoder in charge of it
reads from its first byte to its last wherever it stands: the scanner
`advance_past_value` for an unknown key, the field's decoder, with the effect
stated, for a registered key. -/
def json_member.well_formed (helpers : decoding_helpers) (o : codec.object T)
    (m : json_member T) : Prop :=
  (∀ c ∈ m.before ++ m.after_key ++ m.after_colon ++ m.after_value, detail.is_space c = true) ∧
  (∃ rest, m.key_text = 34 :: rest) ∧
  (∃ b rest, m.value_text = b :: rest ∧ detail.is_space b = false) ∧
  (∀ pre post : List Nat, helpers.string.decode ⟨pre.length, pre ++ (m.key_text ++ post)⟩ =
    some ⟨.ok m.key, pre.length + m.key_text.length⟩) ∧
  (∀ pre post : List Nat, delimited post →
    match o.find m.key with
    | none =>
      helpers.advance_past_value ⟨pre.length, pre ++ (m.value_text ++ post)⟩ =
        some ⟨.ok (), pre.length + m.value_text.length⟩
    | some field =>
      ∀ record : T,
        match m.effect with
        | .ok update =>
          field.decode record ⟨pre.length, pre ++ (m.value_text ++ post)⟩ =
            some ⟨.ok (update record), pre.length + m.value_text.length⟩
        | .error message =>
          ∃ offset p, field.decode record ⟨pre.length, pre ++ (m.value_text ++ post)⟩ =
            some ⟨.error ⟨message, offset⟩, p⟩)

namespace codec.object

/-- What the callback of `object::decode` makes of a well-formed pair: nothing
for an unknown key; for a registered key the effect of the field's decoder on
the output, and the mark in `encountered_required_fields` when the field is
required. -/
def apply_member (o : object T) (state : T × List Bool) (m : json_member T) :
    Except String (T × List Bool) :=
  match o.find m.key with
  | none => .ok state
  | some field =>
    match m.effect with
    | .error message => .error message
    | .ok update =>
      .ok (update state.1, if field.required then state.2.set field.field_id true else state.2)

/-- What `object::decode` makes of a well-formed object text: the pairs are
applied in order to the constructed record, the first failure ends decoding,
and at the end the required fields are counted. -/
def expected (o : object T) (members : List (json_member T)) : Except String T :=
  match fold_steps o.apply_member (o.construct, List.replicate o._fields.length false) members with
  | .error message => .error message
  | .ok (output, encountered_required_fields) =>
    if encountered_required_fields.count true != o._num_required_fields then
      .error "Missing required field(s)"
    else
      .ok output

/-- The record after the pairs with registered keys have been stored in it, in
the order of the text. -/
def stored (o : object T) (members : List (json_member T)) (record : T) : T :=
  members.foldl (fun record m =>
    match o.find m.key, m.effect with
    | some _, .ok update => update record
    | _, _ => record) record

/-- The value of the pair is accepted: the key is unknown, or the field's
decoder takes the value. -/
def accepts (o : object T) (m : json_member T) : Bool :=
  match o.find m.key, m.effect with
  | some _, .error _ => false
  | _, _ => true

/-- The names of the required fields. -/
def required_names (o : object T) : List (List Nat) :=
  (o._fields.filter fun entry => entry.2.required).map Prod.fst

end codec.object

namespace codec.object

/-- The state that registration keeps: the field list holds, in the order of
the lookup map, a copy of the key of every name of the map with the same
field, the field at index `i` has the id `i`, no name occurs twice, and the
counter is the number of fields flagged required. -/
def invariant (o : object T) : Prop :=
  o._field_list = o._fields.map (fun entry => ((key.of_iterable entry.1).copied, entry.2)) ∧
  (∀ (i : Nat) (h : i < o._fields.length), (o._fields.get ⟨i, h⟩).2.field_id = i) ∧
  (o._fields.map Prod.fst).Nodup ∧
  o._num_required_fields = o._fields.countP (fun entry => entry.2.required)

/-- The vector `encountered_required_fields` after the pairs with the keys
`seen` were decoded: the entry of a field is set when the field is required
and its name was seen. -/
def marks (o : object T) (seen : List (List Nat)) : List Bool :=
  o._fields.map fun entry => entry.2.required && decide (entry.1 ∈ seen)

end codec.object

/-! ## Stand-ins for concrete evaluations -/

/-- A byte that a JSON string holds as it is: not a double quote, not a
backslash, not a control character. -/
def plain_byte (c : Nat) : Bool :=
  c != 34 && c != 92 && decide (0x20 ≤ c)

/-- A stand-in for the codec `string()` of codec/string.hpp, which is not among
the sources, for strings without escapes: encoding is the operator `<<` of the
writer for strings; decoding takes a double quote, the plain bytes after it,
and the double quote that ends them. -/
def plain_string : codec (List Nat) where
  encode := fun value w => w.shl_string value
  decode := fun context =>
    match context.input.drop context.position with
    | 34 :: rest =>
      let body := rest.takeWhile plain_byte
      match rest.drop body.length with
      | 34 :: _ => some ⟨.ok body, context.position + (body.length + 2)⟩
      | _ =>
        some ⟨.error ⟨"UnexpectedToken", context.position + (body.length + 1)⟩,
          context.position + (body.length + 1)⟩
    | _ => some ⟨.error ⟨"UnexpectedToken", context.offset⟩, context.position⟩

/-- A stand-in for `detail::advance_past_value`, which is not among the
sources, for values that are strings without escapes. -/
def skip_plain_string : decoder Unit :=
  fun context =>
    match plain_string.decode context with
    | none => none
    | some ⟨.error e, p⟩ => some ⟨.error e, p⟩
    | some ⟨.ok _, p⟩ => some ⟨.ok (), p⟩

/-- The stand-ins together. -/
def plain_helpers : decoding_helpers where
  string := plain_string
  advance_past_value := skip_plain_string
  released := zeroed_memory

/-- The record `custom_obj` of the tests: one string member. -/
structure custom_obj where
  val : List Nat
  deriving DecidableEq, Repr

/-- The member pointer `&custom_obj::val`. -/
def custom_obj.val_pointer : codec.member_pointer custom_obj (List Nat) where
  get := fun object => object.val
  set := fun _ value => { val := value }

/-- A record of two booleans, and the pointers to its two members. -/
structure two_flags where
  first : Bool
  second : Bool
  deriving DecidableEq, Repr

/-- The member pointer `&two_flags::first`. -/
def two_flags.first_pointer : codec.member_pointer two_flags Bool where
  get := fun object => object.first
  set := fun object value => { object with first := value }

/-- The member pointer `&two_flags::second`. -/
def two_flags.second_pointer : codec.member_pointer two_flags Bool where
  get := fun object => object.second
  set := fun object value => { object with second := value }

/-- An object codec with two required boolean fields, "a" (97) for the first
member and "b" (98) for the second. -/
def two_flags_codec : codec.object two_flags :=
  ((({ _construct := .default_constructible { first := false, second := false } none } :
    codec.object two_flags)).required [97] two_flags.first_pointer codec.boolean).required
      [98] two_flags.second_pointer codec.boolean

/-- An object codec with two required boolean fields, "a" and "b", both bound
to the first member. -/
def aliased_flags_codec : codec.object two_flags :=
  ((({ _construct := .default_constructible { first := false, second := false } none } :
    codec.object two_flags)).required [97] two_flags.first_pointer codec.boolean).required
      [98] two_flags.first_pointer codec.boolean

namespace codec

/-- Modelled from the spec: the codec `null<T>()` of codec/null.hpp, which is
not among the sources and which `empty_as_null` takes for the default codec:
"decode consumes the literal `null` or fails"; it yields the default-constructed
value, and encoding writes `null`. -/
def null (object_type : α) : codec α where
  encode := fun _ w => w.shl_null
  decode := fun context =>
    match detail.expect_literal context [110, 117, 108, 108] with
    | ⟨.ok _, p⟩ => some ⟨.ok object_type, p⟩
    | ⟨.error e, p⟩ => some ⟨.error e, p⟩

/-- The function `empty_as_null(inner_codec)`. -/
def empty_as_null [DecidableEq α] (object_type : α) (inner_codec : codec α) : codec α :=
  empty_as object_type (null object_type) inner_codec

end codec

/-- The codecs of the tests of `one_of`: the string member is required under
the given name. -/
def custom_codec_named (name : List Nat) : codec.object custom_obj :=
  (({ _construct := .default_constructible { val := [] } none } : codec.object custom_obj)).required
    name custom_obj.val_pointer plain_string

/-! ## Skipping a value, modelled from the spec -/

namespace detail

/-- Modelled from the spec: `is_digit`, one of the character classes of
section 4.1, "pure, branchless-friendly predicates over a single byte": the
bytes '0' (48) to '9' (57). -/
def is_digit (c : Nat) : Bool :=
  decide (48 ≤ c) && decide (c ≤ 57)

/-- Where the structural scan stands: between the tokens of an array or an
object, inside a string, or behind a backslash inside a string. -/
inductive scan_mode where
  | between
  | in_string
  | escaped
  deriving DecidableEq, Repr

/-- The auxiliary state of the structural scan: the explicit stack, which
holds the closing byte awaited for every array and object that is open, and
the mode. -/
structure scan_state where
  stack : List Nat
  mode : scan_mode
  deriving DecidableEq, Repr

/-- What one byte does to the structural scan: it goes on in a new state, it
is done (the byte was the last one of the value), or it fails. -/
inductive scan_turn where
  | next (state : scan_state)
  | done
  | fail (message : String)
  deriving DecidableEq, Repr

/-- Modelled from the spec: one turn of the "single structural scan that
balances `[]`/`{}` nesting and skips over strings (so braces inside strings
are not mis-counted) using an explicit iterative stack". Between tokens a
double quote (34) opens a string, '[' (91) and the opening brace (123) push
the closing byte they await, ']' (93) and the closing brace (125) must be the
byte on top of the stack and pop it, and every other byte is passed over.
Inside a string a backslash (92) guards the next byte and a double quote ends
the string. The value ends with the byte that leaves the stack empty. -/
def scan_step (state : scan_state) (c : Nat) : scan_turn :=
  match state.mode with
  | .escaped => .next { state with mode := .in_string }
  | .in_string =>
    if c = 34 then
      if state.stack.isEmpty then .done else .next { state with mode := .between }
    else if c = 92 then
      .next { state with mode := .escaped }
    else
      .next state
  | .between =>
    if c = 34 then
      .next { state with mode := .in_string }
    else if c = 91 then
      .next { state with stack := 93 :: state.stack }
    else if c = 123 then
      .next { state with stack := 125 :: state.stack }
    else if c = 93 ∨ c = 125 then
      match state.stack with
      | [] => .fail "UnexpectedToken"
      | top :: below =>
        if c = top then
          if below.isEmpty then .done else .next { state with stack := below }
        else
          .fail "UnexpectedToken"
    else
      .next state

/-- Modelled from the spec: the loop of the structural scan over the bytes from
the cursor on, one byte per turn; `position` is the offset of the first of
them. The loop is an iteration with the state of `scan_state` and nothing
else; it "fails with `UnexpectedEnd`" when the input ends inside the value. -/
def structural_scan : scan_state → List Nat → Nat → decoded Unit
  | _, [], position => ⟨.error ⟨"UnexpectedEnd", position⟩, position⟩
  | state, c :: rest, position =>
    match scan_step state c with
    | .next state => structural_scan state rest (position + 1)
    | .done => ⟨.ok (), position + 1⟩
    | .fail message => ⟨.error ⟨message, position⟩, position⟩

/-- The state in which the structural scan stands after the given bytes, when
it has neither ended nor failed within them. -/
def scan_states : scan_state → List Nat → Option scan_state
  | state, [] => some state
  | state, c :: rest =>
    match scan_step state c with
    | .next state => scan_states state rest
    | _ => none

/-- Modelled from the spec: the integer part of the number grammar, "integer
part with no leading zero except `0` itself": the number of its bytes. -/
def scan_integer (rest : List Nat) : Option Nat :=
  match rest with
  | [] => none
  | d :: rest =>
    if d = 48 then
      some 1
    else if is_digit d then
      some (1 + (rest.takeWhile is_digit).length)
    else
      none

/-- Modelled from the spec: the "optional fractional part" of the number
grammar, a '.' (46) and at least one digit: the number of its bytes. -/
def scan_fraction (rest : List Nat) : Option Nat :=
  match rest with
  | [] => some 0
  | c :: rest =>
    if c = 46 then
      let digits := (rest.takeWhile is_digit).length
      if digits = 0 then none else some (1 + digits)
    else
      some 0

/-- Modelled from the spec: the "optional exponent" of the number grammar, an
'e' (101) or 'E' (69), an optional sign (43, 45) and at least one digit: the
number of its bytes. -/
def scan_exponent (rest : List Nat) : Option Nat :=
  match rest with
  | [] => some 0
  | c :: rest =>
    if c = 101 ∨ c = 69 then
      let sign := match rest with
        | [] => 0
        | s :: _ => if s = 43 ∨ s = 45 then 1 else 0
      let digits := ((rest.drop sign).takeWhile is_digit).length
      if digits = 0 then none else some (1 + sign + digits)
    else
      some 0

/-- Modelled from the spec: numeric scanning, which "recognizes the full JSON
number grammar (optional minus, integer part with no leading zero except `0`
itself, optional fractional part, optional exponent)": the number of bytes of
the number that starts the given bytes, if one does. -/
def scan_number (rest : List Nat) : Option Nat :=
  let minus := match rest with
    | [] => 0
    | c :: _ => if c = 45 then 1 else 0
  match scan_integer (rest.drop minus) with
  | none => none
  | some integer =>
    match scan_fraction (rest.drop (minus + integer)) with
    | none => none
    | some fraction =>
      match scan_exponent (rest.drop (minus + integer + fraction)) with
      | none => none
      | some exponent => some (minus + integer + fraction + exponent)

/-- Modelled from the spec: skipping a number, with the numeric scanner; a text
that does not start with a number "fails with `UnexpectedToken`". -/
def advance_past_number (context : decoding_context) : decoded Unit :=
  match scan_number (context.input.drop context.position) with
  | some size => ⟨.ok (), context.position + size⟩
  | none => ⟨.error ⟨"UnexpectedToken", context.offset⟩, context.position⟩

/-- Modelled from the spec: `advance_past_null`: "consumes the literal
`null`". -/
def advance_past_null (context : decoding_context) : decoded Unit :=
  expect_literal context [110, 117, 108, 108]

/-- Modelled from the spec: `advance_past_value(context)` of
detail/decoding_helpers.hpp, which is not among the sources: it passes over
"the next well-formed JSON value WITHOUT interpreting it". An array, an object
and a string are passed by the structural scan, started with an empty stack;
the literals by `expect_literal`; anything else has to be a number. -/
def advance_past_value (context : decoding_context) : decoded Unit :=
  match peek context with
  | .error e => ⟨.error e, context.position⟩
  | .ok c =>
    if c = 91 ∨ c = 123 ∨ c = 34 then
      structural_scan ⟨[], .between⟩ (context.input.drop context.position) context.position
    else if c = 116 then
      advance_past_true context
    else if c = 102 then
      advance_past_false context
    else if c = 110 then
      advance_past_null context
    else
      advance_past_number context

end detail

/-! ## codec/raw.hpp, modelled from the spec -/

namespace codec

/-- Modelled from the spec: the class `raw_ref` of codec/raw.hpp, which is not
among the sources: "a non-owning view (pointer/offset + length) into the
original input bytes". The pointer `data` is the buffer it points into and the
offset of the byte it points at. -/
structure raw_ref where
  buffer : List Nat
  data : Nat
  size : Nat
  deriving DecidableEq, Repr

/-- The bytes that a reference refers to: `size` bytes from `data` on. -/
def raw_ref.bytes (ref : raw_ref) : List Nat :=
  (ref.buffer.drop ref.data).take ref.size

/-- Modelled from the spec: `raw_t::decode` for references: it "records the
exact source-byte span of the next well-formed JSON value WITHOUT interpreting
it": the position before and the distance to the position after
`advance_past_value`. -/
def raw_t.decode : decoder raw_ref :=
  fun context =>
    let begin := context.position
    match detail.advance_past_value context with
    | ⟨.error e, p⟩ => some ⟨.error e, p⟩
    | ⟨.ok _, p⟩ => some ⟨.ok ⟨context.input, begin, p - begin⟩, p⟩

/-- Modelled from the spec: `raw_t::encode`: it "simply copies the stored span
verbatim into the sink"; being a value, it is written behind the separator that
the writer owes, and a separator is owed after it. -/
def raw_t.encode (value : raw_ref) (w : writer) : writer :=
  w.separator_and_set.write (value.buffer.drop value.data) value.size

/-- Modelled from the spec: the codec `raw()` for references. -/
def raw : codec raw_ref where
  encode := raw_t.encode
  decode := raw_t.decode

/-- Modelled from the spec: `raw_t::decode` for an owning value type (a string
or a vector of bytes): the span is "explicitly materialized into an owned
buffer". -/
def raw_t.decode_owned : decoder (List Nat) :=
  fun context =>
    match raw_t.decode context with
    | none => none
    | some ⟨.error e, p⟩ => some ⟨.error e, p⟩
    | some ⟨.ok ref, p⟩ => some ⟨.ok ref.bytes, p⟩

/-- Modelled from the spec: `raw_t::encode` for an owning value type: the
bytes `data()` to `data() + size()` are copied into the sink. -/
def raw_t.encode_owned (value : List Nat) (w : writer) : writer :=
  w.separator_and_set.write value value.length

/-- Modelled from the spec: the codecs `raw<std::string>()` and
`raw<std::vector<uint8_t>>()`; both value types are sequences of bytes. -/
def raw_owned : codec (List Nat) where
  encode := raw_t.encode_owned
  decode := raw_t.decode_owned

end codec

/-! ## decode.hpp, modelled from the spec -/

/-- Modelled from the spec: `decode(codec, data, size)` of decode.hpp, which is
not among the sources: "input parsing tolerates leading/trailing whitespace
around the top-level value but nothing else extraneous", and decode "fails
(raises the decode error to the caller) if input is malformed, has unconsumed
non-whitespace trailing content, or is missing required object fields"; the
failure for trailing content is `TrailingInput`. -/
def decode (c : codec α) (input : List Nat) : Option (Except decode_exception α) :=
  let context := detail.skip_whitespace (decoding_context.init input)
  match c.decode context with
  | none => none
  | some ⟨.error e, _⟩ => some (.error e)
  | some ⟨.ok value, p⟩ =>
    let context := detail.skip_whitespace { context with position := p }
    match detail.fail_if context (context.position != input.length) "TrailingInput" with
    | some e => some (.error e)
    | none => some (.ok value)

/-- Modelled from the spec: `try_decode(object, codec, data, size)`, the
"non-throwing variant" that "returns a success/failure indicator plus an
out-value instead of raising". The out-value is assigned on success only. -/
def try_decode (object : α) (c : codec α) (input : List Nat) : Option (Bool × α) :=
  match decode c input with
  | none => none
  | some (.error _) => some (false, object)
  | some (.ok value) => some (true, value)

/-- Modelled from the spec: `try_decode_partial(object, codec, context)`, the
"partial-decode variant" that "allows decoding a single value from the front of
a larger buffer, returning the final cursor position to the caller rather than
demanding the whole buffer be consumed". Whitespace before the value is
skipped, as the tests show. The result is the indicator, the out-value and the
context as decoding leaves it. -/
def try_decode_partial (object : α) (c : codec α) (context : decoding_context) :
    Option (Bool × α × decoding_context) :=
  let context := detail.skip_whitespace context
  match c.decode context with
  | none => none
  | some ⟨.error _, p⟩ => some (false, object, { context with position := p })
  | some ⟨.ok value, p⟩ => some (true, value, { context with position := p })

/-! ## ext/json_boost.hpp -/

/-- The operator `<<` for `boost::optional<T>`: `if (optional) { writer <<
optional.get(); }`. The operator `<<` of the value type is the parameter. -/
def shl_optional (shl_v : basic_writer → α → basic_writer) (w : basic_writer)
    (optional : Option α) : basic_writer :=
  match optional with
  | some value => shl_v w value
  | none => w

/-- The operator `<<` for a `pair` whose value is a `boost::optional<V>`:
`if (pair.value) { writer.add_pair(pair.key, pair.value.get()); }`. -/
def shl_pair_optional (shl_k : basic_writer → κ → basic_writer)
    (shl_v : basic_writer → ν → basic_writer) (w : basic_writer) (p : pair κ (Option ν)) :
    basic_writer :=
  match p.value with
  | some value => w.add_pair shl_k shl_v p.key value
  | none => w

/-- Modelled from the spec: the operator `<<` for `std::vector<T>` of
extension/std.hpp, which is not among the sources and which the test of the
optionals uses: as for arrays, it "writes `[`, each element ... with
separators, `]`", through `add_array` and the operator `<<` of the elements. -/
def shl_vector (shl_v : basic_writer → α → basic_writer) (w : basic_writer)
    (vector : List α) : basic_writer :=
  (w.add_array fun w => (vector.foldl shl_v w, false)).1

/-! ## Well-formed JSON texts

The grammar of section 6 of the specification ("strict JSON per RFC 4627/8259
subset as implemented"), as predicates on texts. -/

namespace detail

/-- Modelled from the spec: `is_hex_digit`, one of the character classes of
section 4.1: the digits, 'A' to 'F' and 'a' to 'f'. -/
def is_hex_digit (c : Nat) : Bool :=
  is_digit c || (decide (65 ≤ c) && decide (c ≤ 70)) || (decide (97 ≤ c) && decide (c ≤ 102))

/-- The bytes that mean something to the structural scan between tokens: the
double quote, the brackets and the braces. -/
def is_structural (c : Nat) : Bool :=
  c == 34 || c == 91 || c == 93 || c == 123 || c == 125

end detail

/-- A run of whitespace bytes. -/
def whitespace (ws : List Nat) : Prop :=
  ∀ c ∈ ws, detail.is_space c = true

/-- A run of digits. -/
def digits (ds : List Nat) : Prop :=
  ∀ c ∈ ds, detail.is_digit c = true

/-- The text of a JSON number: an "optional minus, integer part with no leading
zero except `0` itself, optional fractional part, optional exponent". -/
inductive number_text : List Nat → Prop where
  | mk (minus integer fraction exponent : List Nat) :
    (minus = [] ∨ minus = [45]) →
    (integer = [48] ∨
      ∃ d ds, integer = d :: ds ∧ d ≠ 48 ∧ detail.is_digit d = true ∧ digits ds) →
    (fraction = [] ∨ ∃ ds, fraction = 46 :: ds ∧ ds ≠ [] ∧ digits ds) →
    (exponent = [] ∨
      ∃ e sign ds, exponent = e :: (sign ++ ds) ∧ (e = 101 ∨ e = 69) ∧
        (sign = [] ∨ sign = [43] ∨ sign = [45]) ∧ ds ≠ [] ∧ digits ds) →
    number_text (minus ++ integer ++ fraction ++ exponent)

/-- The bytes between the quotes of a JSON string: bytes that stand for
themselves (no double quote, no backslash, no control character), the
two-byte escapes, and `\u` with four hexadecimal digits. -/
inductive string_body : List Nat → Prop where
  | nil : string_body []
  | plain (c : Nat) (rest : List Nat) :
    c ≠ 34 → c ≠ 92 → 0x20 ≤ c → string_body rest → string_body (c :: rest)
  | escape (c : Nat) (rest : List Nat) :
    c ∈ [34, 92, 47, 98, 102, 110, 114, 116] → string_body rest →
    string_body (92 :: c :: rest)
  | unicode (a b c d : Nat) (rest : List Nat) :
    detail.is_hex_digit a = true → detail.is_hex_digit b = true →
    detail.is_hex_digit c = true → detail.is_hex_digit d = true → string_body rest →
    string_body (92 :: 117 :: a :: b :: c :: d :: rest)

/-- What a text is derived as: a value, the elements of an array, or the
members of an object. -/
inductive production where
  | value
  | elements
  | members

/-- The well-formed JSON texts: the literals, numbers, strings, arrays and
objects, with whitespace allowed around the elements of an array and around
the keys and values of an object. -/
inductive json_text : production → List Nat → Prop where
  | literal_null : json_text .value [110, 117, 108, 108]
  | literal_true : json_text .value [116, 114, 117, 101]
  | literal_false : json_text .value [102, 97, 108, 115, 101]
  | number (t : List Nat) : number_text t → json_text .value t
  | string (body : List Nat) : string_body body → json_text .value (34 :: body ++ [34])
  | empty_array (ws : List Nat) : whitespace ws → json_text .value (91 :: ws ++ [93])
  | array (elements : List Nat) :
    json_text .elements elements → json_text .value (91 :: elements ++ [93])
  | empty_object (ws : List Nat) : whitespace ws → json_text .value (123 :: ws ++ [125])
  | object (members : List Nat) :
    json_text .members members → json_text .value (123 :: members ++ [125])
  | element (before t after : List Nat) :
    whitespace before → whitespace after → json_text .value t →
    json_text .elements (before ++ t ++ after)
  | elements (before t after rest : List Nat) :
    whitespace before → whitespace after → json_text .value t → json_text .elements rest →
    json_text .elements (before ++ t ++ after ++ 44 :: rest)
  | member (before key between after_colon t after : List Nat) :
    whitespace before → whitespace between → whitespace after_colon → whitespace after →
    string_body key → json_text .value t →
    json_text .members
      (before ++ (34 :: key ++ [34]) ++ between ++ 58 :: after_colon ++ t ++ after)
  | members (before key between after_colon t after rest : List Nat) :
    whitespace before → whitespace between → whitespace after_colon → whitespace after →
    string_body key → json_text .value t → json_text .members rest →
    json_text .members
      (before ++ (34 :: key ++ [34]) ++ between ++ 58 :: after_colon ++ t ++ after ++ 44 :: rest)

/-- What may follow a value in a larger input: nothing, whitespace, a comma, a
closing bracket or a closing brace. -/
def ends_value (post : List Nat) : Prop :=
  match post with
  | [] => True
  | c :: _ => detail.is_space c = true ∨ c = 44 ∨ c = 93 ∨ c = 125

/-! ## The contract of codecs -/

/-- The contract of `decode` in codec_interface.hpp, for a successful parse, as
a property of a decoder: "The string to parse begins at context.position and
ends at context.end", so the parse is the same wherever that string lies in a
buffer; "If parsing succeeds, position should be set to point to the character
after the last character that was parsed", so the cursor moves forward, within
the string; and "It is not an error if end is beyond the object that this
codec parses", here for whitespace that follows the string. -/
def decoder.conforms (d : decoder α) : Prop :=
  ∀ (context context' : decoding_context) (ws : List Nat) (v : α) (p : Nat),
    (∀ b ∈ ws, detail.is_space b = true) →
    context'.input.drop context'.position = context.input.drop context.position ++ ws →
    d context = some ⟨.ok v, p⟩ →
    ∃ k, p = context.position + k ∧ k ≤ (context.input.drop context.position).length ∧
      d context' = some ⟨.ok v, context'.position + k⟩

/-- A codec keeps the contract of codec_interface.hpp when its decoder does. -/
def codec.conforms (c : codec α) : Prop :=
  decoder.conforms c.decode

/-- The contract of `decode` for a decoder that is used inside a value, where a
byte always follows what it parses (an element or the value of a pair is
followed by a separator or by the closing byte): the parse in the second
context is asked for when the first parse leaves a byte of its string. -/
def decoder.conforms_inside (d : decoder α) : Prop :=
  ∀ (context context' : decoding_context) (ws : List Nat) (v : α) (p : Nat),
    (∀ b ∈ ws, detail.is_space b = true) →
    context'.input.drop context'.position = context.input.drop context.position ++ ws →
    d context = some ⟨.ok v, p⟩ →
    ∃ k, p = context.position + k ∧ k ≤ (context.input.drop context.position).length ∧
      (k < (context.input.drop context.position).length →
        d context' = some ⟨.ok v, context'.position + k⟩)

/-! ## Further stand-ins for concrete evaluations -/

/-- The object codec without fields of the tests of `one_of`. -/
def fieldless_codec : codec.object custom_obj :=
  { _construct := .default_constructible { val := [] } none }

/-- The default codec of `custom_obj` in the tests of `decode`: the member
`val` is required under the name "x" (120); the keys are decoded by the
stand-in for `string()` and unknown values are skipped by
`advance_past_value`, for objects of up to `fuel` pairs. -/
def default_custom_codec (fuel : Nat) : codec custom_obj :=
  (custom_codec_named [120]).to_codec fuel
    { string := plain_string
      advance_past_value := fun context => some (detail.advance_past_value context)
      released := zeroed_memory }

/-- The record `foobar_t` of the tests of the raw codec: one raw reference. -/
structure foobar_t where
  value : codec.raw_ref
  deriving DecidableEq, Repr

/-- The member pointer `&foobar_t::value`. -/
def foobar_t.value_pointer : codec.member_pointer foobar_t codec.raw_ref where
  get := fun object => object.value
  set := fun _ value => { value := value }

/-- The default codec of `foobar_t` in the tests: the member `value` is
required under the name "value", with the raw codec; the keys are decoded by
the stand-in for `string()` and the values of other keys are skipped by
`advance_past_value`, for objects of up to `fuel` pairs. -/
def foobar_codec (fuel : Nat) : codec foobar_t :=
  ((({ _construct := .default_constructible { value := ⟨[], 0, 0⟩ } none } :
    codec.object foobar_t)).required [118, 97, 108, 117, 101] foobar_t.value_pointer
      codec.raw).to_codec fuel
    { string := plain_string
      advance_past_value := fun context => some (detail.advance_past_value context)
      released := zeroed_memory }

/-! ## Undoing the escaper -/

namespace detail

/-- The value of a hexadecimal digit as `write_escaped_c` writes it: '0' to
'9' (48 to 57) and 'A' to 'F' (65 to 70). -/
def hex_value (h : Nat) : Nat :=
  if h ≤ 57 then h - 48 else h - 55

/-- The byte behind a two-byte escape, as a JSON string decoder reads it:
`\b` (98), `\t` (116), `\n` (110), `\f` (102) and `\r` (114) are the control
characters 8, 9, 10, 12 and 13; any other byte stands for itself. -/
def unescaped (x : Nat) : Nat :=
  if x = 98 then 8
  else if x = 116 then 9
  else if x = 110 then 10
  else if x = 102 then 12
  else if x = 114 then 13
  else x

/-- What a JSON string decoder makes of the body of a string: a backslash (92)
starts an escape, `\u` (117) with four hexadecimal digits or a two-byte escape,
and every other byte stands for itself. Only the last two digits of `\u` count
here, the escaper writes "00" for the first two. -/
def unescape : List Nat → List Nat
  | [] => []
  | [c] => [c]
  | c :: x :: rest =>
    if c = 92 then
      if x = 117 then
        (hex_value (rest.getD 2 0) * 16 + hex_value (rest.getD 3 0)) :: unescape (rest.drop 4)
      else
        unescaped x :: unescape rest
    else
      c :: unescape (x :: rest)
termination_by text => text.length
decreasing_by
  all_goals simp only [List.length_cons, List.length_drop]
  all_goals omega

end detail

/-! ## The bodies of scopes and the brackets they leave in the stream -/

/-- What a functor may do with the writer through its public members: return,
throw, write a value with the operator `<<` (the stream renders it as `text`)
and go on, or write an array or an object with a body of its own and go on.
An exception thrown inside a nested body passes through the scope and ends
the body around it. -/
inductive scope_body where
  | done
  | fail
  | value (text : List Nat) (next : scope_body)
  | array (inner : scope_body) (next : scope_body)
  | object (inner : scope_body) (next : scope_body)

/-- The functor that a body stands for. -/
def scope_body.run : scope_body → basic_writer.functor
  | .done => fun w => (w, false)
  | .fail => fun w => (w, true)
  | .value text next => fun w => next.run (w.shl (fun _ : Unit => text) ())
  | .array inner next => fun w =>
    let r := w.add_array inner.run
    if r.2 then r else next.run r.1
  | .object inner next => fun w =>
    let r := w.add_object inner.run
    if r.2 then r else next.run r.1

/-- The texts of the values that a body writes hold no bracket and no brace. -/
def scope_body.plain_values : scope_body → Prop
  | .done => True
  | .fail => True
  | .value text next =>
    (∀ c ∈ text, c ≠ 91 ∧ c ≠ 93 ∧ c ≠ 123 ∧ c ≠ 125) ∧ next.plain_values
  | .array inner next => inner.plain_values ∧ next.plain_values
  | .object inner next => inner.plain_values ∧ next.plain_values

/-- The brackets and braces of a text, read from left to right with a stack of
the closing bytes awaited: the stack after the text, or `none` when a closing
byte is not the one awaited. Other bytes do not count. -/
def brackets : List Nat → List Nat → Option (List Nat)
  | stack, [] => some stack
  | stack, c :: rest =>
    if c = 91 then
      brackets (93 :: stack) rest
    else if c = 123 then
      brackets (125 :: stack) rest
    else if c = 93 ∨ c = 125 then
      match stack with
      | [] => none
      | top :: below => if c = top then brackets below rest else none
    else
      brackets stack rest

/-- The brackets and braces of a text are balanced and strictly nested. -/
def balanced (text : List Nat) : Prop :=
  brackets [] text = some []

/-! ## Stand-ins with a factory and with two names for one member -/

/-- An object codec for a record of two flags that comes from a factory with
both flags set: "a" (97) is required and bound to the first member, "b" (98)
is optional and bound to the second. -/
def factory_flags_codec : codec.object two_flags :=
  ((({ _construct := .factory fun _ => { first := true, second := true } } :
    codec.object two_flags)).required [97] two_flags.first_pointer codec.boolean).optional
      [98] two_flags.second_pointer codec.boolean

/-- An object codec for a record of two flags that comes from a factory with
both flags set: "a" (97) is required, "b" (98) is optional, and both names are
bound to the first member. -/
def factory_aliased_codec : codec.object two_flags :=
  ((({ _construct := .factory fun _ => { first := true, second := true } } :
    codec.object two_flags)).required [97] two_flags.first_pointer codec.boolean).optional
      [98] two_flags.first_pointer codec.boolean

/-! # Theorems -/

namespace detail

/-! ## The escaper -/

theorem write_escaped_c_append (out : List Nat) (c : Nat) :
    write_escaped_c out c = out ++ write_escaped_c [] c := by
  unfold write_escaped_c
  split
  · simp
  · split
    · simp
    · simp only []
      split <;> simp

theorem write_escaped_stream_eq (out value : List Nat) :
    write_escaped_stream out value = out ++ value.flatMap (write_escaped_c []) := by
  unfold write_escaped_stream
  induction value generalizing out with
  | nil => simp
  | cons c rest ih =>
    rw [List.foldl_cons, ih, write_escaped_c_append out c]
    simp [List.flatMap_cons, List.append_assoc]

/-- C4: for every byte `c` below 0x20, `write_escaped_c` appends the shortest
valid JSON escape: backslash-b, backslash-t, backslash-n, backslash-f and
backslash-r for 0x08, 0x09, 0x0A, 0x0C and 0x0D, and for every other control
byte the six bytes backslash, 'u', '0', '0' and the upper-case hexadecimal
digits of the high and the low nibble of `c`. -/
theorem write_escaped_c_control (out : List Nat) (c : Nat) (h : c < 0x20) :
    write_escaped_c out c =
      if c = 0x08 then out ++ [92, 98]
      else if c = 0x09 then out ++ [92, 116]
      else if c = 0x0A then out ++ [92, 110]
      else if c = 0x0C then out ++ [92, 102]
      else if c = 0x0D then out ++ [92, 114]
      else out ++ [92, 117, 48, 48,
        if c / 16 < 10 then 48 + c / 16 else 65 + (c / 16 - 10),
        if c % 16 < 10 then 48 + c % 16 else 65 + (c % 16 - 10)] := by
  rw [write_escaped_c_append]
  interval_cases c <;> simp <;> decide

theorem write_escaped_c_control_witness :
    (0x1F < 0x20) ∧ write_escaped_c [34] 0x1F = [34, 92, 117, 48, 48, 49, 70] :=
  ⟨by decide, (write_escaped_c_control [34] 0x1F (by decide)).trans (by decide)⟩

/-! ### The chunked escaper agrees with the byte-wise one -/

theorem write_escaped_2_eq (src : source_bytes) (st : escape_state) :
    write_escaped_2 src st = (write_escaped_1 src st).bind (write_escaped_1 src) := by
  unfold write_escaped_2 write_escaped_1
  cases h0 : src.bytes[st.begin]? <;> cases h1 : src.bytes[st.begin + 1]? <;> simp [h1]

theorem write_escaped_4_eq (src : source_bytes) (st : escape_state) :
    write_escaped_4 src st = (write_escaped_2 src st).bind (write_escaped_2 src) := by
  unfold write_escaped_4 write_escaped_2
  cases h0 : src.bytes[st.begin]? <;> cases h1 : src.bytes[st.begin + 1]? <;>
    cases h2 : src.bytes[st.begin + 2]? <;> cases h3 : src.bytes[st.begin + 3]? <;>
    simp [h2, h3, Nat.add_assoc]

theorem write_escaped_1_spec (out : List Nat) (src : source_bytes) (st : escape_state)
    (hinv : escaped_so_far out src st) (hrem : end_minus_begin src st ≥ 1) :
    ∃ st', write_escaped_1 src st = some st' ∧ escaped_so_far out src st' ∧
      st'.begin = st.begin + 1 := by
  obtain ⟨_, hout⟩ := hinv
  have hlt : st.begin < src.bytes.length := by
    simp only [end_minus_begin] at hrem
    omega
  refine ⟨⟨write_escaped_c st.out src.bytes[st.begin], st.begin + 1⟩, ?_, ⟨?_, ?_⟩, rfl⟩
  · simp [write_escaped_1, List.getElem?_eq_getElem hlt]
  · exact hlt
  · simp only []
    rw [write_escaped_c_append, hout, List.take_succ, List.getElem?_eq_getElem hlt]
    simp only [Option.toList, List.flatMap_append, List.flatMap_cons, List.flatMap_nil,
      List.append_nil, List.append_assoc]

theorem write_escaped_2_spec (out : List Nat) (src : source_bytes) (st : escape_state)
    (hinv : escaped_so_far out src st) (hrem : end_minus_begin src st ≥ 2) :
    ∃ st', write_escaped_2 src st = some st' ∧ escaped_so_far out src st' ∧
      st'.begin = st.begin + 2 := by
  obtain ⟨s1, e1, i1, b1⟩ := write_escaped_1_spec out src st hinv (by omega)
  obtain ⟨s2, e2, i2, b2⟩ := write_escaped_1_spec out src s1 i1
    (by simp only [end_minus_begin] at hrem ⊢; omega)
  exact ⟨s2, by rw [write_escaped_2_eq, e1, Option.some_bind, e2], i2, by omega⟩

theorem write_escaped_4_spec (out : List Nat) (src : source_bytes) (st : escape_state)
    (hinv : escaped_so_far out src st) (hrem : end_minus_begin src st ≥ 4) :
    ∃ st', write_escaped_4 src st = some st' ∧ escaped_so_far out src st' ∧
      st'.begin = st.begin + 4 := by
  obtain ⟨s1, e1, i1, b1⟩ := write_escaped_2_spec out src st hinv (by omega)
  obtain ⟨s2, e2, i2, b2⟩ := write_escaped_2_spec out src s1 i1
    (by simp only [end_minus_begin] at hrem ⊢; omega)
  exact ⟨s2, by rw [write_escaped_4_eq, e1, Option.some_bind, e2], i2, by omega⟩

theorem write_escaped_8_eq (src : source_bytes) (st : escape_state) :
    write_escaped_8 src st = (write_escaped_4 src st).bind (write_escaped_4 src) := by
  unfold write_escaped_8 write_escaped_4
  cases h0 : src.bytes[st.begin]? <;> cases h1 : src.bytes[st.begin + 1]? <;>
    cases h2 : src.bytes[st.begin + 2]? <;> cases h3 : src.bytes[st.begin + 3]? <;>
    (simp only [Option.none_bind, Option.some_bind]
     try (cases h4 : src.bytes[st.begin + 4]? <;> cases h5 : src.bytes[st.begin + 5]? <;>
       cases h6 : src.bytes[st.begin + 6]? <;> cases h7 : src.bytes[st.begin + 7]? <;>
       simp [h4, h5, h6, h7, Nat.add_assoc]))

theorem write_escaped_8_spec (out : List Nat) (src : source_bytes) (st : escape_state)
    (hinv : escaped_so_far out src st) (hrem : end_minus_begin src st ≥ 8) :
    ∃ st', write_escaped_8 src st = some st' ∧ escaped_so_far out src st' ∧
      st'.begin = st.begin + 8 := by
  obtain ⟨s1, e1, i1, b1⟩ := write_escaped_4_spec out src st hinv (by omega)
  obtain ⟨s2, e2, i2, b2⟩ := write_escaped_4_spec out src s1 i1
    (by simp only [end_minus_begin] at hrem ⊢; omega)
  exact ⟨s2, by rw [write_escaped_8_eq, e1, Option.some_bind, e2], i2, by omega⟩

theorem write_escaped_loop_spec (out : List Nat) (src : source_bytes) (n : Nat) :
    ∀ st : escape_state, src.bytes.length - st.begin ≤ n → escaped_so_far out src st →
      ∃ st', write_escaped_loop src st = some st' ∧ escaped_so_far out src st' ∧
        end_minus_begin src st' < 8 ∧ st.begin ≤ st'.begin := by
  induction n with
  | zero =>
    intro st hn hinv
    refine ⟨st, ?_, hinv, ?_, le_refl _⟩
    · rw [write_escaped_loop]
      have : ¬ end_minus_begin src st ≥ 8 := by simp only [end_minus_begin]; omega
      simp [this]
    · simp only [end_minus_begin]; omega
  | succ n ih =>
    intro st hn hinv
    by_cases hrem : end_minus_begin src st ≥ 8
    · obtain ⟨s1, e1, i1, b1⟩ := write_escaped_8_spec out src st hinv hrem
      obtain ⟨s2, e2, i2, r2, b2⟩ := ih s1 (by simp only [end_minus_begin] at hrem; omega) i1
      refine ⟨s2, ?_, i2, r2, by omega⟩
      rw [write_escaped_loop]
      simp only [hrem, ↓reduceDIte]
      split
      · rename_i st' h8
        rw [e1] at h8
        cases h8
        exact e2
      · rename_i h8
        rw [e1] at h8
        cases h8
    · refine ⟨st, ?_, hinv, by omega, le_refl _⟩
      rw [write_escaped_loop]
      simp [hrem]

/-- A guarded chunk writer: when the guard holds the chunk is within bounds, so
the step returns, keeps the invariant and never increases `end - begin`. -/
theorem guarded_chunk_spec (out : List Nat) (src : source_bytes) (st : escape_state)
    (k : Nat) (guard : Prop) [Decidable guard]
    (step : source_bytes → escape_state → Option escape_state)
    (hstep : ∀ st, escaped_so_far out src st → end_minus_begin src st ≥ k →
      ∃ st', step src st = some st' ∧ escaped_so_far out src st' ∧ st'.begin = st.begin + k)
    (hguard : guard → end_minus_begin src st ≥ k) (hinv : escaped_so_far out src st) :
    ∃ st', (if guard then step src st else pure st) = some st' ∧ escaped_so_far out src st' ∧
      end_minus_begin src st' ≤ end_minus_begin src st ∧
      ((end_minus_begin src st ≥ k → guard) → end_minus_begin src st < 2 * k → end_minus_begin src st' < k) := by
  by_cases hg : guard
  · obtain ⟨s1, e1, i1, b1⟩ := hstep st hinv (hguard hg)
    refine ⟨s1, by simp [hg, e1], i1, ?_, ?_⟩
    · simp only [end_minus_begin]; omega
    · intro _ h2
      simp only [end_minus_begin] at h2 ⊢
      omega
  · refine ⟨st, by simp [hg], hinv, le_refl _, ?_⟩
    intro h1 _
    by_contra hcon
    exact hg (h1 (by omega))

/-- The chunked `write_escaped` always returns, and its output is what was
there before followed by the escape of every input byte, in input order,
whatever the alignment tests answer and wherever the input lies. -/
theorem write_escaped_eq (m : alignment_macros) (out : List Nat) (src : source_bytes) :
    write_escaped m out src = some (out ++ src.bytes.flatMap (write_escaped_c [])) := by
  have i0 : escaped_so_far out src ⟨out, 0⟩ := ⟨Nat.zero_le _, by simp⟩
  obtain ⟨s1, e1, i1, _, _⟩ := guarded_chunk_spec out src ⟨out, 0⟩ 1
    (m.json_unaligned_2 (src.address + 0) = true ∧ end_minus_begin src ⟨out, 0⟩ ≥ 1)
    write_escaped_1 (write_escaped_1_spec out src) (fun h => h.2) i0
  obtain ⟨s2, e2, i2, _, _⟩ := guarded_chunk_spec out src s1 2
    (m.json_unaligned_4 (src.address + s1.begin) = true ∧ end_minus_begin src s1 ≥ 2)
    write_escaped_2 (write_escaped_2_spec out src) (fun h => h.2) i1
  obtain ⟨s3, e3, i3, _, _⟩ := guarded_chunk_spec out src s2 4
    (m.json_unaligned_8 (src.address + s2.begin) = true ∧ end_minus_begin src s2 ≥ 4)
    write_escaped_4 (write_escaped_4_spec out src) (fun h => h.2) i2
  obtain ⟨s4, e4, i4, r4, _⟩ := write_escaped_loop_spec out src _ s3 (le_refl _) i3
  obtain ⟨s5, e5, i5, _, r5⟩ := guarded_chunk_spec out src s4 4 (end_minus_begin src s4 ≥ 4)
    write_escaped_4 (write_escaped_4_spec out src) (fun h => h) i4
  obtain ⟨s6, e6, i6, _, r6⟩ := guarded_chunk_spec out src s5 2 (end_minus_begin src s5 ≥ 2)
    write_escaped_2 (write_escaped_2_spec out src) (fun h => h) i5
  obtain ⟨s7, e7, i7, _, r7⟩ := guarded_chunk_spec out src s6 1 (end_minus_begin src s6 ≥ 1)
    write_escaped_1 (write_escaped_1_spec out src) (fun h => h) i6
  have h5 := r5 (fun h => h) (by omega)
  have h6 := r6 (fun h => h) (by omega)
  have h7 := r7 (fun h => h) (by omega)
  have hend : s7.begin = src.bytes.length := by
    have := i7.1
    simp only [end_minus_begin] at h7
    omega
  have hout : s7.out = out ++ src.bytes.flatMap (write_escaped_c []) := by
    rw [i7.2, hend, List.take_length]
  unfold write_escaped
  simp only [bind, Option.bind_eq_bind]
  rw [e1, Option.some_bind, e2, Option.some_bind, e3, Option.some_bind, e4, Option.some_bind,
    e5, Option.some_bind, e6, Option.some_bind, e7, Option.some_bind]
  simp [hout]

/-- C5: for every byte `c` at or above 0x20, `write_escaped_c` appends the two
bytes backslash, `c` when `c` is a double quote, a backslash or a forward
slash, and the single byte `c` otherwise; bytes from 0x7F upwards are among the
latter, so `write_escaped` writes a sequence of bytes at or above 0x80
(multi-byte UTF-8) unaltered. -/
theorem write_escaped_c_printable (out : List Nat) (c : Nat) (h : 0x20 ≤ c) (hc : c < 256) :
    (write_escaped_c out c =
      if c = 34 ∨ c = 92 ∨ c = 47 then out ++ [92, c] else out ++ [c]) ∧
    (0x7F ≤ c → write_escaped_c out c = out ++ [c]) ∧
    (∀ (m : alignment_macros) (src : source_bytes), (∀ b ∈ src.bytes, 0x80 ≤ b) →
      write_escaped m out src = some (out ++ src.bytes)) := by
  refine ⟨?_, ?_, ?_⟩
  · unfold write_escaped_c
    by_cases h1 : c = 92 ∨ c = 34 ∨ c = 47
    · have h2 : c = 34 ∨ c = 92 ∨ c = 47 := by omega
      simp [h1, h2]
    · have h2 : ¬ (c = 34 ∨ c = 92 ∨ c = 47) := by omega
      simp [h1, h2, h]
  · intro h7
    unfold write_escaped_c
    have h1 : ¬ (c = 92 ∨ c = 34 ∨ c = 47) := by omega
    simp [h1, h]
  · intro m src hs
    rw [write_escaped_eq]
    congr 2
    generalize src.bytes = s at hs
    induction s with
    | nil => rfl
    | cons b rest ih =>
      have hb : 0x80 ≤ b := hs b (List.mem_cons_self _ _)
      have h1 : ¬ (b = 92 ∨ b = 34 ∨ b = 47) := by omega
      have h2 : b ≥ 0x20 := by omega
      have hesc : write_escaped_c [] b = [b] := by
        unfold write_escaped_c
        simp [h1, h2]
      rw [List.flatMap_cons, hesc, ih (fun x hx => hs x (List.mem_cons_of_mem _ hx))]
      rfl

theorem write_escaped_c_printable_witness :
    (0x20 ≤ 0xE9) ∧ (0xE9 < 256) ∧ write_escaped_c [] 0xE9 = [0xE9] ∧
      write_escaped low_bits_macros [] ⟨3, [0xE9, 0xB8, 0xA1]⟩ = some [0xE9, 0xB8, 0xA1] :=
  ⟨by decide, by decide,
    (write_escaped_c_printable [] 0xE9 (by decide) (by decide)).2.1 (by decide),
    (write_escaped_c_printable [] 0xE9 (by decide) (by decide)).2.2 low_bits_macros
      ⟨3, [0xE9, 0xB8, 0xA1]⟩ (by decide)⟩

/-- C6 as the doc comment of `write_escaped` has it, refuted: the forward slash
is neither a control character, nor a backslash, nor a quotation mark, yet
`write_escaped` does not copy it unchanged; it writes backslash, slash. -/
theorem write_escaped_alters_slash :
    ¬ (∀ c : Nat, c < 256 → ¬ c < 0x20 → c ≠ 92 → c ≠ 34 →
      write_escaped low_bits_macros [] ⟨0, [c]⟩ = some [c]) ∧
    write_escaped low_bits_macros [] ⟨0, [47]⟩ = some [92, 47] := by
  have h47 : write_escaped low_bits_macros [] ⟨0, [47]⟩ = some [92, 47] := by
    rw [write_escaped_eq]
    decide
  refine ⟨fun h => ?_, h47⟩
  have h := h 47 (by decide) (by decide) (by decide) (by decide)
  rw [h47] at h
  exact absurd h (by decide)

/-- C6, amended: `write_escaped` alters only control characters (0x00 through
0x1F), backslashes, quotation marks and forward slashes: it always returns,
and its output is the concatenation, in input order, of the escape of each
such byte and of every other input byte unchanged, as a single byte. -/
theorem write_escaped_alters_only (m : alignment_macros) (out : List Nat) (src : source_bytes) :
    write_escaped m out src = some (out ++ src.bytes.flatMap fun c =>
      if c < 0x20 ∨ c = 92 ∨ c = 34 ∨ c = 47 then write_escaped_c [] c else [c]) := by
  have hfun : (fun c => if c < 0x20 ∨ c = 92 ∨ c = 34 ∨ c = 47 then write_escaped_c [] c
      else [c]) = write_escaped_c [] := by
    funext c
    by_cases h : c < 0x20 ∨ c = 92 ∨ c = 34 ∨ c = 47
    · simp [h]
    · have h1 : ¬ (c = 92 ∨ c = 34 ∨ c = 47) := by omega
      have h2 : c ≥ 0x20 := by omega
      simp [h, write_escaped_c, h1, h2]
  rw [write_escaped_eq, hfun]

end detail

namespace basic_writer

/-! ## The writer -/

/-- C3: writing a string to the writer emits (after the separator, if one is
due) a double quote, then the escape of each byte of the string in input
order, then a double quote; the 4-byte string quote, backslash, newline, NUL
is emitted on a fresh writer as the 14 bytes quote, backslash-quote,
backslash-backslash, backslash-n, backslash-u0000, quote. -/
theorem shl_string_emits (w : basic_writer) (value : List Nat) :
    (w.shl_string value)._stream =
      w._stream ++ w.separator ++ [34] ++ value.flatMap (detail.write_escaped_c []) ++ [34] ∧
    ((init []).shl_string [34, 92, 10, 0])._stream =
      [34, 92, 34, 92, 92, 92, 110, 92, 117, 48, 48, 48, 48, 34] ∧
    ((init []).shl_string [34, 92, 10, 0])._stream.length = 14 := by
  refine ⟨?_, by decide, by decide⟩
  simp only [shl_string, put, separator_and_set, separator, detail.write_escaped_stream_eq]
  cases w._separator_needed <;> simp

/-- C7: for every writer state, writing a value token (null, a boolean, a
number, a string, or any value the stream renders) appends a comma exactly
when the separator flag is set, then the token, and leaves the flag set; on a
fresh writer no separator precedes the token. -/
theorem value_token_separator (w : basic_writer) :
    w.separator = (if w._separator_needed then [44] else []) ∧
    (∀ stream, (init stream).separator = []) ∧
    w.shl_null = ⟨w._stream ++ w.separator ++ [110, 117, 108, 108], true⟩ ∧
    (∀ b : Bool, w.shl_bool b =
      ⟨w._stream ++ w.separator ++ (if b then [116, 114, 117, 101] else [102, 97, 108, 115, 101]),
        true⟩) ∧
    (∀ (render : Int → List Nat) (n : Int), w.shl_int8 render n =
      ⟨w._stream ++ w.separator ++ render n, true⟩) ∧
    (∀ (render : Int → List Nat) (n : Nat), w.shl_uint8 render n =
      ⟨w._stream ++ w.separator ++ render n, true⟩) ∧
    (∀ (α : Type) (render : α → List Nat) (v : α), w.shl render v =
      ⟨w._stream ++ w.separator ++ render v, true⟩) ∧
    (∀ s : List Nat, w.shl_string s =
      ⟨w._stream ++ w.separator ++ ([34] ++ s.flatMap (detail.write_escaped_c []) ++ [34]),
        true⟩) ∧
    (∀ s : List Nat, w.shl_c_str s =
      ⟨w._stream ++ w.separator ++
        ([34] ++ (detail.null_terminated s).flatMap (detail.write_escaped_c []) ++ [34]), true⟩) := by
  refine ⟨rfl, fun _ => rfl, ?_, ?_, ?_, ?_, ?_, ?_, ?_⟩
  · cases h : w._separator_needed <;>
      simp [shl_null, separator_and_set, write, separator, h]
  · intro b
    cases h : w._separator_needed <;> cases b <;>
      simp [shl_bool, separator_and_set, write, separator, h]
  · intro render n
    cases h : w._separator_needed <;>
      simp [shl_int8, separator_and_set, write_value, separator, h]
  · intro render n
    cases h : w._separator_needed <;>
      simp [shl_uint8, separator_and_set, write_value, separator, h]
  · intro α render v
    cases h : w._separator_needed <;>
      simp [shl, separator_and_set, write_value, separator, h]
  · intro s
    cases h : w._separator_needed <;>
      simp [shl_string, separator_and_set, put, separator, h, detail.write_escaped_stream_eq]
  · intro s
    cases h : w._separator_needed <;>
      simp [shl_c_str, separator_and_set, put, separator, h, detail.write_escaped_stream_eq]

theorem scoped_array_eq (w : basic_writer) :
    scoped_array w = ⟨w._stream ++ w.separator ++ [91], false⟩ := by
  cases h : w._separator_needed <;> simp [scoped_array, separator_and_clear, put, separator, h]

theorem scoped_object_eq (w : basic_writer) :
    scoped_object w = ⟨w._stream ++ w.separator ++ [123], false⟩ := by
  cases h : w._separator_needed <;> simp [scoped_object, separator_and_clear, put, separator, h]

/-- C9: opening an array or object scope emits a comma exactly when the flag
was set, then the opening bracket, and leaves the flag clear; closing the scope
emits the closing bracket and leaves the flag set, whatever the body wrote
(including nothing). So the body of `add_array` and `add_object` starts with a
clear flag and the completed container leaves the flag set, and the nested
containers `[[],[]]` get exactly one separator, between the two siblings. -/
theorem scope_separator_flag (w : basic_writer) (func : functor) :
    scoped_array w = ⟨w._stream ++ w.separator ++ [91], false⟩ ∧
    scoped_object w = ⟨w._stream ++ w.separator ++ [123], false⟩ ∧
    (∀ body : basic_writer, scoped_array_destroy body = ⟨body._stream ++ [93], true⟩) ∧
    (∀ body : basic_writer, scoped_object_destroy body = ⟨body._stream ++ [125], true⟩) ∧
    w.add_array func =
      (⟨(func ⟨w._stream ++ w.separator ++ [91], false⟩).1._stream ++ [93], true⟩,
        (func ⟨w._stream ++ w.separator ++ [91], false⟩).2) ∧
    w.add_object func =
      (⟨(func ⟨w._stream ++ w.separator ++ [123], false⟩).1._stream ++ [125], true⟩,
        (func ⟨w._stream ++ w.separator ++ [123], false⟩).2) ∧
    ((init []).add_array fun w =>
      ((w.add_array fun w => (w, false)).1.add_array fun w => (w, false))).1 =
      ⟨[91, 91, 93, 44, 91, 93, 93], true⟩ := by
  have ha := scoped_array_eq w
  have ho := scoped_object_eq w
  refine ⟨ha, ho, fun _ => rfl, fun _ => rfl, ?_, ?_, by decide⟩
  · simp only [add_array, ha]
    rfl
  · simp only [add_object, ho]
    rfl

/-- C10: a key object holds the double-quoted, escaped form of its name, made
once by the constructor, and is written byte for byte. Writing a key/value pair
(`add_pair`, or the operator `<<` on a pair) emits a comma exactly when the flag
was set, then the key, then a colon, then the value, which is written with the
flag clear so that no separator stands between the colon and the value; after a
value token the flag is set. -/
theorem add_pair_emits (w : basic_writer) (name : List Nat) :
    (key.of_iterable name).data = [34] ++ name.flatMap (detail.write_escaped_c []) ++ [34] ∧
    (key.of_iterable name).size = (key.of_iterable name).data.length ∧
    w.shl_key (key.of_iterable name) =
      ⟨w._stream ++ w.separator ++ (key.of_iterable name).data, true⟩ ∧
    (∀ (ν : Type) (shl_v : basic_writer → ν → basic_writer) (value : ν),
      w.add_pair shl_key shl_v (key.of_iterable name) value =
        shl_v ⟨w._stream ++ w.separator ++ (key.of_iterable name).data ++ [58], false⟩ value) ∧
    (∀ (ν : Type) (render : ν → List Nat) (value : ν),
      w.add_pair shl_key (shl render) (key.of_iterable name) value =
        ⟨w._stream ++ w.separator ++ (key.of_iterable name).data ++ [58] ++ render value, true⟩) ∧
    (∀ (ν : Type) (render : ν → List Nat) (value : ν),
      shl_pair shl_key (shl render) w ⟨key.of_iterable name, value⟩ =
        ⟨w._stream ++ w.separator ++ (key.of_iterable name).data ++ [58] ++ render value, true⟩) := by
  have hdata : (key.of_iterable name).data =
      [34] ++ name.flatMap (detail.write_escaped_c []) ++ [34] := by
    simp [key.of_iterable, detail.write_escaped_stream_eq]
  have hsize : (key.of_iterable name).size = (key.of_iterable name).data.length := rfl
  have hkey : w.shl_key (key.of_iterable name) =
      ⟨w._stream ++ w.separator ++ (key.of_iterable name).data, true⟩ := by
    cases h : w._separator_needed <;>
      simp [shl_key, separator_and_set, write, separator, h, hsize]
  have hpair : ∀ (ν : Type) (shl_v : basic_writer → ν → basic_writer) (value : ν),
      w.add_pair shl_key shl_v (key.of_iterable name) value =
        shl_v ⟨w._stream ++ w.separator ++ (key.of_iterable name).data ++ [58], false⟩ value := by
    intro ν shl_v value
    simp only [add_pair, hkey]
    rfl
  have htoken : ∀ (ν : Type) (render : ν → List Nat) (value : ν),
      w.add_pair shl_key (shl render) (key.of_iterable name) value =
        ⟨w._stream ++ w.separator ++ (key.of_iterable name).data ++ [58] ++ render value,
          true⟩ := by
    intro ν render value
    rw [hpair]
    simp [shl, separator_and_set, write_value]
  exact ⟨hdata, hsize, hkey, hpair, htoken, fun ν render value => htoken ν render value⟩

end basic_writer

/-! ## The boolean codec -/

/-- C2: for both boolean values the writer emits the literal `true` or `false`,
and decoding that text with the boolean codec returns the value with the
cursor at the end of the text. -/
theorem boolean_round_trip (b : Bool) :
    ((basic_writer.init []).shl_bool b)._stream =
      (if b then [116, 114, 117, 101] else [102, 97, 108, 115, 101]) ∧
    encode codec.boolean b = ((basic_writer.init []).shl_bool b)._stream ∧
    codec.boolean.decode (decoding_context.init (encode codec.boolean b)) =
      some ⟨.ok b, (encode codec.boolean b).length⟩ := by
  cases b <;> exact ⟨rfl, rfl, rfl⟩

/-! ## The array codec: encoding -/

theorem boolean_writes_one_value : writes_one_value codec.boolean boolean_text := by
  intro element w
  cases element <;> cases h : w._separator_needed <;>
    simp [codec.boolean, codec.boolean_t.encode, basic_writer.shl_bool, basic_writer.shl,
      basic_writer.separator_and_set, basic_writer.write, basic_writer.write_value,
      boolean_text, h]

/-- The elements after the first: each is preceded by a comma. -/
theorem encode_elements_separated (c : codec α) (text : α → List Nat)
    (hone : writes_one_value c text) (xs : List α) (stream : List Nat) :
    xs.foldl (fun w element => c.encode element w) ⟨stream, true⟩ =
      ⟨stream ++ xs.flatMap (fun x => 44 :: text x), true⟩ := by
  induction xs generalizing stream with
  | nil => simp
  | cons x rest ih =>
    rw [List.foldl_cons, hone x]
    simp only [basic_writer.shl, basic_writer.separator_and_set, basic_writer.write_value,
      if_true]
    rw [ih]
    simp [List.flatMap_cons, List.append_assoc]

/-- The elements of a list joined by commas: the first, then every later one
preceded by a comma. -/
theorem intercalate_comma (t : List Nat) (ts : List (List Nat)) :
    List.intercalate [44] (t :: ts) = t ++ ts.flatMap (fun u => 44 :: u) := by
  induction ts generalizing t with
  | nil => simp [List.intercalate]
  | cons u rest ih =>
    have h := ih u
    simp only [List.intercalate, List.intersperse, List.flatten_cons] at h ⊢
    rw [h]
    simp [List.flatMap_cons]

theorem array_encode_stream (c : codec α) (text : α → List Nat)
    (hone : writes_one_value c text) (xs : List α) (w : writer) :
    codec.array_t.encode c xs w =
      ⟨w._stream ++ w.separator ++ [91] ++ List.intercalate [44] (xs.map text) ++ [93], true⟩ := by
  have hopen := basic_writer.scoped_array_eq w
  simp only [codec.array_t.encode, basic_writer.add_array, hopen,
    basic_writer.scoped_array_destroy, basic_writer.put, basic_writer.set_separator]
  cases xs with
  | nil => simp [List.intercalate]
  | cons x rest =>
    rw [List.foldl_cons, hone x]
    simp only [basic_writer.shl, basic_writer.separator_and_set, basic_writer.write_value]
    simp only [Bool.false_eq_true, if_false]
    rw [encode_elements_separated c text hone, List.map_cons, intercalate_comma]
    simp [List.flatMap_map, List.append_assoc]

theorem flatMap_comma_length (ts : List (List Nat)) :
    (ts.flatMap (fun u => 44 :: u)).length = (ts.map List.length).sum + ts.length := by
  induction ts with
  | nil => rfl
  | cons u rest ih =>
    simp only [List.flatMap_cons, List.length_append, List.length_cons, List.map_cons,
      List.sum_cons, ih]
    omega

/-- C8: for every list and every inner codec that writes exactly one value per
element, array encode emits (after the separator, if one is due) '[', then the
encodings of the elements in order, joined by single commas, then ']'; the
separators are one fewer than the elements, none follows '[' or precedes ']'.
On a fresh writer the empty list is emitted as `[]` and the three strings a,
b, c as `["a","b","c"]`. -/
theorem array_encode_emits (c : codec α) (text : α → List Nat) (xs : List α)
    (hone : writes_one_value c text) :
    (∀ w : writer, codec.array_t.encode c xs w =
      ⟨w._stream ++ w.separator ++ [91] ++ List.intercalate [44] (xs.map text) ++ [93], true⟩) ∧
    (∀ fuel : Nat, encode (codec.array fuel c) xs =
      [91] ++ List.intercalate [44] (xs.map text) ++ [93]) ∧
    (∀ fuel : Nat, (encode (codec.array fuel c) xs).length =
      2 + ((xs.map text).map List.length).sum + (xs.length - 1)) ∧
    (∀ fuel : Nat, encode (codec.array fuel c) [] = [91, 93]) ∧
    (∀ fuel : Nat,
      encode (codec.array fuel
        ({ encode := fun value w => w.shl_string value, decode := fun _ => none } :
          codec (List Nat))) [[97], [98], [99]] =
        [91, 34, 97, 34, 44, 34, 98, 34, 44, 34, 99, 34, 93]) := by
  have hstream := array_encode_stream c text hone
  have henc : ∀ (fuel : Nat) (ys : List α), encode (codec.array fuel c) ys =
      [91] ++ List.intercalate [44] (ys.map text) ++ [93] := by
    intro fuel ys
    simp [encode, codec.array, array_encode_stream c text hone, basic_writer.init,
      basic_writer.separator]
  refine ⟨hstream xs, fun fuel => henc fuel xs, ?_, ?_, fun _ => rfl⟩
  · intro fuel
    rw [henc]
    cases xs with
    | nil => simp [List.intercalate]
    | cons x rest =>
      rw [List.map_cons, intercalate_comma]
      simp only [List.length_append, List.length_cons, List.length_nil,
        flatMap_comma_length, List.map_cons, List.sum_cons, List.length_map]
      omega
  · intro fuel
    rw [henc]
    simp [List.intercalate]

theorem array_encode_emits_witness :
    writes_one_value codec.boolean boolean_text ∧
      encode (codec.array 0 codec.boolean) [true, false] =
        [91, 116, 114, 117, 101, 44, 102, 97, 108, 115, 101, 93] :=
  ⟨boolean_writes_one_value,
    ((array_encode_emits codec.boolean boolean_text [true, false]
      boolean_writes_one_value).2.1 0).trans (by decide)⟩

/-! ## The array codec: decoding -/

theorem peek_at (pre : List Nat) (b : Nat) (tail : List Nat) :
    detail.peek ⟨pre.length, pre ++ b :: tail⟩ = .ok b := by
  have h : (pre ++ b :: tail)[pre.length]? = some b := by
    rw [List.getElem?_append_right (le_refl _)]
    simp
  simp only [detail.peek, h]

theorem skip_whitespace_at (pre : List Nat) (b : Nat) (tail : List Nat)
    (hb : detail.is_space b = false) :
    detail.skip_whitespace ⟨pre.length, pre ++ b :: tail⟩ = ⟨pre.length, pre ++ b :: tail⟩ := by
  simp [detail.skip_whitespace, List.takeWhile_cons, hb]

theorem starts_a_value_cons (text : List Nat) (h : starts_a_value text = true) :
    ∃ b t, text = b :: t ∧ detail.is_space b = false ∧ b ≠ 93 := by
  cases text with
  | nil => simp [starts_a_value] at h
  | cons b t =>
    refine ⟨b, t, rfl, ?_, ?_⟩
    · simp only [starts_a_value, Bool.and_eq_true, Bool.not_eq_true'] at h
      exact h.1
    · simp only [starts_a_value, Bool.and_eq_true, bne_iff_ne] at h
      exact h.2

/-- The element loop, started at the first byte of the first element of a
comma-separated run that a closing bracket ends, decodes every element and
stops just past the bracket. -/
theorem comma_separated_loop_elements (c : codec α) (text : α → List Nat) :
    ∀ (rest : List α) (x : α) (pre post : List Nat) (acc : List α) (fuel : Nat),
      (∀ y ∈ x :: rest, decodes_own_text c text y ∧ starts_a_value (text y) = true) →
      rest.length < fuel →
      detail.comma_separated_loop 93 (codec.array_t.push_back_decoded c) fuel acc
          ⟨pre.length, pre ++ (text x ++ (rest.flatMap (fun y => 44 :: text y) ++ 93 :: post))⟩ =
        some ⟨.ok (acc ++ x :: rest),
          pre.length + (text x ++ rest.flatMap (fun y => 44 :: text y)).length + 1⟩ := by
  intro rest
  induction rest with
  | nil =>
    intro x pre post acc fuel hx hfuel
    obtain ⟨f, rfl⟩ : ∃ f, fuel = f + 1 := ⟨fuel - 1, by simp at hfuel; omega⟩
    obtain ⟨hdec, hfirst⟩ := hx x (List.mem_cons_self _ _)
    obtain ⟨b, t, hbt, hsp, _⟩ := starts_a_value_cons _ hfirst
    have hskip : detail.skip_whitespace ⟨pre.length, pre ++ (text x ++ ([] ++ 93 :: post))⟩ =
        ⟨pre.length, pre ++ (text x ++ ([] ++ 93 :: post))⟩ := by
      rw [hbt]
      exact skip_whitespace_at pre b _ hsp
    have hparse : codec.array_t.push_back_decoded c acc
        ⟨pre.length, pre ++ (text x ++ ([] ++ 93 :: post))⟩ =
        some ⟨.ok (acc ++ [x]), (pre ++ text x).length⟩ := by
      have h := hdec pre ([] ++ 93 :: post)
      rw [List.append_assoc] at h
      simp only [codec.array_t.push_back_decoded, h, List.length_append]
    have hinput : pre ++ (text x ++ ([] ++ 93 :: post)) = (pre ++ text x) ++ 93 :: post := by
      simp
    rw [detail.comma_separated_loop]
    simp only [List.flatMap_nil, hskip, hparse]
    rw [hinput, skip_whitespace_at (pre ++ text x) 93 post (by decide),
      peek_at (pre ++ text x) 93 post]
    simp [List.length_append]
  | cons y rest ih =>
    intro x pre post acc fuel hx hfuel
    obtain ⟨f, rfl⟩ : ∃ f, fuel = f + 1 := ⟨fuel - 1, by simp at hfuel; omega⟩
    obtain ⟨hdec, hfirst⟩ := hx x (List.mem_cons_self _ _)
    obtain ⟨b, t, hbt, hsp, _⟩ := starts_a_value_cons _ hfirst
    have htail : (y :: rest).flatMap (fun y => 44 :: text y) ++ 93 :: post =
        44 :: (text y ++ (rest.flatMap (fun y => 44 :: text y) ++ 93 :: post)) := by
      simp [List.flatMap_cons]
    have hskip : detail.skip_whitespace
        ⟨pre.length, pre ++ (text x ++ ((y :: rest).flatMap (fun y => 44 :: text y) ++ 93 :: post))⟩ =
        ⟨pre.length, pre ++ (text x ++ ((y :: rest).flatMap (fun y => 44 :: text y) ++ 93 :: post))⟩ := by
      rw [hbt]
      exact skip_whitespace_at pre b _ hsp
    have hparse : codec.array_t.push_back_decoded c acc
        ⟨pre.length, pre ++ (text x ++ ((y :: rest).flatMap (fun y => 44 :: text y) ++ 93 :: post))⟩ =
        some ⟨.ok (acc ++ [x]), (pre ++ text x).length⟩ := by
      have h := hdec pre ((y :: rest).flatMap (fun y => 44 :: text y) ++ 93 :: post)
      rw [List.append_assoc] at h
      simp only [codec.array_t.push_back_decoded, h, List.length_append]
    have hinput : pre ++ (text x ++ ((y :: rest).flatMap (fun y => 44 :: text y) ++ 93 :: post)) =
        (pre ++ text x) ++ 44 :: (text y ++ (rest.flatMap (fun y => 44 :: text y) ++ 93 :: post)) := by
      rw [htail, List.append_assoc]
    have hnext : ((pre ++ text x) ++ 44 :: (text y ++ (rest.flatMap (fun y => 44 :: text y) ++ 93 :: post))) =
        (pre ++ text x ++ [44]) ++ (text y ++ (rest.flatMap (fun y => 44 :: text y) ++ 93 :: post)) := by
      simp
    have hrec := ih y (pre ++ text x ++ [44]) post (acc ++ [x]) f
      (fun z hz => hx z (List.mem_cons_of_mem _ hz)) (by simp at hfuel; omega)
    rw [detail.comma_separated_loop]
    simp only [hskip, hparse]
    rw [hinput, skip_whitespace_at (pre ++ text x) 44 _ (by decide),
      peek_at (pre ++ text x) 44 _]
    simp only [if_true]
    rw [hnext]
    have hpos : (pre ++ text x).length + 1 = (pre ++ text x ++ [44]).length := by
      simp only [List.length_append, List.length_cons, List.length_nil]
    rw [hpos, hrec]
    simp only [List.append_assoc, List.singleton_append, List.length_append, List.length_cons,
      List.length_nil, List.flatMap_cons]
    congr 2
    omega

theorem array_decode_text (c : codec α) (text : α → List Nat) (xs : List α) (fuel : Nat)
    (hx : ∀ y ∈ xs, decodes_own_text c text y ∧ starts_a_value (text y) = true)
    (hfuel : xs.length ≤ fuel) :
    codec.array_t.decode fuel c
        (decoding_context.init ([91] ++ List.intercalate [44] (xs.map text) ++ [93])) =
      some ⟨.ok xs, ([91] ++ List.intercalate [44] (xs.map text) ++ [93]).length⟩ := by
  cases xs with
  | nil => rfl
  | cons x rest =>
    obtain ⟨_, hfirst⟩ := hx x (List.mem_cons_self _ _)
    obtain ⟨b, t, hbt, hsp, hne⟩ := starts_a_value_cons _ hfirst
    have hloop := comma_separated_loop_elements c text rest x [91] [] [] fuel hx
      (by simp at hfuel; omega)
    have hflat : (List.map text rest).flatMap (fun u => 44 :: u) =
        rest.flatMap (fun y => 44 :: text y) := by
      simp [List.flatMap_map]
    have hinput : [91] ++ List.intercalate [44] ((x :: rest).map text) ++ [93] =
        [91] ++ (text x ++ (rest.flatMap (fun y => 44 :: text y) ++ 93 :: [])) := by
      rw [List.map_cons, intercalate_comma, hflat]
      simp
    have hpeek : detail.peek
        ⟨0, [91] ++ (text x ++ (rest.flatMap (fun y => 44 :: text y) ++ 93 :: []))⟩ = .ok 91 :=
      peek_at [] 91 _
    have hskip : detail.skip_whitespace
        ⟨0 + 1, [91] ++ (text x ++ (rest.flatMap (fun y => 44 :: text y) ++ 93 :: []))⟩ =
        ⟨[91].length, [91] ++ (text x ++ (rest.flatMap (fun y => 44 :: text y) ++ 93 :: []))⟩ := by
      rw [hbt]
      exact skip_whitespace_at [91] b _ hsp
    have hnot : ([91] ++ (text x ++ (rest.flatMap (fun y => 44 :: text y) ++ 93 :: [])))[
        [91].length]? ≠ some 93 := by
      rw [hbt]
      simpa using hne
    rw [hinput]
    simp only [codec.array_t.decode, detail.advance_past_comma_separated, decoding_context.init,
      hpeek, if_true, hskip, hnot, if_false, hloop]
    simp only [List.length_append, List.length_cons, List.length_nil, List.nil_append]
    have hpos : 0 + 1 + ((text x).length + (rest.flatMap fun y => 44 :: text y).length) + 1 =
        0 + 1 + ((text x).length + ((rest.flatMap fun y => 44 :: text y).length + (0 + 1))) := by
      omega
    rw [hpos]

theorem boolean_decodes_own_text (b : Bool) : decodes_own_text codec.boolean boolean_text b := by
  intro pre post
  have hdrop : ∀ tail : List Nat, List.drop pre.length (pre ++ tail) = tail := fun tail =>
    List.drop_left pre tail
  cases b
  · have hpeek := peek_at pre 102 ([97, 108, 115, 101] ++ post)
    simp only [boolean_text, Bool.false_eq_true, if_false, List.append_assoc, List.cons_append,
      List.nil_append] at hpeek ⊢
    simp [codec.boolean, codec.boolean_t.decode, hpeek, detail.advance_past_false,
      detail.expect_literal, hdrop]
  · have hpeek := peek_at pre 116 ([114, 117, 101] ++ post)
    simp only [boolean_text, if_true, List.append_assoc, List.cons_append,
      List.nil_append] at hpeek ⊢
    simp [codec.boolean, codec.boolean_t.decode, hpeek, detail.advance_past_true,
      detail.expect_literal, hdrop]

theorem constant_codec_writes_one_value (text : List Nat) :
    writes_one_value (constant_codec text) (fun _ => text) :=
  fun _ _ => rfl

theorem constant_codec_decodes_own_text (text : List Nat) :
    decodes_own_text (constant_codec text) (fun _ => text) () := by
  intro pre post
  have hdrop : List.drop pre.length (pre ++ text ++ post) = text ++ post := by
    rw [List.append_assoc]
    exact List.drop_left pre _
  have hpre : text.isPrefixOf (text ++ post) = true := by
    simp
  simp [constant_codec, detail.expect_literal, hdrop, hpre]

/-- C1 as stated, refuted: an inner codec may decode each element from its own
encoding and still not survive the array round trip. The one-element list of
the codec whose encoding is a single space is written as `[ ]`, of the codec
whose encoding is a closing bracket as `[]]`, and of the codec whose encoding
is empty as `[]`; array decode takes each of these texts for the empty array
and returns the empty list. -/
theorem array_round_trip_needs_value_start :
    ¬ (∀ (c : codec Unit) (text : Unit → List Nat) (xs : List Unit),
        writes_one_value c text → (∀ x ∈ xs, decodes_own_text c text x) →
        ∃ fuel : Nat,
          (codec.array fuel c).decode (decoding_context.init (encode (codec.array fuel c) xs)) =
            some ⟨.ok xs, (encode (codec.array fuel c) xs).length⟩) ∧
    (decodes_own_text (constant_codec [32]) (fun _ => [32]) () ∧
      ∀ fuel : Nat,
        encode (codec.array fuel (constant_codec [32])) [()] = [91, 32, 93] ∧
        (codec.array fuel (constant_codec [32])).decode (decoding_context.init [91, 32, 93]) =
          some ⟨.ok [], 3⟩) ∧
    (decodes_own_text (constant_codec [93]) (fun _ => [93]) () ∧
      ∀ fuel : Nat,
        encode (codec.array fuel (constant_codec [93])) [()] = [91, 93, 93] ∧
        (codec.array fuel (constant_codec [93])).decode (decoding_context.init [91, 93, 93]) =
          some ⟨.ok [], 2⟩) ∧
    (decodes_own_text (constant_codec []) (fun _ => []) () ∧
      ∀ fuel : Nat,
        encode (codec.array fuel (constant_codec [])) [()] = [91, 93] ∧
        (codec.array fuel (constant_codec [])).decode (decoding_context.init [91, 93]) =
          some ⟨.ok [], 2⟩) := by
  refine ⟨fun h => ?_, ⟨constant_codec_decodes_own_text [32], fun _ => ⟨rfl, rfl⟩⟩,
    ⟨constant_codec_decodes_own_text [93], fun _ => ⟨rfl, rfl⟩⟩,
    ⟨constant_codec_decodes_own_text [], fun _ => ⟨rfl, rfl⟩⟩⟩
  obtain ⟨fuel, hfuel⟩ := h (constant_codec [32]) (fun _ => [32]) [()]
    (constant_codec_writes_one_value [32])
    (fun _ _ => constant_codec_decodes_own_text [32])
  have henc : encode (codec.array fuel (constant_codec [32])) [()] = [91, 32, 93] := rfl
  have hdecode : (codec.array fuel (constant_codec [32])).decode
      (decoding_context.init [91, 32, 93]) = some ⟨.ok [], 3⟩ := rfl
  rw [henc, hdecode] at hfuel
  simp at hfuel

/-- C1, amended: for every list and every inner codec that writes each element
as one value whose text is not empty and starts with a byte that is neither
whitespace nor ']', and that decodes each element from the first byte of its
own encoding, wherever it lies and whatever bytes follow, leaving the cursor
just past it: decoding with array(c) the text produced by array(c).encode
returns, given fuel for one turn of the loop per element, the same elements in
the same order and leaves the cursor at the end of the text; the text `[]`
decodes to the empty list. -/
theorem array_round_trip (c : codec α) (text : α → List Nat) (xs : List α) (fuel : Nat)
    (hone : writes_one_value c text)
    (hdec : ∀ x ∈ xs, decodes_own_text c text x)
    (hfirst : ∀ x ∈ xs, starts_a_value (text x) = true)
    (hfuel : xs.length ≤ fuel) :
    (codec.array fuel c).decode (decoding_context.init (encode (codec.array fuel c) xs)) =
      some ⟨.ok xs, (encode (codec.array fuel c) xs).length⟩ ∧
    (codec.array fuel c).decode (decoding_context.init [91, 93]) = some ⟨.ok [], 2⟩ := by
  have henc : encode (codec.array fuel c) xs =
      [91] ++ List.intercalate [44] (xs.map text) ++ [93] := by
    simp [encode, codec.array, array_encode_stream c text hone, basic_writer.init,
      basic_writer.separator]
  refine ⟨?_, rfl⟩
  rw [henc]
  exact array_decode_text c text xs fuel (fun y hy => ⟨hdec y hy, hfirst y hy⟩) hfuel

theorem array_round_trip_witness :
    writes_one_value codec.boolean boolean_text ∧
    (∀ x ∈ [true, false], decodes_own_text codec.boolean boolean_text x) ∧
    (∀ x ∈ [true, false], starts_a_value (boolean_text x) = true) ∧
    [true, false].length ≤ 2 ∧
    encode (codec.array 2 codec.boolean) [true, false] =
      [91, 116, 114, 117, 101, 44, 102, 97, 108, 115, 101, 93] ∧
    (codec.array 2 codec.boolean).decode
        (decoding_context.init [91, 116, 114, 117, 101, 44, 102, 97, 108, 115, 101, 93]) =
      some ⟨.ok [true, false], 12⟩ :=
  ⟨boolean_writes_one_value, fun x _ => boolean_decodes_own_text x, by decide, by decide, rfl,
    (array_round_trip codec.boolean boolean_text [true, false] 2 boolean_writes_one_value
      (fun x _ => boolean_decodes_own_text x) (by decide) (by decide)).1⟩

/-! ## The loop over comma-separated items, in general -/

theorem skip_whitespace_run (pre ws : List Nat) (b : Nat) (tail : List Nat)
    (hws : ∀ c ∈ ws, detail.is_space c = true) (hb : detail.is_space b = false) :
    detail.skip_whitespace ⟨pre.length, pre ++ (ws ++ b :: tail)⟩ =
      ⟨(pre ++ ws).length, pre ++ (ws ++ b :: tail)⟩ := by
  have htake : List.takeWhile detail.is_space (ws ++ b :: tail) = ws := by
    induction ws with
    | nil => simp [List.takeWhile_cons, hb]
    | cons c rest ih =>
      have hc : detail.is_space c = true := hws c (List.mem_cons_self _ _)
      simp only [List.cons_append, List.takeWhile_cons, hc, if_true]
      rw [ih (fun x hx => hws x (List.mem_cons_of_mem _ hx))]
  simp only [detail.skip_whitespace, List.drop_left, htake, List.length_append]

theorem skip_whitespace_input (context : decoding_context) :
    (detail.skip_whitespace context).input = context.input := rfl

/-- One run of the loop of `advance_past_comma_separated` over the texts of a
list of items: when every turn parses its item as `step` says, the loop ends
as `fold_steps` says, just past the closing byte. -/
theorem comma_separated_loop_fold (outro : Nat) (parse : σ → decoder σ) (text : ι → List Nat)
    (step : σ → ι → Except String σ) (items : List ι) (houtro : outro ≠ 44)
    (hturn : ∀ x ∈ items, ∀ (state : σ) (pre post : List Nat) (d : Nat), (d = 44 ∨ d = outro) →
      match step state x with
      | .ok state' =>
        ∃ p, parse state (detail.skip_whitespace ⟨pre.length, pre ++ (text x ++ d :: post)⟩) =
            some ⟨.ok state', p⟩ ∧
          detail.skip_whitespace ⟨p, pre ++ (text x ++ d :: post)⟩ =
            ⟨(pre ++ text x).length, pre ++ (text x ++ d :: post)⟩
      | .error message =>
        ∃ offset p,
          parse state (detail.skip_whitespace ⟨pre.length, pre ++ (text x ++ d :: post)⟩) =
            some ⟨.error ⟨message, offset⟩, p⟩) :
    ∀ (rest : List ι) (x : ι) (pre post : List Nat) (state : σ) (fuel : Nat),
      (∀ y ∈ x :: rest, y ∈ items) → rest.length < fuel →
      match fold_steps step state (x :: rest) with
      | .ok state' =>
        detail.comma_separated_loop outro parse fuel state
            ⟨pre.length, pre ++ (text x ++ (rest.flatMap (fun y => 44 :: text y) ++ outro :: post))⟩ =
          some ⟨.ok state',
            pre.length + (text x ++ rest.flatMap (fun y => 44 :: text y)).length + 1⟩
      | .error message =>
        ∃ offset p,
          detail.comma_separated_loop outro parse fuel state
              ⟨pre.length,
                pre ++ (text x ++ (rest.flatMap (fun y => 44 :: text y) ++ outro :: post))⟩ =
            some ⟨.error ⟨message, offset⟩, p⟩ := by
  intro rest
  induction rest with
  | nil =>
    intro x pre post state fuel hmem hfuel
    obtain ⟨f, rfl⟩ : ∃ f, fuel = f + 1 := ⟨fuel - 1, by simp at hfuel; omega⟩
    have ht := hturn x (hmem x (List.mem_cons_self _ _)) state pre post outro (Or.inr rfl)
    simp only [fold_steps, List.flatMap_nil, List.nil_append]
    rw [detail.comma_separated_loop]
    cases hstep : step state x with
    | error message =>
      rw [hstep] at ht
      obtain ⟨offset, p, hp⟩ := ht
      exact ⟨offset, p, by simp only [hp]⟩
    | ok state' =>
      rw [hstep] at ht
      obtain ⟨p, hp, hskip⟩ := ht
      simp only [hp, skip_whitespace_input, hskip]
      have hassoc : pre ++ (text x ++ outro :: post) = (pre ++ text x) ++ outro :: post := by
        simp
      rw [hassoc, peek_at]
      simp [houtro, List.length_append]
  | cons y rest ih =>
    intro x pre post state fuel hmem hfuel
    obtain ⟨f, rfl⟩ : ∃ f, fuel = f + 1 := ⟨fuel - 1, by simp at hfuel; omega⟩
    have htail : (y :: rest).flatMap (fun y => 44 :: text y) ++ outro :: post =
        44 :: (text y ++ (rest.flatMap (fun y => 44 :: text y) ++ outro :: post)) := by
      simp [List.flatMap_cons]
    have ht := hturn x (hmem x (List.mem_cons_self _ _)) state pre
      (text y ++ (rest.flatMap (fun y => 44 :: text y) ++ outro :: post)) 44 (Or.inl rfl)
    rw [htail, detail.comma_separated_loop]
    rw [fold_steps]
    cases hstep : step state x with
    | error message =>
      rw [hstep] at ht
      obtain ⟨offset, p, hp⟩ := ht
      exact ⟨offset, p, by simp only [hp]⟩
    | ok state' =>
      rw [hstep] at ht
      obtain ⟨p, hp, hskip⟩ := ht
      have hrec := ih y (pre ++ text x ++ [44]) post state' f
        (fun z hz => hmem z (List.mem_cons_of_mem _ hz)) (by simp at hfuel; omega)
      have hassoc : pre ++ (text x ++ 44 :: (text y ++
          (rest.flatMap (fun y => 44 :: text y) ++ outro :: post))) =
          (pre ++ text x) ++ 44 :: (text y ++
            (rest.flatMap (fun y => 44 :: text y) ++ outro :: post)) := by
        simp
      have hnext : (pre ++ text x) ++ 44 :: (text y ++
          (rest.flatMap (fun y => 44 :: text y) ++ outro :: post)) =
          (pre ++ text x ++ [44]) ++ (text y ++
            (rest.flatMap (fun y => 44 :: text y) ++ outro :: post)) := by
        simp
      have hpos : (pre ++ text x).length + 1 = (pre ++ text x ++ [44]).length := by
        simp only [List.length_append, List.length_cons, List.length_nil]
      simp only [hp, skip_whitespace_input, hskip]
      rw [hassoc, peek_at]
      simp only [if_true]
      rw [hnext, hpos]
      cases hfold : fold_steps step state' (y :: rest) with
      | error message =>
        rw [hfold] at hrec
        exact hrec
      | ok final =>
        rw [hfold] at hrec
        simp only []
        rw [hrec]
        simp only [List.append_assoc, List.singleton_append, List.length_append,
          List.length_cons, List.length_nil, List.flatMap_cons]
        congr 2
        omega

theorem takeWhile_dropWhile_nil (p : Nat → Bool) (l : List Nat) :
    List.takeWhile p (List.dropWhile p l) = [] := by
  induction l with
  | nil => rfl
  | cons c rest ih =>
    by_cases hc : p c = true
    · simp only [List.dropWhile_cons, hc, if_true, ih]
    · simp only [List.dropWhile_cons, hc, if_false, List.takeWhile_cons]
      simpa using hc

theorem drop_takeWhile_length (p : Nat → Bool) (l : List Nat) :
    List.drop (List.takeWhile p l).length l = List.dropWhile p l := by
  induction l with
  | nil => rfl
  | cons c rest ih =>
    by_cases hc : p c = true
    · simp only [List.takeWhile_cons, hc, if_true, List.length_cons, List.drop_succ_cons,
        List.dropWhile_cons, ih]
    · simp only [List.takeWhile_cons, hc, if_false, List.length_nil, List.drop_zero,
        List.dropWhile_cons]
      simp

theorem skip_whitespace_idem (context : decoding_context) :
    detail.skip_whitespace (detail.skip_whitespace context) = detail.skip_whitespace context := by
  simp only [detail.skip_whitespace]
  have h : List.drop (context.position +
      (List.takeWhile detail.is_space (List.drop context.position context.input)).length)
      context.input =
      List.dropWhile detail.is_space (List.drop context.position context.input) := by
    rw [← List.drop_drop, drop_takeWhile_length]
  rw [h, takeWhile_dropWhile_nil]
  rfl

theorem comma_separated_loop_skip (outro : Nat) (parse : σ → decoder σ) (fuel : Nat) (state : σ)
    (context : decoding_context) :
    detail.comma_separated_loop outro parse fuel state (detail.skip_whitespace context) =
      detail.comma_separated_loop outro parse fuel state context := by
  cases fuel with
  | zero => rfl
  | succ f =>
    rw [detail.comma_separated_loop, detail.comma_separated_loop, skip_whitespace_idem]

/-- The whole of `advance_past_comma_separated` on the text of a list of
items between the opening and the closing byte. -/
theorem advance_past_comma_separated_fold (intro outro : Nat) (parse : σ → decoder σ)
    (text : ι → List Nat) (step : σ → ι → Except String σ) (items : List ι) (fuel : Nat)
    (state : σ) (houtro : outro ≠ 44) (hsp : detail.is_space outro = false)
    (hfuel : items.length ≤ fuel)
    (hfirst : ∀ x ∈ items, ∃ ws b rest, text x = ws ++ b :: rest ∧
      (∀ c ∈ ws, detail.is_space c = true) ∧ detail.is_space b = false ∧ b ≠ outro)
    (hturn : ∀ x ∈ items, ∀ (state : σ) (pre post : List Nat) (d : Nat), (d = 44 ∨ d = outro) →
      match step state x with
      | .ok state' =>
        ∃ p, parse state (detail.skip_whitespace ⟨pre.length, pre ++ (text x ++ d :: post)⟩) =
            some ⟨.ok state', p⟩ ∧
          detail.skip_whitespace ⟨p, pre ++ (text x ++ d :: post)⟩ =
            ⟨(pre ++ text x).length, pre ++ (text x ++ d :: post)⟩
      | .error message =>
        ∃ offset p,
          parse state (detail.skip_whitespace ⟨pre.length, pre ++ (text x ++ d :: post)⟩) =
            some ⟨.error ⟨message, offset⟩, p⟩) :
    match fold_steps step state items with
    | .ok state' =>
      detail.advance_past_comma_separated fuel
          (decoding_context.init ([intro] ++ List.intercalate [44] (items.map text) ++ [outro]))
          intro outro state parse =
        some ⟨.ok state', ([intro] ++ List.intercalate [44] (items.map text) ++ [outro]).length⟩
    | .error message =>
      ∃ offset p,
        detail.advance_past_comma_separated fuel
            (decoding_context.init ([intro] ++ List.intercalate [44] (items.map text) ++ [outro]))
            intro outro state parse =
          some ⟨.error ⟨message, offset⟩, p⟩ := by
  cases items with
  | nil =>
    have hskip : detail.skip_whitespace ⟨0 + 1, [intro] ++ ([] ++ outro :: [])⟩ =
        ⟨([intro] ++ []).length, [intro] ++ ([] ++ outro :: [])⟩ :=
      skip_whitespace_run [intro] [] outro [] (by simp) hsp
    have hpeek : detail.peek ⟨0, [intro, outro]⟩ = .ok intro := peek_at [] intro [outro]
    simp only [fold_steps, List.map_nil, List.intercalate, List.intersperse, List.flatten_nil,
      List.append_nil, List.singleton_append, decoding_context.init,
      detail.advance_past_comma_separated, hpeek, if_true]
    simp only [List.singleton_append, List.nil_append, List.append_nil] at hskip
    rw [hskip]
    simp
  | cons x rest =>
    obtain ⟨ws, b, t, htext, hws, hb, hne⟩ := hfirst x (List.mem_cons_self _ _)
    have hflat : (List.map text rest).flatMap (fun u => 44 :: u) =
        rest.flatMap (fun y => 44 :: text y) := by
      simp [List.flatMap_map]
    have hinput : [intro] ++ List.intercalate [44] ((x :: rest).map text) ++ [outro] =
        [intro] ++ (text x ++ (rest.flatMap (fun y => 44 :: text y) ++ outro :: [])) := by
      rw [List.map_cons, intercalate_comma, hflat]
      simp
    have hloop := comma_separated_loop_fold outro parse text step (x :: rest) houtro hturn
      rest x [intro] [] state fuel (fun y hy => hy) (by simp at hfuel; omega)
    have hpeek : detail.peek
        ⟨0, [intro] ++ (text x ++ (rest.flatMap (fun y => 44 :: text y) ++ outro :: []))⟩ =
        .ok intro := peek_at [] intro _
    have hskip : detail.skip_whitespace
        ⟨0 + 1, [intro] ++ (text x ++ (rest.flatMap (fun y => 44 :: text y) ++ outro :: []))⟩ =
        ⟨([intro] ++ ws).length,
          [intro] ++ (text x ++ (rest.flatMap (fun y => 44 :: text y) ++ outro :: []))⟩ := by
      rw [htext]
      have h := skip_whitespace_run [intro] ws b
        (t ++ (rest.flatMap (fun y => 44 :: text y) ++ outro :: [])) hws hb
      simpa [List.append_assoc] using h
    have hnot : ([intro] ++ (text x ++ (rest.flatMap (fun y => 44 :: text y) ++ outro :: [])))[
        ([intro] ++ ws).length]? ≠ some outro := by
      rw [htext]
      have h : ([intro] ++ (ws ++ b :: t ++ (rest.flatMap (fun y => 44 :: text y) ++ outro :: []))) =
          ([intro] ++ ws) ++ b :: (t ++ (rest.flatMap (fun y => 44 :: text y) ++ outro :: [])) := by
        simp
      rw [h, List.getElem?_append_right (le_refl _)]
      simpa using hne
    have hsame : detail.comma_separated_loop outro parse fuel state
        ⟨([intro] ++ ws).length,
          [intro] ++ (text x ++ (rest.flatMap (fun y => 44 :: text y) ++ outro :: []))⟩ =
        detail.comma_separated_loop outro parse fuel state
        ⟨[intro].length,
          [intro] ++ (text x ++ (rest.flatMap (fun y => 44 :: text y) ++ outro :: []))⟩ := by
      rw [← hskip]
      exact comma_separated_loop_skip outro parse fuel state _
    rw [hinput]
    simp only [detail.advance_past_comma_separated, decoding_context.init, hpeek, if_true, hskip,
      hnot, if_false, hsame]
    cases hfold : fold_steps step state (x :: rest) with
    | error message =>
      rw [hfold] at hloop
      exact hloop
    | ok final =>
      rw [hfold] at hloop
      simp only []
      rw [hloop]
      simp only [List.length_append, List.length_cons, List.length_nil]
      congr 2

/-! ## The object codec: decoding a well-formed text -/

theorem context_at (n : Nat) (input pre tail : List Nat) (hn : n = pre.length)
    (hinput : input = pre ++ tail) :
    (⟨n, input⟩ : decoding_context) = ⟨pre.length, pre ++ tail⟩ := by
  subst hn hinput
  rfl

/-- The pair parser of `advance_past_object`, started at the key: it decodes
the key, passes the colon and the whitespace around it, and calls the callback
at the first byte of the value. -/
theorem advance_past_pair_at (decode_key : decoder κ) (callback : κ → σ → decoder σ) (state : σ)
    (k : κ) (pre key_text after_key after_colon : List Nat) (b : Nat) (tail : List Nat)
    (hkey : ∀ post : List Nat, decode_key ⟨pre.length, pre ++ (key_text ++ post)⟩ =
      some ⟨.ok k, pre.length + key_text.length⟩)
    (hws : ∀ c ∈ after_key ++ after_colon, detail.is_space c = true)
    (hb : detail.is_space b = false) :
    detail.advance_past_pair decode_key callback state
        ⟨pre.length, pre ++ (key_text ++ (after_key ++ 58 :: (after_colon ++ b :: tail)))⟩ =
      callback k state
        ⟨(pre ++ key_text ++ after_key ++ [58] ++ after_colon).length,
          pre ++ (key_text ++ (after_key ++ 58 :: (after_colon ++ b :: tail)))⟩ := by
  have h3 : (⟨pre.length + key_text.length,
      pre ++ (key_text ++ (after_key ++ 58 :: (after_colon ++ b :: tail)))⟩ : decoding_context) =
      ⟨(pre ++ key_text).length, (pre ++ key_text) ++ (after_key ++ 58 :: (after_colon ++ b :: tail))⟩ :=
    context_at _ _ _ _ (by simp) (by simp)
  have hskip3 := skip_whitespace_run (pre ++ key_text) after_key 58 (after_colon ++ b :: tail)
    (fun c hc => hws c (List.mem_append_left _ hc)) (by decide)
  have h4 : (pre ++ key_text) ++ (after_key ++ 58 :: (after_colon ++ b :: tail)) =
      (pre ++ key_text ++ after_key) ++ 58 :: (after_colon ++ b :: tail) := by simp
  have h5 : (⟨(pre ++ key_text ++ after_key).length + 1,
      (pre ++ key_text ++ after_key) ++ 58 :: (after_colon ++ b :: tail)⟩ : decoding_context) =
      ⟨(pre ++ key_text ++ after_key ++ [58]).length,
        (pre ++ key_text ++ after_key ++ [58]) ++ (after_colon ++ b :: tail)⟩ :=
    context_at _ _ _ _ (by simp only [List.length_append, List.length_cons, List.length_nil])
      (by simp)
  have hskip5 := skip_whitespace_run (pre ++ key_text ++ after_key ++ [58]) after_colon b tail
    (fun c hc => hws c (List.mem_append_right _ hc)) hb
  have h6 : (pre ++ key_text ++ after_key ++ [58]) ++ (after_colon ++ b :: tail) =
      pre ++ (key_text ++ (after_key ++ 58 :: (after_colon ++ b :: tail))) := by simp
  simp only [detail.advance_past_pair, hkey, h3, hskip3]
  rw [h4, peek_at]
  simp only [if_true, h5, hskip5]
  rw [h6]

theorem delimited_after_value (after_value : List Nat) (d : Nat) (post : List Nat)
    (hws : ∀ c ∈ after_value, detail.is_space c = true) (hd : d = 44 ∨ d = 125) :
    delimited (after_value ++ d :: post) := by
  cases after_value with
  | nil => exact ⟨d, post, rfl, Or.inr hd⟩
  | cons c rest => exact ⟨c, rest ++ d :: post, rfl, Or.inl (hws c (List.mem_cons_self _ _))⟩

/-- One turn of the loop of `object::decode` on a well-formed pair. -/
theorem object_pair_turn (helpers : decoding_helpers) (o : codec.object T) (m : json_member T)
    (hm : m.well_formed helpers o) (state : T × List Bool) (pre post : List Nat) (d : Nat)
    (hd : d = 44 ∨ d = 125) :
    match o.apply_member state m with
    | .ok state' =>
      ∃ p, detail.advance_past_pair helpers.string.decode (o.decode_key_value helpers) state
            (detail.skip_whitespace ⟨pre.length, pre ++ (m.text ++ d :: post)⟩) =
          some ⟨.ok state', p⟩ ∧
        detail.skip_whitespace ⟨p, pre ++ (m.text ++ d :: post)⟩ =
          ⟨(pre ++ m.text).length, pre ++ (m.text ++ d :: post)⟩
    | .error message =>
      ∃ offset p,
        detail.advance_past_pair helpers.string.decode (o.decode_key_value helpers) state
            (detail.skip_whitespace ⟨pre.length, pre ++ (m.text ++ d :: post)⟩) =
          some ⟨.error ⟨message, offset⟩, p⟩ := by
  obtain ⟨hws, ⟨k', hK⟩, ⟨b, v', hV, hb⟩, hkey, hvalue⟩ := hm
  have hd_space : detail.is_space d = false := by
    rcases hd with rfl | rfl <;> decide
  -- the input, seen from the key, from the value and from the end of the pair
  have e1 : pre ++ (m.before ++ 34 :: (k' ++ (m.after_key ++ 58 :: (m.after_colon ++ b :: (v' ++
        (m.after_value ++ d :: post)))))) = pre ++ (m.text ++ d :: post) := by
    simp [json_member.text, hK, hV]
  have e2 : (pre ++ m.before) ++ (m.key_text ++ (m.after_key ++ 58 :: (m.after_colon ++ b :: (v' ++
        (m.after_value ++ d :: post))))) = pre ++ (m.text ++ d :: post) := by
    simp [json_member.text, hK, hV]
  have e6 : (pre ++ m.before ++ m.key_text ++ m.after_key ++ [58] ++ m.after_colon) ++
        (m.value_text ++ (m.after_value ++ d :: post)) = pre ++ (m.text ++ d :: post) := by
    simp [json_member.text, hK, hV]
  have e7 : (pre ++ m.before ++ m.key_text ++ m.after_key ++ [58] ++ m.after_colon ++
        m.value_text) ++ (m.after_value ++ d :: post) = pre ++ (m.text ++ d :: post) := by
    simp [json_member.text]
  have hlen : (pre ++ m.before ++ m.key_text ++ m.after_key ++ [58] ++ m.after_colon ++
        m.value_text ++ m.after_value).length = (pre ++ m.text).length := by
    simp [json_member.text]
  have hskip1 := skip_whitespace_run pre m.before 34 (k' ++ (m.after_key ++ 58 :: (m.after_colon ++
      b :: (v' ++ (m.after_value ++ d :: post)))))
    (fun c hc => hws c (by simp [hc])) (by decide)
  have hpair := advance_past_pair_at helpers.string.decode (o.decode_key_value helpers) state m.key
    (pre ++ m.before) m.key_text m.after_key m.after_colon b (v' ++ (m.after_value ++ d :: post))
    (fun post => hkey (pre ++ m.before) post)
    (fun c hc => hws c (by
      rcases List.mem_append.mp hc with h | h <;> simp [h])) hb
  have hskip7 := skip_whitespace_run
    (pre ++ m.before ++ m.key_text ++ m.after_key ++ [58] ++ m.after_colon ++ m.value_text)
    m.after_value d post (fun c hc => hws c (by simp [hc])) hd_space
  have hdel := delimited_after_value m.after_value d post (fun c hc => hws c (by simp [hc])) hd
  have hv := hvalue (pre ++ m.before ++ m.key_text ++ m.after_key ++ [58] ++ m.after_colon)
    (m.after_value ++ d :: post) hdel
  have hpos : (pre ++ m.before ++ m.key_text ++ m.after_key ++ [58] ++ m.after_colon).length +
      m.value_text.length =
      (pre ++ m.before ++ m.key_text ++ m.after_key ++ [58] ++ m.after_colon ++
        m.value_text).length := by
    simp only [List.length_append]
  rw [e1] at hskip1
  rw [e2] at hpair
  rw [e6] at hv
  rw [e7, hlen] at hskip7
  rw [hskip1, hpair]
  simp only [codec.object.apply_member, codec.object.decode_key_value]
  cases hfind : o.find m.key with
  | none =>
    rw [hfind] at hv
    simp only [hv]
    refine ⟨_, rfl, ?_⟩
    rw [hpos, hskip7]
  | some field =>
    rw [hfind] at hv
    simp only [] at hv
    cases heff : m.effect with
    | error message =>
      have hv' := hv state.1
      rw [heff] at hv'
      obtain ⟨offset, p, hp⟩ := hv'
      exact ⟨offset, p, by simp only [hp]⟩
    | ok update =>
      have hv' := hv state.1
      rw [heff] at hv'
      simp only [] at hv'
      simp only [hv']
      cases hreq : field.required
      · simp only [Bool.false_eq_true, if_false]
        exact ⟨_, rfl, by rw [hpos, hskip7]⟩
      · simp only [if_true]
        exact ⟨_, rfl, by rw [hpos, hskip7]⟩

/-- The method `object::decode` on the text of a list of well-formed pairs:
the loop applies the pairs in order; a failure of a field's decoder ends
decoding with its message; after the closing brace the count of encountered
required fields decides between the record and the failure "Missing required
field(s)", raised at the end of the text. -/
theorem object_decode_text (helpers : decoding_helpers) (o : codec.object T)
    (members : List (json_member T)) (fuel : Nat)
    (hmembers : ∀ m ∈ members, m.well_formed helpers o) (hfuel : members.length ≤ fuel) :
    match fold_steps o.apply_member (o.construct, List.replicate o._fields.length false)
        members with
    | .error message =>
      ∃ offset p, o.decode fuel helpers (decoding_context.init (object_text members)) =
        some ⟨.error ⟨message, offset⟩, p⟩
    | .ok (output, encountered) =>
      o.decode fuel helpers (decoding_context.init (object_text members)) =
        if encountered.count true != o._num_required_fields then
          some ⟨.error ⟨"Missing required field(s)", (object_text members).length⟩,
            (object_text members).length⟩
        else
          some ⟨.ok output, (object_text members).length⟩ := by
  have hfirst : ∀ m ∈ members, ∃ ws b rest, json_member.text m = ws ++ b :: rest ∧
      (∀ c ∈ ws, detail.is_space c = true) ∧ detail.is_space b = false ∧ b ≠ 125 := by
    intro m hm
    obtain ⟨hws, ⟨k', hK⟩, _⟩ := hmembers m hm
    exact ⟨m.before, 34, _, by rw [json_member.text, hK]; rfl,
      fun c hc => hws c (by simp [hc]), by decide, by decide⟩
  have hloop := advance_past_comma_separated_fold 123 125
    (detail.advance_past_pair helpers.string.decode (o.decode_key_value helpers))
    json_member.text o.apply_member members fuel
    (o.construct, List.replicate o._fields.length false) (by decide) (by decide) hfuel hfirst
    (fun m hm state pre post d hd => by
      have h := object_pair_turn helpers o m (hmembers m hm) state pre post d hd
      cases hstep : o.apply_member state m <;> rw [hstep] at h <;> exact h)
  simp only [codec.object.decode, detail.advance_past_object, object_text]
  cases hfold : fold_steps o.apply_member (o.construct, List.replicate o._fields.length false)
      members with
  | error message =>
    rw [hfold] at hloop
    obtain ⟨offset, p, hp⟩ := hloop
    exact ⟨offset, p, by simp only [hp]⟩
  | ok final =>
    rw [hfold] at hloop
    simp only [] at hloop
    obtain ⟨output, encountered⟩ := final
    simp only [hloop, detail.fail_if, detail.fail, decoding_context.offset]
    by_cases hcount : (encountered.count true != o._num_required_fields) = true
    · simp only [hcount, if_true]
    · simp only [hcount, if_false]
      simp

/-! ## The object codec: registration -/

theorem lookup_eq_none_of_not_mem (name : List Nat) (fields : List (List Nat × β))
    (h : name ∉ fields.map Prod.fst) : fields.lookup name = none := by
  induction fields with
  | nil => rfl
  | cons entry rest ih =>
    obtain ⟨n, f⟩ := entry
    have hne : ¬ name = n := fun he => h (by simp [he])
    have hrest : name ∉ rest.map Prod.fst := fun hm => h (by simp at hm ⊢; exact Or.inr hm)
    have hbeq : (name == n) = false := by simpa using hne
    simp only [List.lookup, hbeq, ih hrest]

theorem mem_of_lookup_eq_some (name : List Nat) (f : β) (fields : List (List Nat × β))
    (h : fields.lookup name = some f) : (name, f) ∈ fields := by
  induction fields with
  | nil => simp [List.lookup] at h
  | cons entry rest ih =>
    obtain ⟨n, g⟩ := entry
    by_cases hn : name = n
    · subst hn
      simp only [List.lookup, beq_self_eq_true] at h
      cases h
      exact List.mem_cons_self _ _
    · have hbeq : (name == n) = false := by simpa using hn
      simp only [List.lookup, hbeq] at h
      exact List.mem_cons_of_mem _ (ih h)

theorem lookup_eq_some_of_mem (name : List Nat) (f : β) (fields : List (List Nat × β))
    (hnodup : (fields.map Prod.fst).Nodup) (h : (name, f) ∈ fields) :
    fields.lookup name = some f := by
  induction fields with
  | nil => simp at h
  | cons entry rest ih =>
    obtain ⟨n, g⟩ := entry
    simp only [List.map_cons, List.nodup_cons] at hnodup
    rcases List.mem_cons.mp h with heq | hmem
    · cases heq
      simp [List.lookup]
    · have hne : ¬ name = n := by
        intro he
        subst he
        exact hnodup.1 (List.mem_map.mpr ⟨(name, f), hmem, rfl⟩)
      have hbeq : (name == n) = false := by simpa using hne
      simp only [List.lookup, hbeq]
      exact ih hnodup.2 hmem

theorem lookup_isSome_of_mem (name : List Nat) (fields : List (List Nat × β))
    (h : name ∈ fields.map Prod.fst) : fields.lookup name ≠ none := by
  induction fields with
  | nil => simp at h
  | cons entry rest ih =>
    obtain ⟨n, g⟩ := entry
    by_cases hn : name = n
    · subst hn
      simp [List.lookup]
    · have hbeq : (name == n) = false := by simpa using hn
      have hrest : name ∈ rest.map Prod.fst := by
        simp only [List.map_cons, List.mem_cons] at h
        rcases h with h | h
        · exact absurd h hn
        · exact h
      simp only [List.lookup, hbeq]
      exact ih hrest

namespace codec.object

/-- Registering a name that has an entry changes nothing. -/
theorem save_field_registered (o : object T) (name : List Nat) (required : Bool)
    (f : object.field T) (h : o.find name ≠ none) : o.save_field name required f = o := by
  unfold save_field
  cases hfind : o.find name with
  | none => exact absurd hfind h
  | some g => simp

/-- Registering a new name appends the field to the list and to the map, and
counts it when it is required. -/
theorem save_field_new (o : object T) (name : List Nat) (required : Bool)
    (f : object.field T) (h : o.find name = none) :
    o.save_field name required f =
      { _construct := o._construct
        _field_list := o._field_list ++ [((key.of_iterable name).copied, f)]
        _fields := o._fields ++ [(name, f)]
        _num_required_fields := o._num_required_fields + (if required then 1 else 0) } := by
  unfold save_field
  cases required <;> simp [h]

theorem invariant_save_field (o : object T) (name : List Nat) (required : Bool)
    (f : object.field T) (hinv : o.invariant) (hreq : f.required = required)
    (hid : f.field_id = o._fields.length) : (o.save_field name required f).invariant := by
  cases hfind : o.find name with
  | some g =>
    rw [save_field_registered o name required f (by rw [hfind]; simp)]
    exact hinv
  | none =>
    rw [save_field_new o name required f hfind]
    obtain ⟨hlist, hids, hnodup, hcount⟩ := hinv
    have hnot : name ∉ o._fields.map Prod.fst := by
      intro hm
      exact lookup_isSome_of_mem name o._fields hm hfind
    refine ⟨?_, ?_, ?_, ?_⟩
    · simp [hlist]
    · intro i hi
      simp only [List.length_append, List.length_cons, List.length_nil] at hi
      by_cases hlt : i < o._fields.length
      · have := hids i hlt
        simp only [List.get_eq_getElem] at this ⊢
        rw [List.getElem_append_left hlt]
        exact this
      · have hi' : i = o._fields.length := by omega
        subst hi'
        simp only [List.get_eq_getElem]
        rw [List.getElem_append_right (le_refl _)]
        simpa using hid
    · simp only [List.map_append, List.map_cons, List.map_nil]
      rw [List.nodup_append]
      refine ⟨hnodup, by simp, ?_⟩
      intro a ha hb
      simp only [List.mem_singleton] at hb
      subst hb
      exact hnot ha
    · simp only [List.countP_append, List.countP_cons, List.countP_nil, hreq, hcount]
      cases required <;> simp

theorem invariant_of_built (o : object T) (h : o.built) : o.invariant := by
  induction h with
  | empty c => exact ⟨rfl, fun i hi => absurd hi (by simp), by simp, rfl⟩
  | add_field name required member codec _ ih =>
    exact invariant_save_field _ name required _ ih rfl rfl
  | add_field_codec name required codec _ ih =>
    exact invariant_save_field _ name required _ ih rfl rfl

end codec.object

namespace codec.object

/-! ## The object codec: which required fields were encountered -/

theorem find_eq_none_iff (o : object T) (name : List Nat) :
    o.find name = none ↔ name ∉ o._fields.map Prod.fst := by
  constructor
  · intro h hm
    exact lookup_isSome_of_mem name o._fields hm h
  · exact lookup_eq_none_of_not_mem name o._fields

theorem find_eq_some_iff (o : object T) (hinv : o.invariant) (name : List Nat)
    (f : object.field T) : o.find name = some f ↔ (name, f) ∈ o._fields :=
  ⟨mem_of_lookup_eq_some name f o._fields, lookup_eq_some_of_mem name f o._fields hinv.2.2.1⟩

/-- A pair with an unknown key leaves the marks as they are. -/
theorem marks_unknown (o : object T) (seen : List (List Nat)) (name : List Nat)
    (h : name ∉ o._fields.map Prod.fst) : o.marks (seen ++ [name]) = o.marks seen := by
  unfold marks
  apply List.map_congr_left
  intro entry hentry
  have hne : entry.1 ≠ name := by
    intro he
    exact h (List.mem_map.mpr ⟨entry, hentry, he⟩)
  simp [hne]

/-- A pair with a registered key sets the mark of its field when the field is
required, and only that mark. -/
theorem marks_known (o : object T) (hinv : o.invariant) (seen : List (List Nat))
    (name : List Nat) (f : object.field T) (h : (name, f) ∈ o._fields) :
    o.marks (seen ++ [name]) =
      if f.required then (o.marks seen).set f.field_id true else o.marks seen := by
  obtain ⟨_, hids, hnodup, _⟩ := hinv
  obtain ⟨i, hi, hget⟩ := List.getElem_of_mem h
  have hid : f.field_id = i := by
    have := hids i hi
    simp only [List.get_eq_getElem, hget] at this
    exact this
  have hother : ∀ (j : Nat) (hj : j < o._fields.length), j ≠ i → (o._fields[j]).1 ≠ name := by
    intro j hj hne he
    have hnd := List.nodup_iff_injective_get.mp hnodup
    have hjm : j < (o._fields.map Prod.fst).length := by simpa using hj
    have him : i < (o._fields.map Prod.fst).length := by simpa using hi
    have : (⟨j, hjm⟩ : Fin (o._fields.map Prod.fst).length) = ⟨i, him⟩ := by
      apply hnd
      simp only [List.get_eq_getElem, List.getElem_map, he, hget]
    exact hne (Fin.mk.inj this)
  cases hreq : f.required
  · simp only [Bool.false_eq_true, if_false]
    apply List.ext_getElem
    · simp [marks]
    · intro j h1 h2
      have hj : j < o._fields.length := by simpa [marks] using h1
      by_cases hji : j = i
      · subst hji
        simp [marks, hget, hreq]
      · have hne := hother j hj hji
        simp [marks, hne]
  · simp only [if_true]
    apply List.ext_getElem
    · simp [marks]
    · intro j h1 h2
      have hj : j < o._fields.length := by simpa [marks] using h1
      by_cases hji : j = i
      · subst hji
        simp [marks, hget, hreq, hid]
      · have hne := hother j hj hji
        have hij : ¬ f.field_id = j := by rw [hid]; exact fun h => hji h.symm
        simp [marks, hne, List.getElem_set, hij]

/-- When every value is accepted, the loop stores the values in the order of
the text and marks the required fields whose names occur. -/
theorem fold_accepted (o : object T) (hinv : o.invariant) :
    ∀ (members : List (json_member T)) (record : T) (seen : List (List Nat)),
      (∀ m ∈ members, o.accepts m = true) →
      fold_steps o.apply_member (record, o.marks seen) members =
        .ok (o.stored members record, o.marks (seen ++ members.map json_member.key)) := by
  intro members
  induction members with
  | nil => intro record seen _; simp [fold_steps, stored]
  | cons m rest ih =>
    intro record seen hacc
    have hm := hacc m (List.mem_cons_self _ _)
    have hrest : ∀ m' ∈ rest, o.accepts m' = true := fun m' h' => hacc m' (List.mem_cons_of_mem _ h')
    have hseen : seen ++ (m :: rest).map json_member.key =
        (seen ++ [m.key]) ++ rest.map json_member.key := by simp
    rw [hseen, fold_steps]
    cases hfind : o.find m.key with
    | none =>
      have hnot := (find_eq_none_iff o m.key).mp hfind
      simp only [apply_member, hfind]
      rw [← marks_unknown o seen m.key hnot, ih record (seen ++ [m.key]) hrest]
      simp [stored, hfind]
    | some f =>
      have hmem := (find_eq_some_iff o hinv m.key f).mp hfind
      cases heff : m.effect with
      | error message => simp [accepts, hfind, heff] at hm
      | ok update =>
        simp only [apply_member, hfind, heff]
        rw [← marks_known o hinv seen m.key f hmem, ih (update record) (seen ++ [m.key]) hrest]
        simp [stored, hfind, heff]

/-- When some value is rejected, the loop ends with the failure of a field's
decoder. -/
theorem fold_rejected (o : object T) :
    ∀ (members : List (json_member T)) (state : T × List Bool),
      (∃ m ∈ members, o.accepts m = false) →
      ∃ message, fold_steps o.apply_member state members = .error message := by
  intro members
  induction members with
  | nil => intro state h; obtain ⟨m, hm, _⟩ := h; simp at hm
  | cons m rest ih =>
    intro state h
    rw [fold_steps]
    cases hstep : o.apply_member state m with
    | error message => exact ⟨message, rfl⟩
    | ok state' =>
      simp only []
      apply ih
      obtain ⟨m', hm', hacc⟩ := h
      rcases List.mem_cons.mp hm' with heq | hmem
      · subst heq
        exfalso
        unfold apply_member at hstep
        unfold accepts at hacc
        cases hfind : o.find m'.key with
        | none => simp [hfind] at hacc
        | some f =>
          cases heff : m'.effect with
          | ok update => simp [hfind, heff] at hacc
          | error message => simp [hfind, heff] at hstep
      · exact ⟨m', hmem, hacc⟩

theorem count_marks (o : object T) (seen : List (List Nat)) :
    (o.marks seen).count true =
      o._fields.countP (fun entry => entry.2.required && decide (entry.1 ∈ seen)) := by
  unfold marks
  rw [List.count, List.countP_map]
  apply List.countP_congr
  intro entry _
  simp

theorem countP_and_le (p q : α → Bool) (l : List α) :
    l.countP (fun x => p x && q x) ≤ l.countP p := by
  apply List.countP_mono_left
  intro x _ h
  simp only [Bool.and_eq_true] at h
  exact h.1

theorem countP_and_lt (p q : α → Bool) (l : List α) (x : α) (hx : x ∈ l) (hp : p x = true)
    (hq : q x = false) : l.countP (fun x => p x && q x) < l.countP p := by
  induction l with
  | nil => simp at hx
  | cons y rest ih =>
    rcases List.mem_cons.mp hx with heq | hmem
    · subst heq
      have hle := countP_and_le p q rest
      simp only [List.countP_cons, hp, hq, Bool.and_false, Bool.false_eq_true, if_false, if_true]
      omega
    · have hlt := ih hmem
      simp only [List.countP_cons]
      cases hpy : p y <;> cases hqy : q y <;> simp <;> omega

theorem countP_and_eq (p q : α → Bool) (l : List α) (h : ∀ x ∈ l, p x = true → q x = true) :
    l.countP (fun x => p x && q x) = l.countP p := by
  apply List.countP_congr
  intro x hx
  constructor
  · intro hpq
    simp only [Bool.and_eq_true] at hpq
    exact hpq.1
  · intro hp
    simp [hp, h x hx hp]

end codec.object

namespace codec.object

theorem marks_nil (o : object T) : o.marks [] = List.replicate o._fields.length false := by
  unfold marks
  induction o._fields with
  | nil => rfl
  | cons entry rest ih => simp [List.replicate_succ, ih]

/-- Decoding a well-formed text all of whose values are accepted, when the
name of every required field occurs among the keys: the record that stores the
values in the order of the text, with the cursor at the end. -/
theorem decode_complete (helpers : decoding_helpers) (o : object T) (hinv : o.invariant)
    (members : List (json_member T)) (fuel : Nat)
    (hmembers : ∀ m ∈ members, m.well_formed helpers o) (hfuel : members.length ≤ fuel)
    (hacc : ∀ m ∈ members, o.accepts m = true)
    (hall : ∀ entry ∈ o._fields, entry.2.required = true →
      entry.1 ∈ members.map json_member.key) :
    o.decode fuel helpers (decoding_context.init (object_text members)) =
      some ⟨.ok (o.stored members o.construct), (object_text members).length⟩ := by
  have h := object_decode_text helpers o members fuel hmembers hfuel
  rw [← marks_nil, fold_accepted o hinv members o.construct [] hacc] at h
  simp only [List.nil_append] at h
  have hcount : (o.marks (members.map json_member.key)).count true = o._num_required_fields := by
    rw [count_marks, hinv.2.2.2]
    exact countP_and_eq _ _ _ (fun entry hentry hreq => by simpa using hall entry hentry hreq)
  rw [h]
  simp [hcount]

/-- Decoding a well-formed text all of whose values are accepted, when the
name of some required field does not occur among the keys: the failure
"Missing required field(s)", raised at the end of the text. -/
theorem decode_missing (helpers : decoding_helpers) (o : object T) (hinv : o.invariant)
    (members : List (json_member T)) (fuel : Nat)
    (hmembers : ∀ m ∈ members, m.well_formed helpers o) (hfuel : members.length ≤ fuel)
    (hacc : ∀ m ∈ members, o.accepts m = true)
    (entry : List Nat × object.field T) (hentry : entry ∈ o._fields)
    (hreq : entry.2.required = true) (hmissing : entry.1 ∉ members.map json_member.key) :
    o.decode fuel helpers (decoding_context.init (object_text members)) =
      some ⟨.error ⟨"Missing required field(s)", (object_text members).length⟩,
        (object_text members).length⟩ := by
  have h := object_decode_text helpers o members fuel hmembers hfuel
  rw [← marks_nil, fold_accepted o hinv members o.construct [] hacc] at h
  simp only [List.nil_append] at h
  have hcount : (o.marks (members.map json_member.key)).count true < o._num_required_fields := by
    rw [count_marks, hinv.2.2.2]
    exact countP_and_lt _ _ _ entry hentry hreq (by simpa using hmissing)
  have hne : ((o.marks (members.map json_member.key)).count true != o._num_required_fields) =
      true := by
    simp only [bne_iff_ne, ne_eq]
    omega
  rw [h]
  simp only [hne, if_true]

/-- Decoding a well-formed text one of whose values is rejected by its field's
decoder fails with the message of a field's decoder. -/
theorem decode_rejected (helpers : decoding_helpers) (o : object T)
    (members : List (json_member T)) (fuel : Nat)
    (hmembers : ∀ m ∈ members, m.well_formed helpers o) (hfuel : members.length ≤ fuel)
    (hrej : ∃ m ∈ members, o.accepts m = false) :
    ∃ e p, o.decode fuel helpers (decoding_context.init (object_text members)) =
      some ⟨.error e, p⟩ := by
  have h := object_decode_text helpers o members fuel hmembers hfuel
  obtain ⟨message, hfold⟩ := fold_rejected o members
    (o.construct, List.replicate o._fields.length false) hrej
  rw [hfold] at h
  obtain ⟨offset, p, hp⟩ := h
  exact ⟨⟨message, offset⟩, p, hp⟩

end codec.object

/-! ## The object codec: encoding -/

theorem shl_string_eq_shl (w : basic_writer) (value : List Nat) :
    w.shl_string value = w.shl string_text value := by
  cases h : w._separator_needed <;>
    simp [basic_writer.shl_string, basic_writer.shl, basic_writer.separator_and_set,
      basic_writer.put, basic_writer.write_value, string_text, h,
      detail.write_escaped_stream_eq]

/-- C15: registering a field under a name that is already registered keeps the
first registration and drops the second without a word: the codec is unchanged
as a whole (the field list, the lookup map, the count of required fields), so
the field found under the name, the encoder and the decoder are those of the
first registration. -/
theorem register_duplicate (o : codec.object T) (name : List Nat) (h : o.find name ≠ none) :
    (∀ (required : Bool) (f : codec.object.field T), o.save_field name required f = o) ∧
    (∀ (μ : Type) (required : Bool) (member : codec.member_pointer T μ) (c : codec μ),
      o.add_field name required member c = o ∧ o.required name member c = o ∧
      o.optional name member c = o ∧
      (o.add_field name required member c)._field_list = o._field_list ∧
      (o.add_field name required member c)._fields = o._fields ∧
      (o.add_field name required member c)._num_required_fields = o._num_required_fields ∧
      (o.add_field name required member c).find name = o.find name ∧
      (o.add_field name required member c).encode = o.encode ∧
      ∀ (fuel : Nat) (helpers : decoding_helpers),
        (o.add_field name required member c).decode fuel helpers = o.decode fuel helpers) ∧
    (∀ (μ : Type) (required : Bool) (c : codec μ),
      o.add_field_codec name required c = o ∧ o.required_codec name c = o ∧
      o.optional_codec name c = o) := by
  have hsave : ∀ (required : Bool) (f : codec.object.field T), o.save_field name required f = o :=
    fun required f => codec.object.save_field_registered o name required f h
  refine ⟨hsave, ?_, ?_⟩
  · intro μ required member c
    have hadd : o.add_field name required member c = o := hsave _ _
    refine ⟨hadd, hsave _ _, hsave _ _, ?_, ?_, ?_, ?_, ?_, ?_⟩ <;> simp only [hadd]
    intro fuel helpers
    trivial
  · intro μ required c
    exact ⟨hsave _ _, hsave _ _, hsave _ _⟩

theorem register_duplicate_witness :
    (custom_codec_named [97]).find [97] ≠ none ∧
    ((custom_codec_named [97]).optional [97] custom_obj.val_pointer plain_string) =
      custom_codec_named [97] :=
  ⟨by simp [custom_codec_named, codec.object.required, codec.object.add_field,
      codec.object.save_field, codec.object.find],
    ((register_duplicate (custom_codec_named [97]) [97]
      (by simp [custom_codec_named, codec.object.required, codec.object.add_field,
        codec.object.save_field, codec.object.find])).2.1 (List Nat) false
      custom_obj.val_pointer plain_string).2.2.1⟩

/-! ## The boolean codec: every input -/

theorem peek_eq_head (context : decoding_context) :
    detail.peek context =
      match context.input.drop context.position with
      | c :: _ => .ok c
      | [] => .error ⟨"UnexpectedEnd", context.offset⟩ := by
  have h : context.input[context.position]? = (context.input.drop context.position)[0]? := by
    rw [List.getElem?_drop]
    simp
  unfold detail.peek
  rw [h]
  cases context.input.drop context.position <;> simp

/-- C16: boolean decode succeeds if and only if the bytes at the cursor begin
with the literal `true` or the literal `false`; it then returns true or false
and leaves the cursor 4 or 5 bytes further, just past the literal; on every
other input it fails and leaves the cursor where it was: at the end of input,
before whitespace, on a truncated or a misspelt literal. -/
theorem boolean_decode_iff (context : decoding_context) :
    (([116, 114, 117, 101] : List Nat).isPrefixOf (context.input.drop context.position) = true →
      codec.boolean.decode context = some ⟨.ok true, context.position + 4⟩) ∧
    (([102, 97, 108, 115, 101] : List Nat).isPrefixOf (context.input.drop context.position) = true →
      codec.boolean.decode context = some ⟨.ok false, context.position + 5⟩) ∧
    (([116, 114, 117, 101] : List Nat).isPrefixOf (context.input.drop context.position) = false →
      ([102, 97, 108, 115, 101] : List Nat).isPrefixOf (context.input.drop context.position) =
        false →
      ∃ e, codec.boolean.decode context = some ⟨.error e, context.position⟩) ∧
    ((∃ value p, codec.boolean.decode context = some ⟨.ok value, p⟩) ↔
      (([116, 114, 117, 101] : List Nat).isPrefixOf (context.input.drop context.position) = true ∨
        ([102, 97, 108, 115, 101] : List Nat).isPrefixOf (context.input.drop context.position) =
          true)) ∧
    (∃ e, codec.boolean.decode (decoding_context.init []) = some ⟨.error e, 0⟩) ∧
    (∃ e, codec.boolean.decode (decoding_context.init [32, 116, 114, 117, 101]) =
      some ⟨.error e, 0⟩) ∧
    (∃ e, codec.boolean.decode (decoding_context.init [116, 114, 117]) = some ⟨.error e, 0⟩) ∧
    (∃ e, codec.boolean.decode (decoding_context.init [116, 117, 114, 101]) =
      some ⟨.error e, 0⟩) ∧
    codec.boolean.decode ⟨1, [32, 102, 97, 108, 115, 101, 44]⟩ = some ⟨.ok false, 6⟩ := by
  have htrue : ([116, 114, 117, 101] : List Nat).isPrefixOf
      (context.input.drop context.position) = true →
      codec.boolean.decode context = some ⟨.ok true, context.position + 4⟩ := by
    intro h
    simp only [codec.boolean, codec.boolean_t.decode, peek_eq_head, detail.advance_past_true,
      detail.advance_past_false, detail.expect_literal]
    cases hrest : context.input.drop context.position with
    | nil => simp [hrest] at h
    | cons c tail =>
      rw [hrest] at h
      have hc : c = 116 := by
        simp only [List.isPrefixOf, Bool.and_eq_true, beq_iff_eq] at h
        exact h.1.symm
      subst hc
      simp [h]
  have hfalse : ([102, 97, 108, 115, 101] : List Nat).isPrefixOf
      (context.input.drop context.position) = true →
      codec.boolean.decode context = some ⟨.ok false, context.position + 5⟩ := by
    intro h
    simp only [codec.boolean, codec.boolean_t.decode, peek_eq_head, detail.advance_past_true,
      detail.advance_past_false, detail.expect_literal]
    cases hrest : context.input.drop context.position with
    | nil => simp [hrest] at h
    | cons c tail =>
      rw [hrest] at h
      have hc : c = 102 := by
        simp only [List.isPrefixOf, Bool.and_eq_true, beq_iff_eq] at h
        exact h.1.symm
      subst hc
      simp [h]
  have hfail : ([116, 114, 117, 101] : List Nat).isPrefixOf
      (context.input.drop context.position) = false →
      ([102, 97, 108, 115, 101] : List Nat).isPrefixOf (context.input.drop context.position) =
        false →
      ∃ e, codec.boolean.decode context = some ⟨.error e, context.position⟩ := by
    intro ht hf
    simp only [codec.boolean, codec.boolean_t.decode, peek_eq_head, detail.advance_past_true,
      detail.advance_past_false, detail.expect_literal]
    cases hrest : context.input.drop context.position with
    | nil => exact ⟨_, rfl⟩
    | cons c tail =>
      rw [hrest] at ht hf
      simp only []
      by_cases h102 : c = 102
      · subst h102
        simp only [if_true, hf]
        exact ⟨_, rfl⟩
      · by_cases h116 : c = 116
        · subst h116
          simp only [h102, if_false, if_true, ht]
          exact ⟨_, rfl⟩
        · simp only [h102, h116, if_false]
          exact ⟨_, rfl⟩
  refine ⟨htrue, hfalse, hfail, ?_, ⟨_, rfl⟩, ⟨_, rfl⟩, ⟨_, rfl⟩, ⟨_, rfl⟩, rfl⟩
  constructor
  · rintro ⟨value, p, hdec⟩
    by_contra hnot
    simp only [not_or, Bool.not_eq_true] at hnot
    obtain ⟨e, he⟩ := hfail hnot.1 hnot.2
    rw [he] at hdec
    cases hdec
  · rintro (h | h)
    · exact ⟨true, _, htrue h⟩
    · exact ⟨false, _, hfalse h⟩

/-! ## The codecs `empty_as` and `one_of` -/

/-- C17: when the inner codec succeeds, the result and the final cursor of
`empty_as` are the inner codec's, whatever the default codec is; when the inner
codec fails, the default codec decodes from the position at which `empty_as`
was called, wherever the inner codec left the cursor, and the value (or the
failure) and the final cursor are the default codec's. -/
theorem empty_as_decode (d i : codec α) (context : decoding_context) :
    (∀ (value : α) (p : Nat), i.decode context = some ⟨.ok value, p⟩ →
      ∀ d' : codec α, codec.empty_as_t.decode d' i context = some ⟨.ok value, p⟩) ∧
    (∀ (e : decode_exception) (p : Nat), i.decode context = some ⟨.error e, p⟩ →
      (∀ (value : α) (q : Nat), d.decode ⟨context.position, context.input⟩ = some ⟨.ok value, q⟩ →
        codec.empty_as_t.decode d i context = some ⟨.ok value, q⟩) ∧
      (∀ (e' : decode_exception) (q : Nat),
        d.decode ⟨context.position, context.input⟩ = some ⟨.error e', q⟩ →
        ∃ e'', codec.empty_as_t.decode d i context = some ⟨.error e'', q⟩)) ∧
    (codec.empty_as_null [] plain_string).decode (decoding_context.init [34, 97, 34]) =
      some ⟨.ok [97], 3⟩ ∧
    (codec.empty_as_null [] plain_string).decode (decoding_context.init [110, 117, 108, 108]) =
      some ⟨.ok [], 4⟩ ∧
    (codec.empty_as_null [] plain_string).decode ⟨1, [34, 110, 117, 108, 108]⟩ =
      some ⟨.ok [], 5⟩ := by
  refine ⟨?_, ?_, rfl, rfl, rfl⟩
  · intro value p h d'
    simp only [codec.empty_as_t.decode, h]
  · intro e p h
    constructor
    · intro value q hd
      simp only [codec.empty_as_t.decode, h, hd]
    · intro e' q hd
      exact ⟨e, by simp only [codec.empty_as_t.decode, h, hd]⟩

/-- C18: when the inner codec fails and the default codec, tried from the
original position, fails too, the failure of `empty_as` is the inner codec's
exception, its message and its offset, not the default codec's. -/
theorem empty_as_decode_error [DecidableEq α] (_default : α) (d i : codec α)
    (context : decoding_context) (e e' : decode_exception) (p q : Nat)
    (hinner : i.decode context = some ⟨.error e, p⟩)
    (hdefault : d.decode ⟨context.position, context.input⟩ = some ⟨.error e', q⟩) :
    codec.empty_as_t.decode d i context = some ⟨.error e, q⟩ ∧
    (codec.empty_as _default d i).decode context = some ⟨.error e, q⟩ := by
  constructor <;> simp only [codec.empty_as, codec.empty_as_t.decode, hinner, hdefault]

theorem empty_as_decode_error_witness :
    plain_string.decode (decoding_context.init [34, 97, 98]) =
      some ⟨.error ⟨"UnexpectedToken", 3⟩, 3⟩ ∧
    (codec.null ([] : List Nat)).decode ⟨0, [34, 97, 98]⟩ =
      some ⟨.error ⟨"UnexpectedToken", 0⟩, 0⟩ ∧
    codec.empty_as_t.decode (codec.null []) plain_string (decoding_context.init [34, 97, 98]) =
      some ⟨.error ⟨"UnexpectedToken", 3⟩, 0⟩ :=
  ⟨rfl, rfl,
    (empty_as_decode_error [] (codec.null []) plain_string (decoding_context.init [34, 97, 98])
      ⟨"UnexpectedToken", 3⟩ ⟨"UnexpectedToken", 0⟩ 3 0 rfl rfl).1⟩

/-- C19: for every value, `empty_as` encodes with the default codec when the
value equals the stored default and with the inner codec otherwise, and
`should_encode` makes the same choice between the two codecs. With the codec
`null` for the default, the empty string is written as `null` and the string
"a" as a string. -/
theorem empty_as_encode [DecidableEq α] (_default : α) (d i : codec α) (value : α) (w : writer) :
    (value = _default →
      codec.empty_as_t.encode _default d i value w = d.encode value w ∧
      codec.empty_as_t.should_encode _default d i value = detail.should_encode d value) ∧
    (value ≠ _default →
      codec.empty_as_t.encode _default d i value w = i.encode value w ∧
      codec.empty_as_t.should_encode _default d i value = detail.should_encode i value) ∧
    encode (codec.empty_as _default d i) value =
      (if value = _default then encode d value else encode i value) ∧
    encode (codec.empty_as_null [] plain_string) [] = [110, 117, 108, 108] ∧
    encode (codec.empty_as_null [] plain_string) [97] = [34, 97, 34] := by
  refine ⟨?_, ?_, ?_, rfl, rfl⟩
  · intro h
    simp [codec.empty_as_t.encode, codec.empty_as_t.should_encode, h]
  · intro h
    simp [codec.empty_as_t.encode, codec.empty_as_t.should_encode, h]
  · by_cases h : value = _default <;>
      simp [encode, codec.empty_as, codec.empty_as_t.encode, h]

theorem takeWhile_run (p : Nat → Bool) (run : List Nat) (b : Nat) (tail : List Nat)
    (hrun : ∀ c ∈ run, p c = true) (hb : p b = false) :
    List.takeWhile p (run ++ b :: tail) = run := by
  induction run with
  | nil => simp [List.takeWhile_cons, hb]
  | cons c rest ih =>
    have hc : p c = true := hrun c (List.mem_cons_self _ _)
    simp only [List.cons_append, List.takeWhile_cons, hc, if_true]
    rw [ih (fun x hx => hrun x (List.mem_cons_of_mem _ hx))]

/-- The stand-in string codec decodes a quoted run of plain bytes wherever it
stands and whatever follows. -/
theorem plain_string_decode_at (body : List Nat) (hplain : ∀ c ∈ body, plain_byte c = true)
    (pre post : List Nat) :
    plain_string.decode ⟨pre.length, pre ++ ((34 :: body ++ [34]) ++ post)⟩ =
      some ⟨.ok body, pre.length + (34 :: body ++ [34]).length⟩ := by
  have hdrop : List.drop pre.length (pre ++ ((34 :: body ++ [34]) ++ post)) =
      34 :: (body ++ 34 :: post) := by
    rw [List.drop_left]
    simp
  have htake : List.takeWhile plain_byte (body ++ 34 :: post) = body :=
    takeWhile_run plain_byte body 34 post hplain (by decide)
  have hdrop2 : List.drop body.length (body ++ 34 :: post) = 34 :: post := List.drop_left _ _
  simp only [plain_string, hdrop, htake, hdrop2]
  simp

theorem skip_plain_string_at (body : List Nat) (hplain : ∀ c ∈ body, plain_byte c = true)
    (pre post : List Nat) :
    skip_plain_string ⟨pre.length, pre ++ ((34 :: body ++ [34]) ++ post)⟩ =
      some ⟨.ok (), pre.length + (34 :: body ++ [34]).length⟩ := by
  simp only [skip_plain_string, plain_string_decode_at body hplain pre post]

/-- A pair without whitespace whose key is a plain name registered for a
member field, and whose value the field's codec decodes wherever it stands, is
well formed; its effect is the assignment of the value to the member. -/
theorem well_formed_member (o : codec.object T) (name value_text : List Nat) (required : Bool)
    (field_id : Nat) (c : codec μ) (member : codec.member_pointer T μ) (value : μ)
    (hname : ∀ b ∈ name, plain_byte b = true)
    (hfind : o.find name = some (codec.object.member_field required field_id c member))
    (hstart : ∃ b rest, value_text = b :: rest ∧ detail.is_space b = false)
    (hvalue : ∀ pre post : List Nat, c.decode ⟨pre.length, pre ++ (value_text ++ post)⟩ =
      some ⟨.ok value, pre.length + value_text.length⟩) :
    json_member.well_formed plain_helpers o
      { before := [], key := name, key_text := 34 :: name ++ [34], after_key := [],
        after_colon := [], value_text := value_text, after_value := [],
        effect := .ok fun record => member.set record value } := by
  refine ⟨by simp, ⟨_, rfl⟩, hstart, ?_, ?_⟩
  · intro pre post
    exact plain_string_decode_at name hname pre post
  · intro pre post _
    simp only [hfind]
    intro record
    simp only [codec.object.member_field, hvalue]

/-- A pair without whitespace whose key is a plain name that is not registered
and whose value is a plain string is well formed, whatever effect is written
next to it. -/
theorem well_formed_unknown (o : codec.object T) (name body : List Nat)
    (effect : Except String (T → T))
    (hname : ∀ b ∈ name, plain_byte b = true) (hbody : ∀ b ∈ body, plain_byte b = true)
    (hfind : o.find name = none) :
    json_member.well_formed plain_helpers o
      { before := [], key := name, key_text := 34 :: name ++ [34], after_key := [],
        after_colon := [], value_text := 34 :: body ++ [34], after_value := [],
        effect := effect } := by
  refine ⟨by simp, ⟨_, rfl⟩, ⟨34, _, rfl, by decide⟩, ?_, ?_⟩
  · intro pre post
    exact plain_string_decode_at name hname pre post
  · intro pre post _
    simp only [hfind]
    exact skip_plain_string_at body hbody pre post

theorem boolean_decode_at (b : Bool) (pre post : List Nat) :
    codec.boolean.decode ⟨pre.length, pre ++ (boolean_text b ++ post)⟩ =
      some ⟨.ok b, pre.length + (boolean_text b).length⟩ := by
  have h := boolean_decodes_own_text b pre post
  rw [List.append_assoc] at h
  exact h

/-! ## The object codec: required fields, key order, unknown keys -/

/-- The pair `"b":false` (or `"b":true`) for the codec of two flags. -/
theorem two_flags_member_b (value : Bool) :
    json_member.well_formed plain_helpers two_flags_codec
      { before := [], key := [98], key_text := 34 :: [98] ++ [34], after_key := [],
        after_colon := [], value_text := boolean_text value, after_value := [],
        effect := .ok fun record => two_flags.second_pointer.set record value } :=
  well_formed_member two_flags_codec [98] (boolean_text value) true 1 codec.boolean
    two_flags.second_pointer value (by decide) rfl
    (by cases value <;> exact ⟨_, _, rfl, by decide⟩)
    (boolean_decode_at value)

/-- The pair `"a":true` (or `"a":false`) for the codec of two flags. -/
theorem two_flags_member_a (value : Bool) :
    json_member.well_formed plain_helpers two_flags_codec
      { before := [], key := [97], key_text := 34 :: [97] ++ [34], after_key := [],
        after_colon := [], value_text := boolean_text value, after_value := [],
        effect := .ok fun record => two_flags.first_pointer.set record value } :=
  well_formed_member two_flags_codec [97] (boolean_text value) true 0 codec.boolean
    two_flags.first_pointer value (by decide) rfl
    (by cases value <;> exact ⟨_, _, rfl, by decide⟩)
    (boolean_decode_at value)

theorem two_flags_codec_built : two_flags_codec.built :=
  codec.object.built.add_field [98] true two_flags.second_pointer codec.boolean
    (codec.object.built.add_field [97] true two_flags.first_pointer codec.boolean
      (codec.object.built.empty _))

/-- C12 as stated, refuted: the codec of two flags requires "a" and "b"; the
text `{"b":1}` is a well-formed JSON object in which the key "a" does not
occur, and decoding it fails, but with the error of the boolean codec at the
value of "b", not with "Missing required field(s)". -/
theorem object_decode_missing_other_error :
    two_flags_codec.decode 1 plain_helpers
        (decoding_context.init [123, 34, 98, 34, 58, 49, 125]) =
      some ⟨.error ⟨"Unexpected input, expected boolean", 5⟩, 5⟩ ∧
    "Unexpected input, expected boolean" ≠ "Missing required field(s)" :=
  ⟨rfl, by decide⟩

/-- C12, amended: for every object codec made by registration with a required
field, decoding a well-formed JSON object in which the name of that field does
not occur among the keys fails; when the values of the registered keys are all
accepted by their fields' codecs, the error is "Missing required field(s)",
raised at the end of the text. The text `{}` is such an object. -/
theorem object_decode_missing (helpers : decoding_helpers) (o : codec.object T)
    (members : List (json_member T)) (fuel : Nat) (entry : List Nat × codec.object.field T)
    (hbuilt : o.built)
    (hmembers : ∀ m ∈ members, m.well_formed helpers o) (hfuel : members.length ≤ fuel)
    (hentry : entry ∈ o._fields) (hreq : entry.2.required = true)
    (hmissing : entry.1 ∉ members.map json_member.key) :
    (∃ e p, o.decode fuel helpers (decoding_context.init (object_text members)) =
      some ⟨.error e, p⟩) ∧
    ((∀ m ∈ members, o.accepts m = true) →
      o.decode fuel helpers (decoding_context.init (object_text members)) =
        some ⟨.error ⟨"Missing required field(s)", (object_text members).length⟩,
          (object_text members).length⟩) ∧
    o.decode fuel helpers (decoding_context.init [123, 125]) =
      some ⟨.error ⟨"Missing required field(s)", 2⟩, 2⟩ := by
  have hinv := codec.object.invariant_of_built o hbuilt
  have hacc := fun hacc => codec.object.decode_missing helpers o hinv members fuel hmembers hfuel
    hacc entry hentry hreq hmissing
  refine ⟨?_, hacc, ?_⟩
  · by_cases hall : ∀ m ∈ members, o.accepts m = true
    · exact ⟨_, _, hacc hall⟩
    · apply codec.object.decode_rejected helpers o members fuel hmembers hfuel
      simp only [not_forall] at hall
      obtain ⟨m, hm, hnot⟩ := hall
      exact ⟨m, hm, by simpa using hnot⟩
  · exact codec.object.decode_missing helpers o hinv [] fuel (by simp) (by simp) (by simp)
      entry hentry hreq (by simp)

theorem object_decode_missing_witness :
    two_flags_codec.built ∧
    two_flags_codec.decode 1 plain_helpers
        (decoding_context.init [123, 34, 98, 34, 58, 102, 97, 108, 115, 101, 125]) =
      some ⟨.error ⟨"Missing required field(s)", 11⟩, 11⟩ :=
  ⟨two_flags_codec_built,
    (object_decode_missing plain_helpers two_flags_codec
      [{ before := [], key := [98], key_text := 34 :: [98] ++ [34], after_key := [],
         after_colon := [], value_text := boolean_text false, after_value := [],
         effect := .ok fun record => two_flags.second_pointer.set record false }]
      1 ([97], codec.object.member_field true 0 codec.boolean two_flags.first_pointer)
      two_flags_codec_built
      (fun m hm => by
        rw [List.mem_singleton.mp hm]
        exact two_flags_member_b false)
      (by decide)
      (by simp [two_flags_codec, codec.object.required, codec.object.add_field,
        codec.object.save_field, codec.object.find])
      rfl (by decide)).2.1
      (fun m hm => by
        rw [List.mem_singleton.mp hm]
        rfl)⟩

namespace codec.object

/-- The record after storing: an observation that the effect of one pair
establishes and the effects of the pairs with other keys keep holds at the
end, when no key occurs twice. -/
theorem stored_holds (o : object T) (obs : T → Prop) :
    ∀ (members : List (json_member T)) (record : T) (m : json_member T) (update : T → T),
      (members.map json_member.key).Nodup → m ∈ members → o.find m.key ≠ none →
      m.effect = .ok update → (∀ r, obs (update r)) →
      (∀ m' ∈ members, m'.key ≠ m.key → ∀ update', m'.effect = .ok update' →
        ∀ r, obs r → obs (update' r)) →
      obs (o.stored members record) := by
  have hkeep : ∀ (members : List (json_member T)) (record : T) (m : json_member T),
      (∀ m' ∈ members, m'.key ≠ m.key) →
      (∀ m' ∈ members, m'.key ≠ m.key → ∀ update', m'.effect = .ok update' →
        ∀ r, obs r → obs (update' r)) →
      obs record → obs (o.stored members record) := by
    intro members
    induction members with
    | nil => intro record m _ _ h; exact h
    | cons m' rest ih =>
      intro record m hne hpres hobs
      simp only [stored, List.foldl_cons]
      apply ih _ m (fun x hx => hne x (List.mem_cons_of_mem _ hx))
        (fun x hx => hpres x (List.mem_cons_of_mem _ hx))
      cases hfind : o.find m'.key with
      | none => exact hobs
      | some f =>
        cases heff : m'.effect with
        | error message => exact hobs
        | ok update' =>
          exact hpres m' (List.mem_cons_self _ _) (hne m' (List.mem_cons_self _ _)) update' heff
            record hobs
  intro members
  induction members with
  | nil => intro record m update _ hm; simp at hm
  | cons m' rest ih =>
    intro record m update hnodup hm hfind heff hest hpres
    simp only [List.map_cons, List.nodup_cons] at hnodup
    rcases List.mem_cons.mp hm with heq | hmem
    · subst heq
      simp only [stored, List.foldl_cons]
      have hne : ∀ x ∈ rest, x.key ≠ m.key := by
        intro x hx he
        exact hnodup.1 (List.mem_map.mpr ⟨x, hx, he⟩)
      apply hkeep rest _ m hne (fun x hx => hpres x (List.mem_cons_of_mem _ hx))
      cases hf : o.find m.key with
      | none => exact absurd hf hfind
      | some f => simp only [heff]; exact hest record
    · simp only [stored, List.foldl_cons]
      exact ih _ m update hnodup.2 hmem hfind heff hest
        (fun x hx => hpres x (List.mem_cons_of_mem _ hx))

/-- Storing pairs whose effects commute gives the same record in every order. -/
theorem stored_perm (o : object T) (members members' : List (json_member T)) (record : T)
    (hperm : members.Perm members')
    (hcomm : ∀ m1 ∈ members, ∀ m2 ∈ members, ∀ u1 u2, m1.effect = .ok u1 → m2.effect = .ok u2 →
      ∀ r, u2 (u1 r) = u1 (u2 r)) :
    o.stored members record = o.stored members' record := by
  unfold stored
  apply List.Perm.foldl_eq' hperm
  intro x hx y hy z
  cases hfx : o.find x.key <;> cases hfy : o.find y.key <;> cases hex : x.effect <;>
    cases hey : y.effect <;> simp only []
  exact hcomm x hx y hy _ _ hex hey z

theorem required_names_nodup (o : object T) (hinv : o.invariant) : o.required_names.Nodup := by
  unfold required_names
  have h := hinv.2.2.1
  generalize o._fields = fields at h
  induction fields with
  | nil => simp
  | cons entry rest ih =>
    simp only [List.map_cons, List.nodup_cons] at h
    by_cases hreq : entry.2.required = true
    · simp only [List.filter_cons, hreq, if_true, List.map_cons, List.nodup_cons]
      refine ⟨?_, ih h.2⟩
      intro hmem
      apply h.1
      obtain ⟨x, hx, hxe⟩ := List.mem_map.mp hmem
      exact List.mem_map.mpr ⟨x, (List.mem_filter.mp hx).1, hxe⟩
    · simp only [List.filter_cons, hreq]
      exact ih h.2

theorem mem_required_names (o : object T) (entry : List Nat × object.field T)
    (hentry : entry ∈ o._fields) (hreq : entry.2.required = true) :
    entry.1 ∈ o.required_names :=
  List.mem_map.mpr ⟨entry, List.mem_filter.mpr ⟨hentry, hreq⟩, rfl⟩

theorem find_of_mem_required_names (o : object T) (name : List Nat)
    (h : name ∈ o.required_names) : o.find name ≠ none := by
  obtain ⟨entry, hentry, hname⟩ := List.mem_map.mp h
  apply lookup_isSome_of_mem
  exact List.mem_map.mpr ⟨entry, (List.mem_filter.mp hentry).1, hname⟩

end codec.object

/-- The steps of the loop pass over the pairs with unknown keys. -/
theorem fold_steps_known (o : codec.object T) :
    ∀ (members : List (json_member T)) (state : T × List Bool),
      fold_steps o.apply_member state members =
        fold_steps o.apply_member state
          (members.filter fun m => (o.find m.key).isSome) := by
  intro members
  induction members with
  | nil => intro state; rfl
  | cons m rest ih =>
    intro state
    cases hfind : o.find m.key with
    | none =>
      simp only [List.filter_cons, hfind, Option.isSome_none, Bool.false_eq_true, if_false]
      rw [fold_steps]
      simp only [codec.object.apply_member, hfind]
      exact ih state
    | some f =>
      simp only [List.filter_cons, hfind, Option.isSome_some, if_true]
      rw [fold_steps, fold_steps]
      cases hstep : o.apply_member state m with
      | error message => rfl
      | ok state' => exact ih state'

/-- Storing passes over the pairs with unknown keys. -/
theorem codec.object.stored_known (o : codec.object T) :
    ∀ (members : List (json_member T)) (record : T),
      o.stored members record =
        o.stored (members.filter fun m => (o.find m.key).isSome) record := by
  intro members
  induction members with
  | nil => intro record; rfl
  | cons m rest ih =>
    intro record
    cases hfind : o.find m.key with
    | none =>
      simp only [List.filter_cons, hfind, Option.isSome_none, Bool.false_eq_true, if_false]
      rw [← ih record]
      simp only [codec.object.stored, List.foldl_cons, hfind]
    | some f =>
      simp only [List.filter_cons, hfind, Option.isSome_some, if_true]
      simp only [codec.object.stored, List.foldl_cons, hfind]
      exact ih _

/-- C13 as stated, refuted: the codec that requires "a" and "b" and binds both
to the same member decodes `{"a":true,"b":false}` and `{"b":false,"a":true}`,
which hold the same keys with the same values, to different records: the value
decoded last is the one the member holds. -/
theorem object_decode_aliased_order :
    aliased_flags_codec.decode 2 plain_helpers
        (decoding_context.init
          [123, 34, 97, 34, 58, 116, 114, 117, 101, 44, 34, 98, 34, 58, 102, 97, 108, 115, 101,
            125]) =
      some ⟨.ok { first := false, second := false }, 20⟩ ∧
    aliased_flags_codec.decode 2 plain_helpers
        (decoding_context.init
          [123, 34, 98, 34, 58, 102, 97, 108, 115, 101, 44, 34, 97, 34, 58, 116, 114, 117, 101,
            125]) =
      some ⟨.ok { first := true, second := false }, 20⟩ ∧
    ({ first := false, second := false } : two_flags) ≠ { first := true, second := false } :=
  ⟨rfl, rfl, by decide⟩

/-- C13, amended: for every object codec made by registration and every
well-formed JSON object whose keys are the codec's required field names, each
once, in any order, with each value accepted by its field's codec, decode
succeeds with the cursor at the end of the text, and the record holds the
values stored in the order of the text. When storing the value of one key
leaves in place what the others stored (the fields are bound to different
members), each member holds the value decoded for its key, and the record is
the same for every order of the pairs. -/
theorem object_decode_required (helpers : decoding_helpers) (o : codec.object T)
    (members : List (json_member T)) (fuel : Nat)
    (hbuilt : o.built)
    (hmembers : ∀ m ∈ members, m.well_formed helpers o) (hfuel : members.length ≤ fuel)
    (hkeys : (members.map json_member.key).Perm o.required_names)
    (hacc : ∀ m ∈ members, o.accepts m = true) :
    o.decode fuel helpers (decoding_context.init (object_text members)) =
      some ⟨.ok (o.stored members o.construct), (object_text members).length⟩ ∧
    (∀ m ∈ members, ∀ update, m.effect = .ok update → ∀ obs : T → Prop,
      (∀ r, obs (update r)) →
      (∀ m' ∈ members, m'.key ≠ m.key → ∀ update', m'.effect = .ok update' →
        ∀ r, obs r → obs (update' r)) →
      obs (o.stored members o.construct)) ∧
    ((∀ m1 ∈ members, ∀ m2 ∈ members, ∀ u1 u2, m1.effect = .ok u1 → m2.effect = .ok u2 →
        ∀ r, u2 (u1 r) = u1 (u2 r)) →
      ∀ members' : List (json_member T), members.Perm members' →
        o.decode fuel helpers (decoding_context.init (object_text members')) =
          some ⟨.ok (o.stored members o.construct), (object_text members').length⟩) := by
  have hinv := codec.object.invariant_of_built o hbuilt
  have hnodup : (members.map json_member.key).Nodup :=
    hkeys.nodup_iff.mpr (codec.object.required_names_nodup o hinv)
  have hall : ∀ ms : List (json_member T), (ms.map json_member.key).Perm o.required_names →
      ∀ entry ∈ o._fields, entry.2.required = true → entry.1 ∈ ms.map json_member.key :=
    fun ms hp entry hentry hreq =>
      hp.mem_iff.mpr (codec.object.mem_required_names o entry hentry hreq)
  refine ⟨?_, ?_, ?_⟩
  · exact codec.object.decode_complete helpers o hinv members fuel hmembers hfuel hacc
      (hall members hkeys)
  · intro m hm update heff obs hest hpres
    have hfind : o.find m.key ≠ none :=
      codec.object.find_of_mem_required_names o m.key
        (hkeys.mem_iff.mp (List.mem_map.mpr ⟨m, hm, rfl⟩))
    exact codec.object.stored_holds o obs members o.construct m update hnodup hm hfind heff
      hest hpres
  · intro hcomm members' hperm
    have hkeys' : (members'.map json_member.key).Perm o.required_names :=
      ((hperm.map json_member.key).symm).trans hkeys
    rw [codec.object.stored_perm o members members' o.construct hperm hcomm]
    exact codec.object.decode_complete helpers o hinv members' fuel
      (fun m hm => hmembers m (hperm.mem_iff.mpr hm)) (by rw [← hperm.length_eq]; exact hfuel)
      (fun m hm => hacc m (hperm.mem_iff.mpr hm)) (hall members' hkeys')

theorem object_decode_required_witness :
    two_flags_codec.built ∧
    two_flags_codec.decode 2 plain_helpers
        (decoding_context.init
          [123, 34, 98, 34, 58, 102, 97, 108, 115, 101, 44, 34, 97, 34, 58, 116, 114, 117, 101,
            125]) =
      some ⟨.ok { first := true, second := false }, 20⟩ :=
  ⟨two_flags_codec_built,
    (object_decode_required plain_helpers two_flags_codec
      [{ before := [], key := [98], key_text := 34 :: [98] ++ [34], after_key := [],
         after_colon := [], value_text := boolean_text false, after_value := [],
         effect := .ok fun record => two_flags.second_pointer.set record false },
       { before := [], key := [97], key_text := 34 :: [97] ++ [34], after_key := [],
         after_colon := [], value_text := boolean_text true, after_value := [],
         effect := .ok fun record => two_flags.first_pointer.set record true }]
      2 two_flags_codec_built
      (fun m hm => by
        simp only [List.mem_cons, List.mem_singleton, List.not_mem_nil, or_false] at hm
        rcases hm with h | h
        · rw [h]; exact two_flags_member_b false
        · rw [h]; exact two_flags_member_a true)
      (by decide)
      (by
        have h : two_flags_codec.required_names = [[97], [98]] := by
          simp [two_flags_codec, codec.object.required_names, codec.object.required,
            codec.object.add_field, codec.object.save_field, codec.object.find,
            codec.object.member_field]
        rw [h]
        exact List.Perm.swap _ _ _)
      (fun m hm => by
        simp only [List.mem_cons, List.mem_singleton, List.not_mem_nil, or_false] at hm
        rcases hm with h | h <;> rw [h] <;> rfl)).1⟩

/-- C14: for every object codec and every well-formed JSON object, the pairs
whose key is not a registered name are skipped and store nothing: decoding the
object and decoding the object with those pairs removed both succeed with the
same record, each with the cursor at the end of its text, or both fail with
the same message. -/
theorem object_decode_unknown_keys (helpers : decoding_helpers) (o : codec.object T)
    (members : List (json_member T)) (fuel : Nat)
    (hmembers : ∀ m ∈ members, m.well_formed helpers o) (hfuel : members.length ≤ fuel) :
    ((∃ record,
        o.decode fuel helpers (decoding_context.init (object_text members)) =
          some ⟨.ok record, (object_text members).length⟩ ∧
        o.decode fuel helpers (decoding_context.init
            (object_text (members.filter fun m => (o.find m.key).isSome))) =
          some ⟨.ok record,
            (object_text (members.filter fun m => (o.find m.key).isSome)).length⟩) ∨
      (∃ message offset p offset' p',
        o.decode fuel helpers (decoding_context.init (object_text members)) =
          some ⟨.error ⟨message, offset⟩, p⟩ ∧
        o.decode fuel helpers (decoding_context.init
            (object_text (members.filter fun m => (o.find m.key).isSome))) =
          some ⟨.error ⟨message, offset'⟩, p'⟩)) ∧
    (∀ record : T, o.stored members record =
      o.stored (members.filter fun m => (o.find m.key).isSome) record) := by
  have h1 := object_decode_text helpers o members fuel hmembers hfuel
  have h2 := object_decode_text helpers o (members.filter fun m => (o.find m.key).isSome) fuel
    (fun m hm => hmembers m (List.mem_filter.mp hm).1)
    (le_trans (List.length_filter_le _ _) hfuel)
  rw [← fold_steps_known o members] at h2
  constructor
  · cases hfold : fold_steps o.apply_member
        (o.construct, List.replicate o._fields.length false) members with
    | error message =>
      rw [hfold] at h1 h2
      obtain ⟨offset, p, hp⟩ := h1
      obtain ⟨offset', p', hp'⟩ := h2
      exact Or.inr ⟨message, offset, p, offset', p', hp, hp'⟩
    | ok final =>
      rw [hfold] at h1 h2
      obtain ⟨output, encountered⟩ := final
      simp only [] at h1 h2
      by_cases hcount : (encountered.count true != o._num_required_fields) = true
      · simp only [hcount, if_true] at h1 h2
        exact Or.inr ⟨_, _, _, _, _, h1, h2⟩
      · simp only [hcount, if_false] at h1 h2
        exact Or.inl ⟨output, by simpa using h1, by simpa using h2⟩
  · exact fun record => codec.object.stored_known o members record

theorem object_decode_unknown_keys_witness :
    (custom_codec_named [97]).decode 2 plain_helpers
        (decoding_context.init
          [123, 34, 98, 34, 58, 34, 120, 34, 44, 34, 97, 34, 58, 34, 99, 34, 125]) =
      some ⟨.ok { val := [99] }, 17⟩ ∧
    (custom_codec_named [97]).decode 2 plain_helpers
        (decoding_context.init [123, 34, 97, 34, 58, 34, 99, 34, 125]) =
      some ⟨.ok { val := [99] }, 9⟩ ∧
    ∀ record : custom_obj,
      (custom_codec_named [97]).stored
          [{ before := [], key := [98], key_text := 34 :: [98] ++ [34], after_key := [],
             after_colon := [], value_text := 34 :: [120] ++ [34], after_value := [],
             effect := .ok fun _ => { val := [120] } },
           { before := [], key := [97], key_text := 34 :: [97] ++ [34], after_key := [],
             after_colon := [], value_text := 34 :: [99] ++ [34], after_value := [],
             effect := .ok fun record => custom_obj.val_pointer.set record [99] }] record =
        { val := [99] } :=
  ⟨rfl, rfl, fun record =>
    ((object_decode_unknown_keys plain_helpers (custom_codec_named [97])
      [{ before := [], key := [98], key_text := 34 :: [98] ++ [34], after_key := [],
         after_colon := [], value_text := 34 :: [120] ++ [34], after_value := [],
         effect := .ok fun _ => { val := [120] } },
       { before := [], key := [97], key_text := 34 :: [97] ++ [34], after_key := [],
         after_colon := [], value_text := 34 :: [99] ++ [34], after_value := [],
         effect := .ok fun record => custom_obj.val_pointer.set record [99] }]
      2
      (fun m hm => by
        simp only [List.mem_cons, List.mem_singleton, List.not_mem_nil, or_false] at hm
        rcases hm with h | h
        · rw [h]
          exact well_formed_unknown (custom_codec_named [97]) [98] [120] _ (by decide)
            (by decide) rfl
        · rw [h]
          exact well_formed_member (custom_codec_named [97]) [97] (34 :: [99] ++ [34]) true 0
            plain_string custom_obj.val_pointer [99] (by decide) rfl ⟨_, _, rfl, by decide⟩
            (plain_string_decode_at [99] (by decide)))
      (by decide)).2 record).trans rfl⟩

/-! ## The codec `one_of`: decoding -/

/-- The later attempts of `one_of`: the alternatives that fail from the start
position are passed, and the first one that succeeds from there gives the
result, wherever the failing ones left the cursor. -/
theorem one_of_decode_next_ok (start : Nat) (first_error : decode_exception) (c : codec α)
    (later : List (codec α)) (context : decoding_context) (v : α) (q : Nat)
    (hc : c.decode { context with position := start } = some ⟨.ok v, q⟩) :
    ∀ (failing : List (codec α)) (p : Nat),
      (∀ f ∈ failing, ∃ e r, f.decode { context with position := start } =
        some ⟨.error e, r⟩) →
      codec.one_of_t.decode_next start first_error (failing ++ c :: later) p context =
        some ⟨.ok v, q⟩ := by
  intro failing
  induction failing with
  | nil =>
    intro p _
    simp only [List.nil_append, codec.one_of_t.decode_next, hc]
  | cons f rest ih =>
    intro p hfail
    obtain ⟨e, r, hf⟩ := hfail f (List.mem_cons_self _ _)
    simp only [List.cons_append, codec.one_of_t.decode_next, hf]
    exact ih r (fun g hg => hfail g (List.mem_cons_of_mem _ hg))

/-- The later attempts of `one_of` when every alternative fails: the error is
the one handed down from the first alternative. -/
theorem one_of_decode_next_fail (start : Nat) (first_error : decode_exception)
    (context : decoding_context) :
    ∀ (rest : List (codec α)) (p : Nat),
      (∀ f ∈ rest, ∃ e r, f.decode { context with position := start } = some ⟨.error e, r⟩) →
      ∃ r, codec.one_of_t.decode_next start first_error rest p context =
        some ⟨.error first_error, r⟩ := by
  intro rest
  induction rest with
  | nil =>
    intro p _
    exact ⟨p, rfl⟩
  | cons f rest ih =>
    intro p hfail
    obtain ⟨e, r, hf⟩ := hfail f (List.mem_cons_self _ _)
    simp only [codec.one_of_t.decode_next, hf]
    exact ih r (fun g hg => hfail g (List.mem_cons_of_mem _ hg))

/-- The later attempts of `one_of` end in a failure only when every alternative
has failed from the start position, and the failure is the one handed down. -/
theorem one_of_decode_next_error (start : Nat) (first_error : decode_exception)
    (context : decoding_context) (e : decode_exception) (r : Nat) :
    ∀ (rest : List (codec α)) (p : Nat),
      codec.one_of_t.decode_next start first_error rest p context = some ⟨.error e, r⟩ →
      e = first_error ∧
        ∀ f ∈ rest, ∃ e' r', f.decode { context with position := start } =
          some ⟨.error e', r'⟩ := by
  intro rest
  induction rest with
  | nil =>
    intro p h
    simp only [codec.one_of_t.decode_next, Option.some.injEq, decoded.mk.injEq,
      Except.error.injEq] at h
    exact ⟨h.1.symm, fun f hf => absurd hf (List.not_mem_nil f)⟩
  | cons f rest ih =>
    intro p h
    simp only [codec.one_of_t.decode_next] at h
    cases hf : f.decode { context with position := start } with
    | none => rw [hf] at h; cases h
    | some d =>
      obtain ⟨result, q⟩ := d
      cases result with
      | ok v => rw [hf] at h; cases h
      | error e' =>
        rw [hf] at h
        obtain ⟨he, hrest⟩ := ih q h
        refine ⟨he, ?_⟩
        intro g hg
        rcases List.mem_cons.mp hg with hgf | hgr
        · rw [hgf]
          exact ⟨e', q, hf⟩
        · exact hrest g hgr

/-- C21: the result and the final cursor of `one_of` are those of the first
alternative, in list order, whose decode succeeds from the position at which
`one_of` was called; the alternatives before it have failed from that position
and where they left the cursor does not matter. An input that the first
alternative accepts is decoded by it whatever the later ones would do, and an
input that the first rejects and the second accepts is decoded as the second
decodes it from the start. In the tests, `{"a":"first"}` is accepted by both
alternatives and decoded by the first, and `{"b":"second"}` is decoded by the
second. -/
theorem one_of_decode (first : codec α) (rest : List (codec α)) (context : decoding_context) :
    (∀ (failing : List (codec α)) (c : codec α) (later : List (codec α)) (v : α) (p : Nat),
      first :: rest = failing ++ c :: later →
      (∀ f ∈ failing, ∃ e q, f.decode context = some ⟨.error e, q⟩) →
      c.decode context = some ⟨.ok v, p⟩ →
      (codec.one_of first rest).decode context = some ⟨.ok v, p⟩) ∧
    (∀ (v : α) (p : Nat), first.decode context = some ⟨.ok v, p⟩ →
      (codec.one_of first rest).decode context = some ⟨.ok v, p⟩) ∧
    (∀ (second : codec α) (later : List (codec α)) (e : decode_exception) (q : Nat) (v : α)
        (p : Nat), rest = second :: later →
      first.decode context = some ⟨.error e, q⟩ →
      second.decode context = some ⟨.ok v, p⟩ →
      (codec.one_of first rest).decode context = second.decode context) ∧
    ((custom_codec_named [97]).to_codec 2 plain_helpers).decode (decoding_context.init
        [123, 34, 97, 34, 58, 34, 102, 105, 114, 115, 116, 34, 125]) =
      some ⟨.ok { val := [102, 105, 114, 115, 116] }, 13⟩ ∧
    (fieldless_codec.to_codec 2 plain_helpers).decode (decoding_context.init
        [123, 34, 97, 34, 58, 34, 102, 105, 114, 115, 116, 34, 125]) =
      some ⟨.ok { val := [] }, 13⟩ ∧
    (codec.one_of ((custom_codec_named [97]).to_codec 2 plain_helpers)
        [fieldless_codec.to_codec 2 plain_helpers]).decode (decoding_context.init
        [123, 34, 97, 34, 58, 34, 102, 105, 114, 115, 116, 34, 125]) =
      some ⟨.ok { val := [102, 105, 114, 115, 116] }, 13⟩ ∧
    (codec.one_of ((custom_codec_named [97]).to_codec 2 plain_helpers)
        [(custom_codec_named [98]).to_codec 2 plain_helpers]).decode (decoding_context.init
        [123, 34, 98, 34, 58, 34, 115, 101, 99, 111, 110, 100, 34, 125]) =
      some ⟨.ok { val := [115, 101, 99, 111, 110, 100] }, 14⟩ := by
  have hfirst : ∀ (v : α) (p : Nat), first.decode context = some ⟨.ok v, p⟩ →
      (codec.one_of first rest).decode context = some ⟨.ok v, p⟩ := by
    intro v p h
    simp only [codec.one_of, codec.one_of_t.decode, h]
  have hgeneral : ∀ (failing : List (codec α)) (c : codec α) (later : List (codec α)) (v : α)
      (p : Nat), first :: rest = failing ++ c :: later →
      (∀ f ∈ failing, ∃ e q, f.decode context = some ⟨.error e, q⟩) →
      c.decode context = some ⟨.ok v, p⟩ →
      (codec.one_of first rest).decode context = some ⟨.ok v, p⟩ := by
    intro failing c later v p hlist hfail hc
    cases failing with
    | nil =>
      simp only [List.nil_append, List.cons.injEq] at hlist
      rw [← hlist.1] at hc
      exact hfirst v p hc
    | cons f failing =>
      simp only [List.cons_append, List.cons.injEq] at hlist
      obtain ⟨e, q, hf⟩ := hfail f (List.mem_cons_self _ _)
      rw [← hlist.1] at hf
      simp only [codec.one_of, codec.one_of_t.decode, hf, hlist.2]
      exact one_of_decode_next_ok context.position e c later context v p hc failing q
        (fun g hg => hfail g (List.mem_cons_of_mem _ hg))
  refine ⟨hgeneral, hfirst, ?_, rfl, rfl, rfl, rfl⟩
  intro second later e q v p hrest hf hs
  rw [hs]
  exact hgeneral [first] second later v p (by rw [hrest]; rfl)
    (fun g hg => by rw [List.mem_singleton.mp hg]; exact ⟨e, q, hf⟩) hs

/-- C22: `one_of` fails if and only if every alternative fails from the start
position, and the error it reports is then the error of the first alternative.
With alternatives that require "a" and "b", decoding `{}` fails, with the
error of the first. -/
theorem one_of_decode_fails (first : codec α) (rest : List (codec α))
    (context : decoding_context) :
    ((∃ e p, (codec.one_of first rest).decode context = some ⟨.error e, p⟩) ↔
      ∀ c ∈ first :: rest, ∃ e p, c.decode context = some ⟨.error e, p⟩) ∧
    (∀ (e : decode_exception) (p : Nat),
      (codec.one_of first rest).decode context = some ⟨.error e, p⟩ →
      ∃ q, first.decode context = some ⟨.error e, q⟩) ∧
    (∀ (e : decode_exception) (q : Nat), first.decode context = some ⟨.error e, q⟩ →
      (∀ c ∈ rest, ∃ e' p, c.decode context = some ⟨.error e', p⟩) →
      ∃ p, (codec.one_of first rest).decode context = some ⟨.error e, p⟩) ∧
    ((custom_codec_named [97]).to_codec 2 plain_helpers).decode
        (decoding_context.init [123, 125]) =
      some ⟨.error ⟨"Missing required field(s)", 2⟩, 2⟩ ∧
    (codec.one_of ((custom_codec_named [97]).to_codec 2 plain_helpers)
        [(custom_codec_named [98]).to_codec 2 plain_helpers]).decode
        (decoding_context.init [123, 125]) =
      some ⟨.error ⟨"Missing required field(s)", 2⟩, 2⟩ := by
  have hinv : ∀ (e : decode_exception) (p : Nat),
      (codec.one_of first rest).decode context = some ⟨.error e, p⟩ →
      (∃ q, first.decode context = some ⟨.error e, q⟩) ∧
        ∀ c ∈ rest, ∃ e' p', c.decode context = some ⟨.error e', p'⟩ := by
    intro e p h
    simp only [codec.one_of, codec.one_of_t.decode] at h
    cases hf : first.decode context with
    | none => rw [hf] at h; cases h
    | some d =>
      obtain ⟨result, q⟩ := d
      cases result with
      | ok v => rw [hf] at h; cases h
      | error e' =>
        rw [hf] at h
        obtain ⟨he, hrest⟩ := one_of_decode_next_error context.position e' context e p rest q h
        rw [he]
        exact ⟨⟨q, rfl⟩, hrest⟩
  have hall : ∀ (e : decode_exception) (q : Nat), first.decode context = some ⟨.error e, q⟩ →
      (∀ c ∈ rest, ∃ e' p, c.decode context = some ⟨.error e', p⟩) →
      ∃ p, (codec.one_of first rest).decode context = some ⟨.error e, p⟩ := by
    intro e q hf hrest
    simp only [codec.one_of, codec.one_of_t.decode, hf]
    exact one_of_decode_next_fail context.position e context rest q hrest
  refine ⟨⟨?_, ?_⟩, fun e p h => (hinv e p h).1, hall, rfl, rfl⟩
  · rintro ⟨e, p, h⟩ c hc
    obtain ⟨⟨q, hq⟩, hrest⟩ := hinv e p h
    rcases List.mem_cons.mp hc with hcf | hcr
    · rw [hcf]
      exact ⟨e, q, hq⟩
    · exact hrest c hcr
  · intro h
    obtain ⟨e, q, hf⟩ := h first (List.mem_cons_self _ _)
    obtain ⟨p, hp⟩ := hall e q hf (fun c hc => h c (List.mem_cons_of_mem _ hc))
    exact ⟨e, p, hp⟩

/-! ## The top-level functions `decode`, `try_decode` and `try_decode_partial` -/

/-- Whitespace up to the end of the input is skipped up to the end. -/
theorem skip_whitespace_all (pre ws : List Nat) (hws : ∀ c ∈ ws, detail.is_space c = true) :
    detail.skip_whitespace ⟨pre.length, pre ++ ws⟩ = ⟨pre.length + ws.length, pre ++ ws⟩ := by
  have htake : List.takeWhile detail.is_space ws = ws :=
    List.takeWhile_eq_self_iff.mpr hws
  simp [detail.skip_whitespace, htake]

/-- A text is whitespace followed by nothing or by a byte that is not
whitespace. -/
theorem leading_whitespace (t : List Nat) :
    ∃ lead body, t = lead ++ body ∧ (∀ c ∈ lead, detail.is_space c = true) ∧
      (body = [] ∨ ∃ b tail, body = b :: tail ∧ detail.is_space b = false) := by
  refine ⟨t.takeWhile detail.is_space, t.dropWhile detail.is_space,
    (List.takeWhile_append_dropWhile _ _).symm, fun c hc => (List.mem_takeWhile_imp hc), ?_⟩
  cases h : t.dropWhile detail.is_space with
  | nil => exact Or.inl rfl
  | cons b tail =>
    refine Or.inr ⟨b, tail, rfl, ?_⟩
    have := List.head_dropWhile_not detail.is_space t (by rw [h]; simp)
    simpa [h] using this

/-- What `decode` returns in terms of the codec: the value, when the codec
succeeds after the leading whitespace and only whitespace follows what it has
parsed. -/
theorem decode_eq_ok (c : codec α) (input : List Nat) (v : α) :
    decode c input = some (.ok v) ↔
      ∃ p, c.decode (detail.skip_whitespace (decoding_context.init input)) = some ⟨.ok v, p⟩ ∧
        (detail.skip_whitespace ⟨p, input⟩).position = input.length := by
  cases hd : c.decode (detail.skip_whitespace (decoding_context.init input)) with
  | none => simp [decode, hd]
  | some d =>
    obtain ⟨result, p⟩ := d
    cases result with
    | error e => simp [decode, hd]
    | ok value =>
      have hin : (detail.skip_whitespace (decoding_context.init input)).input = input := rfl
      simp only [decode, hd, hin, detail.fail_if]
      by_cases hpos : (detail.skip_whitespace ⟨p, input⟩).position = input.length
      · simp only [hpos, bne_self_eq_false, Bool.false_eq_true, if_false, Option.some.injEq,
          Except.ok.injEq, decoded.mk.injEq]
        constructor
        · intro h
          exact ⟨p, ⟨h, rfl⟩, hpos⟩
        · rintro ⟨_, ⟨h, _⟩, _⟩
          exact h
      · have hne : ((detail.skip_whitespace ⟨p, input⟩).position != input.length) = true := by
          simpa using hpos
        simp only [hne, if_true, Option.some.injEq, decoded.mk.injEq, Except.ok.injEq]
        constructor
        · intro h
          cases h
        · rintro ⟨q, ⟨_, hq⟩, hend⟩
          rw [← hq] at hend
          exact absurd hend hpos

/-- When skipping whitespace from a position ends at the end of the input, the
position lies within the input and only whitespace follows it. -/
theorem skip_whitespace_to_end (input : List Nat) (p : Nat)
    (h : (detail.skip_whitespace ⟨p, input⟩).position = input.length) :
    p ≤ input.length ∧ ∀ c ∈ input.drop p, detail.is_space c = true := by
  simp only [detail.skip_whitespace] at h
  have hle : (List.takeWhile detail.is_space (input.drop p)).length ≤ (input.drop p).length :=
    (List.takeWhile_sublist _).length_le
  have hdrop : (input.drop p).length = input.length - p := List.length_drop _ _
  have hp : p ≤ input.length := by omega
  refine ⟨hp, ?_⟩
  have hsplit := List.takeWhile_append_dropWhile detail.is_space (input.drop p)
  have hlen : (List.takeWhile detail.is_space (input.drop p)).length +
      (List.dropWhile detail.is_space (input.drop p)).length = (input.drop p).length := by
    rw [← List.length_append, hsplit]
  have hnil : List.dropWhile detail.is_space (input.drop p) = [] :=
    List.length_eq_zero.mp (by omega)
  exact List.dropWhile_eq_nil_iff.mp hnil

/-- Skipping the whitespace behind a value ends at the end of a longer input
too, when that input has more whitespace at its end. -/
theorem skip_whitespace_trailing (pre input post : List Nat) (p : Nat)
    (hpost : ∀ c ∈ post, detail.is_space c = true)
    (h : (detail.skip_whitespace ⟨p, input⟩).position = input.length) :
    (detail.skip_whitespace ⟨pre.length + p, pre ++ input ++ post⟩).position =
      (pre ++ input ++ post).length := by
  obtain ⟨hp, hws⟩ := skip_whitespace_to_end input p h
  have hdrop : (pre ++ input ++ post).drop (pre.length + p) = input.drop p ++ post := by
    rw [List.append_assoc, List.drop_append, List.drop_append_of_le_length hp]
  have hall : ∀ c ∈ input.drop p ++ post, detail.is_space c = true := by
    intro c hc
    rcases List.mem_append.mp hc with h1 | h2
    · exact hws c h1
    · exact hpost c h2
  have htake : List.takeWhile detail.is_space (input.drop p ++ post) = input.drop p ++ post :=
    List.takeWhile_eq_self_iff.mpr hall
  simp only [detail.skip_whitespace, hdrop, htake, List.length_append, List.length_drop]
  omega

/-- C27: for every codec and every input made of a text that the codec decodes
completely, whitespace, and more input that starts with a byte that is not
whitespace, `decode` fails with a decode error, raised where the trailing
input starts, and `try_decode` returns false and leaves the out-value as it
was. -/
theorem decode_rejects_trailing (c : codec α) (t w r : List Nat) (b : Nat) (v object : α)
    (hc : c.decode (detail.skip_whitespace (decoding_context.init (t ++ w ++ b :: r))) =
      some ⟨.ok v, t.length⟩)
    (hw : ∀ x ∈ w, detail.is_space x = true) (hb : detail.is_space b = false) :
    decode c (t ++ w ++ b :: r) = some (.error ⟨"TrailingInput", t.length + w.length⟩) ∧
    decode c (t ++ w ++ b :: r) ≠ some (.ok v) ∧
    try_decode object c (t ++ w ++ b :: r) = some (false, object) := by
  have hskip : detail.skip_whitespace ⟨t.length, t ++ w ++ b :: r⟩ =
      ⟨t.length + w.length, t ++ w ++ b :: r⟩ := by
    have h := skip_whitespace_run t w b r hw hb
    rw [List.length_append] at h
    rw [List.append_assoc]
    exact h
  have hin : (detail.skip_whitespace (decoding_context.init (t ++ w ++ b :: r))).input =
      t ++ w ++ b :: r := rfl
  have hne : (t.length + w.length != (t ++ w ++ b :: r).length) = true := by
    simp only [List.length_append, List.length_cons, bne_iff_ne, ne_eq]
    omega
  have hmain : decode c (t ++ w ++ b :: r) =
      some (.error ⟨"TrailingInput", t.length + w.length⟩) := by
    simp only [decode, hc, hin, hskip, detail.fail_if, hne, if_true, detail.fail,
      decoding_context.offset]
  refine ⟨hmain, ?_, ?_⟩
  · rw [hmain]
    simp
  · simp only [try_decode, hmain]

theorem decode_rejects_trailing_witness :
    decode (default_custom_codec 2)
        [123, 34, 120, 34, 58, 34, 104, 34, 125, 32, 105, 110, 118, 97, 108, 105, 100] =
      some (.error ⟨"TrailingInput", 10⟩) ∧
    try_decode { val := [] } (default_custom_codec 2)
        [123, 34, 120, 34, 58, 34, 104, 34, 125, 32, 105, 110, 118, 97, 108, 105, 100] =
      some (false, { val := [] }) :=
  ⟨(decode_rejects_trailing (default_custom_codec 2)
      [123, 34, 120, 34, 58, 34, 104, 34, 125] [32] [110, 118, 97, 108, 105, 100] 105
      { val := [104] } { val := [] } rfl (by decide) (by decide)).1,
    (decode_rejects_trailing (default_custom_codec 2)
      [123, 34, 120, 34, 58, 34, 104, 34, 125] [32] [110, 118, 97, 108, 105, 100] 105
      { val := [104] } { val := [] } rfl (by decide) (by decide)).2.2⟩

/-- C28: `try_decode_partial` skips the whitespace before the value and
decodes one value with the codec from there; when the codec succeeds it
returns true with the value and leaves the cursor where the codec left it,
just past the value, whatever follows; when the codec fails it returns false
and leaves the out-value as it was. From `{"x":"hey"}, "foobar"` it yields the
record with the value hey and the cursor at offset 11, before the comma. -/
theorem try_decode_partial_decodes (object : α) (c : codec α) (context : decoding_context) :
    (∀ (v : α) (p : Nat), c.decode (detail.skip_whitespace context) = some ⟨.ok v, p⟩ →
      try_decode_partial object c context = some (true, v, ⟨p, context.input⟩)) ∧
    (∀ (e : decode_exception) (p : Nat),
      c.decode (detail.skip_whitespace context) = some ⟨.error e, p⟩ →
      try_decode_partial object c context = some (false, object, ⟨p, context.input⟩)) ∧
    (∀ (ws tail : List Nat) (b : Nat) (v : α) (p : Nat),
      (∀ x ∈ ws, detail.is_space x = true) → detail.is_space b = false →
      c.decode ⟨ws.length, ws ++ b :: tail⟩ = some ⟨.ok v, p⟩ →
      try_decode_partial object c (decoding_context.init (ws ++ b :: tail)) =
        some (true, v, ⟨p, ws ++ b :: tail⟩)) ∧
    try_decode_partial { val := [] } (default_custom_codec 2) (decoding_context.init
        [123, 34, 120, 34, 58, 34, 104, 101, 121, 34, 125, 44, 32, 34, 102, 111, 111, 98, 97,
          114, 34]) =
      some (true, { val := [104, 101, 121] },
        ⟨11, [123, 34, 120, 34, 58, 34, 104, 101, 121, 34, 125, 44, 32, 34, 102, 111, 111, 98,
          97, 114, 34]⟩) ∧
    try_decode_partial { val := [] } (default_custom_codec 2) (decoding_context.init
        [32, 32, 32, 32, 32, 32, 32, 32, 32, 32, 123, 34, 120, 34, 58, 34, 104, 101, 121, 34,
          125]) =
      some (true, { val := [104, 101, 121] },
        ⟨21, [32, 32, 32, 32, 32, 32, 32, 32, 32, 32, 123, 34, 120, 34, 58, 34, 104, 101, 121,
          34, 125]⟩) := by
  have hok : ∀ (v : α) (p : Nat), c.decode (detail.skip_whitespace context) = some ⟨.ok v, p⟩ →
      try_decode_partial object c context = some (true, v, ⟨p, context.input⟩) := by
    intro v p h
    simp only [ try_decode_partial, h]
    rfl
  refine ⟨hok, ?_, ?_, rfl, rfl⟩
  · intro e p h
    simp only [ try_decode_partial, h]
    rfl
  · intro ws tail b v p hws hb h
    have hskip := skip_whitespace_run [] ws b tail hws hb
    simp only [List.nil_append, List.length_nil] at hskip
    have hctx : detail.skip_whitespace (decoding_context.init (ws ++ b :: tail)) =
        ⟨ws.length, ws ++ b :: tail⟩ := hskip
    simp only [ try_decode_partial, hctx, h]

/-! ## Optionals, raw values and the chunked escaper -/

/-- Writing the entries of a list of optionals one after the other is writing
its present values one after the other. -/
theorem foldl_shl_optional {α : Type} (shl_v : basic_writer → α → basic_writer) :
    ∀ (vector : List (Option α)) (w : basic_writer),
      vector.foldl (shl_optional shl_v) w = (vector.filterMap id).foldl shl_v w := by
  intro vector
  induction vector with
  | nil => intro w; rfl
  | cons entry rest ih =>
    intro w
    cases entry with
    | none =>
      simp only [List.foldl_cons, shl_optional, List.filterMap_cons, id]
      exact ih w
    | some value =>
      simp only [List.foldl_cons, shl_optional, List.filterMap_cons, id]
      exact ih _

/-- The vector operator over the generic operator `<<` writes the rendered
elements between brackets, separated by commas. -/
theorem shl_vector_stream {α : Type} (render : α → List Nat) (w : basic_writer) (vector : List α) :
    shl_vector (basic_writer.shl render) w vector =
      ⟨w._stream ++ w.separator ++ [91] ++ List.intercalate [44] (vector.map render) ++ [93],
        true⟩ :=
  array_encode_stream
    { encode := fun element w => basic_writer.shl render w element, decode := fun _ => none }
    render (fun _ _ => rfl) vector w

/-- C29: writing an empty optional emits nothing and leaves the separator flag
as it is, and writing a present optional is writing its value; so a list of
optionals is written exactly as the list of its present values, in an array
without a leading, doubled or trailing comma wherever the empty entries
stand. The list [1, 2, empty] is written as `[1,2]`. -/
theorem shl_optional_emits {α : Type} (shl_v : basic_writer → α → basic_writer)
    (w : basic_writer) :
    shl_optional shl_v w none = w ∧
    (shl_optional shl_v w none)._stream = w._stream ∧
    (shl_optional shl_v w none)._separator_needed = w._separator_needed ∧
    (∀ value : α, shl_optional shl_v w (some value) = shl_v w value) ∧
    (∀ vector : List (Option α),
      vector.foldl (shl_optional shl_v) w = (vector.filterMap id).foldl shl_v w) ∧
    (∀ vector : List (Option α),
      shl_vector (shl_optional shl_v) w vector = shl_vector shl_v w (vector.filterMap id)) ∧
    (∀ (render : α → List Nat) (vector : List (Option α)),
      shl_vector (shl_optional (basic_writer.shl render)) w vector =
        ⟨w._stream ++ w.separator ++ [91] ++
          List.intercalate [44] ((vector.filterMap id).map render) ++ [93], true⟩) ∧
    (∀ render : Int → List Nat,
      (shl_vector (shl_optional (basic_writer.shl render)) (basic_writer.init [])
        [some 1, some 2, none])._stream = [91] ++ render 1 ++ [44] ++ render 2 ++ [93]) ∧
    (shl_vector (shl_optional (basic_writer.shl fun value : Int => (Nat.toDigits 10
        value.toNat).map Char.toNat)) (basic_writer.init []) [some 1, some 2, none])._stream =
      [91, 49, 44, 50, 93] := by
  have hvector : ∀ (shl_e : basic_writer → α → basic_writer) (vector : List (Option α)),
      shl_vector (shl_optional shl_e) w vector = shl_vector shl_e w (vector.filterMap id) := by
    intro shl_e vector
    simp only [shl_vector, basic_writer.add_array, foldl_shl_optional]
  refine ⟨rfl, rfl, rfl, fun _ => rfl, fun vector => foldl_shl_optional shl_v vector w,
    hvector shl_v, ?_, ?_, ?_⟩
  · intro render vector
    rw [hvector, shl_vector_stream]
  · intro render
    simp [shl_vector, shl_optional, basic_writer.add_array, basic_writer.scoped_array,
      basic_writer.scoped_array_destroy, basic_writer.separator_and_clear, basic_writer.put,
      basic_writer.set_separator, basic_writer.init, basic_writer.shl,
      basic_writer.separator_and_set, basic_writer.write_value]
  · decide

/-- C30: for every byte sequence, of every length and at every address,
whatever the alignment tests answer, the chunked `write_escaped` returns, and
what it has written is the concatenation, in input order, of `write_escaped_c`
applied to each byte, after what was there before: no read at or beyond `end`
occurs (such a read would make the result `none`), and the returned pointer
`out`, the end of what is written, lies the sum of the lengths of the escapes
behind the pointer given. With the usual alignment tests this holds at every
address, whatever it is modulo 8. -/
theorem write_escaped_refines (m : detail.alignment_macros) (out : List Nat)
    (src : detail.source_bytes) :
    detail.write_escaped m out src =
      some (out ++ src.bytes.flatMap (detail.write_escaped_c [])) ∧
    detail.write_escaped m out src = some (detail.write_escaped_stream out src.bytes) ∧
    detail.write_escaped m out src = some (src.bytes.foldl detail.write_escaped_c out) ∧
    (∀ written, detail.write_escaped m out src = some written →
      written.length = out.length +
        (src.bytes.map fun c => (detail.write_escaped_c [] c).length).sum) ∧
    (∀ address : Nat, detail.write_escaped detail.low_bits_macros out ⟨address, src.bytes⟩ =
      some (out ++ src.bytes.flatMap (detail.write_escaped_c []))) ∧
    (∀ residue : Nat, residue < 8 →
      detail.write_escaped detail.low_bits_macros [] ⟨residue, [34, 97, 92, 10, 0, 47, 98, 99,
        100, 101, 31]⟩ =
      some [92, 34, 97, 92, 92, 92, 110, 92, 117, 48, 48, 48, 48, 92, 47, 98, 99, 100, 101, 92,
        117, 48, 48, 49, 70]) := by
  have h := detail.write_escaped_eq m out src
  refine ⟨h, ?_, ?_, ?_, fun address => detail.write_escaped_eq _ out ⟨address, src.bytes⟩, ?_⟩
  · rw [h, detail.write_escaped_stream_eq]
  · rw [h, ← detail.write_escaped_stream_eq]
    rfl
  · intro written hw
    rw [h] at hw
    cases hw
    simp only [List.length_append, List.length_flatMap]
    rfl
  · intro residue _
    rw [detail.write_escaped_eq]
    rfl

/-- The raw codec writes its value as one value whose text is the stored
bytes. -/
theorem raw_writes_one_value : writes_one_value codec.raw codec.raw_ref.bytes := by
  intro value w
  rfl

/-- C24: encoding a raw reference, a string or a byte vector appends exactly
the stored bytes, whatever they are, behind the comma that the writer owes,
and a comma is owed after them, as for any value; so a list of references is
encoded as their bytes between brackets, separated by commas. The bytes of
`some junk` are emitted as they are, and three references to `{}` are encoded
as `[{},{},{}]`. -/
theorem raw_encode_emits (value : codec.raw_ref) (w : writer) :
    codec.raw.encode value w = ⟨w._stream ++ w.separator ++ value.bytes, true⟩ ∧
    (∀ bytes : List Nat,
      codec.raw_owned.encode bytes w = ⟨w._stream ++ w.separator ++ bytes, true⟩) ∧
    encode codec.raw value = value.bytes ∧
    (∀ bytes : List Nat, encode codec.raw_owned bytes = bytes) ∧
    (∀ (fuel : Nat) (refs : List codec.raw_ref),
      (codec.array fuel codec.raw).encode refs w =
        ⟨w._stream ++ w.separator ++ [91] ++
          List.intercalate [44] (refs.map codec.raw_ref.bytes) ++ [93], true⟩) ∧
    encode codec.raw ⟨[115, 111, 109, 101, 32, 106, 117, 110, 107], 0, 9⟩ =
      [115, 111, 109, 101, 32, 106, 117, 110, 107] ∧
    encode codec.raw_owned [115, 111, 109, 101, 32, 106, 117, 110, 107] =
      [115, 111, 109, 101, 32, 106, 117, 110, 107] ∧
    encode codec.raw_owned [34, 92, 10] = [34, 92, 10] ∧
    encode (codec.array 0 codec.raw) [⟨[123, 125], 0, 2⟩, ⟨[123, 125], 0, 2⟩, ⟨[123, 125], 0, 2⟩] =
      [91, 123, 125, 44, 123, 125, 44, 123, 125, 93] := by
  have hraw : ∀ w : writer,
      codec.raw.encode value w = ⟨w._stream ++ w.separator ++ value.bytes, true⟩ := by
    intro w
    cases h : w._separator_needed <;>
      simp [codec.raw, codec.raw_t.encode, basic_writer.separator_and_set, basic_writer.write,
        basic_writer.separator, codec.raw_ref.bytes, h]
  have howned : ∀ (w : writer) (bytes : List Nat),
      codec.raw_owned.encode bytes w = ⟨w._stream ++ w.separator ++ bytes, true⟩ := by
    intro w bytes
    cases h : w._separator_needed <;>
      simp [codec.raw_owned, codec.raw_t.encode_owned, basic_writer.separator_and_set,
        basic_writer.write, basic_writer.separator, h]
  refine ⟨hraw w, howned w, ?_, ?_, ?_, rfl, rfl, rfl, rfl⟩
  · simp [encode, hraw, basic_writer.init, basic_writer.separator]
  · intro bytes
    simp [encode, howned, basic_writer.init, basic_writer.separator]
  · intro fuel refs
    exact array_encode_stream codec.raw codec.raw_ref.bytes raw_writes_one_value refs w

/-! ## The structural scan on well-formed JSON texts -/

namespace detail

/-- A turn of the scan that goes on. -/
theorem structural_scan_next (state state' : scan_state) (c : Nat) (rest : List Nat) (p : Nat)
    (h : scan_step state c = .next state') :
    structural_scan state (c :: rest) p = structural_scan state' rest (p + 1) := by
  simp only [structural_scan, h]

/-- The turn of the scan that ends the value. -/
theorem structural_scan_done (state : scan_state) (c : Nat) (rest : List Nat) (p : Nat)
    (h : scan_step state c = .done) :
    structural_scan state (c :: rest) p = ⟨.ok (), p + 1⟩ := by
  simp only [structural_scan, h]

/-- Between tokens, a byte that is not structural is passed over. -/
theorem scan_step_between (stack : List Nat) (c : Nat) (hc : is_structural c = false) :
    scan_step ⟨stack, .between⟩ c = .next ⟨stack, .between⟩ := by
  simp only [is_structural, Bool.or_eq_false_iff, beq_eq_false_iff_ne, ne_eq] at hc
  obtain ⟨⟨⟨⟨h1, h2⟩, h3⟩, h4⟩, h5⟩ := hc
  simp [scan_step, h1, h2, h3, h4, h5]

/-- The scan passes over a run of bytes that are not structural. -/
theorem structural_scan_run (stack : List Nat) (rest : List Nat) :
    ∀ (run : List Nat) (p : Nat), (∀ c ∈ run, is_structural c = false) →
      structural_scan ⟨stack, .between⟩ (run ++ rest) p =
        structural_scan ⟨stack, .between⟩ rest (p + run.length) := by
  intro run
  induction run with
  | nil => intro p _; rfl
  | cons c run ih =>
    intro p h
    have hc := h c (List.mem_cons_self _ _)
    rw [List.cons_append, structural_scan_next _ _ c _ p (scan_step_between stack c hc),
      ih (p + 1) (fun x hx => h x (List.mem_cons_of_mem _ hx)), List.length_cons]
    congr 1
    omega

/-- Inside a string, a byte that is neither a double quote nor a backslash is
passed over. -/
theorem scan_step_in_string (stack : List Nat) (c : Nat) (h1 : c ≠ 34) (h2 : c ≠ 92) :
    scan_step ⟨stack, .in_string⟩ c = .next ⟨stack, .in_string⟩ := by
  simp [scan_step, h1, h2]

theorem scan_step_backslash (stack : List Nat) :
    scan_step ⟨stack, .in_string⟩ 92 = .next ⟨stack, .escaped⟩ := by
  simp [scan_step]

theorem scan_step_escaped (stack : List Nat) (c : Nat) :
    scan_step ⟨stack, .escaped⟩ c = .next ⟨stack, .in_string⟩ := by
  simp [scan_step]

theorem is_hex_digit_plain (c : Nat) (h : is_hex_digit c = true) : c ≠ 34 ∧ c ≠ 92 := by
  simp only [is_hex_digit, is_digit, Bool.or_eq_true, Bool.and_eq_true, decide_eq_true_eq] at h
  omega

end detail

/-- Inside a string, the scan passes over the bytes of a well-formed string
body. -/
theorem structural_scan_string_body (stack : List Nat) (rest : List Nat) (body : List Nat)
    (h : string_body body) :
    ∀ p : Nat, detail.structural_scan ⟨stack, .in_string⟩ (body ++ rest) p =
      detail.structural_scan ⟨stack, .in_string⟩ rest (p + body.length) := by
  induction h with
  | nil => intro p; rfl
  | plain c tail h1 h2 _ _ ih =>
    intro p
    rw [List.cons_append,
      detail.structural_scan_next _ _ c _ p (detail.scan_step_in_string stack c h1 h2),
      ih (p + 1), List.length_cons]
    congr 1
    omega
  | escape c tail _ _ ih =>
    intro p
    rw [List.cons_append, List.cons_append,
      detail.structural_scan_next _ _ 92 _ p (detail.scan_step_backslash stack),
      detail.structural_scan_next _ _ c _ (p + 1) (detail.scan_step_escaped stack c),
      ih (p + 1 + 1), List.length_cons, List.length_cons]
    congr 1
    omega
  | unicode a b c d tail ha hb hc hd _ ih =>
    intro p
    obtain ⟨ha1, ha2⟩ := detail.is_hex_digit_plain a ha
    obtain ⟨hb1, hb2⟩ := detail.is_hex_digit_plain b hb
    obtain ⟨hc1, hc2⟩ := detail.is_hex_digit_plain c hc
    obtain ⟨hd1, hd2⟩ := detail.is_hex_digit_plain d hd
    simp only [List.cons_append]
    rw [detail.structural_scan_next _ _ 92 _ p (detail.scan_step_backslash stack),
      detail.structural_scan_next _ _ 117 _ (p + 1) (detail.scan_step_escaped stack 117),
      detail.structural_scan_next _ _ a _ _ (detail.scan_step_in_string stack a ha1 ha2),
      detail.structural_scan_next _ _ b _ _ (detail.scan_step_in_string stack b hb1 hb2),
      detail.structural_scan_next _ _ c _ _ (detail.scan_step_in_string stack c hc1 hc2),
      detail.structural_scan_next _ _ d _ _ (detail.scan_step_in_string stack d hd1 hd2),
      ih _]
    simp only [List.length_cons]
    congr 1
    omega

/-- Between tokens, the scan passes over a string and stands between tokens
again, when an array or an object is open. -/
theorem structural_scan_string (stack : List Nat) (hstack : stack ≠ []) (rest : List Nat)
    (body : List Nat) (h : string_body body) (p : Nat) :
    detail.structural_scan ⟨stack, .between⟩ ((34 :: body ++ [34]) ++ rest) p =
      detail.structural_scan ⟨stack, .between⟩ rest (p + (34 :: body ++ [34]).length) := by
  have hopen : detail.scan_step ⟨stack, .between⟩ 34 = .next ⟨stack, .in_string⟩ := by
    simp [detail.scan_step]
  have hclose : detail.scan_step ⟨stack, .in_string⟩ 34 = .next ⟨stack, .between⟩ := by
    cases stack with
    | nil => exact absurd rfl hstack
    | cons top below => simp [detail.scan_step]
  have hshape : (34 :: body ++ [34]) ++ rest = 34 :: (body ++ (34 :: rest)) := by simp
  rw [hshape, detail.structural_scan_next _ _ 34 _ p hopen,
    structural_scan_string_body stack (34 :: rest) body h (p + 1),
    detail.structural_scan_next _ _ 34 _ _ hclose]
  simp only [List.length_cons, List.length_append, List.length_nil]
  congr 1
  omega

theorem digit_not_structural (c : Nat) (h : detail.is_digit c = true) :
    detail.is_structural c = false := by
  simp only [detail.is_digit, Bool.and_eq_true, decide_eq_true_eq] at h
  simp only [detail.is_structural, Bool.or_eq_false_iff, beq_eq_false_iff_ne, ne_eq]
  omega

theorem space_not_structural (c : Nat) (h : detail.is_space c = true) :
    detail.is_structural c = false := by
  simp only [detail.is_space, Bool.or_eq_true, beq_iff_eq] at h
  simp only [detail.is_structural, Bool.or_eq_false_iff, beq_eq_false_iff_ne, ne_eq]
  omega

/-- No byte of a number means anything to the structural scan. -/
theorem number_text_not_structural (t : List Nat) (h : number_text t) :
    ∀ c ∈ t, detail.is_structural c = false := by
  obtain ⟨minus, integer, fraction, exponent, hminus, hinteger, hfraction, hexponent⟩ := h
  intro c hc
  simp only [List.mem_append] at hc
  rcases hc with ((hc | hc) | hc) | hc
  · rcases hminus with h | h
    · rw [h] at hc; cases hc
    · rw [h] at hc
      rw [List.mem_singleton.mp hc]
      decide
  · rcases hinteger with h | ⟨d, ds, h, _, hd, hds⟩
    · rw [h] at hc
      rw [List.mem_singleton.mp hc]
      decide
    · rw [h] at hc
      rcases List.mem_cons.mp hc with h1 | h1
      · rw [h1]
        exact digit_not_structural d hd
      · exact digit_not_structural c (hds c h1)
  · rcases hfraction with h | ⟨ds, h, _, hds⟩
    · rw [h] at hc; cases hc
    · rw [h] at hc
      rcases List.mem_cons.mp hc with h1 | h1
      · rw [h1]
        decide
      · exact digit_not_structural c (hds c h1)
  · rcases hexponent with h | ⟨e, sign, ds, h, he, hsign, _, hds⟩
    · rw [h] at hc; cases hc
    · rw [h] at hc
      rcases List.mem_cons.mp hc with h1 | h1
      · rw [h1]
        rcases he with he | he <;> rw [he] <;> decide
      · rcases List.mem_append.mp h1 with h2 | h2
        · rcases hsign with hs | hs | hs
          · rw [hs] at h2; cases h2
          · rw [hs] at h2
            rw [List.mem_singleton.mp h2]
            decide
          · rw [hs] at h2
            rw [List.mem_singleton.mp h2]
            decide
        · exact digit_not_structural c (hds c h2)

/-- While an array or an object is open, the scan passes over a well-formed
value, over the elements of an array and over the members of an object, and
stands where it stood: between tokens, with the same stack. -/
theorem structural_scan_json_text (prod : production) (t : List Nat) (h : json_text prod t) :
    ∀ (stack : List Nat) (rest : List Nat) (p : Nat), stack ≠ [] →
      detail.structural_scan ⟨stack, .between⟩ (t ++ rest) p =
        detail.structural_scan ⟨stack, .between⟩ rest (p + t.length) := by
  have hws : ∀ (ws : List Nat), whitespace ws → ∀ c ∈ ws, detail.is_structural c = false :=
    fun ws h c hc => space_not_structural c (h c hc)
  have hopen_array : ∀ stack : List Nat,
      detail.scan_step ⟨stack, .between⟩ 91 = .next ⟨93 :: stack, .between⟩ := by
    intro stack
    simp [detail.scan_step]
  have hopen_object : ∀ stack : List Nat,
      detail.scan_step ⟨stack, .between⟩ 123 = .next ⟨125 :: stack, .between⟩ := by
    intro stack
    simp [detail.scan_step]
  have hclose_array : ∀ stack : List Nat, stack ≠ [] →
      detail.scan_step ⟨93 :: stack, .between⟩ 93 = .next ⟨stack, .between⟩ := by
    intro stack hstack
    cases stack with
    | nil => exact absurd rfl hstack
    | cons top below => simp [detail.scan_step]
  have hclose_object : ∀ stack : List Nat, stack ≠ [] →
      detail.scan_step ⟨125 :: stack, .between⟩ 125 = .next ⟨stack, .between⟩ := by
    intro stack hstack
    cases stack with
    | nil => exact absurd rfl hstack
    | cons top below => simp [detail.scan_step]
  have hcomma : ∀ stack : List Nat,
      detail.scan_step ⟨stack, .between⟩ 44 = .next ⟨stack, .between⟩ :=
    fun stack => detail.scan_step_between stack 44 (by decide)
  have hcolon : ∀ stack : List Nat,
      detail.scan_step ⟨stack, .between⟩ 58 = .next ⟨stack, .between⟩ :=
    fun stack => detail.scan_step_between stack 58 (by decide)
  induction h with
  | literal_null =>
    intro stack rest p _
    exact detail.structural_scan_run stack rest _ p (by decide)
  | literal_true =>
    intro stack rest p _
    exact detail.structural_scan_run stack rest _ p (by decide)
  | literal_false =>
    intro stack rest p _
    exact detail.structural_scan_run stack rest _ p (by decide)
  | number t hnum =>
    intro stack rest p _
    exact detail.structural_scan_run stack rest t p (number_text_not_structural t hnum)
  | string body hbody =>
    intro stack rest p hstack
    exact structural_scan_string stack hstack rest body hbody p
  | empty_array ws hw =>
    intro stack rest p hstack
    have hshape : (91 :: ws ++ [93]) ++ rest = 91 :: (ws ++ (93 :: rest)) := by simp
    rw [hshape, detail.structural_scan_next _ _ 91 _ p (hopen_array stack),
      detail.structural_scan_run _ _ ws _ (hws ws hw),
      detail.structural_scan_next _ _ 93 _ _ (hclose_array stack hstack)]
    simp only [List.length_cons, List.length_append, List.length_nil]
    congr 1
    omega
  | array elements _ ih =>
    intro stack rest p hstack
    have hshape : (91 :: elements ++ [93]) ++ rest = 91 :: (elements ++ (93 :: rest)) := by simp
    rw [hshape, detail.structural_scan_next _ _ 91 _ p (hopen_array stack),
      ih (93 :: stack) (93 :: rest) (p + 1) (by simp),
      detail.structural_scan_next _ _ 93 _ _ (hclose_array stack hstack)]
    simp only [List.length_cons, List.length_append, List.length_nil]
    congr 1
    omega
  | empty_object ws hw =>
    intro stack rest p hstack
    have hshape : (123 :: ws ++ [125]) ++ rest = 123 :: (ws ++ (125 :: rest)) := by simp
    rw [hshape, detail.structural_scan_next _ _ 123 _ p (hopen_object stack),
      detail.structural_scan_run _ _ ws _ (hws ws hw),
      detail.structural_scan_next _ _ 125 _ _ (hclose_object stack hstack)]
    simp only [List.length_cons, List.length_append, List.length_nil]
    congr 1
    omega
  | object members _ ih =>
    intro stack rest p hstack
    have hshape : (123 :: members ++ [125]) ++ rest = 123 :: (members ++ (125 :: rest)) := by
      simp
    rw [hshape, detail.structural_scan_next _ _ 123 _ p (hopen_object stack),
      ih (125 :: stack) (125 :: rest) (p + 1) (by simp),
      detail.structural_scan_next _ _ 125 _ _ (hclose_object stack hstack)]
    simp only [List.length_cons, List.length_append, List.length_nil]
    congr 1
    omega
  | element before t after hb ha _ ih =>
    intro stack rest p hstack
    have hshape : (before ++ t ++ after) ++ rest = before ++ (t ++ (after ++ rest)) := by simp
    rw [hshape, detail.structural_scan_run _ _ before _ (hws before hb),
      ih stack _ _ hstack, detail.structural_scan_run _ _ after _ (hws after ha)]
    simp only [List.length_append]
    congr 1
    omega
  | elements before t after more hb ha _ _ ih ihmore =>
    intro stack rest p hstack
    have hshape : (before ++ t ++ after ++ 44 :: more) ++ rest =
        before ++ (t ++ (after ++ (44 :: (more ++ rest)))) := by simp
    rw [hshape, detail.structural_scan_run _ _ before _ (hws before hb),
      ih stack _ _ hstack, detail.structural_scan_run _ _ after _ (hws after ha),
      detail.structural_scan_next _ _ 44 _ _ (hcomma stack), ihmore stack _ _ hstack]
    simp only [List.length_append, List.length_cons]
    congr 1
    omega
  | member before key between after_colon t after hb hbw hac ha hkey _ ih =>
    intro stack rest p hstack
    have hshape : (before ++ (34 :: key ++ [34]) ++ between ++ 58 :: after_colon ++ t ++ after) ++
        rest = before ++ ((34 :: key ++ [34]) ++ (between ++ (58 :: (after_colon ++
          (t ++ (after ++ rest)))))) := by simp
    rw [hshape, detail.structural_scan_run _ _ before _ (hws before hb),
      structural_scan_string stack hstack _ key hkey,
      detail.structural_scan_run _ _ between _ (hws between hbw),
      detail.structural_scan_next _ _ 58 _ _ (hcolon stack),
      detail.structural_scan_run _ _ after_colon _ (hws after_colon hac),
      ih stack _ _ hstack, detail.structural_scan_run _ _ after _ (hws after ha)]
    simp only [List.length_append, List.length_cons, List.length_nil]
    congr 1
    omega
  | members before key between after_colon t after more hb hbw hac ha hkey _ _ ih ihmore =>
    intro stack rest p hstack
    have hshape : (before ++ (34 :: key ++ [34]) ++ between ++ 58 :: after_colon ++ t ++ after ++
        44 :: more) ++ rest = before ++ ((34 :: key ++ [34]) ++ (between ++ (58 ::
          (after_colon ++ (t ++ (after ++ (44 :: (more ++ rest)))))))) := by simp
    rw [hshape, detail.structural_scan_run _ _ before _ (hws before hb),
      structural_scan_string stack hstack _ key hkey,
      detail.structural_scan_run _ _ between _ (hws between hbw),
      detail.structural_scan_next _ _ 58 _ _ (hcolon stack),
      detail.structural_scan_run _ _ after_colon _ (hws after_colon hac),
      ih stack _ _ hstack, detail.structural_scan_run _ _ after _ (hws after ha),
      detail.structural_scan_next _ _ 44 _ _ (hcomma stack), ihmore stack _ _ hstack]
    simp only [List.length_append, List.length_cons, List.length_nil]
    congr 1
    omega

/-! ## The numeric scanner on well-formed numbers -/

/-- A run of digits is taken whole when no digit follows it. -/
theorem takeWhile_digits (ds r : List Nat) (hds : digits ds)
    (hr : ∀ c, r.head? = some c → detail.is_digit c = false) :
    (ds ++ r).takeWhile detail.is_digit = ds := by
  cases r with
  | nil =>
    rw [List.append_nil]
    exact List.takeWhile_eq_self_iff.mpr hds
  | cons c tail => exact takeWhile_run detail.is_digit ds c tail hds (hr c rfl)

theorem scan_integer_text (integer r : List Nat)
    (hinteger : integer = [48] ∨
      ∃ d ds, integer = d :: ds ∧ d ≠ 48 ∧ detail.is_digit d = true ∧ digits ds)
    (hr : ∀ c, r.head? = some c → detail.is_digit c = false) :
    detail.scan_integer (integer ++ r) = some integer.length := by
  rcases hinteger with h | ⟨d, ds, h, hd48, hd, hds⟩
  · rw [h]
    simp [detail.scan_integer]
  · rw [h]
    simp only [List.cons_append, detail.scan_integer, hd48, if_false, hd, if_true,
      takeWhile_digits ds r hds hr, List.length_cons]
    congr 1
    omega

theorem scan_fraction_text (fraction r : List Nat)
    (hfraction : fraction = [] ∨ ∃ ds, fraction = 46 :: ds ∧ ds ≠ [] ∧ digits ds)
    (hr : ∀ c, r.head? = some c → detail.is_digit c = false ∧ c ≠ 46) :
    detail.scan_fraction (fraction ++ r) = some fraction.length := by
  rcases hfraction with h | ⟨ds, h, hne, hds⟩
  · rw [h]
    cases r with
    | nil => rfl
    | cons c tail =>
      have hc := (hr c rfl).2
      simp [detail.scan_fraction, hc]
  · rw [h]
    have hlen : ds.length ≠ 0 := fun h0 => hne (List.length_eq_zero.mp h0)
    simp only [List.cons_append, detail.scan_fraction, if_true,
      takeWhile_digits ds r hds (fun c hc => (hr c hc).1), hlen, if_false, List.length_cons]
    congr 1
    omega

theorem scan_exponent_text (exponent r : List Nat)
    (hexponent : exponent = [] ∨
      ∃ e sign ds, exponent = e :: (sign ++ ds) ∧ (e = 101 ∨ e = 69) ∧
        (sign = [] ∨ sign = [43] ∨ sign = [45]) ∧ ds ≠ [] ∧ digits ds)
    (hr : ∀ c, r.head? = some c → detail.is_digit c = false ∧ c ≠ 101 ∧ c ≠ 69) :
    detail.scan_exponent (exponent ++ r) = some exponent.length := by
  rcases hexponent with h | ⟨e, sign, ds, h, he, hsign, hne, hds⟩
  · rw [h]
    cases r with
    | nil => rfl
    | cons c tail =>
      obtain ⟨_, h1, h2⟩ := hr c rfl
      simp [detail.scan_exponent, h1, h2]
  · rw [h]
    have hlen : ds.length ≠ 0 := fun h0 => hne (List.length_eq_zero.mp h0)
    have htake := takeWhile_digits ds r hds (fun c hc => (hr c hc).1)
    rcases hsign with hs | hs | hs
    · rw [hs]
      cases ds with
      | nil => exact absurd rfl hne
      | cons d rest =>
        have hd : detail.is_digit d = true := hds d (List.mem_cons_self _ _)
        have hd' : ¬(d = 43 ∨ d = 45) := by
          simp only [detail.is_digit, Bool.and_eq_true, decide_eq_true_eq] at hd
          omega
        simp only [List.nil_append, List.cons_append, detail.scan_exponent, he, if_true, hd',
          if_false, List.drop_zero]
        rw [← List.cons_append, htake]
        simp
        omega
    · rw [hs]
      simp only [List.cons_append, List.nil_append, detail.scan_exponent, he, if_true,
        true_or, List.drop_succ_cons, List.drop_zero, htake, hlen, if_false, List.length_cons,
        List.length_append, List.length_nil]
      congr 1
      omega
    · rw [hs]
      simp only [List.cons_append, List.nil_append, detail.scan_exponent, he, if_true,
        or_true, List.drop_succ_cons, List.drop_zero, htake, hlen, if_false, List.length_cons,
        List.length_append, List.length_nil]
      congr 1
      omega

/-- The numeric scanner takes a well-formed number whole when the number ends
the input or is followed by whitespace, a comma, or a closing bracket or
brace. -/
theorem scan_number_text (t post : List Nat) (h : number_text t) (hpost : ends_value post) :
    detail.scan_number (t ++ post) = some t.length := by
  obtain ⟨minus, integer, fraction, exponent, hminus, hinteger, hfraction, hexponent⟩ := h
  have hend : ∀ c, post.head? = some c →
      detail.is_digit c = false ∧ c ≠ 46 ∧ c ≠ 101 ∧ c ≠ 69 := by
    intro c hc
    cases post with
    | nil => cases hc
    | cons b tail =>
      simp only [List.head?_cons, Option.some.injEq] at hc
      subst hc
      simp only [ends_value, detail.is_space, Bool.or_eq_true, beq_iff_eq] at hpost
      simp only [detail.is_digit, Bool.and_eq_false_iff, decide_eq_false_iff_not]
      omega
  have hexp_head : ∀ c, (exponent ++ post).head? = some c →
      detail.is_digit c = false ∧ c ≠ 46 := by
    intro c hc
    rcases hexponent with h | ⟨e, sign, ds, h, he, _⟩
    · rw [h] at hc
      exact ⟨(hend c hc).1, (hend c hc).2.1⟩
    · rw [h] at hc
      simp only [List.cons_append, List.head?_cons, Option.some.injEq] at hc
      subst hc
      rcases he with he | he <;> rw [he] <;> decide
  have hfrac_head : ∀ c, (fraction ++ (exponent ++ post)).head? = some c →
      detail.is_digit c = false := by
    intro c hc
    rcases hfraction with h | ⟨ds, h, _⟩
    · rw [h] at hc
      exact (hexp_head c hc).1
    · rw [h] at hc
      simp only [List.cons_append, List.head?_cons, Option.some.injEq] at hc
      subst hc
      decide
  have hint_head : ∀ c, (integer ++ (fraction ++ (exponent ++ post))).head? = some c →
      c ≠ 45 := by
    intro c hc
    rcases hinteger with h | ⟨d, ds, h, _, hd, _⟩
    · rw [h] at hc
      simp only [List.cons_append, List.head?_cons, Option.some.injEq] at hc
      subst hc
      decide
    · rw [h] at hc
      simp only [List.cons_append, List.head?_cons, Option.some.injEq] at hc
      subst hc
      simp only [detail.is_digit, Bool.and_eq_true, decide_eq_true_eq] at hd
      omega
  have hI := scan_integer_text integer (fraction ++ (exponent ++ post)) hinteger hfrac_head
  have hF := scan_fraction_text fraction (exponent ++ post) hfraction hexp_head
  have hE := scan_exponent_text exponent post hexponent
    (fun c hc => ⟨(hend c hc).1, (hend c hc).2.2⟩)
  have hshape : minus ++ integer ++ fraction ++ exponent ++ post =
      minus ++ (integer ++ (fraction ++ (exponent ++ post))) := by simp
  rw [hshape]
  have hdropI : List.drop integer.length (integer ++ (fraction ++ (exponent ++ post))) =
      fraction ++ (exponent ++ post) := List.drop_left _ _
  have hdropF : List.drop (integer.length + fraction.length)
      (integer ++ (fraction ++ (exponent ++ post))) = exponent ++ post := by
    rw [← List.drop_drop, hdropI, List.drop_left]
  rcases hminus with hm | hm
  · rw [hm]
    have hm0 : (match integer ++ (fraction ++ (exponent ++ post)) with
        | [] => 0
        | c :: _ => if c = 45 then 1 else 0) = 0 := by
      cases hl : integer ++ (fraction ++ (exponent ++ post)) with
      | nil => rfl
      | cons c tail =>
        have := hint_head c (by rw [hl]; rfl)
        simp [this]
    simp only [List.nil_append, detail.scan_number, hm0, List.drop_zero, hI, Nat.zero_add,
      hdropI, hF, hdropF, hE, List.length_append, List.length_nil]
  · rw [hm]
    simp only [List.cons_append, List.nil_append, detail.scan_number, if_true,
      List.drop_succ_cons, List.drop_zero, hI]
    have h1 : List.drop (1 + integer.length)
        (45 :: (integer ++ (fraction ++ (exponent ++ post)))) = fraction ++ (exponent ++ post) := by
      rw [Nat.add_comm, List.drop_succ_cons, hdropI]
    have h2 : List.drop (1 + integer.length + fraction.length)
        (45 :: (integer ++ (fraction ++ (exponent ++ post)))) = exponent ++ post := by
      have : 1 + integer.length + fraction.length = (integer.length + fraction.length) + 1 := by
        omega
      rw [this, List.drop_succ_cons, hdropF]
    simp only [h1, hF, h2, hE, List.length_append, List.length_cons, List.length_nil]
    congr 1
    omega

/-! ## Skipping a well-formed value -/

/-- What `advance_past_value` does at a byte: the dispatch on it. -/
theorem advance_past_value_at (pre : List Nat) (b : Nat) (tail : List Nat) :
    detail.advance_past_value ⟨pre.length, pre ++ b :: tail⟩ =
      if b = 91 ∨ b = 123 ∨ b = 34 then
        detail.structural_scan ⟨[], .between⟩ (b :: tail) pre.length
      else if b = 116 then
        detail.advance_past_true ⟨pre.length, pre ++ b :: tail⟩
      else if b = 102 then
        detail.advance_past_false ⟨pre.length, pre ++ b :: tail⟩
      else if b = 110 then
        detail.advance_past_null ⟨pre.length, pre ++ b :: tail⟩
      else
        detail.advance_past_number ⟨pre.length, pre ++ b :: tail⟩ := by
  simp only [detail.advance_past_value, peek_at, List.drop_left]

/-- A literal at the cursor is consumed. -/
theorem expect_literal_at (pre text post : List Nat) :
    detail.expect_literal ⟨pre.length, pre ++ (text ++ post)⟩ text =
      ⟨.ok (), pre.length + text.length⟩ := by
  have hpre : text.isPrefixOf (text ++ post) = true := by
    rw [ List.isPrefixOf_iff_prefix]
    exact List.prefix_append _ _
  simp only [detail.expect_literal, List.drop_left, hpre, if_true]

/-- The first byte of a number is a minus or a digit. -/
theorem number_text_head (t : List Nat) (h : number_text t) :
    ∃ b tail, t = b :: tail ∧ (b = 45 ∨ detail.is_digit b = true) := by
  obtain ⟨minus, integer, fraction, exponent, hminus, hinteger, _, _⟩ := h
  rcases hminus with hm | hm
  · rcases hinteger with hi | ⟨d, ds, hi, _, hd, _⟩
    · exact ⟨48, fraction ++ exponent, by rw [hm, hi]; simp, Or.inr (by decide)⟩
    · exact ⟨d, ds ++ fraction ++ exponent, by rw [hm, hi]; simp, Or.inr hd⟩
  · exact ⟨45, integer ++ fraction ++ exponent, by rw [hm]; simp, Or.inl rfl⟩

/-- For every well-formed JSON value at the cursor, wherever it lies in the
input, that ends the input or is followed by whitespace, a comma, or a closing
bracket or brace, `advance_past_value` succeeds and leaves the cursor just
past the value. -/
theorem advance_past_value_text (pre t post : List Nat) (h : json_text .value t)
    (hpost : ends_value post) :
    detail.advance_past_value ⟨pre.length, pre ++ t ++ post⟩ =
      ⟨.ok (), pre.length + t.length⟩ := by
  have hopen_array : detail.scan_step ⟨[], .between⟩ 91 = .next ⟨[93], .between⟩ := by
    simp [detail.scan_step]
  have hopen_object : detail.scan_step ⟨[], .between⟩ 123 = .next ⟨[125], .between⟩ := by
    simp [detail.scan_step]
  have hclose_array : detail.scan_step ⟨[93], .between⟩ 93 = .done := by
    simp [detail.scan_step]
  have hclose_object : detail.scan_step ⟨[125], .between⟩ 125 = .done := by
    simp [detail.scan_step]
  have hws : ∀ (ws : List Nat), whitespace ws → ∀ c ∈ ws, detail.is_structural c = false :=
    fun ws h c hc => space_not_structural c (h c hc)
  rw [List.append_assoc]
  cases h with
  | literal_null =>
    have h := expect_literal_at pre [110, 117, 108, 108] post
    simp only [List.cons_append, List.nil_append] at h ⊢
    rw [advance_past_value_at]
    simp only [detail.advance_past_null]
    exact h
  | literal_true =>
    have h := expect_literal_at pre [116, 114, 117, 101] post
    simp only [List.cons_append, List.nil_append] at h ⊢
    rw [advance_past_value_at]
    simp only [detail.advance_past_true]
    exact h
  | literal_false =>
    have h := expect_literal_at pre [102, 97, 108, 115, 101] post
    simp only [List.cons_append, List.nil_append] at h ⊢
    rw [advance_past_value_at]
    simp only [detail.advance_past_false]
    exact h
  | number _ hnum =>
    obtain ⟨b, tail, ht, hb⟩ := number_text_head t hnum
    have hscan := scan_number_text t post hnum hpost
    have hb' : ¬(b = 91 ∨ b = 123 ∨ b = 34) ∧ b ≠ 116 ∧ b ≠ 102 ∧ b ≠ 110 := by
      rcases hb with hb | hb
      · omega
      · simp only [detail.is_digit, Bool.and_eq_true, decide_eq_true_eq] at hb
        omega
    have hcontext : (⟨pre.length, pre ++ (t ++ post)⟩ : decoding_context) =
        ⟨pre.length, pre ++ b :: (tail ++ post)⟩ := by
      rw [ht]
      rfl
    rw [hcontext, advance_past_value_at]
    simp only [hb'.1, hb'.2.1, hb'.2.2.1, hb'.2.2.2, if_false]
    rw [← hcontext]
    simp only [detail.advance_past_number, List.drop_left, hscan]
  | string body hbody =>
    have hopen : detail.scan_step ⟨[], .between⟩ 34 = .next ⟨[], .in_string⟩ := by
      simp [detail.scan_step]
    have hclose : detail.scan_step ⟨[], .in_string⟩ 34 = .done := by
      simp [detail.scan_step]
    have hshape : pre ++ ((34 :: body ++ [34]) ++ post) =
        pre ++ 34 :: (body ++ (34 :: post)) := by simp
    rw [hshape, advance_past_value_at]
    simp only [or_true, if_true]
    rw [detail.structural_scan_next _ _ 34 _ _ hopen,
      structural_scan_string_body [] (34 :: post) body hbody,
      detail.structural_scan_done _ 34 _ _ hclose]
    simp only [List.length_cons, List.length_append, List.length_nil]
    congr 1
    omega
  | empty_array ws hw =>
    have hshape : pre ++ ((91 :: ws ++ [93]) ++ post) = pre ++ 91 :: (ws ++ (93 :: post)) := by
      simp
    rw [hshape, advance_past_value_at]
    simp only [true_or, if_true]
    rw [detail.structural_scan_next _ _ 91 _ _ hopen_array,
      detail.structural_scan_run _ _ ws _ (hws ws hw),
      detail.structural_scan_done _ 93 _ _ hclose_array]
    simp only [List.length_cons, List.length_append, List.length_nil]
    congr 1
    omega
  | array elements hel =>
    have hshape : pre ++ ((91 :: elements ++ [93]) ++ post) =
        pre ++ 91 :: (elements ++ (93 :: post)) := by simp
    rw [hshape, advance_past_value_at]
    simp only [true_or, if_true]
    rw [detail.structural_scan_next _ _ 91 _ _ hopen_array,
      structural_scan_json_text .elements elements hel [93] _ _ (by simp),
      detail.structural_scan_done _ 93 _ _ hclose_array]
    simp only [List.length_cons, List.length_append, List.length_nil]
    congr 1
    omega
  | empty_object ws hw =>
    have hshape : pre ++ ((123 :: ws ++ [125]) ++ post) =
        pre ++ 123 :: (ws ++ (125 :: post)) := by simp
    rw [hshape, advance_past_value_at]
    simp only [true_or, or_true, if_true]
    rw [detail.structural_scan_next _ _ 123 _ _ hopen_object,
      detail.structural_scan_run _ _ ws _ (hws ws hw),
      detail.structural_scan_done _ 125 _ _ hclose_object]
    simp only [List.length_cons, List.length_append, List.length_nil]
    congr 1
    omega
  | object members hmem =>
    have hshape : pre ++ ((123 :: members ++ [125]) ++ post) =
        pre ++ 123 :: (members ++ (125 :: post)) := by simp
    rw [hshape, advance_past_value_at]
    simp only [true_or, or_true, if_true]
    rw [detail.structural_scan_next _ _ 123 _ _ hopen_object,
      structural_scan_json_text .members members hmem [125] _ _ (by simp),
      detail.structural_scan_done _ 125 _ _ hclose_object]
    simp only [List.length_cons, List.length_append, List.length_nil]
    congr 1
    omega

/-! ## The raw codec -/

/-- A well-formed JSON value does not start with whitespace. -/
theorem json_text_head (t : List Nat) (h : json_text .value t) :
    ∃ b tail, t = b :: tail ∧ detail.is_space b = false := by
  cases h with
  | literal_null => exact ⟨_, _, rfl, by decide⟩
  | literal_true => exact ⟨_, _, rfl, by decide⟩
  | literal_false => exact ⟨_, _, rfl, by decide⟩
  | number _ hnum =>
    obtain ⟨b, tail, ht, hb⟩ := number_text_head t hnum
    refine ⟨b, tail, ht, ?_⟩
    simp only [detail.is_space, Bool.or_eq_false_iff, beq_eq_false_iff_ne, ne_eq]
    rcases hb with hb | hb
    · omega
    · simp only [detail.is_digit, Bool.and_eq_true, decide_eq_true_eq] at hb
      omega
  | string body _ => exact ⟨_, _, rfl, by decide⟩
  | empty_array ws _ => exact ⟨_, _, rfl, by decide⟩
  | array elements _ => exact ⟨_, _, rfl, by decide⟩
  | empty_object ws _ => exact ⟨_, _, rfl, by decide⟩
  | object members _ => exact ⟨_, _, rfl, by decide⟩

/-- The raw codec at a well-formed value inside an input: the reference starts
at the first byte of the value and has its length. -/
theorem raw_decode_text (pre t post : List Nat) (h : json_text .value t)
    (hpost : ends_value post) :
    codec.raw.decode ⟨pre.length, pre ++ t ++ post⟩ =
      some ⟨.ok ⟨pre ++ t ++ post, pre.length, t.length⟩, pre.length + t.length⟩ := by
  simp only [codec.raw, codec.raw_t.decode, advance_past_value_text pre t post h hpost,
    Nat.add_sub_cancel_left]

/-- The raw codec on a well-formed value that is the whole input. -/
theorem raw_decode_whole (t : List Nat) (h : json_text .value t) :
    decode codec.raw t = some (.ok ⟨t, 0, t.length⟩) := by
  obtain ⟨b, tail, ht, hb⟩ := json_text_head t h
  have hskip : detail.skip_whitespace (decoding_context.init t) = ⟨0, t⟩ := by
    rw [ht]
    exact skip_whitespace_at [] b tail hb
  have hdec := raw_decode_text [] t [] h trivial
  simp only [List.nil_append, List.append_nil, List.length_nil, Nat.zero_add] at hdec
  rw [decode_eq_ok]
  refine ⟨t.length, by rw [hskip]; exact hdec, ?_⟩
  simp [detail.skip_whitespace]

/-- C23: for every well-formed JSON value text at the cursor inside a larger
input, which ends there or goes on with whitespace, a comma, or a closing
bracket or brace, the raw codec returns a reference that starts at the first
byte of the value and has the length of the value, so that neither what stands
before the value nor what follows it is part of it, and leaves the cursor just
past the value; decoded as a whole input, the bytes referred to are the
text. -/
theorem raw_decode_span (pre t post : List Nat) (h : json_text .value t)
    (hpost : ends_value post) :
    codec.raw.decode ⟨pre.length, pre ++ t ++ post⟩ =
      some ⟨.ok ⟨pre ++ t ++ post, pre.length, t.length⟩, pre.length + t.length⟩ ∧
    (⟨pre ++ t ++ post, pre.length, t.length⟩ : codec.raw_ref).bytes = t ∧
    decode codec.raw t = some (.ok ⟨t, 0, t.length⟩) ∧
    (⟨t, 0, t.length⟩ : codec.raw_ref).bytes = t ∧
    decode codec.raw_owned t = some (.ok t) := by
  have hbytes : (⟨pre ++ t ++ post, pre.length, t.length⟩ : codec.raw_ref).bytes = t := by
    simp [codec.raw_ref.bytes, List.append_assoc]
  have hwhole := raw_decode_whole t h
  refine ⟨raw_decode_text pre t post h hpost, hbytes, hwhole, by simp [codec.raw_ref.bytes], ?_⟩
  obtain ⟨p, hp, hend⟩ := (decode_eq_ok codec.raw t _).mp hwhole
  rw [decode_eq_ok]
  refine ⟨p, ?_, hend⟩
  simp only [codec.raw_owned, codec.raw_t.decode_owned]
  have hp' : codec.raw_t.decode (detail.skip_whitespace (decoding_context.init t)) =
      some ⟨.ok ⟨t, 0, t.length⟩, p⟩ := hp
  rw [hp']
  simp [codec.raw_ref.bytes]

/-- A number of one digit that is not zero. -/
theorem number_text_digit (d : Nat) (hd : detail.is_digit d = true) (h48 : d ≠ 48) :
    number_text [d] :=
  number_text.mk [] [d] [] [] (Or.inl rfl) (Or.inr ⟨d, [], rfl, h48, hd, by simp [digits]⟩)
    (Or.inl rfl) (Or.inl rfl)

/-- The text `[1, 2, 3]` of the tests is a well-formed JSON value. -/
theorem json_text_one_two_three : json_text .value [91, 49, 44, 32, 50, 44, 32, 51, 93] :=
  json_text.array _
    (json_text.elements [] [49] [] _ (by simp [whitespace]) (by simp [whitespace])
      (json_text.number _ (number_text_digit 49 (by decide) (by decide)))
      (json_text.elements [32] [50] [] _ (by simp [whitespace, detail.is_space])
        (by simp [whitespace])
        (json_text.number _ (number_text_digit 50 (by decide) (by decide)))
        (json_text.element [32] [51] [] (by simp [whitespace, detail.is_space])
          (by simp [whitespace])
          (json_text.number _ (number_text_digit 51 (by decide) (by decide))))))

theorem raw_decode_span_witness :
    codec.raw.decode ⟨21, [123, 34, 102, 111, 111, 34, 58, 32, 49, 50, 51, 44, 34, 118, 97, 108,
        117, 101, 34, 58, 32, 91, 49, 44, 32, 50, 44, 32, 51, 93, 44, 34, 98, 97, 114, 34, 58, 32,
        52, 53, 54, 125]⟩ =
      some ⟨.ok ⟨[123, 34, 102, 111, 111, 34, 58, 32, 49, 50, 51, 44, 34, 118, 97, 108,
        117, 101, 34, 58, 32, 91, 49, 44, 32, 50, 44, 32, 51, 93, 44, 34, 98, 97, 114, 34, 58, 32,
        52, 53, 54, 125], 21, 9⟩, 30⟩ ∧
    (foobar_codec 3).decode (decoding_context.init
        [123, 34, 102, 111, 111, 34, 58, 32, 49, 50, 51, 44, 34, 118, 97, 108,
        117, 101, 34, 58, 32, 91, 49, 44, 32, 50, 44, 32, 51, 93, 44, 34, 98, 97, 114, 34, 58, 32,
        52, 53, 54, 125]) =
      some ⟨.ok ⟨⟨[123, 34, 102, 111, 111, 34, 58, 32, 49, 50, 51, 44, 34, 118, 97, 108,
        117, 101, 34, 58, 32, 91, 49, 44, 32, 50, 44, 32, 51, 93, 44, 34, 98, 97, 114, 34, 58, 32,
        52, 53, 54, 125], 21, 9⟩⟩, 42⟩ ∧
    decode codec.raw_owned [123, 34, 104, 101, 121, 34, 58, 34, 121, 111, 34, 125] =
      some (.ok [123, 34, 104, 101, 121, 34, 58, 34, 121, 111, 34, 125]) ∧
    decode codec.raw_owned [45, 49, 50, 51, 46, 52, 53, 54, 101, 43, 52, 53] =
      some (.ok [45, 49, 50, 51, 46, 52, 53, 54, 101, 43, 52, 53]) ∧
    decode codec.raw_owned [34, 102, 111, 111, 98, 97, 114, 34] =
      some (.ok [34, 102, 111, 111, 98, 97, 114, 34]) ∧
    decode codec.raw_owned [110, 117, 108, 108] = some (.ok [110, 117, 108, 108]) :=
  ⟨(raw_decode_span
      [123, 34, 102, 111, 111, 34, 58, 32, 49, 50, 51, 44, 34, 118, 97, 108, 117, 101, 34, 58, 32]
      [91, 49, 44, 32, 50, 44, 32, 51, 93] [44, 34, 98, 97, 114, 34, 58, 32, 52, 53, 54, 125]
      json_text_one_two_three (Or.inr (Or.inl rfl))).1,
    rfl, rfl, rfl, rfl, rfl⟩

/-! ## Deep nesting -/

/-- Arrays nested to every depth from one on are well-formed JSON values. -/
theorem json_text_nested (m : Nat) :
    json_text .value (List.replicate (m + 1) 91 ++ List.replicate (m + 1) 93) := by
  induction m with
  | zero => exact json_text.empty_array [] (by simp [whitespace])
  | succ m ih =>
    have hshape : List.replicate (m + 1 + 1) 91 ++ List.replicate (m + 1 + 1) 93 =
        91 :: ([] ++ (List.replicate (m + 1) 91 ++ List.replicate (m + 1) 93) ++ []) ++ [93] := by
      rw [List.replicate_succ (n := m + 1), List.replicate_succ' (n := m + 1)]
      simp
    rw [hshape]
    exact json_text.array _ (json_text.element [] _ [] (by simp [whitespace])
      (by simp [whitespace]) ih)

namespace detail

/-- The states of the scan compose over the input. -/
theorem scan_states_append (a b : List Nat) :
    ∀ state : scan_state,
      scan_states state (a ++ b) = (scan_states state a).bind fun s => scan_states s b := by
  induction a with
  | nil => intro state; rfl
  | cons c a ih =>
    intro state
    simp only [List.cons_append, scan_states]
    cases scan_step state c with
    | next s => exact ih s
    | done => rfl
    | fail message => rfl

/-- The scan that has reached a state goes on from that state. -/
theorem structural_scan_states (a b : List Nat) :
    ∀ (state state' : scan_state) (p : Nat), scan_states state a = some state' →
      structural_scan state (a ++ b) p = structural_scan state' b (p + a.length) := by
  induction a with
  | nil =>
    intro state state' p h
    simp only [scan_states, Option.some.injEq] at h
    rw [h]
    rfl
  | cons c a ih =>
    intro state state' p h
    simp only [scan_states] at h
    cases hstep : scan_step state c with
    | next s =>
      rw [hstep] at h
      rw [List.cons_append, structural_scan_next _ _ c _ p hstep, ih s state' (p + 1) h,
        List.length_cons]
      congr 1
      omega
    | done => rw [hstep] at h; cases h
    | fail message => rw [hstep] at h; cases h

/-- Opening brackets push their closing brackets. -/
theorem scan_states_opens (j : Nat) :
    ∀ stack : List Nat, scan_states ⟨stack, .between⟩ (List.replicate j 91) =
      some ⟨List.replicate j 93 ++ stack, .between⟩ := by
  induction j with
  | zero => intro stack; rfl
  | succ j ih =>
    intro stack
    have hstep : scan_step ⟨stack, .between⟩ 91 = .next ⟨93 :: stack, .between⟩ := by
      simp [scan_step]
    rw [List.replicate_succ]
    simp only [scan_states, hstep]
    rw [ih (93 :: stack), List.replicate_succ' (n := j)]
    simp

/-- Closing brackets pop the stack, as long as an array stays open. -/
theorem scan_states_closes (j : Nat) (below : List Nat) (hbelow : below ≠ []) :
    scan_states ⟨List.replicate j 93 ++ below, .between⟩ (List.replicate j 93) =
      some ⟨below, .between⟩ := by
  induction j with
  | zero => rfl
  | succ j ih =>
    have hne : List.replicate j 93 ++ below ≠ [] := by
      intro h
      exact hbelow (List.append_eq_nil.mp h).2
    have hstep : scan_step ⟨93 :: (List.replicate j 93 ++ below), .between⟩ 93 =
        .next ⟨List.replicate j 93 ++ below, .between⟩ := by
      cases hl : List.replicate j 93 ++ below with
      | nil => exact absurd hl hne
      | cons top rest => simp [scan_step]
    rw [List.replicate_succ]
    simp only [List.cons_append, scan_states, hstep]
    exact ih

end detail

/-- While the scan is inside `n` nested arrays, its stack holds one closing
bracket for every array that is open: never more than `n`. -/
theorem scan_states_nested (n k : Nat) (hk : k < 2 * n) :
    detail.scan_states ⟨[], .between⟩
        ((List.replicate n 91 ++ List.replicate n 93).take k) =
      some ⟨List.replicate (min k (2 * n - k)) 93, .between⟩ := by
  by_cases hkn : k ≤ n
  · have htake : (List.replicate n 91 ++ List.replicate n 93).take k = List.replicate k 91 := by
      rw [List.take_append_of_le_length (by simp; exact hkn), List.take_replicate,
        Nat.min_eq_left hkn]
    rw [htake, detail.scan_states_opens k [], List.append_nil, Nat.min_eq_left (by omega)]
  · have htake : (List.replicate n 91 ++ List.replicate n 93).take k =
        List.replicate n 91 ++ List.replicate (k - n) 93 := by
      rw [List.take_append_eq_append_take, List.take_replicate, List.take_replicate,
        List.length_replicate, Nat.min_eq_right (by omega), Nat.min_eq_left (by omega)]
    have hsplit : List.replicate n 93 =
        List.replicate (k - n) 93 ++ List.replicate (2 * n - k) 93 := by
      rw [← List.replicate_add]
      congr 1
      omega
    rw [htake, detail.scan_states_append, detail.scan_states_opens n [], List.append_nil,
      Option.some_bind, hsplit,
      detail.scan_states_closes (k - n) (List.replicate (2 * n - k) 93)
        (by
          intro h
          have := congrArg List.length h
          simp at this
          omega),
      Nat.min_eq_right (by omega)]

/-- C25 as stated, at `n = 0`: the input of no brackets is empty, and the raw
codec does not report a span for it: no value starts at the end of the
input. -/
theorem raw_decode_no_nesting :
    codec.raw.decode (decoding_context.init (List.replicate 0 91 ++ List.replicate 0 93)) =
      some ⟨.error ⟨"UnexpectedEnd", 0⟩, 0⟩ ∧
    decode codec.raw (List.replicate 0 91 ++ List.replicate 0 93) =
      some (.error ⟨"UnexpectedEnd", 0⟩) :=
  ⟨rfl, rfl⟩

/-- C25, amended: for every `n` from one on, the raw codec decodes the input
made of `n` bytes '[' followed by `n` bytes ']' and reports a span that covers
the whole input, from the first byte and of `2 * n` bytes, with the cursor at
the end; the scan is an iteration over the bytes whose only auxiliary state is
the explicit stack of closing brackets awaited, which after every number of
bytes read holds as many entries as arrays are open, at most `n`. -/
theorem raw_decode_deep (n : Nat) (hn : 0 < n) :
    codec.raw.decode (decoding_context.init (List.replicate n 91 ++ List.replicate n 93)) =
      some ⟨.ok ⟨List.replicate n 91 ++ List.replicate n 93, 0, 2 * n⟩, 2 * n⟩ ∧
    decode codec.raw (List.replicate n 91 ++ List.replicate n 93) =
      some (.ok ⟨List.replicate n 91 ++ List.replicate n 93, 0, 2 * n⟩) ∧
    (⟨List.replicate n 91 ++ List.replicate n 93, 0, 2 * n⟩ : codec.raw_ref).bytes =
      List.replicate n 91 ++ List.replicate n 93 ∧
    (∀ k, k < 2 * n → ∃ state : detail.scan_state,
      detail.scan_states ⟨[], .between⟩
        ((List.replicate n 91 ++ List.replicate n 93).take k) = some state ∧
      state.stack.length ≤ n ∧
      detail.structural_scan ⟨[], .between⟩ (List.replicate n 91 ++ List.replicate n 93) 0 =
        detail.structural_scan state ((List.replicate n 91 ++ List.replicate n 93).drop k) k) := by
  obtain ⟨m, hm⟩ : ∃ m, n = m + 1 := ⟨n - 1, by omega⟩
  have htext : json_text .value (List.replicate n 91 ++ List.replicate n 93) := by
    rw [hm]
    exact json_text_nested m
  have hlen : (List.replicate n 91 ++ List.replicate n 93).length = 2 * n := by
    simp
    omega
  have hdec := raw_decode_text [] _ [] htext trivial
  have hwhole := raw_decode_whole _ htext
  simp only [List.nil_append, List.append_nil, List.length_nil, Nat.zero_add, hlen] at hdec
  rw [hlen] at hwhole
  refine ⟨hdec, hwhole, ?_, ?_⟩
  · simp only [codec.raw_ref.bytes, List.drop_zero]
    rw [← hlen, List.take_length]
  · intro k hk
    have hstates := scan_states_nested n k hk
    refine ⟨_, hstates, ?_, ?_⟩
    · simp only [List.length_replicate]
      omega
    · have h := detail.structural_scan_states
        ((List.replicate n 91 ++ List.replicate n 93).take k)
        ((List.replicate n 91 ++ List.replicate n 93).drop k) _ _ 0 hstates
      rw [List.take_append_drop] at h
      rw [h]
      congr 1
      simp only [List.length_take, hlen]
      omega

theorem raw_decode_deep_witness :
    codec.raw.decode (decoding_context.init [91, 91, 91, 93, 93, 93]) =
      some ⟨.ok ⟨[91, 91, 91, 93, 93, 93], 0, 6⟩, 6⟩ ∧
    decode codec.raw (List.replicate 1000000 91 ++ List.replicate 1000000 93) =
      some (.ok ⟨List.replicate 1000000 91 ++ List.replicate 1000000 93, 0, 2 * 1000000⟩) :=
  ⟨(raw_decode_deep 3 (by decide)).1, (raw_decode_deep 1000000 (by decide)).2.1⟩

/-! ## The escaper: what it writes can be undone, is a string body, and is bounded -/

namespace detail

/-- The escape of a control character, one of the 32 bytes below 0x20, is
undone. -/
theorem unescape_control (c : Nat) (hc : c < 0x20) (rest : List Nat) :
    unescape (write_escaped_c [] c ++ rest) = c :: unescape rest := by
  have hshape :
      ((write_escaped_c [] c).getD 1 0 ≠ 117 ∧ unescaped ((write_escaped_c [] c).getD 1 0) = c ∧
        write_escaped_c [] c = [92, (write_escaped_c [] c).getD 1 0]) ∨
      (hex_value ((write_escaped_c [] c).getD 4 0) * 16 +
          hex_value ((write_escaped_c [] c).getD 5 0) = c ∧
        write_escaped_c [] c = [92, 117, 48, 48, (write_escaped_c [] c).getD 4 0,
          (write_escaped_c [] c).getD 5 0]) := by
    interval_cases c <;> decide
  rcases hshape with ⟨hx, hun, hesc⟩ | ⟨hval, hesc⟩
  · generalize (write_escaped_c [] c).getD 1 0 = x at hx hun hesc
    rw [hesc, ← hun]
    simp only [List.cons_append, List.nil_append]
    rw [unescape]
    simp [hx]
  · generalize (write_escaped_c [] c).getD 4 0 = h1 at hval hesc
    generalize (write_escaped_c [] c).getD 5 0 = h2 at hval hesc
    rw [hesc, ← hval]
    simp only [List.cons_append, List.nil_append]
    rw [unescape]
    simp

/-- The escape of one byte is undone, whatever follows it. -/
theorem unescape_escaped_c (c : Nat) (rest : List Nat) :
    unescape (write_escaped_c [] c ++ rest) = c :: unescape rest := by
  by_cases hcontrol : c < 0x20
  · exact unescape_control c hcontrol rest
  · by_cases hspecial : c = 92 ∨ c = 34 ∨ c = 47
    · have hesc : write_escaped_c [] c = [92, c] := by
        rcases hspecial with h | h | h <;> subst h <;> rfl
      have hun : unescaped c = c := by
        rcases hspecial with h | h | h <;> subst h <;> rfl
      have h117 : c ≠ 117 := by omega
      rw [hesc]
      simp only [List.cons_append, List.nil_append]
      rw [unescape]
      simp [h117, hun]
    · have hge : c ≥ 0x20 := by omega
      have hesc : write_escaped_c [] c = [c] := by
        simp [write_escaped_c, hspecial, hge]
      have h92 : c ≠ 92 := fun h => hspecial (Or.inl h)
      rw [hesc]
      cases rest with
      | nil => simp [unescape]
      | cons x rest =>
        simp only [List.cons_append, List.nil_append]
        rw [unescape]
        simp [h92]

/-- The escape of a byte string is undone. -/
theorem unescape_escaped (s : List Nat) :
    unescape (s.flatMap (write_escaped_c [])) = s := by
  induction s with
  | nil => simp [unescape]
  | cons c s ih => rw [List.flatMap_cons, unescape_escaped_c, ih]

/-- The escape of one byte has 1, 2 or 6 bytes, and 1 only for a byte that is
written as it is. -/
theorem length_escaped_c (c : Nat) :
    ((write_escaped_c [] c).length = 1 ∨ (write_escaped_c [] c).length = 2 ∨
      (write_escaped_c [] c).length = 6) ∧
    ((write_escaped_c [] c).length = 1 ↔ (0x20 ≤ c ∧ c ≠ 34 ∧ c ≠ 92 ∧ c ≠ 47)) := by
  by_cases hcontrol : c < 0x20
  · have h : (write_escaped_c [] c).length = 2 ∨ (write_escaped_c [] c).length = 6 := by
      interval_cases c <;> decide
    refine ⟨Or.inr h, ?_⟩
    constructor
    · intro h1
      omega
    · intro h1
      omega
  · by_cases hspecial : c = 92 ∨ c = 34 ∨ c = 47
    · have h : (write_escaped_c [] c).length = 2 := by
        rcases hspecial with h | h | h <;> subst h <;> rfl
      refine ⟨Or.inr (Or.inl h), ?_⟩
      constructor
      · intro h1
        omega
      · intro h1
        omega
    · have hge : c ≥ 0x20 := by omega
      have hesc : write_escaped_c [] c = [c] := by
        simp [write_escaped_c, hspecial, hge]
      rw [hesc]
      refine ⟨Or.inl rfl, ?_⟩
      constructor
      · intro _
        omega
      · intro _
        rfl

end detail

/-- The escape of a control character in front of a string body is a string
body. -/
theorem string_body_control (c : Nat) (hc : c < 0x20) (rest : List Nat) (h : string_body rest) :
    string_body (detail.write_escaped_c [] c ++ rest) := by
  have hshape :
      ((detail.write_escaped_c [] c).getD 1 0 ∈ [34, 92, 47, 98, 102, 110, 114, 116] ∧
        detail.write_escaped_c [] c = [92, (detail.write_escaped_c [] c).getD 1 0]) ∨
      (detail.is_hex_digit ((detail.write_escaped_c [] c).getD 4 0) = true ∧
        detail.is_hex_digit ((detail.write_escaped_c [] c).getD 5 0) = true ∧
        detail.write_escaped_c [] c = [92, 117, 48, 48, (detail.write_escaped_c [] c).getD 4 0,
          (detail.write_escaped_c [] c).getD 5 0]) := by
    interval_cases c <;> decide
  rcases hshape with ⟨hx, hesc⟩ | ⟨hh1, hh2, hesc⟩
  · rw [hesc]
    exact string_body.escape _ rest hx h
  · rw [hesc]
    exact string_body.unicode 48 48 _ _ rest (by decide) (by decide) hh1 hh2 h

/-- The escape of a byte in front of a string body is a string body. -/
theorem string_body_escaped_c (c : Nat) (rest : List Nat) (h : string_body rest) :
    string_body (detail.write_escaped_c [] c ++ rest) := by
  by_cases hcontrol : c < 0x20
  · exact string_body_control c hcontrol rest h
  · by_cases hspecial : c = 92 ∨ c = 34 ∨ c = 47
    · have hesc : detail.write_escaped_c [] c = [92, c] := by
        rcases hspecial with h | h | h <;> subst h <;> rfl
      rw [hesc]
      refine string_body.escape c rest ?_ h
      rcases hspecial with h | h | h <;> subst h <;> decide
    · have hge : c ≥ 0x20 := by omega
      have hesc : detail.write_escaped_c [] c = [c] := by
        simp [detail.write_escaped_c, hspecial, hge]
      rw [hesc]
      exact string_body.plain c rest (fun h => hspecial (Or.inr (Or.inl h)))
        (fun h => hspecial (Or.inl h)) hge h

/-- The escape of a byte string is a string body. -/
theorem string_body_escaped (s : List Nat) :
    string_body (s.flatMap (detail.write_escaped_c [])) := by
  induction s with
  | nil => exact string_body.nil
  | cons c s ih =>
    rw [List.flatMap_cons]
    exact string_body_escaped_c c _ ih

/-- No byte of a string body is a control character. -/
theorem string_body_no_control (body : List Nat) (h : string_body body) :
    ∀ c ∈ body, 0x20 ≤ c := by
  induction h with
  | nil => intro c hc; cases hc
  | plain b rest _ _ hb _ ih =>
    intro c hc
    rcases List.mem_cons.mp hc with h1 | h1
    · rw [h1]; exact hb
    · exact ih c h1
  | escape x rest hx _ ih =>
    intro c hc
    rcases List.mem_cons.mp hc with h1 | h1
    · rw [h1]; decide
    · rcases List.mem_cons.mp h1 with h2 | h2
      · rw [h2]
        simp only [List.mem_cons, List.mem_singleton, List.not_mem_nil, or_false] at hx
        omega
      · exact ih c h2
  | unicode a b c' d rest ha hb hc' hd _ ih =>
    intro c hc
    have hhex : ∀ x, detail.is_hex_digit x = true → 0x20 ≤ x := by
      intro x hx
      simp only [detail.is_hex_digit, detail.is_digit, Bool.or_eq_true, Bool.and_eq_true,
        decide_eq_true_eq] at hx
      omega
    simp only [List.mem_cons] at hc
    rcases hc with h | h | h | h | h | h | h
    · rw [h]; decide
    · rw [h]; decide
    · rw [h]; exact hhex a ha
    · rw [h]; exact hhex b hb
    · rw [h]; exact hhex c' hc'
    · rw [h]; exact hhex d hd
    · exact ih c h

/-- The length of the escape of a byte string lies between its length and six
times its length, and is its length only when every byte is written as it
is. -/
theorem length_escaped (s : List Nat) :
    s.length ≤ (s.flatMap (detail.write_escaped_c [])).length ∧
    (s.flatMap (detail.write_escaped_c [])).length ≤ 6 * s.length ∧
    ((s.flatMap (detail.write_escaped_c [])).length = s.length ↔
      ∀ c ∈ s, 0x20 ≤ c ∧ c ≠ 34 ∧ c ≠ 92 ∧ c ≠ 47) := by
  induction s with
  | nil => simp
  | cons c s ih =>
    obtain ⟨hlow, hhigh, hiff⟩ := ih
    obtain ⟨hsize, hone⟩ := detail.length_escaped_c c
    simp only [List.flatMap_cons, List.length_append, List.length_cons, List.mem_cons,
      forall_eq_or_imp]
    refine ⟨by omega, by omega, ?_⟩
    constructor
    · intro h
      have h1 : (detail.write_escaped_c [] c).length = 1 := by omega
      have h2 : (s.flatMap (detail.write_escaped_c [])).length = s.length := by omega
      exact ⟨hone.mp h1, hiff.mp h2⟩
    · rintro ⟨hc, hs⟩
      have h1 := hone.mpr hc
      have h2 := hiff.mpr hs
      omega

/-- C34: `write_escaped` is injective: two byte strings whose escaped outputs
are equal are equal, for the chunked function, whatever the alignment tests
answer and wherever the inputs lie, and for `write_escaped_c` on single bytes;
and the escaping is undone by reading the output as a JSON string decoder
does. -/
theorem write_escaped_injective (m m' : detail.alignment_macros) (out : List Nat)
    (s1 s2 : detail.source_bytes) :
    (detail.write_escaped m out s1 = detail.write_escaped m' out s2 → s1.bytes = s2.bytes) ∧
    (∀ written, detail.write_escaped m [] s1 = some written →
      detail.unescape written = s1.bytes) ∧
    (∀ c1 c2 : Nat, detail.write_escaped_c out c1 = detail.write_escaped_c out c2 → c1 = c2) ∧
    detail.unescape [92, 34, 97, 92, 92, 92, 110, 92, 117, 48, 48, 48, 48, 92, 47, 98, 92, 117,
      48, 48, 49, 70] = [34, 97, 92, 10, 0, 47, 98, 31] := by
  have hinj : ∀ value1 value2 : List Nat,
      out ++ value1.flatMap (detail.write_escaped_c []) =
        out ++ value2.flatMap (detail.write_escaped_c []) → value1 = value2 := by
    intro value1 value2 h
    have h' := congrArg detail.unescape (List.append_cancel_left h)
    rw [detail.unescape_escaped, detail.unescape_escaped] at h'
    exact h'
  refine ⟨?_, ?_, ?_, ?_⟩
  · intro h
    rw [detail.write_escaped_eq, detail.write_escaped_eq] at h
    exact hinj _ _ (Option.some.inj h)
  · intro written h
    rw [detail.write_escaped_eq] at h
    cases h
    rw [List.nil_append]
    exact detail.unescape_escaped _
  · intro c1 c2 h
    rw [detail.write_escaped_c_append out c1, detail.write_escaped_c_append out c2] at h
    have h' := hinj [c1] [c2] (by simpa using h)
    exact List.cons.inj h' |>.1
  · exact detail.unescape_escaped [34, 97, 92, 10, 0, 47, 98, 31]

/-- C35: for every byte string, what `write_escaped` writes is the body of a
well-formed JSON string: it holds no byte below 0x20; it is made of bytes that
stand for themselves, which are neither a double quote nor a backslash, of the
two-byte escapes of the double quote, the backslash, the slash and b, t, n, f
and r, and of `\u` followed by four hexadecimal digits; so between two double
quotes it is a JSON string, and a scan of it ends at the closing quote and not
before. The operator `<<` of the writer for strings writes such a string. -/
theorem write_escaped_string_body (m : detail.alignment_macros) (s : detail.source_bytes) :
    ∃ written, detail.write_escaped m [] s = some written ∧
      string_body written ∧
      (∀ c ∈ written, 0x20 ≤ c) ∧
      json_text .value (34 :: written ++ [34]) ∧
      (∀ pre post : List Nat, ends_value post →
        detail.advance_past_value ⟨pre.length, pre ++ (34 :: written ++ [34]) ++ post⟩ =
          ⟨.ok (), pre.length + (written.length + 2)⟩) ∧
      (∀ (stack : List Nat) (post : List Nat) (p : Nat),
        detail.structural_scan ⟨stack, .in_string⟩ (written ++ post) p =
          detail.structural_scan ⟨stack, .in_string⟩ post (p + written.length)) ∧
      (∀ w : basic_writer, (w.shl_string s.bytes)._stream =
        w._stream ++ w.separator ++ (34 :: written ++ [34])) := by
  have hbody := string_body_escaped s.bytes
  refine ⟨s.bytes.flatMap (detail.write_escaped_c []), ?_, hbody,
    string_body_no_control _ hbody, json_text.string _ hbody, ?_, ?_, ?_⟩
  · rw [detail.write_escaped_eq, List.nil_append]
  · intro pre post hpost
    have h := advance_past_value_text pre _ post (json_text.string _ hbody) hpost
    rw [h]
    simp only [List.length_cons, List.length_append, List.length_nil]
  · intro stack post p
    exact structural_scan_string_body stack post _ hbody p
  · intro w
    rw [shl_string_eq_shl]
    cases h : w._separator_needed <;>
      simp [basic_writer.shl, basic_writer.separator_and_set, basic_writer.write_value,
        basic_writer.separator, string_text, h]

/-- C36: for every input of `n` bytes, `write_escaped` writes at least `n` and
at most `6 * n` bytes, each input byte giving 1, 2 or 6 of them, and it writes
exactly `n` bytes if and only if no input byte is a control character, a
double quote, a backslash or a forward slash. -/
theorem write_escaped_size (m : detail.alignment_macros) (out : List Nat)
    (s : detail.source_bytes) :
    ∃ written, detail.write_escaped m out s = some (out ++ written) ∧
      s.bytes.length ≤ written.length ∧
      written.length ≤ 6 * s.bytes.length ∧
      written.length = (s.bytes.map fun c => (detail.write_escaped_c [] c).length).sum ∧
      (∀ c : Nat, (detail.write_escaped_c [] c).length = 1 ∨
        (detail.write_escaped_c [] c).length = 2 ∨ (detail.write_escaped_c [] c).length = 6) ∧
      (written.length = s.bytes.length ↔
        ∀ c ∈ s.bytes, 0x20 ≤ c ∧ c ≠ 34 ∧ c ≠ 92 ∧ c ≠ 47) := by
  obtain ⟨hlow, hhigh, hiff⟩ := length_escaped s.bytes
  refine ⟨s.bytes.flatMap (detail.write_escaped_c []), detail.write_escaped_eq m out s, hlow,
    hhigh, ?_, fun c => (detail.length_escaped_c c).1, hiff⟩
  simp only [List.length_flatMap]
  rfl

/-! ## The codec `empty_as`: round trip -/

/-- C39: for every default codec `d` and inner codec `i` such that `i` decodes
its own encoding of every value other than the default back to that value,
`d` decodes its own encoding of the default value back to the default value,
and `i` fails on `d`'s encoding of the default value, decoding with
`empty_as(d, i)` the text that `empty_as(d, i)` produces for a value returns
that value, and leaves the cursor where the codec in charge leaves it. -/
theorem empty_as_round_trip [DecidableEq α] (_default : α) (d i : codec α)
    (hinner : ∀ v, v ≠ _default →
      ∃ p, i.decode (decoding_context.init (encode i v)) = some ⟨.ok v, p⟩)
    (hdefault : ∃ p, d.decode (decoding_context.init (encode d _default)) =
      some ⟨.ok _default, p⟩)
    (hfail : ∃ e p, i.decode (decoding_context.init (encode d _default)) =
      some ⟨.error e, p⟩)
    (v : α) :
    ∃ p, (codec.empty_as _default d i).decode
        (decoding_context.init (encode (codec.empty_as _default d i) v)) = some ⟨.ok v, p⟩ ∧
      (v = _default →
        d.decode (decoding_context.init (encode d _default)) = some ⟨.ok v, p⟩) ∧
      (v ≠ _default → i.decode (decoding_context.init (encode i v)) = some ⟨.ok v, p⟩) := by
  by_cases hv : v = _default
  · obtain ⟨p, hp⟩ := hdefault
    obtain ⟨e, q, hq⟩ := hfail
    have henc : encode (codec.empty_as _default d i) v = encode d _default := by
      simp [encode, codec.empty_as, codec.empty_as_t.encode, hv]
    refine ⟨p, ?_, fun _ => by rw [hv]; exact hp, fun h => absurd hv h⟩
    rw [henc, hv]
    simp only [codec.empty_as, codec.empty_as_t.decode, hq]
    have hreset : ({ decoding_context.init (encode d _default) with
        position := (decoding_context.init (encode d _default)).position } :
        decoding_context) = decoding_context.init (encode d _default) := rfl
    rw [hreset, hp]
  · obtain ⟨p, hp⟩ := hinner v hv
    have henc : encode (codec.empty_as _default d i) v = encode i v := by
      simp [encode, codec.empty_as, codec.empty_as_t.encode, hv]
    refine ⟨p, ?_, fun h => absurd h hv, fun _ => hp⟩
    rw [henc]
    simp only [codec.empty_as, codec.empty_as_t.decode, hp]

theorem empty_as_round_trip_witness :
    encode (codec.empty_as false (codec.null false) codec.boolean) false =
      [110, 117, 108, 108] ∧
    encode (codec.empty_as false (codec.null false) codec.boolean) true =
      [116, 114, 117, 101] ∧
    ∀ v : Bool, ∃ p, (codec.empty_as false (codec.null false) codec.boolean).decode
      (decoding_context.init (encode (codec.empty_as false (codec.null false) codec.boolean) v)) =
        some ⟨.ok v, p⟩ :=
  ⟨rfl, rfl, fun v =>
    (empty_as_round_trip false (codec.null false) codec.boolean
      (fun u hu => by
        cases u with
        | false => exact absurd rfl hu
        | true => exact ⟨4, rfl⟩)
      ⟨4, rfl⟩ ⟨_, _, rfl⟩ v).imp fun _ h => h.1⟩

/-! ## Scopes close whatever the body does -/

/-- Reading the brackets of two texts one after the other. -/
theorem brackets_append (a b : List Nat) :
    ∀ stack : List Nat,
      brackets stack (a ++ b) = (brackets stack a).bind fun s => brackets s b := by
  induction a with
  | nil => intro stack; rfl
  | cons c a ih =>
    intro stack
    simp only [List.cons_append, brackets]
    split
    · exact ih _
    · split
      · exact ih _
      · split
        · cases stack with
          | nil => rfl
          | cons top below =>
            simp only []
            split
            · exact ih _
            · rfl
        · exact ih _

/-- A text without brackets and braces leaves the stack as it is. -/
theorem brackets_plain (text : List Nat)
    (h : ∀ c ∈ text, c ≠ 91 ∧ c ≠ 93 ∧ c ≠ 123 ∧ c ≠ 125) :
    ∀ stack : List Nat, brackets stack text = some stack := by
  induction text with
  | nil => intro stack; rfl
  | cons c text ih =>
    intro stack
    obtain ⟨h1, h2, h3, h4⟩ := h c (List.mem_cons_self _ _)
    simp only [brackets, h1, h2, h3, h4, if_false, or_self]
    exact ih (fun x hx => h x (List.mem_cons_of_mem _ hx)) stack

/-- A balanced text between a bracket and its closing bracket leaves the stack
as it is. -/
theorem brackets_enclosed (opening closing : Nat) (inner : List Nat)
    (hpair : (opening = 91 ∧ closing = 93) ∨ (opening = 123 ∧ closing = 125))
    (hinner : ∀ stack : List Nat, brackets stack inner = some stack) (stack : List Nat) :
    brackets stack (opening :: (inner ++ [closing])) = some stack := by
  rcases hpair with ⟨ho, hc⟩ | ⟨ho, hc⟩
  · subst ho hc
    simp [brackets, brackets_append, hinner]
  · subst ho hc
    simp [brackets, brackets_append, hinner]

/-- What a body writes is appended to the stream, and its brackets and braces
are balanced and strictly nested, whether the body returns or throws. -/
theorem scope_body_balanced (body : scope_body) (hplain : body.plain_values) :
    ∀ w : basic_writer, ∃ written,
      (body.run w).1._stream = w._stream ++ written ∧
      ∀ stack : List Nat, brackets stack written = some stack := by
  have hsep : ∀ (w : basic_writer) (stack : List Nat),
      brackets stack w.separator = some stack := by
    intro w stack
    cases h : w._separator_needed <;> simp [basic_writer.separator, h, brackets]
  induction body with
  | done => intro w; exact ⟨[], by simp [scope_body.run], fun _ => rfl⟩
  | fail => intro w; exact ⟨[], by simp [scope_body.run], fun _ => rfl⟩
  | value text next ih =>
    intro w
    obtain ⟨written, hw, hb⟩ := ih hplain.2 (w.shl (fun _ : Unit => text) ())
    refine ⟨w.separator ++ text ++ written, ?_, ?_⟩
    · simp only [scope_body.run]
      rw [hw]
      cases h : w._separator_needed <;>
        simp [basic_writer.shl, basic_writer.separator_and_set, basic_writer.write_value,
          basic_writer.separator, h]
    · intro stack
      rw [brackets_append, brackets_append, hsep, Option.some_bind,
        brackets_plain text hplain.1, Option.some_bind, hb]
  | array inner next ihinner ihnext =>
    intro w
    obtain ⟨wi, hwi, hbi⟩ := ihinner hplain.1 (basic_writer.scoped_array w)
    have hscope : ∀ stack : List Nat,
        brackets stack (w.separator ++ 91 :: (wi ++ [93])) = some stack := by
      intro stack
      rw [brackets_append, hsep, Option.some_bind]
      exact brackets_enclosed 91 93 wi (Or.inl ⟨rfl, rfl⟩) hbi stack
    have hstream : (w.add_array inner.run).1._stream =
        w._stream ++ (w.separator ++ 91 :: (wi ++ [93])) := by
      simp only [basic_writer.add_array, basic_writer.scoped_array_destroy, basic_writer.put,
        basic_writer.set_separator, hwi]
      rw [basic_writer.scoped_array_eq]
      simp
    have hrun : (scope_body.array inner next).run w =
        if (w.add_array inner.run).2 then w.add_array inner.run
        else next.run (w.add_array inner.run).1 := rfl
    rw [hrun]
    by_cases hthrew : (w.add_array inner.run).2 = true
    · rw [if_pos hthrew]
      exact ⟨_, hstream, hscope⟩
    · rw [if_neg hthrew]
      obtain ⟨wn, hwn, hbn⟩ := ihnext hplain.2 (w.add_array inner.run).1
      refine ⟨(w.separator ++ 91 :: (wi ++ [93])) ++ wn, ?_, ?_⟩
      · rw [hwn, hstream, List.append_assoc]
      · intro stack
        rw [brackets_append, hscope, Option.some_bind, hbn]
  | object inner next ihinner ihnext =>
    intro w
    obtain ⟨wi, hwi, hbi⟩ := ihinner hplain.1 (basic_writer.scoped_object w)
    have hscope : ∀ stack : List Nat,
        brackets stack (w.separator ++ 123 :: (wi ++ [125])) = some stack := by
      intro stack
      rw [brackets_append, hsep, Option.some_bind]
      exact brackets_enclosed 123 125 wi (Or.inr ⟨rfl, rfl⟩) hbi stack
    have hstream : (w.add_object inner.run).1._stream =
        w._stream ++ (w.separator ++ 123 :: (wi ++ [125])) := by
      simp only [basic_writer.add_object, basic_writer.scoped_object_destroy, basic_writer.put,
        basic_writer.set_separator, hwi]
      rw [basic_writer.scoped_object_eq]
      simp
    have hrun : (scope_body.object inner next).run w =
        if (w.add_object inner.run).2 then w.add_object inner.run
        else next.run (w.add_object inner.run).1 := rfl
    rw [hrun]
    by_cases hthrew : (w.add_object inner.run).2 = true
    · rw [if_pos hthrew]
      exact ⟨_, hstream, hscope⟩
    · rw [if_neg hthrew]
      obtain ⟨wn, hwn, hbn⟩ := ihnext hplain.2 (w.add_object inner.run).1
      refine ⟨(w.separator ++ 123 :: (wi ++ [125])) ++ wn, ?_, ?_⟩
      · rw [hwn, hstream, List.append_assoc]
      · intro stack
        rw [brackets_append, hscope, Option.some_bind, hbn]

/-- C31: array and object scopes close even when the body fails: for every
body, whether it returns or throws, the closing ']' or the closing brace is
appended after whatever the body wrote, the separator flag is set, and the
failure of the body is passed on; so the brackets and braces that the writer
leaves in the stream, for bodies made of values and nested scopes that may
throw anywhere, are balanced and strictly nested. -/
theorem scope_closes (w : basic_writer) (func : basic_writer.functor) :
    (w.add_array func).1 =
      ⟨(func (basic_writer.scoped_array w)).1._stream ++ [93], true⟩ ∧
    (w.add_array func).2 = (func (basic_writer.scoped_array w)).2 ∧
    (w.add_object func).1 =
      ⟨(func (basic_writer.scoped_object w)).1._stream ++ [125], true⟩ ∧
    (w.add_object func).2 = (func (basic_writer.scoped_object w)).2 ∧
    (∀ (κ : Type) (shl_k : basic_writer → κ → basic_writer) (k : κ),
      (w.add_array_keyed shl_k k func).1 =
        ⟨(func (basic_writer.scoped_array_keyed shl_k w k)).1._stream ++ [93], true⟩ ∧
      (w.add_object_keyed shl_k k func).1 =
        ⟨(func (basic_writer.scoped_object_keyed shl_k w k)).1._stream ++ [125], true⟩) ∧
    (∀ body : scope_body, body.plain_values →
      (∃ written, (w.add_array body.run).1._stream = w._stream ++ written ∧ balanced written) ∧
      (∃ written, (w.add_object body.run).1._stream = w._stream ++ written ∧
        balanced written)) ∧
    (basic_writer.init []).add_array (scope_body.value [49] .fail).run =
      (⟨[91, 49, 93], true⟩, true) ∧
    (basic_writer.init []).add_array
        (scope_body.value [49] (.object (.value [50] .fail) (.value [51] .done))).run =
      (⟨[91, 49, 44, 123, 50, 125, 93], true⟩, true) ∧
    (basic_writer.init []).add_array
        (scope_body.value [49] (.object (.value [50] .done) (.value [51] .done))).run =
      (⟨[91, 49, 44, 123, 50, 125, 44, 51, 93], true⟩, false) := by
  refine ⟨rfl, rfl, rfl, rfl, fun _ _ _ => ⟨rfl, rfl⟩, ?_, by decide, by decide, by decide⟩
  intro body hplain
  constructor
  · obtain ⟨written, hw, hb⟩ := scope_body_balanced (.array body .done) ⟨hplain, trivial⟩ w
    refine ⟨written, ?_, hb []⟩
    rw [← hw]
    have hrun : (scope_body.array body .done).run w =
        if (w.add_array body.run).2 then w.add_array body.run
        else ((w.add_array body.run).1, false) := rfl
    rw [hrun]
    split <;> rfl
  · obtain ⟨written, hw, hb⟩ := scope_body_balanced (.object body .done) ⟨hplain, trivial⟩ w
    refine ⟨written, ?_, hb []⟩
    rw [← hw]
    have hrun : (scope_body.object body .done).run w =
        if (w.add_object body.run).2 then w.add_object body.run
        else ((w.add_object body.run).1, false) := rfl
    rw [hrun]
    split <;> rfl

/-! ## The object codec: the invariant of registration at work -/

namespace codec.object

/-- The field ids of the stored fields are 0, 1, ... in the order of the
fields. -/
theorem field_ids_range (o : object T) (hinv : o.invariant) :
    o._fields.map (fun entry => entry.2.field_id) = List.range o._fields.length := by
  apply List.ext_getElem
  · simp
  · intro i h1 h2
    simp only [List.getElem_map, List.getElem_range]
    have h : i < o._fields.length := by simpa using h1
    exact hinv.2.1 i h

/-- The number of set entries of the presence vector equals the counter exactly
when every required field was seen. -/
theorem count_marks_eq_iff (o : object T) (hinv : o.invariant) (seen : List (List Nat)) :
    (o.marks seen).count true = o._num_required_fields ↔
      ∀ entry ∈ o._fields, entry.2.required = true → entry.1 ∈ seen := by
  rw [count_marks, hinv.2.2.2]
  constructor
  · intro h entry hentry hreq
    by_contra hnot
    have hlt := countP_and_lt (fun entry : List Nat × object.field T => entry.2.required)
      (fun entry => decide (entry.1 ∈ seen)) o._fields entry hentry hreq (by simpa using hnot)
    simp only [] at hlt
    omega
  · intro h
    exact countP_and_eq _ _ o._fields (fun entry hentry hreq => by simpa using h entry hentry hreq)

end codec.object

/-! ## The object codec: the invariant of registration in `decode` -/

/-- The stored copy of the key of a name holds the quoted, escaped name. -/
theorem key_copied_storage (name : List Nat) :
    (key.of_iterable name).copied._storage = string_text name := by
  simp [key.copied, key.of_iterable, detail.write_escaped_stream_eq, string_text]

/-- Different names have different quoted forms. -/
theorem string_text_injective (a b : List Nat) (h : string_text a = string_text b) : a = b := by
  unfold string_text at h
  rw [List.append_assoc, List.append_assoc] at h
  have h1 := List.append_cancel_left h
  have h2 := List.append_cancel_right h1
  have h3 := congrArg detail.unescape h2
  rw [detail.unescape_escaped, detail.unescape_escaped] at h3
  exact h3

/-- The loop of `object::decode` on the text of a list of well-formed pairs
that the callback takes: it ends at the end of the text, in the state that the
pairs make of the initial state. -/
theorem object_loop_text (helpers : decoding_helpers) (o : codec.object T)
    (members : List (json_member T)) (fuel : Nat)
    (hmembers : ∀ m ∈ members, m.well_formed helpers o) (hfuel : members.length ≤ fuel)
    (state final : T × List Bool)
    (hfold : fold_steps o.apply_member state members = .ok final) :
    detail.advance_past_object fuel (decoding_context.init (object_text members))
        helpers.string.decode state (o.decode_key_value helpers) =
      some ⟨.ok final, (object_text members).length⟩ := by
  have hfirst : ∀ m ∈ members, ∃ ws b rest, json_member.text m = ws ++ b :: rest ∧
      (∀ c ∈ ws, detail.is_space c = true) ∧ detail.is_space b = false ∧ b ≠ 125 := by
    intro m hm
    obtain ⟨hws, ⟨k', hK⟩, _⟩ := hmembers m hm
    exact ⟨m.before, 34, _, by rw [json_member.text, hK]; rfl,
      fun c hc => hws c (by simp [hc]), by decide, by decide⟩
  have hloop := advance_past_comma_separated_fold 123 125
    (detail.advance_past_pair helpers.string.decode (o.decode_key_value helpers))
    json_member.text o.apply_member members fuel state (by decide) (by decide) hfuel hfirst
    (fun m hm state pre post d hd => by
      have h := object_pair_turn helpers o m (hmembers m hm) state pre post d hd
      cases hstep : o.apply_member state m <;> rw [hstep] at h <;> exact h)
  rw [hfold] at hloop
  exact hloop

/-- What holds of the state before the loop and is kept by every successful
call of the callback holds of the state in which the loop ends. -/
theorem comma_separated_loop_keeps (outro : Nat) (parse : σ → decoder σ) (P : σ → Prop)
    (hparse : ∀ (s : σ) (c : decoding_context) (s' : σ) (p : Nat),
      P s → parse s c = some ⟨.ok s', p⟩ → P s') :
    ∀ (fuel : Nat) (state : σ) (context : decoding_context) (s' : σ) (p : Nat), P state →
      detail.comma_separated_loop outro parse fuel state context = some ⟨.ok s', p⟩ → P s' := by
  intro fuel
  induction fuel with
  | zero =>
    intro state context s' p _ h
    simp [detail.comma_separated_loop] at h
  | succ f ih =>
    intro state context s' p hP h
    rw [detail.comma_separated_loop] at h
    simp only [] at h
    cases hpar : parse state (detail.skip_whitespace context) with
    | none => rw [hpar] at h; cases h
    | some d =>
      obtain ⟨r, q⟩ := d
      cases r with
      | error e => rw [hpar] at h; simp at h
      | ok s1 =>
        have hP1 : P s1 := hparse _ _ _ _ hP hpar
        rw [hpar] at h
        simp only [] at h
        cases hpk : detail.peek (detail.skip_whitespace
            { detail.skip_whitespace context with position := q }) with
        | error e => rw [hpk] at h; simp at h
        | ok c =>
          rw [hpk] at h
          simp only [] at h
          by_cases hc : c = 44
          · rw [if_pos hc] at h
            exact ih _ _ _ _ hP1 h
          · rw [if_neg hc] at h
            by_cases ho : c = outro
            · rw [if_pos ho] at h
              simp only [Option.some.injEq, decoded.mk.injEq, Except.ok.injEq] at h
              rw [← h.1]
              exact hP1
            · rw [if_neg ho] at h
              simp at h

theorem advance_past_comma_separated_keeps (intro outro : Nat) (parse : σ → decoder σ)
    (P : σ → Prop)
    (hparse : ∀ (s : σ) (c : decoding_context) (s' : σ) (p : Nat),
      P s → parse s c = some ⟨.ok s', p⟩ → P s')
    (fuel : Nat) (state : σ) (context : decoding_context) (s' : σ) (p : Nat) (hP : P state)
    (h : detail.advance_past_comma_separated fuel context intro outro state parse =
      some ⟨.ok s', p⟩) : P s' := by
  unfold detail.advance_past_comma_separated at h
  cases hpk : detail.peek context with
  | error e => rw [hpk] at h; simp at h
  | ok c =>
    rw [hpk] at h
    simp only [] at h
    by_cases hc : c = intro
    · rw [if_pos hc] at h
      split at h
      · simp only [Option.some.injEq, decoded.mk.injEq, Except.ok.injEq] at h
        rw [← h.1]
        exact hP
      · exact comma_separated_loop_keeps outro parse P hparse _ _ _ _ _ hP h
    · rw [if_neg hc] at h
      simp at h

namespace codec.object

/-- One successful call of the callback of `object::decode`: the output of an
unknown key is untouched; for a known key the id of its field is below the
size of the presence vector, and the vector is the old one with the entry of
that id set when the field is required, the old one otherwise. -/
theorem decode_key_value_marks (helpers : decoding_helpers) (o : object T) (hinv : o.invariant)
    (name : List Nat) (state result : T × List Bool) (context : decoding_context) (p : Nat)
    (hsize : state.2.length = o._fields.length)
    (h : o.decode_key_value helpers name state context = some ⟨.ok result, p⟩) :
    result.2.length = o._fields.length ∧
    (o.find name = none → result = state) ∧
    (∀ field, o.find name = some field →
      field.field_id < state.2.length ∧
      result.2 = if field.required then state.2.set field.field_id true else state.2) := by
  unfold decode_key_value at h
  cases hfind : o.find name with
  | none =>
    rw [hfind] at h
    simp only [] at h
    cases hskip : helpers.advance_past_value context with
    | none => rw [hskip] at h; cases h
    | some d =>
      obtain ⟨r, q⟩ := d
      cases r with
      | error e => rw [hskip] at h; simp at h
      | ok u =>
        rw [hskip] at h
        simp only [Option.some.injEq, decoded.mk.injEq, Except.ok.injEq] at h
        exact ⟨(by rw [← h.1]; exact hsize), (fun _ => h.1.symm), (fun field hf => nomatch hf)⟩
  | some field =>
    rw [hfind] at h
    simp only [] at h
    have hmem : (name, field) ∈ o._fields := (find_eq_some_iff o hinv name field).mp hfind
    have hid : field.field_id < o._fields.length := by
      have hm : field.field_id ∈ o._fields.map (fun entry => entry.2.field_id) :=
        List.mem_map.mpr ⟨(name, field), hmem, rfl⟩
      rw [field_ids_range o hinv] at hm
      simpa using hm
    cases hdec : field.decode state.1 context with
    | none => rw [hdec] at h; cases h
    | some d =>
      obtain ⟨r, q⟩ := d
      cases r with
      | error e => rw [hdec] at h; simp at h
      | ok output =>
        rw [hdec] at h
        simp only [] at h
        cases hreq : field.required
        · rw [hreq] at h
          simp only [Bool.false_eq_true, if_false, Option.some.injEq, decoded.mk.injEq,
            Except.ok.injEq] at h
          refine ⟨(by rw [← h.1]; exact hsize), (fun hn => nomatch hn), ?_⟩
          intro field' hf
          cases hf
          refine ⟨by rw [hsize]; exact hid, ?_⟩
          rw [hreq, ← h.1]
          simp
        · rw [hreq] at h
          simp only [if_true, Option.some.injEq, decoded.mk.injEq, Except.ok.injEq] at h
          refine ⟨(by rw [← h.1]; simp [hsize]), (fun hn => nomatch hn), ?_⟩
          intro field' hf
          cases hf
          refine ⟨by rw [hsize]; exact hid, ?_⟩
          rw [hreq, ← h.1]
          simp

end codec.object

/-- C37: after any sequence of calls of `required` and `optional`, duplicate
names included, the field list holds, in the order of the lookup map, a copy
of the key of every name of the map with the same field, so both hold the same
names, each once; the stored field ids are 0 to the number of fields minus one
in the order of the fields, hence pairwise distinct; and the counter is the
number of stored fields flagged required. In `decode` the presence vector has
one entry per field: every successful call of the callback finds the id of
its field below the size of the vector and sets that entry when the field is
required, and leaves the size as it is, so on every input the vector is
indexed within bounds and ends with that size; and when the loop has taken
the pairs of an object, the number of set entries equals the counter, and
`decode` succeeds, exactly when the name of every required field was among
the keys. -/
theorem registration_invariant (helpers : decoding_helpers) (o : codec.object T)
    (hbuilt : o.built) :
    o._field_list = o._fields.map (fun entry => ((key.of_iterable entry.1).copied, entry.2)) ∧
    o._field_list.map (fun entry => entry.1._storage) =
      o._fields.map (fun entry => string_text entry.1) ∧
    (o._field_list.map fun entry => entry.1._storage).Nodup ∧
    (o._fields.map Prod.fst).Nodup ∧
    o._fields.map (fun entry => entry.2.field_id) = List.range o._fields.length ∧
    (o._fields.map fun entry => entry.2.field_id).Nodup ∧
    o._num_required_fields = o._fields.countP (fun entry => entry.2.required) ∧
    (∀ (name : List Nat) (state result : T × List Bool) (context : decoding_context) (p : Nat),
      state.2.length = o._fields.length →
      o.decode_key_value helpers name state context = some ⟨.ok result, p⟩ →
      result.2.length = o._fields.length ∧
      (o.find name = none → result = state) ∧
      ∀ field, o.find name = some field →
        field.field_id < state.2.length ∧
        result.2 = if field.required then state.2.set field.field_id true else state.2) ∧
    (∀ (fuel : Nat) (context : decoding_context) (result : T × List Bool) (p : Nat),
      detail.advance_past_object fuel context helpers.string.decode
          (o.construct, List.replicate o._fields.length false) (o.decode_key_value helpers) =
        some ⟨.ok result, p⟩ →
      result.2.length = o._fields.length) ∧
    (∀ (members : List (json_member T)) (fuel : Nat),
      (∀ m ∈ members, m.well_formed helpers o) → members.length ≤ fuel →
      (∀ m ∈ members, o.accepts m = true) →
      ∃ output encountered,
        detail.advance_past_object fuel (decoding_context.init (object_text members))
            helpers.string.decode (o.construct, List.replicate o._fields.length false)
            (o.decode_key_value helpers) =
          some ⟨.ok (output, encountered), (object_text members).length⟩ ∧
        (encountered.count true = o._num_required_fields ↔
          ∀ entry ∈ o._fields, entry.2.required = true →
            entry.1 ∈ members.map json_member.key) ∧
        (o.decode fuel helpers (decoding_context.init (object_text members)) =
            some ⟨.ok output, (object_text members).length⟩ ↔
          encountered.count true = o._num_required_fields)) := by
  have hinv := codec.object.invariant_of_built o hbuilt
  have hids := codec.object.field_ids_range o hinv
  have hstorage : o._field_list.map (fun entry => entry.1._storage) =
      o._fields.map (fun entry => string_text entry.1) := by
    rw [hinv.1, List.map_map]
    apply List.map_congr_left
    intro entry _
    exact key_copied_storage entry.1
  have hnames : (o._fields.map fun entry => string_text entry.1).Nodup := by
    have h : (o._fields.map fun entry => string_text entry.1) =
        (o._fields.map Prod.fst).map string_text := by
      rw [List.map_map]
      rfl
    rw [h]
    exact List.Nodup.map (fun a b hab => string_text_injective a b hab) hinv.2.2.1
  refine ⟨hinv.1, hstorage, by rw [hstorage]; exact hnames, hinv.2.2.1, hids,
    by rw [hids]; exact List.nodup_range _, hinv.2.2.2, ?_, ?_, ?_⟩
  · intro name state result context p hsize h
    exact codec.object.decode_key_value_marks helpers o hinv name state result context p hsize h
  · intro fuel context result p h
    refine advance_past_comma_separated_keeps 123 125
      (detail.advance_past_pair helpers.string.decode (o.decode_key_value helpers))
      (fun s => s.2.length = o._fields.length) ?_ fuel
      (o.construct, List.replicate o._fields.length false) context result p (by simp) h
    intro s c s' q hs hpair
    unfold detail.advance_past_pair at hpair
    cases hkey : helpers.string.decode c with
    | none => rw [hkey] at hpair; cases hpair
    | some d =>
      obtain ⟨r, q'⟩ := d
      cases r with
      | error e => rw [hkey] at hpair; simp at hpair
      | ok k =>
        rw [hkey] at hpair
        simp only [] at hpair
        split at hpair
        · simp at hpair
        · split at hpair
          · exact (codec.object.decode_key_value_marks helpers o hinv k s s' _ q hs hpair).1
          · simp at hpair
  · intro members fuel hmembers hfuel hacc
    have hfold := codec.object.fold_accepted o hinv members o.construct [] hacc
    rw [codec.object.marks_nil, List.nil_append] at hfold
    have hloop := object_loop_text helpers o members fuel hmembers hfuel _ _ hfold
    have hcount := codec.object.count_marks_eq_iff o hinv (members.map json_member.key)
    refine ⟨_, _, hloop, hcount, ?_⟩
    have htext := object_decode_text helpers o members fuel hmembers hfuel
    rw [hfold] at htext
    simp only [] at htext
    rw [htext]
    by_cases hc : (o.marks (members.map json_member.key)).count true = o._num_required_fields
    · simp [hc]
    · simp [hc]

theorem registration_invariant_witness :
    (two_flags_codec.optional [97] two_flags.second_pointer codec.boolean).built ∧
    (two_flags_codec.optional [97] two_flags.second_pointer codec.boolean)._fields.map
      (fun entry => entry.2.field_id) = List.range 2 ∧
    (two_flags_codec.optional [97] two_flags.second_pointer codec.boolean)._num_required_fields =
      2 ∧
    detail.advance_past_object 1
        (decoding_context.init [123, 34, 97, 34, 58, 116, 114, 117, 101, 125])
        plain_helpers.string.decode
        (two_flags_codec.construct, List.replicate two_flags_codec._fields.length false)
        (two_flags_codec.decode_key_value plain_helpers) =
      some ⟨.ok ({ first := true, second := false }, [true, false]), 10⟩ ∧
    two_flags_codec.decode 1 plain_helpers
        (decoding_context.init [123, 34, 97, 34, 58, 116, 114, 117, 101, 125]) =
      some ⟨.error ⟨"Missing required field(s)", 10⟩, 10⟩ :=
  ⟨codec.object.built.add_field [97] false two_flags.second_pointer codec.boolean
      two_flags_codec_built,
    (registration_invariant plain_helpers _
      (codec.object.built.add_field [97] false two_flags.second_pointer codec.boolean
        two_flags_codec_built)).2.2.2.2.1,
    rfl, rfl, rfl⟩

/-! ## The object codec: repeated keys, untouched members, first failure -/

namespace codec.object

/-- What the pairs from one pair on store: an observation that this pair's
update establishes and the updates of the later pairs keep holds at the end,
whatever was stored before. -/
theorem stored_last (o : object T) (obs : T → Prop) (m : json_member T) (update : T → T)
    (hfind : o.find m.key ≠ none) (heff : m.effect = .ok update) (hest : ∀ r, obs (update r)) :
    ∀ (after before : List (json_member T)) (record : T),
      (∀ m' ∈ after, ∀ update', m'.effect = .ok update' → ∀ r, obs r → obs (update' r)) →
      obs (o.stored (before ++ m :: after) record) := by
  have hkeep : ∀ (after : List (json_member T)) (record : T),
      (∀ m' ∈ after, ∀ update', m'.effect = .ok update' → ∀ r, obs r → obs (update' r)) →
      obs record → obs (o.stored after record) := by
    intro after
    induction after with
    | nil => intro record _ h; exact h
    | cons m' rest ih =>
      intro record hpres hobs
      simp only [stored, List.foldl_cons]
      apply ih _ (fun x hx => hpres x (List.mem_cons_of_mem _ hx))
      cases hf : o.find m'.key with
      | none => exact hobs
      | some f =>
        cases he : m'.effect with
        | error message => exact hobs
        | ok update' => exact hpres m' (List.mem_cons_self _ _) update' he record hobs
  intro after before record hpres
  have hsplit : o.stored (before ++ m :: after) record =
      o.stored after (update (o.stored before record)) := by
    simp only [stored, List.foldl_append, List.foldl_cons]
    cases hf : o.find m.key with
    | none => exact absurd hf hfind
    | some f => simp only [heff]
  rw [hsplit]
  exact hkeep after _ hpres (hest _)

/-- What the pairs store leaves an observation as it is when every update does
so. -/
theorem stored_frame (o : object T) (observe : T → β) :
    ∀ (members : List (json_member T)) (record : T),
      (∀ m ∈ members, o.find m.key ≠ none → ∀ update, m.effect = .ok update →
        ∀ r, observe (update r) = observe r) →
      observe (o.stored members record) = observe record := by
  intro members
  induction members with
  | nil => intro record _; rfl
  | cons m rest ih =>
    intro record h
    simp only [stored, List.foldl_cons]
    cases hf : o.find m.key with
    | none =>
      exact ih record (fun x hx => h x (List.mem_cons_of_mem _ hx))
    | some f =>
      cases he : m.effect with
      | error message => exact ih record (fun x hx => h x (List.mem_cons_of_mem _ hx))
      | ok update =>
        have h1 := ih (update record) (fun x hx => h x (List.mem_cons_of_mem _ hx))
        simp only [stored] at h1
        rw [h1]
        exact h m (List.mem_cons_self _ _) (by rw [hf]; simp) update he record

end codec.object

/-- C38 as stated, refuted: the codec requires "a" and "b" and binds both to
the first member. In `{"a":true,"b":true,"a":false,"b":true}` the key "a"
occurs twice and its last occurrence has the value false, but the member that
"a" is bound to holds true after decoding: the pair of "b" that follows has
written it. -/
theorem object_decode_repeated_overwritten :
    aliased_flags_codec.find [97] =
      some (codec.object.member_field true 0 codec.boolean two_flags.first_pointer) ∧
    aliased_flags_codec.decode 4 plain_helpers (decoding_context.init
        [123, 34, 97, 34, 58, 116, 114, 117, 101, 44, 34, 98, 34, 58, 116, 114, 117, 101, 44,
          34, 97, 34, 58, 102, 97, 108, 115, 101, 44, 34, 98, 34, 58, 116, 114, 117, 101,
          125]) =
      some ⟨.ok { first := true, second := false }, 38⟩ ∧
    two_flags.first_pointer.get { first := true, second := false } ≠ false :=
  ⟨rfl, rfl, by decide⟩

/-- C38, amended: when keys are repeated in a well-formed JSON object whose
values are accepted, decode does not fail on that account: it succeeds as soon
as the name of every required field is among the keys; the member holds the
value of the last occurrence of its key, when the pairs after that occurrence
leave the member alone (they do when their fields are bound to other
members); and a key counts once however often it occurs, so decode fails with
"Missing required field(s)" when the name of a required field is not among
the keys, whatever other keys are repeated. -/
theorem object_decode_repeated_keys (helpers : decoding_helpers) (o : codec.object T)
    (members : List (json_member T)) (fuel : Nat)
    (hbuilt : o.built)
    (hmembers : ∀ m ∈ members, m.well_formed helpers o) (hfuel : members.length ≤ fuel)
    (hacc : ∀ m ∈ members, o.accepts m = true) :
    ((∀ entry ∈ o._fields, entry.2.required = true → entry.1 ∈ members.map json_member.key) →
      o.decode fuel helpers (decoding_context.init (object_text members)) =
        some ⟨.ok (o.stored members o.construct), (object_text members).length⟩) ∧
    (∀ (before after : List (json_member T)) (m : json_member T) (update : T → T)
        (obs : T → Prop), members = before ++ m :: after →
      o.find m.key ≠ none → m.effect = .ok update → (∀ r, obs (update r)) →
      (∀ m' ∈ after, ∀ update', m'.effect = .ok update' → ∀ r, obs r → obs (update' r)) →
      obs (o.stored members o.construct)) ∧
    (∀ entry ∈ o._fields, entry.2.required = true →
      entry.1 ∉ members.map json_member.key →
      o.decode fuel helpers (decoding_context.init (object_text members)) =
        some ⟨.error ⟨"Missing required field(s)", (object_text members).length⟩,
          (object_text members).length⟩) := by
  have hinv := codec.object.invariant_of_built o hbuilt
  refine ⟨?_, ?_, ?_⟩
  · intro hall
    exact codec.object.decode_complete helpers o hinv members fuel hmembers hfuel hacc hall
  · intro before after m update obs hsplit hfind heff hest hpres
    rw [hsplit]
    exact codec.object.stored_last o obs m update hfind heff hest after before o.construct hpres
  · intro entry hentry hreq hmissing
    exact codec.object.decode_missing helpers o hinv members fuel hmembers hfuel hacc entry
      hentry hreq hmissing

theorem object_decode_repeated_keys_witness :
    two_flags_codec.decode 2 plain_helpers (decoding_context.init
        [123, 34, 97, 34, 58, 116, 114, 117, 101, 44, 34, 97, 34, 58, 102, 97, 108, 115, 101,
          125]) =
      some ⟨.error ⟨"Missing required field(s)", 20⟩, 20⟩ ∧
    two_flags_codec.decode 3 plain_helpers (decoding_context.init
        [123, 34, 97, 34, 58, 116, 114, 117, 101, 44, 34, 98, 34, 58, 116, 114, 117, 101, 44,
          34, 97, 34, 58, 102, 97, 108, 115, 101, 125]) =
      some ⟨.ok { first := false, second := true }, 29⟩ :=
  ⟨(object_decode_repeated_keys plain_helpers two_flags_codec
      [{ before := [], key := [97], key_text := 34 :: [97] ++ [34], after_key := [],
         after_colon := [], value_text := boolean_text true, after_value := [],
         effect := .ok fun record => two_flags.first_pointer.set record true },
       { before := [], key := [97], key_text := 34 :: [97] ++ [34], after_key := [],
         after_colon := [], value_text := boolean_text false, after_value := [],
         effect := .ok fun record => two_flags.first_pointer.set record false }]
      2 two_flags_codec_built
      (fun m hm => by
        simp only [List.mem_cons, List.mem_singleton, List.not_mem_nil, or_false] at hm
        rcases hm with h | h
        · rw [h]; exact two_flags_member_a true
        · rw [h]; exact two_flags_member_a false)
      (by decide)
      (fun m hm => by
        simp only [List.mem_cons, List.mem_singleton, List.not_mem_nil, or_false] at hm
        rcases hm with h | h <;> rw [h] <;> rfl)).2.2
      ([98], codec.object.member_field true 1 codec.boolean two_flags.second_pointer)
      (by simp [two_flags_codec, codec.object.required, codec.object.add_field,
        codec.object.save_field, codec.object.find])
      rfl (by decide),
    rfl⟩

/-- The pair `"a":true` (or `"a":false`) for the codec with a factory. -/
theorem factory_flags_member_a (value : Bool) :
    json_member.well_formed plain_helpers factory_flags_codec
      { before := [], key := [97], key_text := 34 :: [97] ++ [34], after_key := [],
        after_colon := [], value_text := boolean_text value, after_value := [],
        effect := .ok fun record => two_flags.first_pointer.set record value } :=
  well_formed_member factory_flags_codec [97] (boolean_text value) true 0 codec.boolean
    two_flags.first_pointer value (by decide) rfl
    (by cases value <;> exact ⟨_, _, rfl, by decide⟩)
    (boolean_decode_at value)

theorem factory_flags_codec_built : factory_flags_codec.built :=
  codec.object.built.add_field [98] false two_flags.second_pointer codec.boolean
    (codec.object.built.add_field [97] true two_flags.first_pointer codec.boolean
      (codec.object.built.empty _))

/-- C32 as stated, refuted: the codec has a factory that sets both flags, the
required name "a" and the optional name "b", both bound to the first member.
Decoding `{"a":false}` succeeds, the key of the optional field is absent, and
the member of that field does not keep the value the factory gave it: the
field of "a" has written it. -/
theorem object_decode_absent_overwritten :
    factory_aliased_codec.construct = { first := true, second := true } ∧
    factory_aliased_codec.find [98] =
      some (codec.object.member_field false 1 codec.boolean two_flags.first_pointer) ∧
    factory_aliased_codec.decode 1 plain_helpers
        (decoding_context.init [123, 34, 97, 34, 58, 102, 97, 108, 115, 101, 125]) =
      some ⟨.ok { first := false, second := true }, 11⟩ ∧
    two_flags.first_pointer.get { first := false, second := true } ≠
      two_flags.first_pointer.get factory_aliased_codec.construct :=
  ⟨rfl, rfl, rfl, by decide⟩

/-- C32, amended: object decode starts from the record that the factory
produces when one was given and from the default-constructed record
otherwise; for a well-formed JSON object whose values are accepted and which
holds the names of the required fields, decode succeeds whether or not the
names of optional fields occur, and the record is the constructed record with
the values of the pairs stored in it; a member that none of the pairs writes,
as the member of a field whose key is absent when no other field that occurs
is bound to it, keeps the value the factory or the default constructor gave
it. -/
theorem object_decode_keeps_absent (helpers : decoding_helpers) (o : codec.object T)
    (members : List (json_member T)) (fuel : Nat)
    (hbuilt : o.built)
    (hmembers : ∀ m ∈ members, m.well_formed helpers o) (hfuel : members.length ≤ fuel)
    (hacc : ∀ m ∈ members, o.accepts m = true)
    (hall : ∀ entry ∈ o._fields, entry.2.required = true →
      entry.1 ∈ members.map json_member.key) :
    (∀ (object_type : T) (f : Unit → T),
      o._construct = .default_constructible object_type (some f) → o.construct = f ()) ∧
    (∀ object_type : T,
      o._construct = .default_constructible object_type none → o.construct = object_type) ∧
    (∀ f : Unit → T, o._construct = .factory f → o.construct = f ()) ∧
    o.decode fuel helpers (decoding_context.init (object_text members)) =
      some ⟨.ok (o.stored members o.construct), (object_text members).length⟩ ∧
    (∀ (μ : Type) (name : List Nat) (field_id : Nat) (c : codec μ)
        (member : codec.member_pointer T μ),
      (name, codec.object.member_field false field_id c member) ∈ o._fields →
      name ∉ members.map json_member.key →
      (∀ m ∈ members, o.find m.key ≠ none → ∀ update, m.effect = .ok update →
        ∀ r, member.get (update r) = member.get r) →
      member.get (o.stored members o.construct) = member.get o.construct) ∧
    (∀ (β : Type) (observe : T → β),
      (∀ m ∈ members, o.find m.key ≠ none → ∀ update, m.effect = .ok update →
        ∀ r, observe (update r) = observe r) →
      observe (o.stored members o.construct) = observe o.construct) := by
  have hinv := codec.object.invariant_of_built o hbuilt
  refine ⟨?_, ?_, ?_, ?_, ?_, ?_⟩
  · intro object_type f h
    simp only [codec.object.construct, h]
  · intro object_type h
    simp only [codec.object.construct, h]
  · intro f h
    simp only [codec.object.construct, h]
  · exact codec.object.decode_complete helpers o hinv members fuel hmembers hfuel hacc hall
  · intro μ name field_id c member _ _ hframe
    exact codec.object.stored_frame o member.get members o.construct hframe
  · intro β observe hframe
    exact codec.object.stored_frame o observe members o.construct hframe

theorem object_decode_keeps_absent_witness :
    factory_flags_codec.construct = { first := true, second := true } ∧
    factory_flags_codec.decode 1 plain_helpers
        (decoding_context.init [123, 34, 97, 34, 58, 102, 97, 108, 115, 101, 125]) =
      some ⟨.ok { first := false, second := true }, 11⟩ ∧
    two_flags.second_pointer.get { first := false, second := true } =
      two_flags.second_pointer.get factory_flags_codec.construct :=
  ⟨rfl,
    (object_decode_keeps_absent plain_helpers factory_flags_codec
      [{ before := [], key := [97], key_text := 34 :: [97] ++ [34], after_key := [],
         after_colon := [], value_text := boolean_text false, after_value := [],
         effect := .ok fun record => two_flags.first_pointer.set record false }]
      1 factory_flags_codec_built
      (fun m hm => by
        rw [List.mem_singleton.mp hm]
        exact factory_flags_member_a false)
      (by decide)
      (fun m hm => by
        rw [List.mem_singleton.mp hm]
        rfl)
      (fun entry hentry hreq => by
        simp only [factory_flags_codec, codec.object.required, codec.object.optional,
          codec.object.add_field, codec.object.save_field, codec.object.find] at hentry
        simp at hentry
        rcases hentry with h | h
        · rw [h]
          decide
        · rw [h] at hreq
          simp [codec.object.member_field] at hreq)).2.2.2.1,
    rfl⟩

namespace codec.object

/-- The steps over accepted pairs followed by a rejected pair fail with the
message of the rejected pair. -/
theorem fold_first_rejected (o : object T) (m : json_member T) (message : String)
    (after : List (json_member T)) (hfind : o.find m.key ≠ none)
    (heff : m.effect = .error message) :
    ∀ (before : List (json_member T)) (state : T × List Bool),
      (∀ m' ∈ before, o.accepts m' = true) →
      fold_steps o.apply_member state (before ++ m :: after) = .error message := by
  intro before
  induction before with
  | nil =>
    intro state _
    simp only [List.nil_append, fold_steps, apply_member]
    cases hf : o.find m.key with
    | none => exact absurd hf hfind
    | some f => simp only [heff]
  | cons m' rest ih =>
    intro state hacc
    have hm' := hacc m' (List.mem_cons_self _ _)
    simp only [List.cons_append, fold_steps]
    cases hstep : o.apply_member state m' with
    | ok state' =>
      simp only []
      exact ih state' (fun x hx => hacc x (List.mem_cons_of_mem _ hx))
    | error message' =>
      exfalso
      simp only [apply_member] at hstep
      simp only [accepts] at hm'
      cases hf : o.find m'.key with
      | none => rw [hf] at hstep; cases hstep
      | some f =>
        rw [hf] at hstep hm'
        cases he : m'.effect with
        | ok update => rw [he] at hstep; cases hstep
        | error msg => rw [he] at hm'; cases hm'

end codec.object

/-- C33: first failure wins in object decode: when the loop over the pairs of
the object fails, whether the text is malformed or the decoder of a field
fails on its value, `decode` fails with that exception, its message and its
offset, and leaves the cursor where the failure left it, whatever the number
of required fields seen; the check for missing required fields is made only
when the loop has succeeded. For a well-formed text in which a value is
rejected, the message is that of the first rejected value. -/
theorem object_decode_first_failure (helpers : decoding_helpers) (o : codec.object T)
    (fuel : Nat) (context : decoding_context) (e : decode_exception) (p : Nat)
    (hbody : detail.advance_past_object fuel context helpers.string.decode
      (o.construct, List.replicate o._fields.length false) (o.decode_key_value helpers) =
        some ⟨.error e, p⟩) :
    o.decode fuel helpers context = some ⟨.error e, p⟩ ∧
    (∀ (name : List Nat) (field : codec.object.field T) (state : T × List Bool)
        (c : decoding_context) (e' : decode_exception) (q : Nat),
      o.find name = some field → field.decode state.1 c = some ⟨.error e', q⟩ →
      o.decode_key_value helpers name state c = some ⟨.error e', q⟩) ∧
    (∀ (before after : List (json_member T)) (m : json_member T) (message : String),
      (∀ m' ∈ before ++ m :: after, m'.well_formed helpers o) →
      (before ++ m :: after).length ≤ fuel →
      (∀ m' ∈ before, o.accepts m' = true) →
      o.find m.key ≠ none → m.effect = .error message →
      ∃ offset q, o.decode fuel helpers
        (decoding_context.init (object_text (before ++ m :: after))) =
          some ⟨.error ⟨message, offset⟩, q⟩) := by
  refine ⟨?_, ?_, ?_⟩
  · simp only [codec.object.decode, hbody]
  · intro name field state c e' q hfind hfield
    simp only [codec.object.decode_key_value, hfind, hfield]
  · intro before after m message hwf hfuel hacc hfind heff
    have h := object_decode_text helpers o (before ++ m :: after) fuel hwf hfuel
    rw [codec.object.fold_first_rejected o m message after hfind heff before _ hacc] at h
    exact h

theorem object_decode_first_failure_witness :
    two_flags_codec._num_required_fields = 2 ∧
    two_flags_codec.decode 1 plain_helpers
        (decoding_context.init [123, 34, 98, 34, 58, 116, 114, 117, 125]) =
      some ⟨.error ⟨"UnexpectedToken", 5⟩, 5⟩ ∧
    two_flags_codec.decode 1 plain_helpers
        (decoding_context.init [123, 34, 98, 34, 58, 116, 114, 117, 101]) =
      some ⟨.error ⟨"UnexpectedEnd", 9⟩, 9⟩ ∧
    two_flags_codec.decode 1 plain_helpers
        (decoding_context.init [123, 34, 98, 34, 32, 116, 114, 117, 101, 125]) =
      some ⟨.error ⟨"UnexpectedToken", 5⟩, 5⟩ ∧
    two_flags_codec.decode 1 plain_helpers
        (decoding_context.init [123, 34, 98, 34, 58, 116, 114, 117, 101, 125]) =
      some ⟨.error ⟨"Missing required field(s)", 10⟩, 10⟩ :=
  ⟨rfl,
    (object_decode_first_failure plain_helpers two_flags_codec 1
      (decoding_context.init [123, 34, 98, 34, 58, 116, 114, 117, 125])
      ⟨"UnexpectedToken", 5⟩ 5 rfl).1,
    rfl, rfl, rfl⟩

/-! ## The contract of codecs: which codecs keep it -/

theorem takeWhile_append_of_stop (p : Nat → Bool) (s ws : List Nat)
    (h : ∃ x ∈ s, p x = false) : (s ++ ws).takeWhile p = s.takeWhile p := by
  induction s with
  | nil =>
    obtain ⟨x, hx, _⟩ := h
    cases hx
  | cons c rest ih =>
    cases hc : p c
    · simp [List.takeWhile_cons, hc]
    · obtain ⟨x, hx, hpx⟩ := h
      have hrest : ∃ x ∈ rest, p x = false := by
        rcases List.mem_cons.mp hx with h1 | h2
        · rw [h1, hc] at hpx
          cases hpx
        · exact ⟨x, h2, hpx⟩
      simp [List.takeWhile_cons, hc, ih hrest]

theorem takeWhile_length_lt_of_stop (p : Nat → Bool) (s : List Nat)
    (h : ∃ x ∈ s, p x = false) :
    ∃ c tail, s.drop (s.takeWhile p).length = c :: tail ∧ p c = false := by
  induction s with
  | nil =>
    obtain ⟨x, hx, _⟩ := h
    cases hx
  | cons c rest ih =>
    cases hc : p c
    · exact ⟨c, rest, by simp [List.takeWhile_cons, hc], hc⟩
    · obtain ⟨x, hx, hpx⟩ := h
      have hrest : ∃ x ∈ rest, p x = false := by
        rcases List.mem_cons.mp hx with h1 | h2
        · rw [h1, hc] at hpx
          cases hpx
        · exact ⟨x, h2, hpx⟩
      obtain ⟨d, tail, hd, hpd⟩ := ih hrest
      exact ⟨d, tail, by simpa [List.takeWhile_cons, hc] using hd, hpd⟩

/-- The strings to parse of two contexts that differ by whitespace at the end
of the second still do so after the cursors have moved by the same number of
bytes within the first string. -/
theorem rest_shift (pos pos' : Nat) (input input' ws : List Nat)
    (hrest : input'.drop pos' = input.drop pos ++ ws) (k : Nat)
    (hk : k ≤ (input.drop pos).length) :
    input'.drop (pos' + k) = input.drop (pos + k) ++ ws := by
  rw [← List.drop_drop, ← List.drop_drop, hrest, List.drop_append_of_le_length hk]

theorem rest_shift_length (pos : Nat) (input : List Nat) (k : Nat) :
    (input.drop (pos + k)).length = (input.drop pos).length - k := by
  simp only [List.length_drop]
  omega

/-- Skipping whitespace in two contexts whose strings to parse differ by
whitespace at the end of the second, when the first string holds a byte that
is not whitespace: both cursors move by the same number of bytes and stop at
that byte. -/
theorem skip_whitespace_both (pos pos' : Nat) (input input' ws : List Nat)
    (hrest : input'.drop pos' = input.drop pos ++ ws)
    (hstop : ∃ x ∈ input.drop pos, detail.is_space x = false) :
    ∃ j, detail.skip_whitespace ⟨pos, input⟩ = ⟨pos + j, input⟩ ∧
      detail.skip_whitespace ⟨pos', input'⟩ = ⟨pos' + j, input'⟩ ∧
      j < (input.drop pos).length ∧
      ∃ c tail, input.drop (pos + j) = c :: tail ∧ detail.is_space c = false := by
  refine ⟨((input.drop pos).takeWhile detail.is_space).length, rfl, ?_, ?_, ?_⟩
  · simp only [detail.skip_whitespace, hrest, takeWhile_append_of_stop _ _ _ hstop]
  · obtain ⟨c, tail, hc, _⟩ := takeWhile_length_lt_of_stop detail.is_space _ hstop
    have hlen := congrArg List.length hc
    simp only [List.length_drop, List.length_cons] at hlen
    simp only [List.length_drop]
    omega
  · obtain ⟨c, tail, hc, hpc⟩ := takeWhile_length_lt_of_stop detail.is_space _ hstop
    exact ⟨c, tail, by rw [← List.drop_drop]; exact hc, hpc⟩

/-- Skipping whitespace when the string to parse is whitespace only: the
cursor stops where nothing is left. -/
theorem skip_whitespace_nothing_left (pos : Nat) (input : List Nat)
    (hall : ∀ x ∈ input.drop pos, detail.is_space x = true) :
    (detail.skip_whitespace ⟨pos, input⟩).input.drop
      (detail.skip_whitespace ⟨pos, input⟩).position = [] := by
  simp only [detail.skip_whitespace]
  rw [← List.drop_drop, drop_takeWhile_length]
  exact List.dropWhile_eq_nil_iff.mpr hall

theorem peek_of_rest (pos : Nat) (input : List Nat) (c : Nat) (tail : List Nat)
    (h : input.drop pos = c :: tail) : detail.peek ⟨pos, input⟩ = .ok c := by
  rw [peek_eq_head]
  simp only [h]

theorem peek_nothing_left (context : decoding_context)
    (h : context.input.drop context.position = []) :
    detail.peek context = .error ⟨"UnexpectedEnd", context.offset⟩ := by
  rw [peek_eq_head]
  simp only [h]

theorem rest_of_peek (pos : Nat) (input : List Nat) (c : Nat)
    (h : detail.peek ⟨pos, input⟩ = .ok c) : ∃ tail, input.drop pos = c :: tail := by
  rw [peek_eq_head] at h
  simp only [] at h
  cases hr : input.drop pos with
  | nil => rw [hr] at h; cases h
  | cons d tail =>
    rw [hr] at h
    simp only [Except.ok.injEq] at h
    exact ⟨tail, by rw [h]⟩

/-- A decoder that keeps the contract and succeeds where nothing is left to
parse leaves the cursor where it was. -/
theorem conforms_inside_of_conforms (d : decoder α) (hd : decoder.conforms d) :
    decoder.conforms_inside d := by
  intro context context' ws v p hws hrest h
  obtain ⟨k, hp, hk, h'⟩ := hd context context' ws v p hws hrest h
  exact ⟨k, hp, hk, fun _ => h'⟩

theorem conforms_nothing_left (d : decoder α) (hd : decoder.conforms_inside d)
    (context : decoding_context) (v : α) (p : Nat)
    (hrest : context.input.drop context.position = [])
    (h : d context = some ⟨.ok v, p⟩) : p = context.position := by
  obtain ⟨k, hp, hk, _⟩ := hd context context [] v p (by simp) (by simp) h
  rw [hrest] at hk
  simp only [List.length_nil] at hk
  omega

/-- The element loop does not succeed on a string that is whitespace only: a
separator or the closing byte must follow the element. -/
theorem comma_separated_loop_needs_byte (outro : Nat) (parse : σ → decoder σ)
    (hparse : ∀ s, decoder.conforms_inside (parse s)) (fuel : Nat) (state : σ) (pos : Nat)
    (input : List Nat) (hall : ∀ x ∈ input.drop pos, detail.is_space x = true) (v : σ) (p : Nat) :
    detail.comma_separated_loop outro parse fuel state ⟨pos, input⟩ ≠ some ⟨.ok v, p⟩ := by
  intro h
  cases fuel with
  | zero => simp [detail.comma_separated_loop] at h
  | succ f =>
    rw [detail.comma_separated_loop] at h
    simp only [] at h
    have hleft := skip_whitespace_nothing_left pos input hall
    cases hpar : parse state (detail.skip_whitespace ⟨pos, input⟩) with
    | none => rw [hpar] at h; cases h
    | some d =>
      obtain ⟨r, q⟩ := d
      cases r with
      | error e => rw [hpar] at h; simp at h
      | ok s1 =>
        rw [hpar] at h
        simp only [] at h
        have hq := conforms_nothing_left (parse state) (hparse state) _ s1 q hleft hpar
        have hsame : ({ detail.skip_whitespace ⟨pos, input⟩ with position := q } :
            decoding_context) = detail.skip_whitespace ⟨pos, input⟩ := by
          rw [hq]
        rw [hsame, skip_whitespace_idem, peek_nothing_left _ hleft] at h
        simp at h

/-- The element loop of `advance_past_comma_separated` keeps the contract when
the callback does. -/
theorem comma_separated_loop_conforms (outro : Nat) (parse : σ → decoder σ)
    (hparse : ∀ s, decoder.conforms_inside (parse s)) :
    ∀ (fuel : Nat) (state : σ),
      decoder.conforms (detail.comma_separated_loop outro parse fuel state) := by
  intro fuel
  induction fuel with
  | zero =>
    intro state context context' ws v p _ _ h
    simp [detail.comma_separated_loop] at h
  | succ f ih =>
    intro state context context' ws v p hws hrest h
    obtain ⟨pos, input⟩ := context
    obtain ⟨pos', input'⟩ := context'
    simp only [] at hrest
    by_cases hall : ∀ x ∈ input.drop pos, detail.is_space x = true
    · exact absurd h (comma_separated_loop_needs_byte outro parse hparse _ state pos input hall v p)
    · have hstop : ∃ x ∈ input.drop pos, detail.is_space x = false := by
        by_contra hno
        apply hall
        intro x hx
        cases hsx : detail.is_space x
        · exact absurd ⟨x, hx, hsx⟩ hno
        · rfl
      obtain ⟨j, hskip, hskip', hj, _⟩ := skip_whitespace_both pos pos' input input' ws hrest hstop
      rw [detail.comma_separated_loop] at h ⊢
      simp only [] at h ⊢
      rw [hskip] at h
      rw [hskip']
      cases hpar : parse state ⟨pos + j, input⟩ with
      | none => rw [hpar] at h; cases h
      | some d =>
        obtain ⟨r, q⟩ := d
        cases r with
        | error e => rw [hpar] at h; simp at h
        | ok s1 =>
          rw [hpar] at h
          simp only [] at h
          obtain ⟨k1, hq, hk1, hpar'⟩ := hparse state ⟨pos + j, input⟩ ⟨pos' + j, input'⟩ ws s1 q
            hws (rest_shift pos pos' input input' ws hrest j (Nat.le_of_lt hj)) hpar
          simp only [] at hq hk1 hpar'
          rw [rest_shift_length] at hk1 hpar'
          subst hq
          -- the byte after the element
          cases hpk : detail.peek (detail.skip_whitespace ⟨pos + j + k1, input⟩) with
          | error e => rw [hpk] at h; simp at h
          | ok c =>
            rw [hpk] at h
            simp only [] at h
            have hrest1 : input'.drop (pos' + (j + k1)) = input.drop (pos + (j + k1)) ++ ws :=
              rest_shift pos pos' input input' ws hrest (j + k1) (by omega)
            have hstop1 : ∃ x ∈ input.drop (pos + (j + k1)), detail.is_space x = false := by
              by_contra hno
              have hall1 : ∀ x ∈ input.drop (pos + (j + k1)), detail.is_space x = true := by
                intro x hx
                cases hsx : detail.is_space x
                · exact absurd ⟨x, hx, hsx⟩ hno
                · rfl
              have hleft := skip_whitespace_nothing_left (pos + (j + k1)) input hall1
              rw [← Nat.add_assoc] at hleft
              rw [peek_nothing_left _ hleft] at hpk
              cases hpk
            obtain ⟨j2, hskip2, hskip2', hj2, c2, tail2, hhead, _⟩ :=
              skip_whitespace_both (pos + (j + k1)) (pos' + (j + k1)) input input' ws hrest1 hstop1
            rw [rest_shift_length] at hj2
            rw [hpar' (by omega)]
            simp only []
            rw [← Nat.add_assoc] at hskip2 hskip2'
            have hrest2 : input'.drop (pos' + (j + k1 + j2)) =
                input.drop (pos + (j + k1 + j2)) ++ ws :=
              rest_shift pos pos' input input' ws hrest (j + k1 + j2) (by omega)
            have hhead2 : input.drop (pos + (j + k1 + j2)) = c2 :: tail2 := by
              rw [← hhead]
              congr 1
              omega
            have hpeek : detail.peek ⟨pos + j + k1 + j2, input⟩ = .ok c2 :=
              peek_of_rest _ _ c2 tail2 (by rw [← hhead2]; congr 1; omega)
            have hpeek' : detail.peek ⟨pos' + j + k1 + j2, input'⟩ = .ok c2 :=
              peek_of_rest _ _ c2 (tail2 ++ ws) (by
                have h3 : pos' + j + k1 + j2 = pos' + (j + k1 + j2) := by omega
                rw [h3, hrest2, hhead2]
                rfl)
            rw [hskip2] at hpk h
            rw [hskip2', hpeek']
            rw [hpeek] at hpk
            simp only [Except.ok.injEq] at hpk
            subst hpk
            simp only []
            by_cases hc : c2 = 44
            · rw [if_pos hc] at h ⊢
              have hrest3 : input'.drop (pos' + j + k1 + j2 + 1) =
                  input.drop (pos + j + k1 + j2 + 1) ++ ws := by
                have h3 := rest_shift pos pos' input input' ws hrest (j + k1 + j2 + 1) (by
                  have hl := congrArg List.length hhead2
                  simp only [List.length_drop, List.length_cons] at hl
                  simp only [List.length_drop]
                  omega)
                have e1 : pos' + j + k1 + j2 + 1 = pos' + (j + k1 + j2 + 1) := by omega
                have e2 : pos + j + k1 + j2 + 1 = pos + (j + k1 + j2 + 1) := by omega
                rw [e1, e2]
                exact h3
              obtain ⟨k3, hp, hk3, hloop'⟩ := ih s1 ⟨pos + j + k1 + j2 + 1, input⟩
                ⟨pos' + j + k1 + j2 + 1, input'⟩ ws v p hws hrest3 h
              simp only [] at hp hk3 hloop'
              refine ⟨j + k1 + j2 + 1 + k3, by omega, ?_, ?_⟩
              · simp only [List.length_drop] at hk3 ⊢
                have hl := congrArg List.length hhead2
                simp only [List.length_drop, List.length_cons] at hl
                omega
              · rw [hloop']
                congr 2
                omega
            · rw [if_neg hc] at h ⊢
              by_cases ho : c2 = outro
              · rw [if_pos ho] at h ⊢
                simp only [Option.some.injEq, decoded.mk.injEq, Except.ok.injEq] at h
                refine ⟨j + k1 + j2 + 1, by omega, ?_, ?_⟩
                · have hl := congrArg List.length hhead2
                  simp only [List.length_drop, List.length_cons] at hl
                  simp only [List.length_drop]
                  omega
                · rw [h.1]
                  congr 2
                  omega
              · rw [if_neg ho] at h
                simp at h

/-- The function `advance_past_comma_separated` keeps the contract when the
callback does. -/
theorem advance_past_comma_separated_conforms (intro outro : Nat) (parse : σ → decoder σ)
    (hparse : ∀ s, decoder.conforms_inside (parse s)) (fuel : Nat) (state : σ) :
    decoder.conforms
      (fun context => detail.advance_past_comma_separated fuel context intro outro state parse) := by
  intro context context' ws v p hws hrest h
  obtain ⟨pos, input⟩ := context
  obtain ⟨pos', input'⟩ := context'
  simp only [] at hrest h ⊢
  unfold detail.advance_past_comma_separated at h ⊢
  cases hpk : detail.peek ⟨pos, input⟩ with
  | error e => rw [hpk] at h; simp at h
  | ok c =>
    rw [hpk] at h
    simp only [] at h
    obtain ⟨tail, htail⟩ := rest_of_peek pos input c hpk
    have hpk' : detail.peek ⟨pos', input'⟩ = .ok c :=
      peek_of_rest pos' input' c (tail ++ ws) (by rw [hrest, htail]; rfl)
    rw [hpk']
    simp only []
    by_cases hc : c = intro
    · rw [if_pos hc] at h ⊢
      have hlen : (input.drop pos).length = tail.length + 1 := by rw [htail]; rfl
      have hrest1 : input'.drop (pos' + 1) = input.drop (pos + 1) ++ ws :=
        rest_shift pos pos' input input' ws hrest 1 (by omega)
      by_cases hall : ∀ x ∈ input.drop (pos + 1), detail.is_space x = true
      · -- nothing but whitespace after the opening byte
        exfalso
        have hleft := skip_whitespace_nothing_left (pos + 1) input hall
        have hnone : (detail.skip_whitespace ⟨pos + 1, input⟩).input[
            (detail.skip_whitespace ⟨pos + 1, input⟩).position]? = none := by
          rw [List.getElem?_eq_none_iff]
          have hl := congrArg List.length hleft
          simp only [List.length_drop, List.length_nil] at hl
          omega
        rw [hnone] at h
        simp only [reduceCtorEq, if_false] at h
        have hall2 : ∀ x ∈ (detail.skip_whitespace ⟨pos + 1, input⟩).input.drop
            (detail.skip_whitespace ⟨pos + 1, input⟩).position, detail.is_space x = true := by
          rw [hleft]
          intro x hx
          cases hx
        exact comma_separated_loop_needs_byte outro parse hparse fuel state _ _ hall2 v p h
      · have hstop : ∃ x ∈ input.drop (pos + 1), detail.is_space x = false := by
          by_contra hno
          apply hall
          intro x hx
          cases hsx : detail.is_space x
          · exact absurd ⟨x, hx, hsx⟩ hno
          · rfl
        obtain ⟨j, hskip, hskip', hj, c2, tail2, hhead, _⟩ :=
          skip_whitespace_both (pos + 1) (pos' + 1) input input' ws hrest1 hstop
        rw [rest_shift_length] at hj
        have hrest2 : input'.drop (pos' + 1 + j) = input.drop (pos + 1 + j) ++ ws := by
          have h3 := rest_shift pos pos' input input' ws hrest (1 + j) (by omega)
          rw [← Nat.add_assoc, ← Nat.add_assoc] at h3
          exact h3
        have hget : input[pos + 1 + j]? = some c2 := by
          have h3 : input[pos + 1 + j]? = (input.drop (pos + 1 + j))[0]? := by
            rw [List.getElem?_drop]
            simp
          rw [h3, hhead]
          simp
        have hget' : input'[pos' + 1 + j]? = some c2 := by
          have h3 : input'[pos' + 1 + j]? = (input'.drop (pos' + 1 + j))[0]? := by
            rw [List.getElem?_drop]
            simp
          rw [h3, hrest2, hhead]
          simp
        rw [hskip] at h
        rw [hskip']
        simp only [hget] at h
        simp only [hget']
        by_cases ho : c2 = outro
        · have hso : (some c2 = some outro) := by rw [ho]
          rw [if_pos hso] at h ⊢
          simp only [Option.some.injEq, decoded.mk.injEq, Except.ok.injEq] at h
          refine ⟨1 + j + 1, by omega, ?_, ?_⟩
          · have hl := congrArg List.length hhead
            simp only [List.length_drop, List.length_cons] at hl
            simp only [List.length_drop]
            omega
          · rw [h.1]
            congr 2
            omega
        · have hso : ¬ (some c2 = some outro) := fun he => ho (Option.some.inj he)
          rw [if_neg hso] at h ⊢
          obtain ⟨k, hp, hk, hloop'⟩ := comma_separated_loop_conforms outro parse hparse fuel
            state ⟨pos + 1 + j, input⟩ ⟨pos' + 1 + j, input'⟩ ws v p hws hrest2 h
          simp only [] at hp hk hloop'
          refine ⟨1 + j + k, by omega, ?_, ?_⟩
          · simp only [List.length_drop] at hk hj ⊢
            omega
          · rw [hloop']
            congr 2
            omega
    · rw [if_neg hc] at h
      simp at h

/-- Skipping whitespace when the string to parse is whitespace only: the
cursor stops at its end. -/
theorem skip_whitespace_to_the_end (pos : Nat) (input : List Nat)
    (hall : ∀ x ∈ input.drop pos, detail.is_space x = true) :
    detail.skip_whitespace ⟨pos, input⟩ = ⟨pos + (input.drop pos).length, input⟩ := by
  simp only [detail.skip_whitespace, List.takeWhile_eq_self_iff.mpr hall]

/-- The pair parser of `advance_past_object` keeps the contract inside a value
when the decoder of the keys keeps it and the callback keeps it inside a
value. -/
theorem advance_past_pair_conforms (decode_key : decoder κ) (callback : κ → σ → decoder σ)
    (hkey : decoder.conforms decode_key)
    (hcallback : ∀ k s, decoder.conforms_inside (callback k s)) (state : σ) :
    decoder.conforms_inside (detail.advance_past_pair decode_key callback state) := by
  intro context context' ws v p hws hrest h
  obtain ⟨pos, input⟩ := context
  obtain ⟨pos', input'⟩ := context'
  simp only [] at hrest ⊢
  unfold detail.advance_past_pair at h ⊢
  simp only [] at h ⊢
  cases hk : decode_key ⟨pos, input⟩ with
  | none => rw [hk] at h; cases h
  | some d =>
    obtain ⟨r, q⟩ := d
    cases r with
    | error e => rw [hk] at h; simp at h
    | ok key =>
      rw [hk] at h
      simp only [] at h
      obtain ⟨k1, hq, hk1, hk'⟩ := hkey ⟨pos, input⟩ ⟨pos', input'⟩ ws key q hws hrest hk
      simp only [] at hq hk1 hk'
      rw [hk']
      simp only []
      subst hq
      cases hpk : detail.peek (detail.skip_whitespace ⟨pos + k1, input⟩) with
      | error e => rw [hpk] at h; simp at h
      | ok c =>
        rw [hpk] at h
        simp only [] at h
        have hrest1 : input'.drop (pos' + k1) = input.drop (pos + k1) ++ ws :=
          rest_shift pos pos' input input' ws hrest k1 hk1
        have hstop1 : ∃ x ∈ input.drop (pos + k1), detail.is_space x = false := by
          by_contra hno
          have hall1 : ∀ x ∈ input.drop (pos + k1), detail.is_space x = true := by
            intro x hx
            cases hsx : detail.is_space x
            · exact absurd ⟨x, hx, hsx⟩ hno
            · rfl
          have hleft := skip_whitespace_nothing_left (pos + k1) input hall1
          rw [peek_nothing_left _ hleft] at hpk
          cases hpk
        obtain ⟨j, hskip, hskip', hj, c2, tail2, hhead, _⟩ :=
          skip_whitespace_both (pos + k1) (pos' + k1) input input' ws hrest1 hstop1
        rw [rest_shift_length] at hj
        have hrest2 : input'.drop (pos' + k1 + j) = input.drop (pos + k1 + j) ++ ws := by
          have h3 := rest_shift pos pos' input input' ws hrest (k1 + j) (by omega)
          rw [← Nat.add_assoc, ← Nat.add_assoc] at h3
          exact h3
        have hpeek : detail.peek ⟨pos + k1 + j, input⟩ = .ok c2 := peek_of_rest _ _ c2 tail2 hhead
        have hpeek' : detail.peek ⟨pos' + k1 + j, input'⟩ = .ok c2 :=
          peek_of_rest _ _ c2 (tail2 ++ ws) (by rw [hrest2, hhead]; rfl)
        rw [hskip] at hpk h
        rw [hskip', hpeek']
        rw [hpeek] at hpk
        simp only [Except.ok.injEq] at hpk
        subst hpk
        simp only []
        have hlen2 : (input.drop pos).length = k1 + j + (tail2.length + 1) := by
          have hl := congrArg List.length hhead
          simp only [List.length_drop, List.length_cons] at hl
          simp only [List.length_drop] at hj hk1 ⊢
          omega
        by_cases hc : c2 = 58
        · rw [if_pos hc] at h ⊢
          have hrest3 : input'.drop (pos' + k1 + j + 1) = input.drop (pos + k1 + j + 1) ++ ws := by
            have h3 := rest_shift pos pos' input input' ws hrest (k1 + j + 1) (by omega)
            have e1 : pos' + k1 + j + 1 = pos' + (k1 + j + 1) := by omega
            have e2 : pos + k1 + j + 1 = pos + (k1 + j + 1) := by omega
            rw [e1, e2]
            exact h3
          have hlen3 : (input.drop (pos + k1 + j + 1)).length = tail2.length := by
            simp only [List.length_drop] at hlen2 ⊢
            omega
          by_cases hall3 : ∀ x ∈ input.drop (pos + k1 + j + 1), detail.is_space x = true
          · -- nothing but whitespace after the colon: the callback has nothing to parse
            have hend := skip_whitespace_to_the_end (pos + k1 + j + 1) input hall3
            have hleft := skip_whitespace_nothing_left (pos + k1 + j + 1) input hall3
            have hp := conforms_nothing_left (callback key state) (hcallback key state) _ v p
              hleft h
            rw [hend] at hp
            simp only [] at hp
            refine ⟨k1 + j + 1 + tail2.length, by rw [hp, hlen3]; omega, by omega, ?_⟩
            intro hlt
            omega
          · have hstop3 : ∃ x ∈ input.drop (pos + k1 + j + 1), detail.is_space x = false := by
              by_contra hno
              apply hall3
              intro x hx
              cases hsx : detail.is_space x
              · exact absurd ⟨x, hx, hsx⟩ hno
              · rfl
            obtain ⟨j3, hskip3, hskip3', hj3, _⟩ := skip_whitespace_both (pos + k1 + j + 1)
              (pos' + k1 + j + 1) input input' ws hrest3 hstop3
            rw [hlen3] at hj3
            have hrest4 : input'.drop (pos' + k1 + j + 1 + j3) =
                input.drop (pos + k1 + j + 1 + j3) ++ ws := by
              have h3 := rest_shift pos pos' input input' ws hrest (k1 + j + 1 + j3) (by omega)
              have e1 : pos' + k1 + j + 1 + j3 = pos' + (k1 + j + 1 + j3) := by omega
              have e2 : pos + k1 + j + 1 + j3 = pos + (k1 + j + 1 + j3) := by omega
              rw [e1, e2]
              exact h3
            rw [hskip3] at h
            rw [hskip3']
            obtain ⟨k4, hp, hk4, hcb'⟩ := hcallback key state ⟨pos + k1 + j + 1 + j3, input⟩
              ⟨pos' + k1 + j + 1 + j3, input'⟩ ws v p hws hrest4 h
            simp only [] at hp hk4 hcb'
            have hlen4 : (input.drop (pos + k1 + j + 1 + j3)).length = tail2.length - j3 := by
              simp only [List.length_drop] at hlen2 ⊢
              omega
            rw [hlen4] at hk4 hcb'
            refine ⟨k1 + j + 1 + j3 + k4, by omega, by omega, ?_⟩
            intro hlt
            rw [hcb' (by omega)]
            congr 2
            omega
        · rw [if_neg hc] at h
          simp at h

/-- A decoder that passes on another decoder's failure and makes of its value
a value of its own keeps the contract when that decoder does. -/
theorem conforms_map (d : decoder α) (d2 : decoder β) (g : α → β) (hd : decoder.conforms d)
    (hmap : ∀ context, d2 context =
      (d context).map fun r => ⟨r.result.map g, r.position⟩) : decoder.conforms d2 := by
  intro context context' ws v p hws hrest h
  rw [hmap] at h ⊢
  cases hdc : d context with
  | none => rw [hdc] at h; cases h
  | some r =>
    obtain ⟨r, q⟩ := r
    cases r with
    | error e => rw [hdc] at h; simp [Except.map] at h
    | ok value =>
      rw [hdc] at h
      simp only [Option.map_some', Except.map, Option.some.injEq, decoded.mk.injEq,
        Except.ok.injEq] at h
      obtain ⟨k, hq, hk, hd'⟩ := hd context context' ws value q hws hrest hdc
      refine ⟨k, by rw [← h.2]; exact hq, hk, ?_⟩
      rw [hd']
      simp only [Option.map_some', Except.map, h.1]

namespace codec.object

/-- The callback of `object::decode` keeps the contract when the skipper of
unknown values and the decoders of the fields do. -/
theorem decode_key_value_conforms (helpers : decoding_helpers) (o : object T)
    (hskip : decoder.conforms helpers.advance_past_value)
    (hfields : ∀ entry ∈ o._fields, ∀ record, decoder.conforms (entry.2.decode record))
    (name : List Nat) (state : T × List Bool) :
    decoder.conforms (o.decode_key_value helpers name state) := by
  cases hfind : o.find name with
  | none =>
    refine conforms_map helpers.advance_past_value _ (fun _ => state) hskip ?_
    intro context
    simp only [decode_key_value, hfind]
    cases helpers.advance_past_value context with
    | none => rfl
    | some r =>
      obtain ⟨r, q⟩ := r
      cases r <;> rfl
  | some field =>
    have hmem : (name, field) ∈ o._fields := mem_of_lookup_eq_some name field o._fields hfind
    have hf := hfields (name, field) hmem state.1
    simp only [] at hf
    refine conforms_map (field.decode state.1) _
      (fun output => (output, if field.required then state.2.set field.field_id true else state.2))
      hf ?_
    intro context
    simp only [decode_key_value, hfind]
    cases field.decode state.1 context with
    | none => rfl
    | some r =>
      obtain ⟨r, q⟩ := r
      cases r with
      | error e => rfl
      | ok output => cases field.required <;> rfl

/-- The method `object::decode` keeps the contract when the decoder of the
keys, the skipper of unknown values and the decoders of the fields do. -/
theorem decode_conforms (fuel : Nat) (helpers : decoding_helpers) (o : object T)
    (hstring : helpers.string.conforms)
    (hskip : decoder.conforms helpers.advance_past_value)
    (hfields : ∀ entry ∈ o._fields, ∀ record, decoder.conforms (entry.2.decode record)) :
    decoder.conforms (o.decode fuel helpers) := by
  have hloop := advance_past_comma_separated_conforms 123 125
    (detail.advance_past_pair helpers.string.decode (o.decode_key_value helpers))
    (fun s => advance_past_pair_conforms helpers.string.decode (o.decode_key_value helpers)
      hstring (fun k s => conforms_inside_of_conforms _
        (decode_key_value_conforms helpers o hskip hfields k s)) s)
    fuel (o.construct, List.replicate o._fields.length false)
  intro context context' ws v p hws hrest h
  unfold decode at h ⊢
  simp only [] at h ⊢
  cases hobj : detail.advance_past_object fuel context helpers.string.decode
      (o.construct, List.replicate o._fields.length false) (o.decode_key_value helpers) with
  | none => rw [hobj] at h; cases h
  | some r =>
    obtain ⟨r, q⟩ := r
    cases r with
    | error e => rw [hobj] at h; simp at h
    | ok final =>
      obtain ⟨output, encountered⟩ := final
      rw [hobj] at h
      simp only [] at h
      obtain ⟨k, hq, hk, hobj'⟩ := hloop context context' ws (output, encountered) q hws hrest hobj
      simp only [] at hobj'
      have hobj'' : detail.advance_past_object fuel context' helpers.string.decode
          (o.construct, List.replicate o._fields.length false) (o.decode_key_value helpers) =
          some ⟨.ok (output, encountered), context'.position + k⟩ := hobj'
      rw [hobj'']
      simp only []
      cases hfail : (encountered.count true != o._num_required_fields)
      · simp only [detail.fail_if, hfail, Bool.false_eq_true, if_false, Option.some.injEq,
          decoded.mk.injEq, Except.ok.injEq] at h ⊢
        exact ⟨k, by rw [← h.2]; exact hq, hk, h.1, rfl⟩
      · simp [detail.fail_if, hfail] at h

/-- The decoder of a member field keeps the contract when its codec does. -/
theorem member_field_conforms (required : Bool) (field_id : Nat) (c : codec μ)
    (member : member_pointer T μ) (hc : c.conforms) (record : T) :
    decoder.conforms ((member_field required field_id c member).decode record) := by
  refine conforms_map c.decode _ (fun value => member.set record value) hc ?_
  intro context
  simp only [member_field]
  cases c.decode context with
  | none => rfl
  | some r =>
    obtain ⟨r, q⟩ := r
    cases r <;> rfl

/-- The decoder of a field without a member keeps the contract when its codec
does. -/
theorem dummy_field_conforms (required : Bool) (field_id : Nat) (c : codec μ) (hc : c.conforms)
    (record : T) :
    decoder.conforms ((dummy_field required field_id c : object.field T).decode record) := by
  refine conforms_map c.decode _ (fun _ => record) hc ?_
  intro context
  simp only [dummy_field]
  cases c.decode context with
  | none => rfl
  | some r =>
    obtain ⟨r, q⟩ := r
    cases r <;> rfl

end codec.object

/-- The boolean codec succeeds exactly on a literal at the cursor, and moves
the cursor past it. -/
theorem boolean_decode_ok (context : decoding_context) (v : Bool) (p : Nat) :
    codec.boolean.decode context = some ⟨.ok v, p⟩ ↔
      (boolean_text v).isPrefixOf (context.input.drop context.position) = true ∧
        p = context.position + (boolean_text v).length := by
  simp only [codec.boolean, codec.boolean_t.decode, peek_eq_head, detail.advance_past_true,
    detail.advance_past_false, detail.expect_literal]
  cases hrest : context.input.drop context.position with
  | nil => cases v <;> simp [boolean_text]
  | cons c tail =>
    by_cases hf : c = 102
    · subst hf
      cases hpre : List.isPrefixOf [102, 97, 108, 115, 101] (102 :: tail) <;>
        cases v <;> simp [boolean_text, hpre]
      omega
    · by_cases ht : c = 116
      · subst ht
        cases hpre : List.isPrefixOf [116, 114, 117, 101] (116 :: tail) <;>
          cases v <;> simp [boolean_text, hpre]
        omega
      · cases v <;> simp [boolean_text, hf, ht, List.isPrefixOf]
        · intro h
          exact absurd h.symm hf
        · intro h
          exact absurd h.symm ht

/-- The boolean codec keeps the contract of codec_interface.hpp. -/
theorem boolean_conforms : codec.boolean.conforms := by
  intro context context' ws v p hws hrest hdec
  obtain ⟨hpre, hp⟩ := (boolean_decode_ok context v p).mp hdec
  rw [ List.isPrefixOf_iff_prefix] at hpre
  refine ⟨(boolean_text v).length, hp, hpre.length_le, ?_⟩
  rw [boolean_decode_ok]
  refine ⟨?_, rfl⟩
  rw [hrest, List.isPrefixOf_iff_prefix]
  exact hpre.trans ( List.prefix_append _ _)

/-- The stand-in for the codec `string()` keeps the contract. -/
theorem plain_string_conforms : plain_string.conforms := by
  intro context context' ws v p hws hrest h
  simp only [plain_string] at h ⊢
  cases hr : context.input.drop context.position with
  | nil => rw [hr] at h; simp at h
  | cons c rest =>
    rw [hr] at h hrest
    rw [hrest]
    by_cases hc : c = 34
    · subst hc
      simp only [List.cons_append] at h ⊢
      cases hd : rest.drop (rest.takeWhile plain_byte).length with
      | nil => rw [hd] at h; simp at h
      | cons d tail =>
        rw [hd] at h
        by_cases hq : d = 34
        · subst hq
          simp only [Option.some.injEq, decoded.mk.injEq, Except.ok.injEq] at h
          have hstop : ∃ x ∈ rest, plain_byte x = false := by
            refine ⟨34, ?_, by decide⟩
            have hm : (34 : Nat) ∈ rest.drop (rest.takeWhile plain_byte).length := by
              rw [hd]
              exact List.mem_cons_self _ _
            exact List.mem_of_mem_drop hm
          have htake := takeWhile_append_of_stop plain_byte rest ws hstop
          have hle : (rest.takeWhile plain_byte).length ≤ rest.length :=
            (List.takeWhile_sublist _).length_le
          have hlen := congrArg List.length hd
          simp only [List.length_drop, List.length_cons] at hlen
          refine ⟨(rest.takeWhile plain_byte).length + 2, h.2.symm, ?_, ?_⟩
          · simp only [List.length_cons]
            omega
          · rw [htake, List.drop_append_of_le_length hle, hd]
            simp only [List.cons_append, h.1]
        · simp [hq] at h
    · simp [hc] at h

/-- The array codec keeps the contract when its inner codec does. -/
theorem array_conforms (fuel : Nat) (c : codec α) (hc : c.conforms) :
    (codec.array fuel c).conforms := by
  have hparse : ∀ output : List α,
      decoder.conforms_inside (codec.array_t.push_back_decoded c output) := by
    intro output
    apply conforms_inside_of_conforms
    refine conforms_map c.decode _ (fun element => output ++ [element]) hc ?_
    intro context
    simp only [codec.array_t.push_back_decoded]
    cases c.decode context with
    | none => rfl
    | some r =>
      obtain ⟨r, q⟩ := r
      cases r <;> rfl
  exact advance_past_comma_separated_conforms 91 93 (codec.array_t.push_back_decoded c)
    hparse fuel []

/-- The object codec keeps the contract when the codec of the keys, the
skipper of unknown values and the decoders of its fields do. -/
theorem object_conforms (fuel : Nat) (helpers : decoding_helpers) (o : codec.object T)
    (hstring : helpers.string.conforms)
    (hskip : decoder.conforms helpers.advance_past_value)
    (hfields : ∀ entry ∈ o._fields, ∀ record, decoder.conforms (entry.2.decode record)) :
    (o.to_codec fuel helpers).conforms :=
  codec.object.decode_conforms fuel helpers o hstring hskip hfields

/-- C26 as stated, refuted: the raw codec decodes `1` to the reference to one
byte at offset 0 of that buffer, and it decodes the same text behind a space,
or before one, to another value: a reference into the longer buffer, at
offset 1 behind the space. The raw codec does not keep the contract of
codec_interface.hpp: its value tells where the text lies. -/
theorem decode_whitespace_raw :
    decode codec.raw [49] = some (.ok ⟨[49], 0, 1⟩) ∧
    decode codec.raw ([32] ++ [49] ++ []) = some (.ok ⟨[32, 49], 1, 1⟩) ∧
    decode codec.raw ([32] ++ [49] ++ []) ≠ some (.ok ⟨[49], 0, 1⟩) ∧
    decode codec.raw ([] ++ [49] ++ [32]) = some (.ok ⟨[49, 32], 0, 1⟩) ∧
    decode codec.raw ([] ++ [49] ++ [32]) ≠ some (.ok ⟨[49], 0, 1⟩) ∧
    try_decode ⟨[], 0, 0⟩ codec.raw ([32] ++ [49] ++ []) ≠ some (true, ⟨[49], 0, 1⟩) ∧
    ¬ codec.raw.conforms := by
  have hlead : decode codec.raw ([32] ++ [49] ++ []) = some (.ok ⟨[32, 49], 1, 1⟩) := rfl
  have htrail : decode codec.raw ([] ++ [49] ++ [32]) = some (.ok ⟨[49, 32], 0, 1⟩) := rfl
  refine ⟨rfl, hlead, ?_, htrail, ?_, ?_, ?_⟩
  · rw [hlead]
    simp
  · rw [htrail]
    simp
  · simp only [try_decode, hlead]
    simp
  · intro h
    obtain ⟨k, _, _, hdec⟩ := h ⟨0, [49]⟩ ⟨0, [49, 32]⟩ [32] ⟨[49], 0, 1⟩ 1 (by decide) rfl rfl
    have h2 : codec.raw.decode ⟨0, [49, 32]⟩ = some ⟨.ok ⟨[49, 32], 0, 1⟩, 1⟩ := rfl
    rw [h2] at hdec
    simp at hdec

/-! ## The contract of codecs: skipping a value -/

theorem is_space_cases (c : Nat) (h : detail.is_space c = true) :
    c = 32 ∨ c = 9 ∨ c = 10 ∨ c = 13 := by
  simp only [detail.is_space, Bool.or_eq_true, beq_iff_eq] at h
  omega

theorem is_digit_of_space (c : Nat) (h : detail.is_space c = true) :
    detail.is_digit c = false := by
  rcases is_space_cases c h with rfl | rfl | rfl | rfl <;> decide

/-- Whitespace after a run of digits does not lengthen the run. -/
theorem takeWhile_digits_append (l ws : List Nat) (hws : ∀ b ∈ ws, detail.is_space b = true) :
    (l ++ ws).takeWhile detail.is_digit = l.takeWhile detail.is_digit := by
  induction l with
  | nil =>
    cases ws with
    | nil => rfl
    | cons b rest =>
      simp [List.takeWhile_cons, is_digit_of_space b (hws b (List.mem_cons_self _ _))]
  | cons c rest ih =>
    cases hc : detail.is_digit c <;> simp [List.takeWhile_cons, hc, ih]

theorem takeWhile_length_le (p : Nat → Bool) (l : List Nat) :
    (l.takeWhile p).length ≤ l.length :=
  (List.takeWhile_sublist _).length_le

theorem scan_integer_append (l ws : List Nat) (hws : ∀ b ∈ ws, detail.is_space b = true)
    (n : Nat) (h : detail.scan_integer l = some n) :
    n ≤ l.length ∧ detail.scan_integer (l ++ ws) = some n := by
  cases l with
  | nil => simp [detail.scan_integer] at h
  | cons d rest =>
    simp only [detail.scan_integer, List.cons_append] at h ⊢
    by_cases h0 : d = 48
    · simp only [h0, if_true, Option.some.injEq] at h ⊢
      subst h
      simp
    · simp only [h0, if_false] at h ⊢
      cases hd : detail.is_digit d
      · simp [hd] at h
      · simp only [hd, if_true, Option.some.injEq] at h ⊢
        rw [takeWhile_digits_append rest ws hws]
        have hle := takeWhile_length_le detail.is_digit rest
        simp only [List.length_cons]
        omega

theorem scan_fraction_append (l ws : List Nat) (hws : ∀ b ∈ ws, detail.is_space b = true)
    (n : Nat) (h : detail.scan_fraction l = some n) :
    n ≤ l.length ∧ detail.scan_fraction (l ++ ws) = some n := by
  cases l with
  | nil =>
    simp only [detail.scan_fraction, Option.some.injEq] at h
    subst h
    refine ⟨Nat.le_refl _, ?_⟩
    cases ws with
    | nil => rfl
    | cons b rest =>
      have hb := is_space_cases b (hws b (List.mem_cons_self _ _))
      have hne : b ≠ 46 := by omega
      simp [detail.scan_fraction, hne]
  | cons c rest =>
    simp only [detail.scan_fraction, List.cons_append] at h ⊢
    by_cases hc : c = 46
    · simp only [hc, if_true] at h ⊢
      rw [takeWhile_digits_append rest ws hws]
      by_cases hz : (rest.takeWhile detail.is_digit).length = 0
      · simp [hz] at h
      · simp only [hz, if_false, Option.some.injEq] at h ⊢
        have hle := takeWhile_length_le detail.is_digit rest
        simp only [List.length_cons]
        omega
    · simp only [hc, if_false, Option.some.injEq] at h ⊢
      subst h
      simp

theorem scan_exponent_append (l ws : List Nat) (hws : ∀ b ∈ ws, detail.is_space b = true)
    (n : Nat) (h : detail.scan_exponent l = some n) :
    n ≤ l.length ∧ detail.scan_exponent (l ++ ws) = some n := by
  cases l with
  | nil =>
    simp only [detail.scan_exponent, Option.some.injEq] at h
    subst h
    refine ⟨Nat.le_refl _, ?_⟩
    cases ws with
    | nil => rfl
    | cons b rest =>
      have hb := is_space_cases b (hws b (List.mem_cons_self _ _))
      have hne : ¬ (b = 101 ∨ b = 69) := by omega
      simp [detail.scan_exponent, hne]
  | cons c rest =>
    simp only [detail.scan_exponent, List.cons_append] at h ⊢
    by_cases hc : c = 101 ∨ c = 69
    · simp only [hc, if_true] at h ⊢
      cases rest with
      | nil =>
        simp at h
      | cons s rest2 =>
        simp only [List.cons_append] at h ⊢
        by_cases hs : s = 43 ∨ s = 45
        · simp only [hs, if_true, List.drop_succ_cons, List.drop_zero] at h ⊢
          rw [takeWhile_digits_append rest2 ws hws]
          by_cases hz : (rest2.takeWhile detail.is_digit).length = 0
          · simp [hz] at h
          · simp only [hz, if_false, Option.some.injEq] at h ⊢
            have hle := takeWhile_length_le detail.is_digit rest2
            simp only [List.length_cons]
            omega
        · simp only [hs, if_false, List.drop_zero] at h ⊢
          have happ : s :: (rest2 ++ ws) = (s :: rest2) ++ ws := rfl
          rw [happ, takeWhile_digits_append (s :: rest2) ws hws]
          by_cases hz : ((s :: rest2).takeWhile detail.is_digit).length = 0
          · simp [hz] at h
          · simp only [hz, if_false, Option.some.injEq] at h ⊢
            have hle := takeWhile_length_le detail.is_digit (s :: rest2)
            simp only [List.length_cons] at hle ⊢
            omega
    · simp only [hc, if_false, Option.some.injEq] at h ⊢
      subst h
      simp

theorem scan_number_append (l ws : List Nat) (hws : ∀ b ∈ ws, detail.is_space b = true)
    (n : Nat) (h : detail.scan_number l = some n) :
    n ≤ l.length ∧ detail.scan_number (l ++ ws) = some n := by
  cases l with
  | nil => simp [detail.scan_number, detail.scan_integer] at h
  | cons c rest =>
    unfold detail.scan_number at h ⊢
    simp only [List.cons_append] at h ⊢
    generalize hminus : (if c = 45 then 1 else 0) = minus at h ⊢
    have hm : minus ≤ (c :: rest).length := by
      simp only [List.length_cons]
      split at hminus <;> omega
    cases hi : detail.scan_integer ((c :: rest).drop minus) with
    | none => rw [hi] at h; simp at h
    | some integer =>
      rw [hi] at h
      simp only [] at h
      obtain ⟨hile, hi'⟩ := scan_integer_append _ ws hws integer hi
      have hd1 : (c :: (rest ++ ws)).drop minus = (c :: rest).drop minus ++ ws := by
        have happ : c :: (rest ++ ws) = (c :: rest) ++ ws := rfl
        rw [happ, List.drop_append_of_le_length hm]
      rw [hd1, hi']
      simp only []
      simp only [List.length_drop] at hile
      cases hf : detail.scan_fraction ((c :: rest).drop (minus + integer)) with
      | none => rw [hf] at h; simp at h
      | some fraction =>
        rw [hf] at h
        simp only [] at h
        obtain ⟨hfle, hf'⟩ := scan_fraction_append _ ws hws fraction hf
        have hd2 : (c :: (rest ++ ws)).drop (minus + integer) =
            (c :: rest).drop (minus + integer) ++ ws := by
          have happ : c :: (rest ++ ws) = (c :: rest) ++ ws := rfl
          rw [happ, List.drop_append_of_le_length (by omega)]
        rw [hd2, hf']
        simp only []
        simp only [List.length_drop] at hfle
        cases he : detail.scan_exponent ((c :: rest).drop (minus + integer + fraction)) with
        | none => rw [he] at h; simp at h
        | some exponent =>
          rw [he] at h
          simp only [Option.some.injEq] at h
          obtain ⟨hele, he'⟩ := scan_exponent_append _ ws hws exponent he
          have hd3 : (c :: (rest ++ ws)).drop (minus + integer + fraction) =
              (c :: rest).drop (minus + integer + fraction) ++ ws := by
            have happ : c :: (rest ++ ws) = (c :: rest) ++ ws := rfl
            rw [happ, List.drop_append_of_le_length (by omega)]
          rw [hd3, he']
          simp only [List.length_drop] at hele
          exact ⟨by omega, by simp only [h]⟩

/-- The structural scan ends within the bytes it is given, and bytes after
them do not change where. -/
theorem structural_scan_append (rest post : List Nat) :
    ∀ (state : detail.scan_state) (position p : Nat),
      detail.structural_scan state rest position = ⟨.ok (), p⟩ →
      ∃ k, p = position + k ∧ k ≤ rest.length ∧
        ∀ position', detail.structural_scan state (rest ++ post) position' =
          ⟨.ok (), position' + k⟩ := by
  induction rest with
  | nil =>
    intro state position p h
    simp [detail.structural_scan] at h
  | cons c tail ih =>
    intro state position p h
    cases hstep : detail.scan_step state c with
    | next state' =>
      rw [detail.structural_scan_next state state' c tail position hstep] at h
      obtain ⟨k, hp, hk, hnext⟩ := ih state' (position + 1) p h
      refine ⟨k + 1, by omega, by simp only [List.length_cons]; omega, ?_⟩
      intro position'
      rw [List.cons_append, detail.structural_scan_next state state' c _ position' hstep, hnext]
      congr 1
      omega
    | done =>
      rw [detail.structural_scan_done state c tail position hstep] at h
      simp only [decoded.mk.injEq, true_and] at h
      refine ⟨1, h.symm, by simp, fun position' => ?_⟩
      rw [List.cons_append, detail.structural_scan_done state c _ position' hstep]
    | fail message =>
      simp only [detail.structural_scan, hstep] at h
      simp at h

theorem expect_literal_append (context context' : decoding_context) (text ws : List Nat)
    (hrest : context'.input.drop context'.position = context.input.drop context.position ++ ws)
    (p : Nat) (h : detail.expect_literal context text = ⟨.ok (), p⟩) :
    ∃ k, p = context.position + k ∧ k ≤ (context.input.drop context.position).length ∧
      detail.expect_literal context' text = ⟨.ok (), context'.position + k⟩ := by
  unfold detail.expect_literal at h ⊢
  by_cases hpre : text.isPrefixOf (context.input.drop context.position) = true
  · rw [if_pos hpre] at h
    simp only [decoded.mk.injEq, true_and] at h
    have hpre2 := hpre
    rw [ List.isPrefixOf_iff_prefix] at hpre2
    have hpre' : text.isPrefixOf (context'.input.drop context'.position) = true := by
      rw [hrest, List.isPrefixOf_iff_prefix]
      exact hpre2.trans ( List.prefix_append _ _)
    rw [if_pos hpre']
    exact ⟨text.length, h.symm, hpre2.length_le, rfl⟩
  · rw [if_neg hpre] at h
    simp at h

/-- The modelled `advance_past_value` keeps the contract. -/
theorem advance_past_value_conforms :
    decoder.conforms (fun context => some (detail.advance_past_value context)) := by
  intro context context' ws v p hws hrest h
  simp only [Option.some.injEq] at h ⊢
  obtain ⟨pos, input⟩ := context
  obtain ⟨pos', input'⟩ := context'
  simp only [] at hrest ⊢
  unfold detail.advance_past_value at h ⊢
  cases hpk : detail.peek ⟨pos, input⟩ with
  | error e => rw [hpk] at h; simp at h
  | ok c =>
    rw [hpk] at h
    simp only [] at h
    obtain ⟨tail, htail⟩ := rest_of_peek pos input c hpk
    have hpk' : detail.peek ⟨pos', input'⟩ = .ok c :=
      peek_of_rest pos' input' c (tail ++ ws) (by rw [hrest, htail]; rfl)
    rw [hpk']
    simp only []
    cases v
    by_cases h1 : c = 91 ∨ c = 123 ∨ c = 34
    · rw [if_pos h1] at h ⊢
      obtain ⟨k, hp, hk, hscan⟩ := structural_scan_append _ ws _ pos p h
      exact ⟨k, hp, hk, by rw [hrest]; exact hscan pos'⟩
    · rw [if_neg h1] at h ⊢
      by_cases h2 : c = 116
      · rw [if_pos h2] at h ⊢
        exact expect_literal_append ⟨pos, input⟩ ⟨pos', input'⟩ _ ws hrest p h
      · rw [if_neg h2] at h ⊢
        by_cases h3 : c = 102
        · rw [if_pos h3] at h ⊢
          exact expect_literal_append ⟨pos, input⟩ ⟨pos', input'⟩ _ ws hrest p h
        · rw [if_neg h3] at h ⊢
          by_cases h4 : c = 110
          · rw [if_pos h4] at h ⊢
            exact expect_literal_append ⟨pos, input⟩ ⟨pos', input'⟩ _ ws hrest p h
          · rw [if_neg h4] at h ⊢
            unfold detail.advance_past_number at h ⊢
            simp only [] at h ⊢
            cases hn : detail.scan_number (input.drop pos) with
            | none => rw [hn] at h; simp at h
            | some size =>
              rw [hn] at h
              simp only [decoded.mk.injEq, true_and] at h
              obtain ⟨hle, hn'⟩ := scan_number_append _ ws hws size hn
              rw [hrest, hn']
              exact ⟨size, h.symm, hle, rfl⟩

/-- The default codec of `custom_obj` in the tests keeps the contract. -/
theorem default_custom_codec_conforms (fuel : Nat) : (default_custom_codec fuel).conforms := by
  apply object_conforms fuel _ (custom_codec_named [120]) plain_string_conforms
    advance_past_value_conforms
  intro entry hentry record
  have h : entry = ([120],
      codec.object.member_field true 0 plain_string custom_obj.val_pointer) := by
    simpa [custom_codec_named, codec.object.required, codec.object.add_field,
      codec.object.save_field, codec.object.find] using hentry
  subst h
  exact codec.object.member_field_conforms true 0 plain_string custom_obj.val_pointer
    plain_string_conforms record

/-- C26, amended: for every codec that keeps the contract of `decode` in
codec_interface.hpp (the parse depends on the string from the cursor on and on
nothing else, it leaves the cursor within that string, and whitespace after
the string is not an error), every text on which `decode` succeeds with a
value and all strings of whitespace bytes before and after it, `decode` of
the longer text succeeds with the same value, and `try_decode` returns true
with it. The boolean codec keeps the contract, and so do the array codec and
the object codec when their parts do, and the skipping of unknown values; the
raw codec does not. -/
theorem decode_whitespace (c : codec α) (t w1 w2 : List Nat) (v object : α)
    (hc : c.conforms)
    (hw1 : ∀ b ∈ w1, detail.is_space b = true) (hw2 : ∀ b ∈ w2, detail.is_space b = true)
    (ht : decode c t = some (.ok v)) :
    decode c (w1 ++ t ++ w2) = some (.ok v) ∧
    try_decode object c (w1 ++ t ++ w2) = some (true, v) ∧
    codec.boolean.conforms ∧
    (∀ (β : Type) (fuel : Nat) (inner : codec β), inner.conforms →
      (codec.array fuel inner).conforms) ∧
    (∀ (T : Type) (fuel : Nat) (helpers : decoding_helpers) (o : codec.object T),
      helpers.string.conforms → decoder.conforms helpers.advance_past_value →
      (∀ entry ∈ o._fields, ∀ record, decoder.conforms (entry.2.decode record)) →
      (o.to_codec fuel helpers).conforms) ∧
    (∀ (T μ : Type) (required : Bool) (field_id : Nat) (inner : codec μ)
        (member : codec.member_pointer T μ) (record : T), inner.conforms →
      decoder.conforms ((codec.object.member_field required field_id inner member).decode
        record) ∧
      decoder.conforms ((codec.object.dummy_field required field_id inner :
        codec.object.field T).decode record)) ∧
    decoder.conforms (fun context => some (detail.advance_past_value context)) ∧
    ¬ codec.raw.conforms := by
  have hmain : decode c (w1 ++ t ++ w2) = some (.ok v) := by
    obtain ⟨p, hp, hend⟩ := (decode_eq_ok c t v).mp ht
    obtain ⟨lead, body, hsplit, hlead, hbody⟩ := leading_whitespace t
    rw [decode_eq_ok]
    rcases hbody with hnil | ⟨b, tail, hcons, hb⟩
    · -- the text is whitespace only
      have htl : t = lead := by rw [hsplit, hnil, List.append_nil]
      have hall : ∀ x ∈ w1 ++ t ++ w2, detail.is_space x = true := by
        intro x hx
        rcases List.mem_append.mp hx with h1 | h2
        · rcases List.mem_append.mp h1 with h3 | h4
          · exact hw1 x h3
          · rw [htl] at h4
            exact hlead x h4
        · exact hw2 x h2
      have hskip : detail.skip_whitespace (decoding_context.init t) = ⟨t.length, t⟩ := by
        have h := skip_whitespace_all [] t (by rw [htl]; exact hlead)
        simpa [decoding_context.init] using h
      have hskip' : detail.skip_whitespace (decoding_context.init (w1 ++ t ++ w2)) =
          ⟨(w1 ++ t ++ w2).length, w1 ++ t ++ w2⟩ := by
        have h := skip_whitespace_all [] (w1 ++ t ++ w2) hall
        simpa [decoding_context.init] using h
      rw [hskip] at hp
      obtain ⟨k, hk, hbound, hdec⟩ := hc ⟨t.length, t⟩
        ⟨(w1 ++ t ++ w2).length, w1 ++ t ++ w2⟩ [] v p (by simp) (by simp) hp
      simp only [List.drop_length, List.length_nil, Nat.le_zero_eq] at hbound
      rw [hbound, Nat.add_zero] at hdec
      refine ⟨_, by rw [hskip']; exact hdec, ?_⟩
      simp [detail.skip_whitespace]
    · -- the value starts at the byte `b`
      have hskip : detail.skip_whitespace (decoding_context.init t) = ⟨lead.length, t⟩ := by
        have h := skip_whitespace_run [] lead b tail hlead hb
        rw [hsplit, hcons]
        simpa [decoding_context.init] using h
      have hinput : w1 ++ t ++ w2 = [] ++ ((w1 ++ lead) ++ b :: (tail ++ w2)) := by
        rw [hsplit, hcons]
        simp
      have hskip' : detail.skip_whitespace (decoding_context.init (w1 ++ t ++ w2)) =
          ⟨(w1 ++ lead).length, w1 ++ t ++ w2⟩ := by
        have h := skip_whitespace_run [] (w1 ++ lead) b (tail ++ w2)
          (fun x hx => by
            rcases List.mem_append.mp hx with h1 | h2
            · exact hw1 x h1
            · exact hlead x h2) hb
        rw [hinput]
        simpa [decoding_context.init] using h
      rw [hskip] at hp
      obtain ⟨k, hk, _, hdec⟩ := hc ⟨lead.length, t⟩ ⟨(w1 ++ lead).length, w1 ++ t ++ w2⟩ w2 v p
        hw2
        (by
          simp only []
          rw [hsplit, hcons]
          simp only [List.append_assoc]
          rw [List.drop_left, ← List.append_assoc w1 lead, List.drop_left])
        hp
      refine ⟨_, by rw [hskip']; exact hdec, ?_⟩
      have h := skip_whitespace_trailing w1 t w2 p hw2 hend
      simp only [] at hk
      have hpos : (w1 ++ lead).length + k = w1.length + p := by
        rw [List.length_append, hk]
        omega
      rw [hpos]
      exact h
  refine ⟨hmain, ?_, boolean_conforms, fun β fuel inner => array_conforms fuel inner,
    fun T fuel helpers o => object_conforms fuel helpers o, ?_, advance_past_value_conforms, ?_⟩
  · simp only [try_decode, hmain]
  · intro T μ required field_id inner member record hinner
    exact ⟨codec.object.member_field_conforms required field_id inner member hinner record,
      codec.object.dummy_field_conforms required field_id inner hinner record⟩
  · intro h
    obtain ⟨k, _, _, hdec⟩ := h ⟨0, [49]⟩ ⟨0, [49, 32]⟩ [32] ⟨[49], 0, 1⟩ 1 (by decide) rfl rfl
    have h2 : codec.raw.decode ⟨0, [49, 32]⟩ = some ⟨.ok ⟨[49, 32], 0, 1⟩, 1⟩ := rfl
    rw [h2] at hdec
    simp at hdec

theorem decode_whitespace_witness :
    (default_custom_codec 2).conforms ∧
    decode (default_custom_codec 2) [123, 34, 120, 34, 58, 34, 104, 34, 125] =
      some (.ok { val := [104] }) ∧
    decode (default_custom_codec 2) ([] ++ [123, 34, 120, 34, 58, 34, 104, 34, 125] ++ [32, 32]) =
      some (.ok { val := [104] }) ∧
    decode (default_custom_codec 2) ([32, 32] ++ [123, 34, 120, 34, 58, 34, 104, 34, 125] ++ []) =
      some (.ok { val := [104] }) ∧
    try_decode { val := [] } (default_custom_codec 2)
        ([] ++ [123, 34, 120, 34, 58, 34, 104, 34, 125] ++ [32, 32]) =
      some (true, { val := [104] }) ∧
    try_decode { val := [] } (default_custom_codec 2)
        ([32, 32] ++ [123, 34, 120, 34, 58, 34, 104, 34, 125] ++ []) =
      some (true, { val := [104] }) ∧
    decode (codec.array 2 codec.boolean)
        ([32, 9] ++ [91, 116, 114, 117, 101, 44, 32, 102, 97, 108, 115, 101, 93] ++ [10, 13]) =
      some (.ok [true, false]) :=
  ⟨default_custom_codec_conforms 2, rfl,
    (decode_whitespace (default_custom_codec 2) [123, 34, 120, 34, 58, 34, 104, 34, 125] []
      [32, 32] { val := [104] } { val := [] } (default_custom_codec_conforms 2) (by decide)
      (by decide) rfl).1,
    (decode_whitespace (default_custom_codec 2) [123, 34, 120, 34, 58, 34, 104, 34, 125]
      [32, 32] [] { val := [104] } { val := [] } (default_custom_codec_conforms 2) (by decide)
      (by decide) rfl).1,
    (decode_whitespace (default_custom_codec 2) [123, 34, 120, 34, 58, 34, 104, 34, 125] []
      [32, 32] { val := [104] } { val := [] } (default_custom_codec_conforms 2) (by decide)
      (by decide) rfl).2.1,
    (decode_whitespace (default_custom_codec 2) [123, 34, 120, 34, 58, 34, 104, 34, 125]
      [32, 32] [] { val := [104] } { val := [] } (default_custom_codec_conforms 2) (by decide)
      (by decide) rfl).2.1,
    (decode_whitespace (codec.array 2 codec.boolean)
      [91, 116, 114, 117, 101, 44, 32, 102, 97, 108, 115, 101, 93] [32, 9] [10, 13]
      [true, false] [] (array_conforms 2 codec.boolean boolean_conforms) (by decide) (by decide)
      rfl).1⟩

end spotify.json
